import Mathlib

/-!
# unik kernel: physical frame allocator, virtual range map and demand paging

A shallow embedding of `kernel/memory_amd64.go`.

* Machine words (`uint64`, `uintptr`, `physicalAddress`, `virtualAddress`,
  `pageFlags`, `pageTableEntry`) are natural numbers; arithmetic that can wrap
  is reduced modulo `2 ^ 64` explicitly.
* Go slices are lists; an index that is out of range makes the Go runtime
  panic, which is the `fatal` outcome here, the same as a call of `fatal`.
* A function that returns a Go `error` has the outcome `err`.
-/

namespace Unik

/-! ## Outcomes -/

/-- Outcome of a kernel routine: a normal return, a returned `error`, or a
call of `fatal` / a runtime panic (the routine does not return). -/
inductive Result (α : Type) where
  | ok (v : α)
  | err
  | fatal
  deriving Repr, DecidableEq

/-! ## Constants (memory_amd64.go, lines 15-24 and 120-129) -/

def pageSize : Nat := 1 <<< 12
def pageSize2MB : Nat := 1 <<< 21
def pageSize1GB : Nat := 1 <<< 30
def pageSizeRoot : Nat := 1 <<< 39
def pageTableSize : Nat := 512

/-- Modulus of 64-bit unsigned arithmetic. -/
def wordMod : Nat := 2 ^ 64

/-- The maximum physical address addressable by the processor. -/
def MAXPHYADDR : Nat := 1 <<< 52

def pageFlagPresent : Nat := 1 <<< 0
def pageFlagWritable : Nat := 1 <<< 1
def pageFlagNX : Nat := 1 <<< 63
def pageFlagUserAccess : Nat := 1 <<< 2
def pageFlagNoCache : Nat := 1 <<< 4
def allPageFlags : Nat :=
  pageFlagPresent ||| pageFlagWritable ||| pageFlagNX ||| pageFlagUserAccess ||| pageFlagNoCache
def pageSizeFlag : Nat := 1 <<< 7

/-! ## 64-bit word operations -/

/-- Go `^x` on `uint64`. -/
def not64 (x : Nat) : Nat := x ^^^ (wordMod - 1)

/-- Go `x &^ y` on `uint64`. -/
def andNot64 (x y : Nat) : Nat := x &&& not64 y

/-- Go `x << s` on `uint64`: bits shifted past bit 63 are lost, so a shift by
64 or more gives 0. -/
def shl64 (x s : Nat) : Nat := (x <<< s) % wordMod

/-- Go `x - y` on `uint64`, wrapping. -/
def sub64 (x y : Nat) : Nat := (x + wordMod - y % wordMod) % wordMod

/-- Go `x + y` on `uint64`, wrapping. -/
def add64 (x y : Nat) : Nat := (x + y) % wordMod

/-- Number of zero bits of `w` above the highest set bit among bits
`n-1 .. 0`, scanning from bit `n-1` down; `n` when none of them is set. -/
def leadingZerosBelow : Nat → Nat → Nat
  | 0, _ => 0
  | n + 1, w => if w.testBit n then 0 else leadingZerosBelow n w + 1

/-- Go `bits.LeadingZeros64`: the number of leading zero bits of a `uint64`,
64 for 0. -/
def leadingZeros64 (w : Nat) : Nat := leadingZerosBelow 64 w

/-! ## Physical frame allocator (memory_amd64.go, lines 83-92, 502-593) -/

/-- Allocator state `memory`: `bits` has one bit per physical page, most
significant bit of each word first; 1 means free. `word` is a Go `int` that
only ever holds an index into `bits`. -/
structure memory where
  start : Nat
  word : Nat
  bits : List Nat
  deriving Repr, DecidableEq

/-- The 64-bit words of the bitmap are `uint64` values. -/
def memory.wf (m : memory) : Prop := ∀ w ∈ m.bits, w < wordMod

/-- Bit `i` of the bitmap, counted from the most significant bit of word 0:
the bit that `mark` tests for page index `i`. Out of range bits read false. -/
def memory.bit (m : memory) (i : Nat) : Bool :=
  (m.bits.getD (i / 64) 0).testBit (63 - i % 64)

/-- Body of `setFree` after the three guards: `start` and `end` are already
relative to `m.start`. -/
def setFreeWords (bits : List Nat) (free : Bool) (startBit endBit : Nat) :
    Result (List Nat) :=
  let startWord := startBit / 64
  let endWord := endBit / 64
  let startPattern0 := sub64 (shl64 1 (64 - startBit % 64)) 1
  let endPattern0 := not64 (sub64 (shl64 1 (64 - endBit % 64)) 1)
  let startPattern := if startWord = endWord then startPattern0 &&& endPattern0 else startPattern0
  let endPattern := if startWord = endWord then startPattern else endPattern0
  -- m.bits[startWord] op= startPattern
  match bits[startWord]? with
  | none => Result.fatal
  | some w1 =>
    let bits1 := bits.set startWord (if free then w1 ||| startPattern else andNot64 w1 startPattern)
    -- m.bits[endWord] op= endPattern
    match bits1[endWord]? with
    | none => Result.fatal
    | some w2 =>
      let bits2 := bits1.set endWord (if free then w2 ||| endPattern else andNot64 w2 endPattern)
      let pattern := if free then not64 0 else 0
      -- for i := startWord + 1; i < endWord; i++ { m.bits[i] = pattern }
      Result.ok ((List.range (endWord - (startWord + 1))).foldl
        (fun bs k => bs.set (startWord + 1 + k) pattern) bits2)

/-- Method `memory.setFree`. -/
def memory.setFree (m : memory) (free : Bool) (start «end» : Nat) : Result memory :=
  if andNot64 start (pageSize - 1) ≠ start ∨ andNot64 «end» (pageSize - 1) ≠ «end» then
    Result.fatal
  else if start > «end» then Result.fatal
  else if start < m.start then Result.fatal
  else
    let start := start - m.start
    let «end» := «end» - m.start
    let startBit := start / pageSize
    let endBit := «end» / pageSize
    match setFreeWords m.bits free startBit endBit with
    | Result.ok bs => Result.ok { m with bits := bs }
    | Result.err => Result.err
    | Result.fatal => Result.fatal

/-- Method `memory.mark`: `none` is the index-out-of-range panic. -/
def memory.mark (m : memory) (pageIdx : Nat) : Option (memory × Bool) :=
  let wordIdx := pageIdx / 64
  let bit := pageIdx % 64
  let mask := 1 <<< (64 - bit - 1)
  match m.bits[wordIdx]? with
  | none => none
  | some word =>
    if word &&& mask = 0 then some (m, false)
    else some ({ m with bits := m.bits.set wordIdx (andNot64 word mask) }, true)

/-- The scan loop of `nextFreePage`: `n` iterations remain, `i` is the loop
variable. The index `(i + m.word) % len(m.bits)` is always in range. -/
def nextFreePageLoop (m : memory) : Nat → Nat → Option (memory × Nat)
  | 0, _ => none
  | n + 1, i =>
    let idx := (i + m.word) % m.bits.length
    let w := m.bits.getD idx 0
    let b := leadingZeros64 w
    if b = 64 then nextFreePageLoop m n (i + 1)
    else some ({ m with word := idx }, idx * 64 + b)

/-- Method `memory.nextFreePage`: `none` is the result `(0, false)`. -/
def memory.nextFreePage (m : memory) : Option (memory × Nat) :=
  nextFreePageLoop m m.bits.length 0

/-- The marking loop of `alloc`. The first argument bounds the number of
iterations; `alloc` passes a bound the loop cannot exceed. The result is the
final state, page index and size, or `none` for the out-of-range panic of
`mark`. -/
def allocLoop : Nat → memory → Nat → Nat → Int → Option (memory × Nat × Nat)
  | 0, m, pageIdx, size, _ => some (m, pageIdx, size)
  | fuel + 1, m, pageIdx, size, maxSize =>
    if maxSize > 0 then
      match m.mark pageIdx with
      | none => none
      | some (m1, false) => some (m1, pageIdx, size)
      | some (m1, true) => allocLoop fuel m1 (pageIdx + 1) (size + pageSize) (maxSize - pageSize)
    else some (m, pageIdx, size)

/-- Method `memory.alloc`, as far as the allocator state goes: the returned
address and size and the new state. The zero fill of the returned memory
touches RAM, not the allocator, and is modelled where RAM is (`allocZeroed`). -/
def memory.alloc (m : memory) (maxSize : Int) : Result (Nat × Nat × memory) :=
  match m.nextFreePage with
  | none => Result.err
  | some (m1, pageIdx) =>
    let addr := (pageIdx * pageSize) % wordMod
    match allocLoop (maxSize.toNat / pageSize + 1) m1 pageIdx 0 maxSize with
    | none => Result.fatal
    | some (m2, _, size) => Result.ok (addr, size, m2)

/-- A run of `alloc` calls on the allocator with nothing else in between: a
call that returns memory or the out-of-memory error is followed by the next
one; a fatal call ends the run (`none`). -/
def allocMany (m : memory) : List Int → Option memory
  | [] => some m
  | n :: ns =>
    match m.alloc n with
    | Result.ok (_, _, m1) => allocMany m1 ns
    | Result.err => allocMany m ns
    | Result.fatal => none

/-! ## Virtual range map (memory_amd64.go, lines 94-107, 762-882) -/

/-- A reserved virtual range `[start, end)` with its page flags. -/
structure memoryRange where
  start : Nat
  «end» : Nat
  flags : Nat
  deriving Repr, DecidableEq, Inhabited

/-- State `virtMemory`. `ranges` is a slice into a slab of fixed size; `cap` is
the capacity of that slice (`hdr.Cap` in `newVirtMemory`). -/
structure virtMemory where
  ranges : List memoryRange
  cap : Nat
  next : Nat
  deriving Repr, DecidableEq

/-- Method `memoryRange.containsRange`; `size` is the Go `int` converted to
`virtualAddress`. -/
def memoryRange.containsRange (r : memoryRange) (addr : Nat) (size : Int) : Bool :=
  decide (r.start ≤ addr) && decide (add64 addr (size % (wordMod : Int)).toNat ≤ r.«end»)

/-- Method `memoryRange.contains`. -/
def memoryRange.contains (r : memoryRange) (addr : Nat) : Bool :=
  decide (r.start ≤ addr) && decide (addr < r.«end»)

/-- Method `memoryRange.overlaps`. -/
def memoryRange.overlaps (r r2 : memoryRange) : Bool :=
  (decide (r.start ≤ r2.start) && decide (r.«end» > r2.start)) ||
    (decide (r2.start ≤ r.start) && decide (r2.«end» > r.start))

/-- Method `virtualAddress.Align`: align downwards to the page size. -/
def Align (a : Nat) : Nat := andNot64 a (pageSize - 1)

/-- Method `virtualAddress.AlignUp`: align upwards to the page size. -/
def AlignUp (a : Nat) : Nat := add64 a (pageSize - 1) &&& not64 (pageSize - 1)

/-- The binary search of `closestRange`; the first argument bounds the number
of iterations. `h` lies in `[i, j)`, so `ranges[h]` is in range. -/
def closestRangeLoop (ranges : List memoryRange) (addr : Nat) : Nat → Nat → Nat → Nat
  | 0, i, _ => i
  | fuel + 1, i, j =>
    if i < j then
      let h := (i + j) >>> 1
      if (ranges.getD h default).«end» ≤ addr then closestRangeLoop ranges addr fuel (h + 1) j
      else closestRangeLoop ranges addr fuel i h
    else i

/-- Method `virtMemory.closestRange`. -/
def virtMemory.closestRange (vm : virtMemory) (addr : Nat) : Nat :=
  closestRangeLoop vm.ranges addr vm.ranges.length 0 vm.ranges.length

/-- The three statements of `addRange` that grow the slice by one, shift the
ranges from index `i` on up by one and store `r` at index `i`. -/
def insertAt (l : List memoryRange) (i : Nat) (r : memoryRange) : List memoryRange :=
  l.take i ++ r :: l.drop i

/-- Method `virtMemory.addRange`. Growing the slice beyond its capacity is a
runtime panic. -/
def virtMemory.addRange (vm : virtMemory) (start «end» flags : Nat) :
    Result (Bool × virtMemory) :=
  if start > «end» then Result.fatal
  else
    let i := vm.closestRange start
    let r : memoryRange := ⟨start, «end», flags⟩
    if i < vm.ranges.length ∧ (vm.ranges.getD i default).overlaps r = true then
      Result.ok (false, vm)
    else if vm.cap < vm.ranges.length + 1 then Result.fatal
    else Result.ok (true, { vm with ranges := insertAt vm.ranges i r })

/-- Method `virtMemory.mustAddRange`. -/
def virtMemory.mustAddRange (vm : virtMemory) (start «end» flags : Nat) : Result virtMemory :=
  match vm.addRange start «end» flags with
  | Result.ok (true, vm1) => Result.ok vm1
  | _ => Result.fatal

/-- The forward search of `mmap`: `n` ranges remain to be tried from index
`idx` on (a failed `addRange` leaves the list as it was). -/
def mmapSearch (vm : virtMemory) (size flags : Nat) : Nat → Nat → Result (Nat × virtMemory)
  | 0, _ => Result.err
  | n + 1, idx =>
    let start := (vm.ranges.getD idx default).«end»
    let «end» := AlignUp (add64 start size)
    match vm.addRange start «end» flags with
    | Result.ok (true, vm1) => Result.ok (start, { vm1 with next := «end» })
    | Result.ok (false, _) => mmapSearch vm size flags n (idx + 1)
    | Result.err => Result.err
    | Result.fatal => Result.fatal

/-- Method `virtMemory.mmap`: the reserved address and the new map, or `err`
when no gap was found. -/
def virtMemory.mmap (vm : virtMemory) (addr size flags : Nat) : Result (Nat × virtMemory) :=
  let addr := if addr = 0 then vm.next else addr
  let start := Align addr
  let «end» := AlignUp (add64 addr size)
  match vm.addRange start «end» flags with
  | Result.ok (true, vm1) => Result.ok (start, vm1)
  | Result.ok (false, _) =>
    let idx := vm.closestRange vm.next
    mmapSearch vm size flags (vm.ranges.length - idx) idx
  | Result.err => Result.err
  | Result.fatal => Result.fatal

/-- Method `virtMemory.mmapFixed`. -/
def virtMemory.mmapFixed (vm : virtMemory) (addr size flags : Nat) : Result (Bool × virtMemory) :=
  if addr ≠ Align addr then Result.ok (false, vm)
  else vm.addRange addr (AlignUp (add64 addr size)) flags

/-- Method `virtMemory.rangeForAddress`; `none` is the result
`(memoryRange{}, false)`. -/
def virtMemory.rangeForAddress (vm : virtMemory) (addr : Nat) (size : Int) : Option memoryRange :=
  let i := vm.closestRange addr
  if i ≥ vm.ranges.length then none
  else
    let r := vm.ranges.getD i default
    if r.containsRange addr size then some r else none

/-- The invariant of `virtMemory.ranges`: the list is sorted and no two ranges
overlap, that is every range has `start ≤ end` and ends at or before the start
of the next one. -/
def rangesSorted : List memoryRange → Prop
  | [] => True
  | [r] => r.start ≤ r.«end»
  | r :: r2 :: rest => r.start ≤ r.«end» ∧ r.«end» ≤ r2.start ∧ rangesSorted (r2 :: rest)

/-- Deciding `rangesSorted`. -/
def decRangesSorted : (l : List memoryRange) → Decidable (rangesSorted l)
  | [] => isTrue trivial
  | [r] => inferInstanceAs (Decidable (r.start ≤ r.«end»))
  | r :: r2 :: rest =>
    have := decRangesSorted (r2 :: rest)
    inferInstanceAs (Decidable (r.start ≤ r.«end» ∧ r.«end» ≤ r2.start ∧ rangesSorted (r2 :: rest)))

instance (l : List memoryRange) : Decidable (rangesSorted l) := decRangesSorted l

/-- The ranges `[s1, e1)` and `[s2, e2)` have an address in common. -/
def rangesMeet (s1 e1 s2 e2 : Nat) : Prop := ∃ x, s1 ≤ x ∧ x < e1 ∧ s2 ≤ x ∧ x < e2

/-- A call on the virtual range map. -/
inductive vmCall where
  | addRange (start «end» flags : Nat)
  | mustAddRange (start «end» flags : Nat)
  | mmap (addr size flags : Nat)
  | mmapFixed (addr size flags : Nat)
  deriving Repr, DecidableEq

/-- One call on the map: the map after it, or `none` when the call is fatal. A
call that fails without being fatal leaves the map as it was. -/
def vmStep (vm : virtMemory) : vmCall → Option virtMemory
  | vmCall.addRange s e f =>
    match vm.addRange s e f with
    | Result.ok (_, vm1) => some vm1
    | Result.err => some vm
    | Result.fatal => none
  | vmCall.mustAddRange s e f =>
    match vm.mustAddRange s e f with
    | Result.ok vm1 => some vm1
    | Result.err => some vm
    | Result.fatal => none
  | vmCall.mmap a n f =>
    match vm.mmap a n f with
    | Result.ok (_, vm1) => some vm1
    | Result.err => some vm
    | Result.fatal => none
  | vmCall.mmapFixed a n f =>
    match vm.mmapFixed a n f with
    | Result.ok (_, vm1) => some vm1
    | Result.err => some vm
    | Result.fatal => none

/-- A sequence of calls on the map, none of which is fatal. -/
def vmRun (vm : virtMemory) : List vmCall → Option virtMemory
  | [] => some vm
  | c :: cs =>
    match vmStep vm c with
    | some vm1 => vmRun vm1 cs
    | none => none

/-! ## Page tables and demand paging (memory_amd64.go, lines 263-280, 606-697,
884-901; the walk follows `dumpPageTable` in debug.go) -/

/-- The globals the page-fault path works on. Physical memory is seen through
the identity map as an array of 4 KiB frames of 512 64-bit words each:
`ram f i` is word `i` of the frame at the page-aligned physical address `f`. -/
structure kernelState where
  globalMem : memory
  globalPT : Nat
  globalMap : virtMemory
  ram : Nat → Nat → Nat
  nxSupport : Bool
  hugePage1GBSupport : Bool

/-- Storing `v` in word `i` of frame `f`. -/
def ramWrite (ram : Nat → Nat → Nat) (f i v : Nat) : Nat → Nat → Nat :=
  fun f2 i2 => if f2 = f ∧ i2 = i then v else ram f2 i2

/-- The zero fill at the end of `alloc`: every frame of `[addr, addr+size)`
reads 0 afterwards. -/
def zeroFill (ram : Nat → Nat → Nat) (addr size : Nat) : Nat → Nat → Nat :=
  fun f i => if addr ≤ f ∧ f < addr + size then 0 else ram f i

/-- Method `memory.alloc` together with its zero fill of the returned memory. -/
def kernelState.alloc (k : kernelState) (maxSize : Int) : Result (Nat × Nat × kernelState) :=
  match k.globalMem.alloc maxSize with
  | Result.ok (addr, size, m1) =>
    Result.ok (addr, size, { k with globalMem := m1, ram := zeroFill k.ram addr size })
  | Result.err => Result.err
  | Result.fatal => Result.fatal

/-- Method `pageTableEntry.present`. -/
def pageTableEntry.present (e : Nat) : Bool := e &&& pageFlagPresent != 0

/-- Method `pageTableEntry.getPageTable`: the physical address of the table
the entry points to; fatal for an entry with the page size flag. -/
def pageTableEntry.getPageTable (e : Nat) : Result Nat :=
  if e &&& pageSizeFlag ≠ 0 then Result.fatal
  else Result.ok (e &&& (MAXPHYADDR - 1) &&& not64 (pageSize - 1))

/-- Method `pageTableEntry.setPageTable`: the entry that points to a table. -/
def pageTableEntry.setPageTable (addr : Nat) : Nat :=
  addr ||| (pageFlagPresent ||| pageFlagWritable ||| pageFlagUserAccess)

/-- Method `pageTableEntry.mmap`: the entry that maps a page. -/
def pageTableEntry.mmap (nxSupport : Bool) (addr flags : Nat) : Nat :=
  let flags := if !nxSupport then flags &&& not64 pageFlagNX else flags
  let flags := flags ||| pageFlagPresent
  addr ||| flags

/-- Method `pageTable.lookupOrCreatePageTable` on the table in frame `table`:
the frame of the next-level table and the new state. -/
def lookupOrCreatePageTable (k : kernelState) (table index : Nat) :
    Result (Nat × kernelState) :=
  let entry := k.ram table index
  if pageTableEntry.present entry then
    match pageTableEntry.getPageTable entry with
    | Result.ok t => Result.ok (t, k)
    | Result.err => Result.err
    | Result.fatal => Result.fatal
  else
    match k.alloc pageSize with
    | Result.ok (page, _, k1) =>
      let entry1 := pageTableEntry.setPageTable page
      Result.ok (page, { k1 with ram := ramWrite k1.ram table index entry1 })
    | Result.err => Result.err
    | Result.fatal => Result.fatal

/-- The end of an iteration of the loop of `mmapAligned` (lines 641-648): the
page table is looked up in the page directory in frame `pd` and a 4 KiB page
is mapped. The result is the new state, `start` and `paddr`. -/
def mmapAlignedPT (k : kernelState) (pd start paddr flags : Nat) :
    Result (kernelState × Nat × Nat) :=
  let pde := (start / pageSize2MB) % pageTableSize
  match lookupOrCreatePageTable k pd pde with
  | Result.err => Result.err
  | Result.fatal => Result.fatal
  | Result.ok (pt, k3) =>
    let e := (start / pageSize) % pageTableSize
    let entry := pageTableEntry.mmap k3.nxSupport paddr flags
    Result.ok ({ k3 with ram := ramWrite k3.ram pt e entry },
      add64 start pageSize, add64 paddr pageSize)

/-- The middle of an iteration of the loop of `mmapAligned` (lines 629-640):
the page directory is looked up in the table in frame `pdpt`; a 2 MiB page is
mapped, or the iteration goes on to the page table. -/
def mmapAlignedPD (k : kernelState) (pdpt start «end» paddr flags : Nat) :
    Result (kernelState × Nat × Nat) :=
  let size := «end» - start
  let pdpte := (start / pageSize1GB) % pageTableSize
  match lookupOrCreatePageTable k pdpt pdpte with
  | Result.err => Result.err
  | Result.fatal => Result.fatal
  | Result.ok (pd, k2) =>
    let pde := (start / pageSize2MB) % pageTableSize
    if size ≥ pageSize2MB ∧ start % pageSize2MB = 0 ∧ paddr % pageSize2MB = 0 then
      let entry := pageTableEntry.mmap k2.nxSupport paddr (flags ||| pageSizeFlag)
      Result.ok ({ k2 with ram := ramWrite k2.ram pd pde entry },
        add64 start pageSize2MB, add64 paddr pageSize2MB)
    else mmapAlignedPT k2 pd start paddr flags

/-- One iteration of the loop of `mmapAligned` for `start < end` (lines
614-628, then `mmapAlignedPD`): the new state, `start` and `paddr`. -/
def mmapAlignedStep (k : kernelState) (pml4 start «end» paddr flags : Nat) :
    Result (kernelState × Nat × Nat) :=
  let size := «end» - start
  let pml4e := (start / pageSizeRoot) % pageTableSize
  match lookupOrCreatePageTable k pml4 pml4e with
  | Result.err => Result.err
  | Result.fatal => Result.fatal
  | Result.ok (pdpt, k1) =>
    let pdpte := (start / pageSize1GB) % pageTableSize
    if size ≥ pageSize1GB ∧ start % pageSize2MB = 0 ∧ paddr % pageSize1GB = 0 ∧
        k1.hugePage1GBSupport = true then
      let entry := pageTableEntry.mmap k1.nxSupport paddr (flags ||| pageSizeFlag)
      Result.ok ({ k1 with ram := ramWrite k1.ram pdpt pdpte entry },
        add64 start pageSize1GB, add64 paddr pageSize1GB)
    else mmapAlignedPD k1 pdpt start «end» paddr flags

/-- The loop of `mmapAligned`. The first argument bounds the number of
iterations; a loop that never ends does not return, which is the outcome
`fatal`. -/
def mmapAlignedLoop (pml4 «end» flags : Nat) : Nat → kernelState → Nat → Nat → Result kernelState
  | 0, _, _, _ => Result.fatal
  | fuel + 1, k, start, paddr =>
    if start < «end» then
      match mmapAlignedStep k pml4 start «end» paddr flags with
      | Result.ok (k1, start1, paddr1) => mmapAlignedLoop pml4 «end» flags fuel k1 start1 paddr1
      | Result.err => Result.err
      | Result.fatal => Result.fatal
    else Result.ok k

/-- Function `mmapAligned`. Every iteration moves `start` up by a page at
least, so `2 ^ 64` iterations are out of reach. -/
def mmapAligned (k : kernelState) (pml4 start «end» paddr flags : Nat) : Result kernelState :=
  if paddr % pageSize ≠ 0 then Result.fatal
  else mmapAlignedLoop pml4 «end» flags wordMod k start paddr

/-- Function `faultPage`. -/
def faultPage (k : kernelState) (addr : Nat) : Result kernelState :=
  let addr := addr &&& not64 (pageSize - 1)
  match k.globalMap.rangeForAddress addr pageSize with
  | none => Result.err
  | some r =>
    let flags := r.flags
    if flags = pageFlagNX then Result.err
    else
      match k.alloc pageSize with
      | Result.ok (paddr, _, k1) =>
        mmapAligned k1 k1.globalPT addr (add64 addr pageSize) paddr flags
      | Result.err => Result.err
      | Result.fatal => Result.fatal

/-- Function `handlePageFault`: the state it returns with, or `fatal`. -/
def handlePageFault (k : kernelState) (errCode addr : Nat) : Result kernelState :=
  if errCode &&& 1 ≠ 0 then Result.fatal
  else
    match faultPage k addr with
    | Result.ok k1 => Result.ok k1
    | Result.err => Result.fatal
    | Result.fatal => Result.fatal

/-- Where the 4-level walk for a virtual address ends. -/
inductive Walk where
  /-- The entry at this level (4 = PML4, 3 = PDPT, 2 = PD, 1 = PT) is not present. -/
  | notPresent (level : Nat)
  /-- The PML4 entry has the page size flag: `getPageTable` is fatal. -/
  | notATable
  /-- A present PDPT entry with the page size flag: a 1 GiB page. -/
  | page1GB (entry : Nat)
  /-- A present PD entry with the page size flag: a 2 MiB page. -/
  | page2MB (entry : Nat)
  /-- A present PT entry: a 4 KiB page. -/
  | page4KB (entry : Nat)
  deriving Repr, DecidableEq

/-- The frame a present entry without the page size flag points to. -/
def pageTableEntry.frame (e : Nat) : Nat := e &&& (MAXPHYADDR - 1) &&& not64 (pageSize - 1)

/-- Whether the entry has the page size flag. -/
def pageTableEntry.huge (e : Nat) : Bool := e &&& pageSizeFlag != 0

/-- The last level of the walk: the entry for `vaddr` in the page table in
frame `pt`. -/
def walkPT (ram : Nat → Nat → Nat) (pt vaddr : Nat) : Walk :=
  let e := ram pt ((vaddr / pageSize) % pageTableSize)
  if !pageTableEntry.present e then Walk.notPresent 1
  else Walk.page4KB e

/-- The walk from the page directory in frame `pd`. -/
def walkPD (ram : Nat → Nat → Nat) (pd vaddr : Nat) : Walk :=
  let pde := ram pd ((vaddr / pageSize2MB) % pageTableSize)
  if !pageTableEntry.present pde then Walk.notPresent 2
  else if pageTableEntry.huge pde then Walk.page2MB pde
  else walkPT ram (pageTableEntry.frame pde) vaddr

/-- The walk from the page directory pointer table in frame `pdpt`. -/
def walkPDPT (ram : Nat → Nat → Nat) (pdpt vaddr : Nat) : Walk :=
  let pdpte := ram pdpt ((vaddr / pageSize1GB) % pageTableSize)
  if !pageTableEntry.present pdpte then Walk.notPresent 3
  else if pageTableEntry.huge pdpte then Walk.page1GB pdpte
  else walkPD ram (pageTableEntry.frame pdpte) vaddr

/-- The walk of the page table rooted at `pml4` for `vaddr`, level by level as
`dumpPageTable` does it. -/
def walk (ram : Nat → Nat → Nat) (pml4 vaddr : Nat) : Walk :=
  let pml4e := ram pml4 ((vaddr / pageSizeRoot) % pageTableSize)
  if !pageTableEntry.present pml4e then Walk.notPresent 4
  else if pageTableEntry.huge pml4e then Walk.notATable
  else walkPDPT ram (pageTableEntry.frame pml4e) vaddr

/-- The frames of the tables the walk from the page directory `pd` reads. -/
def tablesPD (ram : Nat → Nat → Nat) (pd vaddr : Nat) : List Nat :=
  let pde := ram pd ((vaddr / pageSize2MB) % pageTableSize)
  if !pageTableEntry.present pde then [pd]
  else if pageTableEntry.huge pde then [pd]
  else [pd, pageTableEntry.frame pde]

/-- The frames of the tables the walk from the table `pdpt` reads. -/
def tablesPDPT (ram : Nat → Nat → Nat) (pdpt vaddr : Nat) : List Nat :=
  let pdpte := ram pdpt ((vaddr / pageSize1GB) % pageTableSize)
  if !pageTableEntry.present pdpte then [pdpt]
  else if pageTableEntry.huge pdpte then [pdpt]
  else pdpt :: tablesPD ram (pageTableEntry.frame pdpte) vaddr

/-- The frames of the tables the walk for `vaddr` reads. -/
def walkTables (ram : Nat → Nat → Nat) (pml4 vaddr : Nat) : List Nat :=
  let pml4e := ram pml4 ((vaddr / pageSizeRoot) % pageTableSize)
  if !pageTableEntry.present pml4e then [pml4]
  else if pageTableEntry.huge pml4e then [pml4]
  else pml4 :: tablesPDPT ram (pageTableEntry.frame pml4e) vaddr

/-- The state `k1` comes from `k` by allocating pages and by storing into
frames that were free in `k` or into words whose entry was not present in
`k`; the page table root, the range map and the CPU features are the same. -/
def stateExtends (k k1 : kernelState) : Prop :=
  k1.globalPT = k.globalPT ∧ k1.globalMap = k.globalMap ∧ k1.nxSupport = k.nxSupport ∧
    k1.hugePage1GBSupport = k.hugePage1GBSupport ∧
    k1.globalMem.bits.length = k.globalMem.bits.length ∧
    (∀ p, k1.globalMem.bit p = true → k.globalMem.bit p = true) ∧
    (∀ f j, k1.ram f j ≠ k.ram f j →
      k.globalMem.bit (f / pageSize) = true ∨ pageTableEntry.present (k.ram f j) = false)

/-- The state after `alloc(pageSize)` has handed out the zero-filled frame
`a`, `m1` being the allocator without that page. -/
def kernelState.withPage (k : kernelState) (m1 : memory) (a : Nat) : kernelState :=
  { k with globalMem := m1, ram := zeroFill k.ram a pageSize }

/-- The state after `lookupOrCreatePageTable` has created the table in frame
`a` for word `i` of the table in frame `t`. -/
def kernelState.withTable (k : kernelState) (m1 : memory) (a t i : Nat) : kernelState :=
  { k with globalMem := m1,
           ram := ramWrite (zeroFill k.ram a pageSize) t i (pageTableEntry.setPageTable a) }

/-- The page tables of `k` lie in allocated frames: no table that the walk
for `vaddr` reads is in a frame the allocator holds as free. -/
def tablesAllocated (k : kernelState) (vaddr : Nat) : Prop :=
  ∀ f ∈ walkTables k.ram k.globalPT vaddr, k.globalMem.bit (f / pageSize) = false

instance (k : kernelState) (vaddr : Nat) : Decidable (tablesAllocated k vaddr) :=
  inferInstanceAs (Decidable
    (∀ f ∈ walkTables k.ram k.globalPT vaddr, k.globalMem.bit (f / pageSize) = false))

/-- The walk ends at a page. -/
def Walk.mapped : Walk → Bool
  | Walk.page1GB _ => true
  | Walk.page2MB _ => true
  | Walk.page4KB _ => true
  | _ => false

/-- The walk ends at an entry with the page size flag. -/
def Walk.hitsHuge : Walk → Bool
  | Walk.notATable => true
  | Walk.page1GB _ => true
  | Walk.page2MB _ => true
  | _ => false

/-- The walk ends at an entry that is not present. This is the case in which
the MMU reports a page fault with the present bit (bit 0) of the error code
clear. -/
def Walk.absent : Walk → Bool
  | Walk.notPresent _ => true
  | _ => false

/-- The number of page tables `mmapAligned` has to create to map a 4 KiB page
where the walk ends. -/
def Walk.missingTables : Walk → Nat
  | Walk.notPresent level => level - 1
  | _ => 0

/-- The number of free pages in the bitmap. -/
def memory.freeCount (m : memory) : Nat :=
  (List.range (64 * m.bits.length)).countP (fun i => m.bit i)

/-- The outcome is `fatal`. -/
def Result.isFatal {α : Type} : Result α → Bool
  | Result.fatal => true
  | _ => false

/-- The outcome is a normal return. -/
def Result.isOk {α : Type} : Result α → Bool
  | Result.ok _ => true
  | _ => false

/-- A state with an empty root table in frame 0, 63 free pages and the
reserved range `[0x100000, 0x200000)`, writable and user-accessible. -/
def freshState : kernelState where
  globalMem := ⟨0, 0, [0x7FFFFFFFFFFFFFFF]⟩
  globalPT := 0
  globalMap := ⟨[⟨0x100000, 0x200000, 6⟩], 16, 0x100000⟩
  ram := fun _ _ => 0
  nxSupport := true
  hugePage1GBSupport := false

/-- The state after the first page fault at 0x100123 in `freshState`. -/
def onceFaultedState : kernelState :=
  match faultPage freshState 0x100123 with
  | Result.ok k1 => k1
  | _ => freshState

/-- The flags `pageTableEntry.mmap` stores: the given ones, without NX when
the CPU lacks it, and Present. -/
def entryFlags (nxSupport : Bool) (flags : Nat) : Nat :=
  (if !nxSupport then flags &&& not64 pageFlagNX else flags) ||| pageFlagPresent

/-- The walk for `vaddr` in the state a routine returned with. -/
def Result.walkAt (r : Result kernelState) (vaddr : Nat) : Option Walk :=
  match r with
  | Result.ok k => some (walk k.ram k.globalPT vaddr)
  | _ => none

/-- The values of `start` and `paddr` after one iteration of the loop of
`mmapAligned`. -/
def Result.advance (r : Result (kernelState × Nat × Nat)) : Option (Nat × Nat) :=
  match r with
  | Result.ok (_, start, paddr) => some (start, paddr)
  | _ => none

/-- A state with an empty root table in frame 0, 63 free pages and a CPU that
supports 1 GiB pages. -/
def gigaPageState : kernelState where
  globalMem := ⟨0, 0, [0x7FFFFFFFFFFFFFFF]⟩
  globalPT := 0
  globalMap := ⟨[], 16, 0x100000⟩
  ram := fun _ _ => 0
  nxSupport := true
  hugePage1GBSupport := true

/-! ## Integer conversions -/

/-- Go conversion to `int64`: the value modulo `2 ^ 64` that lies in
`[-2 ^ 63, 2 ^ 63)`. The result of `int64` arithmetic is the exact result
converted this way. -/
def toInt64 (x : Int) : Int := (x + 2 ^ 63) % 2 ^ 64 - 2 ^ 63

/-- Go conversion to `uint64`. -/
def toUint64 (x : Int) : Nat := (x % 2 ^ 64).toNat

/-! ## Clock (timer_amd64.go, lines 57-71, 178-190, 233-252) -/

/-- Type `instant`: `seconds` is an `int64`, `nanoseconds` a `uint32`. -/
structure instant where
  seconds : Int
  nanoseconds : Nat
  deriving Repr, DecidableEq, Inhabited

/-- Type `clock`. -/
structure clock where
  seq : Nat
  time : instant
  monotoneTime : instant
  deriving Repr, DecidableEq, Inhabited

/-- Method `instant.advance`. -/
def instant.advance (t : instant) (nanoseconds : Nat) : instant :=
  let nanoseconds := add64 nanoseconds t.nanoseconds
  ⟨toInt64 (t.seconds + toInt64 (nanoseconds / 1000000000)),
    (nanoseconds % 1000000000) % 2 ^ 32⟩

/-- Method `clock.advance`. -/
def clock.advance (c : clock) (nanoseconds : Nat) : clock :=
  ⟨add64 (add64 c.seq 1) 1, c.time.advance nanoseconds, c.monotoneTime.advance nanoseconds⟩

/-- Method `clock.monotoneMillis`. -/
def clock.monotoneMillis (c : clock) : Nat :=
  add64 ((toUint64 c.monotoneTime.seconds * 1000000000) % wordMod) c.monotoneTime.nanoseconds

/-- The variable `hpetDev`, as far as `updateClockWithCounter` uses it:
`period` and `last` are `uint32`, `accum` is a `uint64`. -/
structure hpetState where
  period : Nat
  last : Nat
  accum : Nat
  deriving Repr, DecidableEq, Inhabited

/-- Function `updateClockWithCounter`. -/
def updateClockWithCounter (h : hpetState) (c : clock) (counter : Nat) : hpetState × clock :=
  let fsPrPeriod := h.period
  let periods := (counter + 2 ^ 32 - h.last % 2 ^ 32) % 2 ^ 32
  let femtos := (periods * fsPrPeriod) % wordMod
  let acc := add64 h.accum femtos
  let nanos := acc / 1000000
  (⟨h.period, counter, acc % 1000000⟩, c.advance nanos)

/-! ## Threads (thread_amd64.go, lines 11-99, 129-142, 177-236) -/

def maxThreads : Nat := 100

def interruptCondition : Nat := 1
def sleepCondition : Nat := 2
def futexCondition : Nat := 4
def deadCondition : Nat := 8

/-- Type `context`: the CPU state of a thread; `fpState` holds the 512 bytes of
floating point state. -/
structure context where
  ip : Nat
  sp : Nat
  flags : Nat
  bp : Nat
  ax : Nat
  bx : Nat
  cx : Nat
  dx : Nat
  si : Nat
  di : Nat
  r8 : Nat
  r9 : Nat
  r10 : Nat
  r11 : Nat
  r12 : Nat
  r13 : Nat
  r14 : Nat
  r15 : Nat
  fsbase : Nat
  fpState : List Nat
  deriving Repr, DecidableEq

/-- The zero value of `context`. -/
def context.zero : context :=
  ⟨0, 0, 0, 0, 0, 0, 0, 0, 0, 0, 0, 0, 0, 0, 0, 0, 0, 0, 0, List.replicate 512 0⟩

/-- The field `sleep` of `blockCondition`: `monotoneTime` is a `uint64`,
`duration` a `time.Duration`, that is an `int64` count of nanoseconds. -/
structure sleepState where
  monotoneTime : Nat
  duration : Int
  deriving Repr, DecidableEq

/-- Type `blockCondition`. -/
structure blockCondition where
  syscall : Nat
  conditions : Nat
  sleep : sleepState
  futex : Nat
  deriving Repr, DecidableEq

/-- The zero value `blockCondition{}`. -/
def blockCondition.zero : blockCondition := ⟨0, 0, ⟨0, 0⟩, 0⟩

/-- Type `thread`. The field `self` always holds the address of the thread
itself and is left out. -/
structure thread where
  context : context
  id : Nat
  block : blockCondition
  deriving Repr, DecidableEq

instance : Inhabited thread := ⟨⟨context.zero, 0, blockCondition.zero⟩⟩

/-- Type `threads`: the thread table `threads` (here `list`) is a slice into
a slab of fixed size; `cap` is the capacity of that slice (`hdr.Cap` in `threads.init`, which sets it
to `maxThreads`). -/
structure threads where
  list : List thread
  cap : Nat
  deriving Repr, DecidableEq

/-- Method `threads.newThread`: the id of the new thread and the new table, or
`none` for the error. -/
def threads.newThread (ts : threads) : Option (Nat × Unik.threads) :=
  if ts.list.length = ts.cap then none
  else
    let tid := ts.list.length
    some (tid, ⟨ts.list ++ [⟨context.zero, tid, blockCondition.zero⟩], ts.cap⟩)

/-- The thread with its block conditions cleared (`t.block.conditions = 0`). -/
def thread.clearConditions (t : thread) : thread :=
  let b : blockCondition := ⟨t.block.syscall, 0, t.block.sleep, t.block.futex⟩
  ⟨t.context, t.id, b⟩

/-- The loop of `futexWakeup` over the threads from the current index on;
`nwaiters` is a Go `int`. -/
def futexWakeupLoop (addr : Nat) : Int → List thread → List thread
  | _, [] => []
  | nwaiters, t :: rest =>
    if nwaiters = 0 then t :: rest
    else if t.block.conditions &&& futexCondition = 0 then
      t :: futexWakeupLoop addr nwaiters rest
    else if t.block.futex ≠ addr then t :: futexWakeupLoop addr nwaiters rest
    else t.clearConditions :: futexWakeupLoop addr (toInt64 (nwaiters - 1)) rest

/-- Method `threads.futexWakeup`. -/
def threads.futexWakeup (ts : threads) (addr : Nat) (nwaiters : Int) : Unik.threads :=
  ⟨futexWakeupLoop addr nwaiters ts.list, ts.cap⟩

/-- Method `thread.setSyscallResult`. -/
def thread.setSyscallResult (t : thread) (ret0 ret1 : Nat) : thread :=
  let c : Unik.context := { t.context with ax := ret0, dx := ret1 }
  ⟨c, t.id, t.block⟩

/-- The index of the first pending interrupt, counted from `i`. -/
def firstPending : List Bool → Nat → Option Nat
  | [], _ => none
  | b :: rest, i => if b then some i else firstPending rest (i + 1)

/-- Method `thread.runnable`: the thread and the pending interrupts after the
call, and the two results. -/
def thread.runnable (t : thread) (pendingInterrupts : List Bool) (monotoneTime : Nat) :
    thread × List Bool × Int × Bool :=
  if t.block.conditions = 0 then (t, pendingInterrupts, 0, true)
  else
    let cond := t.block.conditions
    let intr := if cond &&& interruptCondition ≠ 0 then firstPending pendingInterrupts 0 else none
    match intr with
    | some i => (t.setSyscallResult 0 i, pendingInterrupts.set i false, 0, true)
    | none =>
      if cond &&& sleepCondition ≠ 0 then
        let dur := toInt64 (toInt64 (sub64 monotoneTime t.block.sleep.monotoneTime) * 1000000)
        let rem := toInt64 (t.block.sleep.duration - dur)
        (t, pendingInterrupts, rem, decide (rem ≤ 0))
      else (t, pendingInterrupts, 0, false)

/-- Method `thread.sleepFor`; `now` is the value of `unixClock.monotoneMillis()`. -/
def thread.sleepFor (t : thread) (now : Nat) (duration : Int) : thread :=
  let b : blockCondition :=
    ⟨t.block.syscall, t.block.conditions ||| sleepCondition, ⟨now, duration⟩, t.block.futex⟩
  ⟨t.context, t.id, b⟩

/-- The thread with `t.block.conditions = c`. -/
def thread.setConditions (t : thread) (c : Nat) : thread :=
  let b : blockCondition := ⟨t.block.syscall, c, t.block.sleep, t.block.futex⟩
  ⟨t.context, t.id, b⟩

/-! ## System calls (syscall_amd64.go, lines 16-92, 111-302) -/

def _SYS_write : Nat := 1
def _SYS_mmap : Nat := 9
def _SYS_pipe : Nat := 22
def _SYS_pipe2 : Nat := 293
def _SYS_arch_prctl : Nat := 158
def _SYS_uname : Nat := 63
def _SYS_rt_sigaction : Nat := 13
def _SYS_rt_sigprocmask : Nat := 14
def _SYS_sigaltstack : Nat := 131
def _SYS_clone : Nat := 56
def _SYS_exit_group : Nat := 231
def _SYS_exit : Nat := 60
def _SYS_nanosleep : Nat := 35
def _SYS_futex : Nat := 202
def _SYS_epoll_create1 : Nat := 291
def _SYS_epoll_pwait : Nat := 281
def _SYS_epoll_ctl : Nat := 233

/-- The custom system call numbers are `0x80000000 + iota`, where `iota` is 17
for `_SYS_outl`, the eighteenth constant of the declaration. -/
def _SYS_outl : Nat := 0x80000000 + 17
def _SYS_inl : Nat := 0x80000000 + 18
def _SYS_iomap : Nat := 0x80000000 + 19
def _SYS_alloc : Nat := 0x80000000 + 20
def _SYS_waitinterrupt : Nat := 0x80000000 + 21

def _ARCH_SET_FS : Nat := 0x1002

def _MAP_ANONYMOUS : Nat := 0x20
def _MAP_PRIVATE : Nat := 0x2
def _MAP_FIXED : Nat := 0x10

def _CLONE_VM : Nat := 0x100
def _CLONE_FS : Nat := 0x200
def _CLONE_FILES : Nat := 0x400
def _CLONE_SIGHAND : Nat := 0x800
def _CLONE_SYSVSEM : Nat := 0x40000
def _CLONE_THREAD : Nat := 0x10000

def _EOK : Nat := 0
def _ENOTSUP : Nat := add64 (not64 95) 1
def _ENOMEM : Nat := add64 (not64 0xc) 1
def _EINVAL : Nat := add64 (not64 0x16) 1

def _FUTEX_WAIT : Nat := 0
def _FUTEX_WAKE : Nat := 1
def _FUTEX_PRIVATE_FLAG : Nat := 128
def _FUTEX_WAIT_PRIVATE : Nat := _FUTEX_WAIT ||| _FUTEX_PRIVATE_FLAG
def _FUTEX_WAKE_PRIVATE : Nat := _FUTEX_WAKE ||| _FUTEX_PRIVATE_FLAG

def _MSR_FS_BASE : Nat := 0xc0000100

def COM1 : Nat := 0x3f8

/-- Type `timespec`: `seconds` is an `int64`, `nanoseconds` an `int32`. -/
structure timespec where
  seconds : Int
  nanoseconds : Int
  deriving Repr, DecidableEq

/-- Method `timespec.duration`; `none` is the nil pointer. -/
def timespec.duration (ts : Option timespec) : Int × Bool :=
  match ts with
  | none => (0, false)
  | some ts =>
    if ts.seconds < 0 then (0, false)
    else (toInt64 (toInt64 (ts.seconds * 1000000000) + toInt64 (ts.nanoseconds * 1)), true)

/-- The kernel state the system calls work on: the memory state, the thread
table, the clock and the pending interrupts, and the world outside the
kernel. `timespecAt a` is the `timespec` that memory holds at the address
`a ≠ 0` and `byteAt a` the byte at `a`; `portIn p` is the value the instruction
`inl` reads from port `p`; `portOut` lists the port writes (`outb`, `outl`) and
`msrOut` the writes of model specific registers, the latest first. -/
structure sysState where
  mem : kernelState
  globalThreads : threads
  unixClock : clock
  pendingInterrupts : List Bool
  timespecAt : Nat → timespec
  byteAt : Nat → Nat
  portIn : Nat → Nat
  portOut : List (Nat × Nat)
  msrOut : List (Nat × Nat)

/-- The thread `t` a system call is made on is the entry `cur` of the thread
table. -/
def sysState.threadAt (s : sysState) (cur : Nat) : thread :=
  s.globalThreads.list.getD cur default

/-- The state with the thread `cur` replaced. -/
def sysState.setThread (s : sysState) (cur : Nat) (t : thread) : sysState :=
  let ts : threads := ⟨s.globalThreads.list.set cur t, s.globalThreads.cap⟩
  { s with globalThreads := ts }

/-- The state with the memory state replaced. -/
def sysState.setMem (s : sysState) (k : kernelState) : sysState := { s with mem := k }

/-- The pointer conversion `(*timespec)(unsafe.Pointer(uintptr(a)))`. -/
def sysState.timespecPtr (s : sysState) (a : Nat) : Option timespec :=
  if a = 0 then none else some (s.timespecAt a)

/-- The statements `if d, ok := ts.duration(); ok { t.sleepFor(d) }` for the
`timespec` at address `a`. -/
def sysState.sleepThread (s : sysState) (cur a : Nat) : sysState :=
  match timespec.duration (s.timespecPtr a) with
  | (d, true) => s.setThread cur ((s.threadAt cur).sleepFor s.unixClock.monotoneMillis d)
  | (_, false) => s

/-- The case `_SYS_write` of `sysenter0`. -/
def sysWrite (s : sysState) (a0 a1 a2 : Nat) : Result (sysState × Nat × Nat) :=
  let fd := a0
  let p := a1
  let n := a2 % 2 ^ 32
  if fd = 0 then Result.ok (s, n, 0)
  else if fd ≠ 1 ∧ fd ≠ 2 then Result.ok (s, _ENOTSUP, 0)
  else
    let bytes := (List.range n).map (fun i => (COM1, s.byteAt (add64 p i)))
    Result.ok ({ s with portOut := bytes.reverse ++ s.portOut }, n, 0)

/-- The case `_SYS_mmap` of `sysenter0`. -/
def sysMmap (s : sysState) (a0 a1 a3 : Nat) : Result (sysState × Nat × Nat) :=
  let addr := a0
  let n := a1
  let flags := a3
  let supported := _MAP_ANONYMOUS ||| _MAP_PRIVATE ||| _MAP_FIXED
  if flags &&& not64 supported ≠ 0 then Result.ok (s, _ENOTSUP, 0)
  else
    let pf := pageFlagWritable ||| pageFlagUserAccess
    if flags &&& _MAP_FIXED ≠ 0 then
      match s.mem.globalMap.mmapFixed addr n pf with
      | Result.ok (_, vm1) => Result.ok (s.setMem { s.mem with globalMap := vm1 }, addr, 0)
      | Result.err => Result.err
      | Result.fatal => Result.fatal
    else
      match s.mem.globalMap.mmap addr n pf with
      | Result.ok (addr1, vm1) => Result.ok (s.setMem { s.mem with globalMap := vm1 }, addr1, 0)
      | Result.err => Result.ok (s, _ENOMEM, 0)
      | Result.fatal => Result.fatal

/-- The case `_SYS_clone` of `sysenter0`. -/
def sysClone (s : sysState) (cur a0 a1 : Nat) : Result (sysState × Nat × Nat) :=
  let flags := a0
  let expFlags := _CLONE_VM ||| _CLONE_FS ||| _CLONE_FILES ||| _CLONE_SIGHAND |||
    _CLONE_SYSVSEM ||| _CLONE_THREAD
  if flags ≠ expFlags then Result.ok (s, _ENOTSUP, 0)
  else
    let stack := a1
    match s.globalThreads.newThread with
    | none => Result.ok (s, _ENOMEM, 0)
    | some (tid, ts) =>
      let s1 : sysState := { s with globalThreads := ts }
      let c : context := { (s1.threadAt cur).context with sp := stack, ax := 0 }
      let clone : thread := ⟨c, (s1.threadAt tid).id, (s1.threadAt tid).block⟩
      Result.ok (s1.setThread tid clone, clone.id, 0)

/-- The case `_SYS_futex` of `sysenter0`. -/
def sysFutex (s : sysState) (cur a0 a1 a2 a3 : Nat) : Result (sysState × Nat × Nat) :=
  let addr := a0
  let val := a2
  let op := a1
  if op = _FUTEX_WAIT ∨ op = _FUTEX_WAIT_PRIVATE then
    let s1 := s.sleepThread cur a3
    let t := s1.threadAt cur
    let b : blockCondition :=
      ⟨t.block.syscall, t.block.conditions ||| futexCondition, t.block.sleep, addr⟩
    Result.ok (s1.setThread cur ⟨t.context, t.id, b⟩, 0, 0)
  else if op = _FUTEX_WAKE ∨ op = _FUTEX_WAKE_PRIVATE then
    let ts := s.globalThreads.futexWakeup addr (toInt64 val)
    Result.ok ({ s with globalThreads := ts }, _EOK, 0)
  else Result.ok (s, _ENOTSUP, 0)

/-- The case `_SYS_epoll_pwait` of `sysenter0`. -/
def sysEpollPwait (s : sysState) (cur a3 : Nat) : Result (sysState × Nat × Nat) :=
  let timeout := toInt64 (toInt64 a3 * 1000000)
  if timeout ≥ 0 then
    Result.ok (s.setThread cur ((s.threadAt cur).sleepFor s.unixClock.monotoneMillis timeout),
      _EOK, 0)
  else Result.ok (s.setThread cur ((s.threadAt cur).setConditions deadCondition), _EOK, 0)

/-- The case `_SYS_iomap` of `sysenter0`. -/
def sysIomap (s : sysState) (a0 a1 a2 : Nat) : Result (sysState × Nat × Nat) :=
  let vaddr := a0
  let addr := a1
  let size := a2
  if vaddr &&& (pageSize - 1) ≠ 0 then Result.ok (s, _EINVAL, 0)
  else if addr &&& (pageSize - 1) ≠ 0 then Result.ok (s, _EINVAL, 0)
  else
    let size := andNot64 (sub64 (add64 size pageSize) 1) (pageSize - 1)
    match s.mem.globalMap.rangeForAddress vaddr (toInt64 size) with
    | none => Result.ok (s, _EINVAL, 0)
    | some r =>
      match mmapAligned s.mem s.mem.globalPT vaddr (add64 vaddr size) addr r.flags with
      | Result.ok k1 => Result.ok (s.setMem k1, _EOK, 0)
      | Result.err => Result.ok (s, _ENOMEM, 0)
      | Result.fatal => Result.fatal

/-- The case `_SYS_alloc` of `sysenter0`. -/
def sysAlloc (s : sysState) (a0 : Nat) : Result (sysState × Nat × Nat) :=
  match s.mem.alloc (toInt64 a0) with
  | Result.ok (addr, size, k1) => Result.ok (s.setMem k1, addr, size)
  | Result.err => Result.ok (s, _ENOMEM, 0)
  | Result.fatal => Result.fatal

/-- Function `sysenter0` for the thread `cur`: the new state and the two
return values. -/
def sysenter0 (s : sysState) (cur sysno a0 a1 a2 a3 : Nat) : Result (sysState × Nat × Nat) :=
  if sysno = _SYS_write then sysWrite s a0 a1 a2
  else if sysno = _SYS_mmap then sysMmap s a0 a1 a3
  else if sysno = _SYS_clone then sysClone s cur a0 a1
  else if sysno = _SYS_exit_group then
    Result.ok (s.setThread cur ((s.threadAt cur).setConditions deadCondition), _EOK, 0)
  else if sysno = _SYS_arch_prctl then
    if a0 = _ARCH_SET_FS then
      let t := s.threadAt cur
      let c : context := { t.context with fsbase := a1 }
      let s1 := s.setThread cur ⟨c, t.id, t.block⟩
      Result.ok ({ s1 with msrOut := (_MSR_FS_BASE, a1) :: s1.msrOut }, _EOK, 0)
    else Result.ok (s, _ENOTSUP, 0)
  else if sysno = _SYS_uname then Result.ok (s, _EOK, 0)
  else if sysno = _SYS_futex then sysFutex s cur a0 a1 a2 a3
  else if sysno = _SYS_rt_sigprocmask ∨ sysno = _SYS_sigaltstack ∨ sysno = _SYS_rt_sigaction then
    Result.ok (s, _EOK, 0)
  else if sysno = _SYS_nanosleep then Result.ok (s.sleepThread cur a0, _EOK, 0)
  else if sysno = _SYS_epoll_create1 then Result.ok (s, _EOK, 0)
  else if sysno = _SYS_epoll_ctl then Result.ok (s, _EOK, 0)
  else if sysno = _SYS_pipe2 then Result.ok (s, _EOK, 0)
  else if sysno = _SYS_epoll_pwait then sysEpollPwait s cur a3
  else if sysno = _SYS_outl then
    Result.ok ({ s with portOut := (a0 % 2 ^ 16, a1 % 2 ^ 32) :: s.portOut }, _EOK, 0)
  else if sysno = _SYS_inl then Result.ok (s, s.portIn (a0 % 2 ^ 16), 0)
  else if sysno = _SYS_iomap then sysIomap s a0 a1 a2
  else if sysno = _SYS_alloc then sysAlloc s a0
  else if sysno = _SYS_waitinterrupt then
    Result.ok (s.setThread cur ((s.threadAt cur).setConditions interruptCondition), 0, 0)
  else Result.ok (s, _ENOTSUP, 0)

/-- Function `sysenter` up to the point where it resumes the thread or calls
the scheduler: the block condition of the thread is reset, `sysenter0` runs and
its results are stored in the registers AX and DX of the thread. -/
def sysenter (s : sysState) (cur sysno a0 a1 a2 a3 : Nat) : Result sysState :=
  let t := s.threadAt cur
  let b : blockCondition := ⟨1, 0, ⟨0, 0⟩, 0⟩
  let s1 := s.setThread cur ⟨t.context, t.id, b⟩
  match sysenter0 s1 cur sysno a0 a1 a2 a3 with
  | Result.ok (s2, ret0, ret1) =>
    Result.ok (s2.setThread cur ((s2.threadAt cur).setSyscallResult ret0 ret1))
  | Result.err => Result.err
  | Result.fatal => Result.fatal

/-- The state a system call returned with. -/
def Result.state (r : Result (sysState × Nat × Nat)) : Option sysState :=
  match r with
  | Result.ok (s, _, _) => some s
  | _ => none

/-- The two values a system call returned. -/
def Result.rets (r : Result (sysState × Nat × Nat)) : Option (Nat × Nat) :=
  match r with
  | Result.ok (_, ret0, ret1) => some (ret0, ret1)
  | _ => none

/-- The thread waits on the futex at `addr`: it has the futex condition set
with `futex == addr`. -/
def thread.waitsOn (t : thread) (addr : Nat) : Bool :=
  t.block.conditions &&& futexCondition != 0 && t.block.futex == addr

/-- A state with the two threads 0 and 1, neither of them blocked, the
monotone clock at 0, and memory that holds `timespec{1, 0}` everywhere. -/
def twoThreadState : sysState where
  mem := freshState
  globalThreads := ⟨[⟨context.zero, 0, blockCondition.zero⟩,
    ⟨context.zero, 1, blockCondition.zero⟩], maxThreads⟩
  unixClock := ⟨0, ⟨1600000000, 0⟩, ⟨0, 0⟩⟩
  pendingInterrupts := List.replicate 10 false
  timespecAt := fun _ => ⟨1, 0⟩
  byteAt := fun _ => 0
  portIn := fun _ => 0
  portOut := []
  msrOut := []

/-- The state after thread 0 of `twoThreadState` has called
`nanosleep(&timespec{1, 0})`. -/
def sleepingState : sysState :=
  match sysenter twoThreadState 0 _SYS_nanosleep 0x5000 0 0 0 with
  | Result.ok s => s
  | _ => twoThreadState

/-- A thread table of three threads: threads 0 and 2 wait on the futex at
0x7000, thread 1 sleeps. -/
def futexTable : threads :=
  ⟨[⟨context.zero, 0, ⟨1, futexCondition, ⟨0, 0⟩, 0x7000⟩⟩,
    ⟨context.zero, 1, ⟨1, sleepCondition, ⟨0, 5⟩, 0⟩⟩,
    ⟨context.zero, 2, ⟨1, futexCondition ||| sleepCondition, ⟨0, 5⟩, 0x7000⟩⟩], maxThreads⟩

/-- The state with the thread table replaced. -/
def sysState.setThreads (s : sysState) (ts : threads) : sysState := { s with globalThreads := ts }

/-- The thread `sysenter0` creates for `clone`: the context of the calling
thread `t` with the given stack pointer and AX = 0, the id `tid` and no block
condition. -/
def clonedThread (t : thread) (stack tid : Nat) : thread :=
  let c : context := { t.context with sp := stack, ax := 0 }
  ⟨c, tid, blockCondition.zero⟩

/-! ## CMOS time (cmos_amd64.go, lines 55-157) -/

/-- Function `norm` on Go `int` values; the division truncates towards zero. -/
def norm (hi lo base : Int) : Int × Int :=
  let r1 : Int × Int :=
    if lo < 0 then
      let n := toInt64 (Int.tdiv (toInt64 (-lo - 1)) base + 1)
      (toInt64 (hi - n), toInt64 (lo + n * base))
    else (hi, lo)
  if r1.2 ≥ base then
    let n := Int.tdiv r1.2 base
    (toInt64 (r1.1 + n), toInt64 (r1.2 - n * base))
  else r1

/-- Function `isLeap`; the remainder has the sign of the dividend. -/
def isLeap (year : Int) : Bool :=
  Int.tmod year 4 == 0 && (Int.tmod year 100 != 0 || Int.tmod year 400 == 0)

def secondsPerMinute : Int := 60
def secondsPerHour : Int := 60 * secondsPerMinute
def secondsPerDay : Int := 24 * secondsPerHour
def absoluteZeroYear : Int := -292277022399
def internalYear : Int := 1

/-- The constant `(absoluteZeroYear - internalYear) * 365.2425 * secondsPerDay`. -/
def absoluteToInternal : Int := (absoluteZeroYear - internalYear) * 3652425 * secondsPerDay / 10000

def unixToInternal : Int := (1969 * 365 + 1969 / 4 - 1969 / 100 + 1969 / 400) * secondsPerDay
def internalToUnix : Int := -unixToInternal
def daysPer400Years : Nat := 365 * 400 + 97
def daysPer100Years : Nat := 365 * 100 + 24
def daysPer4Years : Nat := 365 * 4 + 1

/-- The array `daysBefore`. -/
def daysBefore : List Nat :=
  [0,
   31,
   31 + 28,
   31 + 28 + 31,
   31 + 28 + 31 + 30,
   31 + 28 + 31 + 30 + 31,
   31 + 28 + 31 + 30 + 31 + 30,
   31 + 28 + 31 + 30 + 31 + 30 + 31,
   31 + 28 + 31 + 30 + 31 + 30 + 31 + 31,
   31 + 28 + 31 + 30 + 31 + 30 + 31 + 31 + 30,
   31 + 28 + 31 + 30 + 31 + 30 + 31 + 31 + 30 + 31,
   31 + 28 + 31 + 30 + 31 + 30 + 31 + 31 + 30 + 31 + 30,
   31 + 28 + 31 + 30 + 31 + 30 + 31 + 31 + 30 + 31 + 30 + 31]

/-- The days of `cmosToUnix` since the absolute epoch up to the first day of
the year that lies `y` years after the absolute zero year (lines 97-116), in
`uint64` arithmetic. -/
def daysSinceAbsolute (y : Nat) : Nat :=
  let n := y / 400
  let y := sub64 y ((400 * n) % wordMod)
  let d := (daysPer400Years * n) % wordMod
  let n := y / 100
  let y := sub64 y ((100 * n) % wordMod)
  let d := add64 d ((daysPer100Years * n) % wordMod)
  let n := y / 4
  let y := sub64 y ((4 * n) % wordMod)
  let d := add64 d ((daysPer4Years * n) % wordMod)
  let n := y
  add64 d ((365 * n) % wordMod)

/-- Function `cmosToUnix` on Go `int` arguments; the index of `daysBefore` out
of range is a runtime panic. -/
def cmosToUnix (year month day hour min sec : Int) : Result Int :=
  let ym := norm year month 11
  let ms := norm min sec 60
  let hm := norm hour ms.1 60
  let dh := norm day hm.1 24
  let year := ym.1
  let month := ym.2
  let sec := ms.2
  let min := hm.2
  let day := dh.1
  let hour := dh.2
  let y := toUint64 (toInt64 (year - absoluteZeroYear))
  let d := daysSinceAbsolute y
  if month < 0 then Result.fatal
  else
    match daysBefore[month.toNat]? with
    | none => Result.fatal
    | some before =>
      let d := add64 d before
      let d := if isLeap year && decide (month ≥ 2) then add64 d 1 else d
      let d := add64 d (toUint64 day)
      let abs := (d * secondsPerDay.toNat) % wordMod
      let abs := add64 abs (toUint64 (toInt64 (hour * secondsPerHour + min * secondsPerMinute + sec)))
      Result.ok (toInt64 (toInt64 abs + (absoluteToInternal + internalToUnix)))

/-! ### The civil calendar -/

/-- Gregorian leap years. -/
def leapYear (y : Nat) : Bool := y % 4 == 0 && (y % 100 != 0 || y % 400 == 0)

/-- The number of days of the year `y`. -/
def daysInYear (y : Nat) : Nat := if leapYear y then 366 else 365

/-- The number of days of the month `m` (0 = January) of the year `y`. -/
def daysInMonth (y m : Nat) : Nat :=
  if m = 1 then (if leapYear y then 29 else 28)
  else if m = 3 ∨ m = 5 ∨ m = 8 ∨ m = 10 then 30
  else 31

/-- The number of seconds from 1970-01-01 00:00:00 UTC to the given moment of
the civil calendar, with the zero-based month and day of the month: the days of
the full years since 1970 and of the full months of the year are counted one by
one. -/
def civilSeconds (year month day hour min sec : Nat) : Int :=
  let days := ((List.range (year - 1970)).map (fun i => daysInYear (1970 + i))).sum +
    ((List.range month).map (daysInMonth year)).sum + day
  ((days * 86400 + hour * 3600 + min * 60 + sec : Nat) : Int)

/-! ## Virtio command queue (virtio/virtio.go, lines 50-123, 476-580)

The code of package `virtio` runs as a Go program on top of the kernel. A
routine of it either returns, or waits for a signal on the interrupt channel
that is not there yet, or ends in a runtime panic. -/

/-- Outcome of a routine of package `virtio`. -/
inductive Outcome (α : Type) where
  /-- The routine returns. -/
  | returned (v : α)
  /-- The routine waits in `<-c.q.interrupt`, the channel being empty. -/
  | waiting
  /-- A runtime panic: an index out of range, a nil pointer, a division by
  zero; or a loop that does not end. -/
  | panic
  deriving Repr, DecidableEq

def maxQueueSize : Nat := 1 <<< 7

def _VIRTQ_DESC_F_NEXT : Nat := 1
def _VIRTQ_DESC_F_WRITE : Nat := 2
def _VIRTQ_DESC_F_INDIRECT : Nat := 4

/-- Type `queueDescriptor`. -/
structure queueDescriptor where
  addr : Nat
  len : Nat
  flags : Nat
  next : Nat
  deriving Repr, DecidableEq, Inhabited

/-- An element of the used ring (`struct { id uint32; len uint32 }`). -/
structure usedElem where
  id : Nat
  len : Nat
  deriving Repr, DecidableEq, Inhabited

/-- The field `available` of `virtioDeviceQueue`. -/
structure availableRing where
  flags : Nat
  idx : Nat
  ring : List Nat
  used_event : Nat
  deriving Repr, DecidableEq

/-- The field `used` of `virtioDeviceQueue`. -/
structure usedRing where
  flags : Nat
  idx : Nat
  ring : List usedElem
  avail_event : Nat
  deriving Repr, DecidableEq

/-- Type `virtioDeviceQueue`: the three arrays have `maxQueueSize` elements. -/
structure virtioDeviceQueue where
  descriptors : List queueDescriptor
  available : availableRing
  used : usedRing
  deriving Repr, DecidableEq

/-- Type `Queue`. `notified` lists the values stored at `notifyAddr`, the
latest first, and `interrupt` is the number of signals that wait in the channel
`interrupt`. -/
structure Queue where
  queue : virtioDeviceQueue
  size : Nat
  queueIndex : Nat
  notified : List Nat
  interrupt : Nat
  deriving Repr, DecidableEq

/-- Type `PhysPage`: `Addr` is a `uintptr`, `Size` an `int`. -/
structure PhysPage where
  Addr : Nat
  Size : Int
  deriving Repr, DecidableEq

/-- Type `IOMem`. -/
structure IOMem where
  Mem : List Nat
  Blocks : List PhysPage
  deriving Repr, DecidableEq

/-- Type `Commander`. -/
structure Commander where
  q : Queue
  used : Nat
  freeDesc : List Nat
  deriving Repr, DecidableEq

/-- The queue with the descriptor table replaced. -/
def Queue.setDescriptors (q : Queue) (ds : List queueDescriptor) : Queue :=
  let vq : virtioDeviceQueue := ⟨ds, q.queue.available, q.queue.used⟩
  { q with queue := vq }

/-- The queue with the available ring replaced. -/
def Queue.setAvailable (q : Queue) (a : availableRing) : Queue :=
  let vq : virtioDeviceQueue := ⟨q.queue.descriptors, a, q.queue.used⟩
  { q with queue := vq }

/-- The queue with the used ring replaced. -/
def Queue.setUsed (q : Queue) (u : usedRing) : Queue :=
  let vq : virtioDeviceQueue := ⟨q.queue.descriptors, q.queue.available, u⟩
  { q with queue := vq }

/-- Function `NewCommander`. -/
def NewCommander (q : Queue) : Commander :=
  ⟨q, 0, (List.range q.size).map (fun i => i % 2 ^ 16)⟩

/-- Method `Commander.allocDesc`; `none` is the index-out-of-range panic on an
empty free stack. -/
def Commander.allocDesc (c : Commander) : Option (Nat × Commander) :=
  match c.freeDesc.getLast? with
  | none => none
  | some idx => some (idx, { c with freeDesc := c.freeDesc.dropLast })

/-- The statements `desc.flags |= _VIRTQ_DESC_F_NEXT; desc.next = idx` for the
descriptor `desc = &descriptors[d]`. -/
def linkDesc (ds : List queueDescriptor) (d idx : Nat) : List queueDescriptor :=
  let old := ds.getD d default
  ds.set d ⟨old.addr, old.len, old.flags ||| _VIRTQ_DESC_F_NEXT, idx⟩

/-- The statement `if desc != nil { desc.flags |= _VIRTQ_DESC_F_NEXT;
desc.next = idx }`; `desc` is the index of the descriptor the pointer `desc`
points to, `none` for nil. -/
def linkPrev (ds : List queueDescriptor) (desc : Option Nat) (idx : Nat) :
    List queueDescriptor :=
  match desc with
  | none => ds
  | some d => linkDesc ds d idx

/-- The first loop of `Command` over the remaining blocks of `req.Blocks`;
`desc` is the index of the descriptor the pointer `desc` points to, `none` for
nil. The result is the state and `desc` after the loop, `none` for a panic. -/
def commandReq : List PhysPage → Commander → Bool → Option Nat → Option (Commander × Option Nat)
  | [], c, _, desc => some (c, desc)
  | p :: ps, c, first, desc =>
    match c.allocDesc with
    | none => none
    | some (idx, c1) =>
      let q1 := c1.q.setDescriptors (linkPrev c1.q.queue.descriptors desc idx)
      if first ∧ (q1.size = 0 ∨ q1.queue.available.ring.length ≤ q1.queue.available.idx % q1.size)
      then none
      else
        let a := q1.queue.available
        let a1 : availableRing :=
          if first then ⟨a.flags, a.idx, a.ring.set (a.idx % q1.size) idx, a.used_event⟩ else a
        let q2 := q1.setAvailable a1
        if q2.queue.descriptors.length ≤ idx then none
        else
          let ds2 := q2.queue.descriptors.set idx ⟨p.Addr, (p.Size % 2 ^ 32).toNat, 0, 0⟩
          commandReq ps { c1 with q := q2.setDescriptors ds2 } false (some idx)

/-- The second loop of `Command` over the remaining blocks of `resp.Blocks`. -/
def commandResp : List PhysPage → Commander → Option Nat → Option (Commander × Option Nat)
  | [], c, desc => some (c, desc)
  | p :: ps, c, desc =>
    match c.allocDesc with
    | none => none
    | some (idx, c1) =>
      match desc with
      | none => none
      | some d =>
        let ds1 := linkDesc c1.q.queue.descriptors d idx
        if ds1.length ≤ idx then none
        else
          let ds2 := ds1.set idx ⟨p.Addr, (p.Size % 2 ^ 32).toNat, _VIRTQ_DESC_F_WRITE, 0⟩
          commandResp ps { c1 with q := c1.q.setDescriptors ds2 } (some idx)

/-- Method `Queue.notifyDevice`. -/
def Queue.notifyDevice (q : Queue) (idx : Nat) : Queue :=
  let a := q.queue.available
  let q1 := q.setAvailable ⟨a.flags, idx, a.ring, a.used_event⟩
  { q1 with notified := q1.queueIndex :: q1.notified }

/-- Method `Commander.Command` up to the call of `notifyDevice`: the two loops
that set up the chain. -/
def Commander.setupChain (c : Commander) (req resp : IOMem) : Option Commander :=
  match commandReq req.Blocks c true none with
  | none => none
  | some (c1, desc) =>
    match commandResp resp.Blocks c1 desc with
    | none => none
    | some (c2, _) => some c2

/-- Method `Commander.Command`. -/
def Commander.Command (c : Commander) (req resp : IOMem) : Outcome (Bool × Commander) :=
  if (c.freeDesc.length : Int) < (req.Blocks.length : Int) + (resp.Blocks.length : Int) then
    let used := c.q.queue.used.idx
    if used ≠ c.q.queue.available.idx then
      if c.q.interrupt = 0 then Outcome.waiting
      else Outcome.returned (false, { c with q := { c.q with interrupt := c.q.interrupt - 1 } })
    else Outcome.returned (false, c)
  else
    match c.setupChain req resp with
    | none => Outcome.panic
    | some c2 =>
      let q3 := c2.q.notifyDevice ((c2.q.queue.available.idx + 1) % 2 ^ 16)
      Outcome.returned (true, { c2 with q := q3 })

/-- The inner loop of `Read` from the descriptor `did` on: the free stack
after it; `none` for the index-out-of-range panic. The first argument bounds
the number of iterations: a chain that does not end within as many
descriptors as the table has runs in a circle, and the loop does not end. -/
def readChain (ds : List queueDescriptor) : Nat → Nat → List Nat → Option (List Nat)
  | 0, _, _ => none
  | fuel + 1, did, free =>
    let free := free ++ [did]
    match ds[did]? with
    | none => none
    | some desc =>
      if desc.flags &&& _VIRTQ_DESC_F_NEXT = 0 then some free
      else readChain ds fuel desc.next free

/-- The outer loop of `Read`; `c.used` reaches the used index after fewer than
`2 ^ 16` iterations. The result is the count and the new state. -/
def readLoop : Nat → Commander → Nat → Option (Nat × Commander)
  | 0, _, _ => none
  | fuel + 1, c, count =>
    if c.used ≠ c.q.queue.used.idx then
      if c.q.size = 0 then none
      else
        match c.q.queue.used.ring[c.used % c.q.size]? with
        | none => none
        | some u =>
          let did := u.id % 2 ^ 16
          match readChain c.q.queue.descriptors (c.q.queue.descriptors.length + 1) did
              c.freeDesc with
          | none => none
          | some free =>
            readLoop fuel { c with freeDesc := free, used := (c.used + 1) % 2 ^ 16 } (count + 1)
    else some (count, c)

/-- Method `Commander.Read`. -/
def Commander.Read (c : Commander) : Outcome (Nat × Commander) :=
  match readLoop (2 ^ 16) c 0 with
  | none => Outcome.panic
  | some r => Outcome.returned r

/-- The available ring after the first loop of `Command` has run over
descriptors `xs`: the first of them is stored in the ring when `first` is set. -/
def ringAfter (a : availableRing) (size : Nat) (first : Bool) (xs : List Nat) : availableRing :=
  match first, xs with
  | true, x :: _ => ⟨a.flags, a.idx, a.ring.set (a.idx % size) x, a.used_event⟩
  | _, _ => a

/-- The descriptor `desc` points to after a loop of `Command` has run over the
descriptors `xs`. -/
def lastDesc (xs : List Nat) (desc : Option Nat) : Option Nat :=
  match xs.getLast? with
  | some x => some x
  | none => desc

/-- The queue as `ConfigureQueue` sets it up for a device queue of `size`
descriptors: the queue memory is zero, nothing has been notified and no signal
waits in the interrupt channel. -/
def freshQueue (size : Nat) : Queue :=
  ⟨⟨List.replicate maxQueueSize default, ⟨0, 0, List.replicate maxQueueSize 0, 0⟩,
    ⟨0, 0, List.replicate maxQueueSize default, 0⟩⟩, size, 0, [], 0⟩

/-- A request of two blocks. -/
def exampleReq : IOMem := ⟨[], [⟨0x1000, 4096⟩, ⟨0x3000, 100⟩]⟩

/-- A response of one block. -/
def exampleResp : IOMem := ⟨[], [⟨0x5000, 64⟩]⟩

/-- The Commander that `NewCommander` makes for a fresh queue of 4 descriptors. -/
def exampleCommander : Commander := NewCommander (freshQueue 4)

/-! ### The device and runs of a command queue

The device is not part of the driver. It fetches the entries of the available
ring in ring order, and completes a fetched chain, in any order, by appending
the index of its head descriptor to the used ring. -/

/-- What the device has seen of the queue: `lastAvail` is the index of the
next entry of the available ring it fetches, `fetched` lists the heads of the
chains it has fetched and not completed yet. -/
structure deviceState where
  lastAvail : Nat
  fetched : List Nat
  deriving Repr, DecidableEq

/-- The device fetches the next entry of the available ring; `none` when there
is none. -/
def deviceFetch (q : Queue) (d : deviceState) : Option deviceState :=
  if d.lastAvail = q.queue.available.idx ∨ q.size = 0 then none
  else
    match q.queue.available.ring[d.lastAvail % q.size]? with
    | none => none
    | some head => some ⟨(d.lastAvail + 1) % 2 ^ 16, d.fetched ++ [head]⟩

/-- The device completes the chain with the head descriptor `head`, reporting
`len` bytes written: it appends the entry to the used ring. -/
def deviceComplete (q : Queue) (head len : Nat) : Queue :=
  let u := q.queue.used
  q.setUsed ⟨u.flags, (u.idx + 1) % 2 ^ 16, u.ring.set (u.idx % q.size) ⟨head, len⟩, u.avail_event⟩

/-- An event on a command queue: a call of `Command`, the device fetching an
available entry, the device completing the `i`-th of the chains it has
fetched, or a call of `Read`. -/
inductive cmdEvent where
  | command (req resp : IOMem)
  | fetch
  | complete (i len : Nat)
  | read
  deriving Repr, DecidableEq

/-- A command queue with its device. The chains that `Command` has submitted
and `Read` has not consumed yet are recorded as lists of descriptor indices,
head first: `avail` are those the device has not fetched, `fetched` those it
has fetched, `done` those it has completed, each in the order of the event. -/
structure cmdTrace where
  c : Commander
  dev : deviceState
  avail : List (List Nat)
  fetched : List (List Nat)
  done : List (List Nat)
  deriving Repr, DecidableEq

/-- The descriptors of the chains not yet consumed by `Read`. -/
def cmdTrace.inFlight (tr : cmdTrace) : List Nat := (tr.avail ++ tr.fetched ++ tr.done).flatten

/-- The state right after `NewCommander` on a fresh queue. -/
def newTrace (size : Nat) : cmdTrace := ⟨NewCommander (freshQueue size), ⟨0, []⟩, [], [], []⟩

/-- One event. A call of `Command` that does not return true, a fetch with
nothing to fetch, a completion of a chain that was not fetched and a call of
`Read` that does not return are not steps (`none`). The chain a call of
`Command` submits consists of the descriptors it has taken from the free
stack, in the order it took them; a call of `Read` that returns `count`
consumes the `count` oldest completed chains. -/
def cmdStep (tr : cmdTrace) : cmdEvent → Option cmdTrace
  | cmdEvent.command req resp =>
    match tr.c.Command req resp with
    | Outcome.returned (true, c1) =>
      some ⟨c1, tr.dev,
        tr.avail ++ [(tr.c.freeDesc.drop c1.freeDesc.length).reverse], tr.fetched, tr.done⟩
    | _ => none
  | cmdEvent.fetch =>
    match deviceFetch tr.c.q tr.dev with
    | some d1 => some ⟨tr.c, d1, tr.avail.drop 1, tr.fetched ++ tr.avail.take 1, tr.done⟩
    | none => none
  | cmdEvent.complete i len =>
    match tr.dev.fetched[i]? with
    | some head =>
      some ⟨{ tr.c with q := deviceComplete tr.c.q head len },
        ⟨tr.dev.lastAvail, tr.dev.fetched.eraseIdx i⟩,
        tr.avail, tr.fetched.eraseIdx i, tr.done ++ (tr.fetched.drop i).take 1⟩
    | none => none
  | cmdEvent.read =>
    match tr.c.Read with
    | Outcome.returned (count, c1) => some ⟨c1, tr.dev, tr.avail, tr.fetched, tr.done.drop count⟩
    | _ => none

/-- A sequence of events. -/
def cmdRun (tr : cmdTrace) : List cmdEvent → Option cmdTrace
  | [] => some tr
  | e :: es =>
    match cmdStep tr e with
    | some tr1 => cmdRun tr1 es
    | none => none

/-- The event is not a call of `Command` with a request without blocks. -/
def cmdEvent.hasRequest : cmdEvent → Bool
  | cmdEvent.command req _ => !req.Blocks.isEmpty
  | _ => true

/-- The descriptors `ch` are linked into a chain in the descriptor table `ds`:
each but the last has the Next flag and the index of the next one in `next`,
and the last one does not have the Next flag. -/
def chainOk (ds : List queueDescriptor) (ch : List Nat) : Prop :=
  ∀ t x, ch[t]? = some x → ∃ d, ds[x]? = some d ∧
    (t + 1 < ch.length → d.flags &&& _VIRTQ_DESC_F_NEXT ≠ 0 ∧ ch[t + 1]? = some d.next) ∧
    (¬ t + 1 < ch.length → d.flags &&& _VIRTQ_DESC_F_NEXT = 0)

/-- The invariant of a command queue of `size` descriptors with its device:
the free stack and the chains in flight hold every descriptor index below
`size` once; every chain in flight has a descriptor and is linked in the
descriptor table; the available ring holds the heads of the chains the device
has not fetched, from the index `lastAvail` on; the device holds the heads of
the chains it has fetched; and the used ring holds the heads of the completed
chains from the index `c.used` on. -/
structure cmdInv (size : Nat) (tr : cmdTrace) : Prop where
  size_eq : tr.c.q.size = size
  size_pos : 1 ≤ size
  size_le : size ≤ maxQueueSize
  size_dvd : size ∣ 2 ^ 16
  descs_len : tr.c.q.queue.descriptors.length = maxQueueSize
  avail_len : tr.c.q.queue.available.ring.length = maxQueueSize
  used_len : tr.c.q.queue.used.ring.length = maxQueueSize
  perm : (tr.c.freeDesc ++ tr.inFlight).Perm (List.range size)
  chains : ∀ ch ∈ tr.avail ++ tr.fetched ++ tr.done,
    ch ≠ [] ∧ chainOk tr.c.q.queue.descriptors ch
  last_lt : tr.dev.lastAvail < 2 ^ 16
  avail_idx : tr.c.q.queue.available.idx = (tr.dev.lastAvail + tr.avail.length) % 2 ^ 16
  avail_win : ∀ t ch, tr.avail[t]? = some ch →
    tr.c.q.queue.available.ring[(tr.dev.lastAvail + t) % size]? = some (ch.headD 0)
  heads : tr.dev.fetched = tr.fetched.map (fun ch => ch.headD 0)
  used_lt : tr.c.used < 2 ^ 16
  used_idx : tr.c.q.queue.used.idx = (tr.c.used + tr.done.length) % 2 ^ 16
  used_win : ∀ t ch, tr.done[t]? = some ch →
    ∃ u, tr.c.q.queue.used.ring[(tr.c.used + t) % size]? = some u ∧
      u.id % 2 ^ 16 = ch.headD 0

/-- A run on a fresh queue of 4 descriptors: a command of two request blocks
and one response block, which the device fetches and completes and `Read`
consumes, and a second command, which the device fetches. -/
def exampleEvents : List cmdEvent :=
  [cmdEvent.command exampleReq exampleResp, cmdEvent.fetch, cmdEvent.complete 0 64,
    cmdEvent.read, cmdEvent.command exampleResp exampleResp, cmdEvent.fetch]

/-- The state after the run `exampleEvents`. -/
def exampleTrace : cmdTrace :=
  match cmdRun (newTrace 4) exampleEvents with
  | some tr => tr
  | none => newTrace 4

/-! ## Dumping and verifying the page table (debug.go) -/

/-- Type `pageTableRange`: a mapped virtual range, its physical address and
its size in bytes. -/
structure pageTableRange where
  vaddr : Nat
  paddr : Nat
  size : Nat
  deriving Repr, DecidableEq

/-- The innermost loop of `dumpPageTable` (lines 107-114) over the page table
in frame `pt`: one 4 KiB entry for every present word. -/
def dumpPT (ram : Nat → Nat → Nat) (pt vaddr : Nat) : List pageTableRange :=
  (List.range pageTableSize).flatMap fun i =>
    let e := ram pt i
    if !pageTableEntry.present e then []
    else
      [pageTableRange.mk (add64 vaddr (i * pageSize))
        (andNot64 (e &&& (MAXPHYADDR - 1)) (pageSize - 1)) pageSize]

/-- The loop of `dumpPageTable` over the page directory in frame `pd` (lines
96-116): a 2 MiB entry for a present word with the page size flag, the
entries of the page table for any other present word. -/
def dumpPD (ram : Nat → Nat → Nat) (pd vaddr : Nat) : List pageTableRange :=
  (List.range pageTableSize).flatMap fun i =>
    let pde := ram pd i
    if !pageTableEntry.present pde then []
    else if pageTableEntry.huge pde then
      [pageTableRange.mk (add64 vaddr (i * pageSize2MB))
        (andNot64 (pde &&& (MAXPHYADDR - 1)) (pageSize2MB - 1)) pageSize2MB]
    else dumpPT ram (pageTableEntry.frame pde) (add64 vaddr (i * pageSize2MB))

/-- The loop of `dumpPageTable` over the page directory pointer table in
frame `pdpt` (lines 85-118): a 1 GiB entry for a present word with the page
size flag, the entries of the page directory for any other present word. -/
def dumpPDPT (ram : Nat → Nat → Nat) (pdpt vaddr : Nat) : List pageTableRange :=
  (List.range pageTableSize).flatMap fun i =>
    let pdpte := ram pdpt i
    if !pageTableEntry.present pdpte then []
    else if pageTableEntry.huge pdpte then
      [pageTableRange.mk (add64 vaddr (i * pageSize1GB))
        (andNot64 (pdpte &&& (MAXPHYADDR - 1)) (pageSize1GB - 1)) pageSize1GB]
    else dumpPD ram (pageTableEntry.frame pdpte) (add64 vaddr (i * pageSize1GB))

/-- The sign extension in `dumpPageTable` (lines 78-81) of a virtual address
from the width of `maxVirtAddress`. -/
def signExtend (maxVirtAddress vaddr : Nat) : Nat :=
  if vaddr &&& (maxVirtAddress >>> 1) ≠ 0 then vaddr ||| not64 (sub64 maxVirtAddress 1)
  else vaddr

/-- The outer loop of `dumpPageTable` over the words `is` of the root table:
the virtual address of a present word is sign-extended from the width of
`maxVirtAddress`, and `getPageTable` is fatal for a word with the page size
flag. -/
def dumpPML4 (ram : Nat → Nat → Nat) (pml4 maxVirtAddress : Nat) :
    List Nat → Result (List pageTableRange)
  | [] => Result.ok []
  | i :: rest =>
    let pml4e := ram pml4 i
    if !pageTableEntry.present pml4e then dumpPML4 ram pml4 maxVirtAddress rest
    else
      let vaddr := signExtend maxVirtAddress (i * pageSizeRoot)
      match pageTableEntry.getPageTable pml4e with
      | Result.ok pdpt =>
        match dumpPML4 ram pml4 maxVirtAddress rest with
        | Result.ok entries => Result.ok (dumpPDPT ram pdpt vaddr ++ entries)
        | Result.err => Result.err
        | Result.fatal => Result.fatal
      | Result.err => Result.err
      | Result.fatal => Result.fatal

/-- Function `dumpPageTable` on the root table in frame `pml4`. -/
def dumpPageTable (ram : Nat → Nat → Nat) (pml4 maxVirtAddress : Nat) :
    Result (List pageTableRange) :=
  dumpPML4 ram pml4 maxVirtAddress (List.range pageTableSize)

/-- Type `addrRange` of `verifyPageTable`. -/
structure addrRange where
  start : Nat
  «end» : Nat
  r : pageTableRange
  deriving Repr, DecidableEq

/-- The first loop of `verifyPageTable` (lines 27-39): the physical ranges of
the entries below `physicalMapOffset`. -/
def physRanges (entries : List pageTableRange) (physicalMapOffset : Nat) : List addrRange :=
  (entries.filter fun e => decide (e.vaddr < physicalMapOffset)).map fun e =>
    addrRange.mk e.paddr (add64 e.paddr (e.size % wordMod)) e

/-- The value the comparison function of `verifyPageTable` returns (lines
43-48). -/
def rangeLess (r1 r2 : addrRange) : Bool :=
  decide (r1.start < r2.start) || (decide (r1.start = r2.start) && decide (r1.«end» < r2.«end»))

/-- The comparison function of `verifyPageTable` sets `overlap` (lines 49-52). -/
def rangeSame (r1 r2 : addrRange) : Bool :=
  !decide (r1.start < r2.start) && !(decide (r1.start = r2.start) && decide (r1.«end» < r2.«end»)) &&
    (decide (r1.start = r2.start) && decide (r1.«end» = r2.«end»))

/-- Whether two elements at different positions make the comparison function
set `overlap`, in either order. -/
def anySame : List addrRange → Bool
  | [] => false
  | r :: rest => rest.any (fun r2 => rangeSame r r2 || rangeSame r2 r) || anySame rest

/-- Insertion of `r` into a list sorted by `rangeLess`. -/
def insertRange (r : addrRange) : List addrRange → List addrRange
  | [] => [r]
  | r2 :: rest => if rangeLess r2 r then r2 :: insertRange r rest else r :: r2 :: rest

/-- The outcome of `sort.Slice` with the comparison function `rangeLess`: a
permutation that is sorted by it. -/
def sortRanges : List addrRange → List addrRange
  | [] => []
  | r :: rest => insertRange r (sortRanges rest)

/-- The second loop of `verifyPageTable` (lines 55-62): a range ends after the
start of the next one. -/
def adjacentOverlap : List addrRange → Bool
  | r1 :: r2 :: rest => decide (r1.«end» > r2.start) || adjacentOverlap (r2 :: rest)
  | _ => false

/-- Function `verifyPageTable`: fatal for the panic "overlapping ranges". The
comparison function is run on elements at different positions; `overlap` is
set when it meets two ranges with the same start and end, or when the second
loop finds a range that ends after the start of its successor. -/
def verifyPageTable (entries : List pageTableRange) (physicalMapOffset : Nat) : Result Unit :=
  let pranges := physRanges entries physicalMapOffset
  let overlap := anySame pranges || adjacentOverlap (sortRanges pranges)
  if overlap then Result.fatal else Result.ok ()

/-- Two ranges that are not empty and do not meet. -/
def addrRange.apart (a b : addrRange) : Prop :=
  a.start < a.«end» ∧ b.start < b.«end» ∧ (a.«end» ≤ b.start ∨ b.«end» ≤ a.start)

/-- A call `mmapAligned(start, end, paddr, flags)`. -/
structure mmapCall where
  start : Nat
  «end» : Nat
  paddr : Nat
  flags : Nat
  deriving Repr, DecidableEq

/-- A sequence of calls of `mmapAligned` on the root table in frame `pml4`
that all return without error. -/
def mmapRun (pml4 : Nat) (k : kernelState) : List mmapCall → Option kernelState
  | [] => some k
  | c :: cs =>
    match mmapAligned k pml4 c.start c.«end» c.paddr c.flags with
    | Result.ok k1 => mmapRun pml4 k1 cs
    | _ => none

/-- A well-formed call: page-aligned 64-bit virtual addresses, flags among the
page flags, and a physical range below `MAXPHYADDR`. -/
def mmapCall.wf (c : mmapCall) : Prop :=
  c.start % pageSize = 0 ∧ c.«end» % pageSize = 0 ∧ c.«end» < wordMod ∧
    c.flags ||| allPageFlags = allPageFlags ∧ c.paddr + (c.«end» - c.start) ≤ MAXPHYADDR

instance (c : mmapCall) : Decidable c.wf :=
  inferInstanceAs (Decidable (c.start % pageSize = 0 ∧ c.«end» % pageSize = 0 ∧
    c.«end» < wordMod ∧ c.flags ||| allPageFlags = allPageFlags ∧
    c.paddr + (c.«end» - c.start) ≤ MAXPHYADDR))

/-- The physical ranges of two calls do not meet. -/
def mmapCall.physDisjoint (a b : mmapCall) : Prop :=
  a.paddr + (a.«end» - a.start) ≤ b.paddr ∨ b.paddr + (b.«end» - b.start) ≤ a.paddr

instance (a b : mmapCall) : Decidable (a.physDisjoint b) :=
  inferInstanceAs (Decidable (a.paddr + (a.«end» - a.start) ≤ b.paddr ∨
    b.paddr + (b.«end» - b.start) ≤ a.paddr))

/-- The physical ranges of two entries of the dump do not meet. -/
def pageTableRange.physDisjoint (a b : pageTableRange) : Prop :=
  a.paddr + a.size ≤ b.paddr ∨ b.paddr + b.size ≤ a.paddr

/-- The size of the page a present entry of a table at depth `d` below the
root maps (1 = page directory pointer table, 2 = page directory, 3 = page
table). -/
def leafSize (d : Nat) : Nat :=
  if d = 1 then pageSize1GB else if d = 2 then pageSize2MB else pageSize

/-- Whether the entry `e` of a table at depth `d` maps a page. -/
def isLeaf (d e : Nat) : Bool :=
  pageTableEntry.present e && (decide (d = 3) || pageTableEntry.huge e)

/-- The physical address `dumpPageTable` reports for the page the entry `e`
of a table at depth `d` maps. -/
def leafPaddr (d e : Nat) : Nat := andNot64 (e &&& (MAXPHYADDR - 1)) (leafSize d - 1)

/-- The invariant of the page tables under `mmapAligned`. `own` gives, for the
frame of every page table made so far, the words that lead from the root to
it (last one first); `U` holds of the physical addresses the calls so far
have mapped. Tables lie in allocated frames, a present word without the page
size flag points to the table owned by the longer path, the pages that the
words of the tables map lie in `U` below `MAXPHYADDR`, and the pages of two
different words do not meet. -/
structure ptInv (k : kernelState) (pml4 : Nat) (own : Nat → Option (List Nat))
    (U : Nat → Prop) : Prop where
  bound : k.globalMem.bits.length * 64 * pageSize ≤ MAXPHYADDR
  root : own pml4 = some []
  alloc : ∀ t p, own t = some p → k.globalMem.bit (t / pageSize) = false
  depth : ∀ t p, own t = some p → p.length ≤ 3
  child : ∀ t p i, own t = some p → p.length ≤ 2 → i < pageTableSize →
    pageTableEntry.present (k.ram t i) = true → pageTableEntry.huge (k.ram t i) = false →
    own (pageTableEntry.frame (k.ram t i)) = some (i :: p)
  top : ∀ t i, own t = some [] → i < pageTableSize →
    pageTableEntry.present (k.ram t i) = true → pageTableEntry.huge (k.ram t i) = false
  below : ∀ x, U x → x < MAXPHYADDR
  leafU : ∀ t p i, own t = some p → 1 ≤ p.length → i < pageTableSize →
    isLeaf p.length (k.ram t i) = true →
    ∀ x, leafPaddr p.length (k.ram t i) ≤ x →
      x < leafPaddr p.length (k.ram t i) + leafSize p.length → U x
  leafD : ∀ t p i t2 p2 i2, own t = some p → own t2 = some p2 → 1 ≤ p.length →
    1 ≤ p2.length → i < pageTableSize → i2 < pageTableSize →
    isLeaf p.length (k.ram t i) = true → isLeaf p2.length (k.ram t2 i2) = true →
    (t ≠ t2 ∨ i ≠ i2) →
    leafPaddr p.length (k.ram t i) + leafSize p.length ≤ leafPaddr p2.length (k.ram t2 i2) ∨
      leafPaddr p2.length (k.ram t2 i2) + leafSize p2.length ≤ leafPaddr p.length (k.ram t i)

/-- The entry `x` of the dump reports the page that word `i` of the table in
frame `t` maps; the path `p` owns the table. -/
def fromSlot (k : kernelState) (own : Nat → Option (List Nat)) (x : pageTableRange)
    (t : Nat) (p : List Nat) (i : Nat) : Prop :=
  own t = some p ∧ 1 ≤ p.length ∧ i < pageTableSize ∧ isLeaf p.length (k.ram t i) = true ∧
    x.paddr = leafPaddr p.length (k.ram t i) ∧ x.size = leafSize p.length

/-- The entry `x` of the dump comes from a table whose path goes through the
table of the path `q`. -/
def slotUnder (k : kernelState) (own : Nat → Option (List Nat)) (q : List Nat)
    (x : pageTableRange) : Prop :=
  ∃ t p i, fromSlot k own x t p i ∧ List.IsSuffix q p

/-- The entry `x` of the dump comes from word `i` of the table in frame `t0`
with the path `q`, or from a table below that word. -/
def slotAt (k : kernelState) (own : Nat → Option (List Nat)) (t0 : Nat) (q : List Nat)
    (i : Nat) (x : pageTableRange) : Prop :=
  ∃ t p j, fromSlot k own x t p j ∧ ((t = t0 ∧ j = i) ∨ List.IsSuffix (i :: q) p)

/-- Three calls with disjoint ranges: a 4 KiB page, a 2 MiB range that is
mapped with one large page, and two 4 KiB pages in another part of the
address space. -/
def exampleCalls : List mmapCall :=
  [⟨0x1000, 0x2000, 0x100000, 2⟩, ⟨0x200000, 0x400000, 0x200000, 2⟩,
    ⟨0x8000000000, 0x8000002000, 0x110000, 6⟩]

/-- The dump of the table that a sequence of calls leaves. -/
def dumpAfter (k : kernelState) (calls : List mmapCall) (maxVirtAddress : Nat) :
    Option (List pageTableRange) :=
  match mmapRun k.globalPT k calls with
  | some k1 =>
    match dumpPageTable k1.ram k1.globalPT maxVirtAddress with
    | Result.ok entries => some entries
    | _ => none
  | none => none

/-! ## Mapping physical memory from user space (user.go, lines 114-133) -/

/-- What `Map` has when it returns: the physical address and the length of the
page-aligned region it has reserved and mapped, and the offset and the length
of the slice it returns. -/
structure mapping where
  addrAlign : Nat
  sizeAlign : Int
  off : Int
  size : Int
  deriving Repr, DecidableEq

/-- The values `addrAlign`, `off` and `sizeAlign` that `Map` computes (lines
117-120); `addr` is a `uintptr`, `size` an `int`. The second assignment to
`sizeAlign` starts from `size` again. -/
def mapRegion (addr : Nat) (size : Int) : Nat × Int × Int :=
  let addrAlign := andNot64 addr (pageSize - 1)
  let off := toInt64 (sub64 addr addrAlign)
  -- line 119, `sizeAlign := size + off`, is dead: line 120 assigns `sizeAlign` anew
  let sizeAlign := toInt64 (andNot64 (toUint64 (size + pageSize - 1)) (pageSize - 1))
  (addrAlign, off, sizeAlign)

/-- Function `Map` when `Mmap` and `IOMap` succeed: `Mmap` returns a slice of
`sizeAlign` bytes, and the slice expression `vmem[off : off+size : off+size]`
panics (fatal) unless `0 ≤ off ≤ off+size ≤ cap(vmem)`. -/
def Map (addr : Nat) (size : Int) : Result mapping :=
  match mapRegion addr size with
  | (addrAlign, off, sizeAlign) =>
    if 0 ≤ off ∧ off ≤ off + size ∧ off + size ≤ sizeAlign then
      Result.ok ⟨addrAlign, sizeAlign, off, size⟩
    else Result.fatal

/-! ## The interrupt descriptor table (segment_amd64.go, lines 36-84, 153-168) -/

def segmentCode0 : Nat := 1
def ring0 : Nat := 0
def ring3 : Nat := 3
def segFlagPresent : Nat := 1 <<< 15

/-- Method `idt.install` on the table `t` of descriptors, each two 64-bit
words; `interrupt` is a `uint8`, `level` a `uint32`, `ist` a `uint8` and `pc`
the address `funcPC(trampoline)`. -/
def idt.install (t : List (Nat × Nat)) (interrupt level ist pc : Nat) : List (Nat × Nat) :=
  let sel := (segmentCode0 <<< 3 ||| ring0) % 2 ^ 32
  let flags := segFlagPresent % 2 ^ 32
  let trapGate := 0xe
  let w0 := ((sel <<< 16) % 2 ^ 32) ||| ((pc &&& 0xffff) % 2 ^ 32)
  let w1 := ((pc &&& 0xffff0000) % 2 ^ 32) ||| flags ||| (((level % 2 ^ 32) <<< 13) % 2 ^ 32) |||
    (trapGate <<< 8) ||| (ist % 2 ^ 32)
  let w2 := (pc >>> 32) % 2 ^ 32
  t.set interrupt (((w1 <<< 32) % wordMod) ||| w0, w2)

/-- The gate type of a 64-bit IDT descriptor: bits 40-43 of its first word
(0xE is an interrupt gate, 0xF a trap gate). -/
def gateType (d : Nat × Nat) : Nat := (d.1 >>> 40) &&& 0xf

/-- The segment selector of a descriptor: bits 16-31 of its first word. -/
def gateSelector (d : Nat × Nat) : Nat := (d.1 >>> 16) &&& 0xffff

/-- The interrupt stack table index of a descriptor: bits 32-34. -/
def gateIST (d : Nat × Nat) : Nat := (d.1 >>> 32) &&& 7

/-- The descriptor privilege level: bits 45-46. -/
def gateDPL (d : Nat × Nat) : Nat := (d.1 >>> 45) &&& 3

/-- The present bit of a descriptor: bit 47. -/
def gatePresent (d : Nat × Nat) : Bool := d.1.testBit 47

/-- The handler address of a descriptor: offset bits 0-15 and 16-31 in the
first word, bits 32-63 in the second. -/
def gateOffset (d : Nat × Nat) : Nat :=
  (d.1 &&& 0xffff) ||| (((d.1 >>> 48) &&& 0xffff) <<< 16) ||| ((d.2 &&& 0xffffffff) <<< 32)

/-- A table of 256 empty descriptors. -/
def emptyIDT : List (Nat × Nat) := List.replicate 256 (0, 0)

/-! ## Arming the timer (timer_amd64.go, lines 192-219) -/

/-- The period count `schedulePeriods` of `setTimer` (lines 193-203) for the
HPET period `period` in femtoseconds and the duration `dur` in nanoseconds;
`period` is not 0 after `initClock`. -/
def schedulePeriods (period : Nat) (dur : Int) : Nat :=
  let dur := if dur > 2 * 1000000000 then 2 * 1000000000 else dur
  ((toUint64 dur * 1000000) % wordMod / period) % 2 ^ 32

/-- The arming loop of `setTimer` (lines 210-217) with the period count `sp`.
`reads` holds the values of the HPET counter that the calls of `readCounter`
return, one for every iteration. The result is the comparator value armed
last and the counter read last, or `none` when the exit test has failed for
every value of `reads`. -/
def armLoop (sp : Nat) : Nat → List Nat → Option (Nat × Nat)
  | _, [] => none
  | counter, c :: rest =>
    let «end» := (counter + sp) % 2 ^ 32
    let dur := («end» + 2 ^ 32 - c % 2 ^ 32) % 2 ^ 32
    if dur < sp then some («end», c % 2 ^ 32) else armLoop sp (c % 2 ^ 32) rest

/-- Function `setTimer`: the HPET state, the clock and the comparator value
when it returns. -/
def setTimer (h : hpetState) (cl : clock) (dur : Int) (reads : List Nat) :
    Option (hpetState × clock × Nat) :=
  match armLoop (schedulePeriods h.period dur) (h.last % 2 ^ 32) reads with
  | none => none
  | some (comparator, counter) =>
    match updateClockWithCounter h cl counter with
    | (h1, cl1) => some (h1, cl1, comparator)

/-! ## The scheduler (thread_amd64.go, lines 144-175) -/

/-- The outcome of one scan of `schedule`: the indices of the threads that
were examined, in order, the thread that was resumed if any, the thread table
and the pending interrupts after the scan, and `maxDur`. -/
structure scanResult where
  examined : List Nat
  resumed : Option Nat
  list : List thread
  pendingInterrupts : List Bool
  maxDur : Int

/-- The inner loop of `schedule` (lines 149-170) with `n` iterations to go.
`cur` is `t.id` for the thread `t` of the previous iteration (at first the
thread the function was called with) and `ex` the threads examined so far.
The thread that `runnable` reports ready has its block conditions cleared and
is made current; the loop ends there, since `resumeThread` does not return. -/
def scheduleScan (monotoneTime : Nat) :
    Nat → List thread → List Bool → Nat → Int → List Nat → scanResult
  | 0, ts, pend, _, maxDur, ex => ⟨ex, none, ts, pend, maxDur⟩
  | n + 1, ts, pend, cur, maxDur, ex =>
    let tid := (cur + 1) % ts.length
    let t := ts.getD tid default
    match t.runnable pend monotoneTime with
    | (t1, pend1, dur, ok) =>
      if !ok then
        let maxDur := if dur > 0 ∧ dur < maxDur then dur else maxDur
        scheduleScan monotoneTime n (ts.set tid t1) pend1 t1.id maxDur (ex ++ [tid])
      else
        ⟨ex ++ [tid], some tid, ts.set tid t1.clearConditions, pend1, maxDur⟩

/-- One scan of `schedule(t)` over the thread table: `cur` is `t.id`, and
`maxDur` starts at 24 hours. -/
def threads.scheduleScan (ts : threads) (pendingInterrupts : List Bool) (monotoneTime cur : Nat) :
    scanResult :=
  Unik.scheduleScan monotoneTime ts.list.length ts.list pendingInterrupts cur
    (24 * 3600 * 1000000000) []

/-- The `m` thread indices that follow `c` in the cyclic order of a table of
`n` threads. -/
def cycFrom (n : Nat) : Nat → Nat → List Nat
  | _, 0 => []
  | c, m + 1 => (c + 1) % n :: cycFrom n ((c + 1) % n) m

/-- Whether `runnable` reports the thread at index `j` ready. -/
def readyAt (ts : List thread) (pend : List Bool) (monotoneTime j : Nat) : Bool :=
  ((ts.getD j default).runnable pend monotoneTime).2.2.2

/-- A table of three threads: thread 0 runs, thread 1 waits on a futex and
thread 2 has no block condition. -/
def scanTable : threads :=
  ⟨[⟨context.zero, 0, blockCondition.zero⟩, ⟨context.zero, 1, ⟨0, futexCondition, ⟨0, 0⟩, 64⟩⟩,
    ⟨context.zero, 2, blockCondition.zero⟩], maxThreads⟩

/-- The cyclic order `(c+1) mod n, (c+2) mod n, …` of the `n` thread indices. -/
def cycOrder (n c : Nat) : List Nat := (List.range n).map (fun i => (c + 1 + i) % n)

/-! ## Slices of I/O memory (virtio.go, lines 583-661) -/

/-- The loop of `IOMem.Slice` (lines 632-659) over the blocks from the one at
the buffer offset `physOff` on: the blocks of the slice `[off, end)`. A block
before the range is skipped (`continue`), and the loop ends at the first block
after the range (`break`). -/
def sliceBlocks (off «end» : Int) : Int → List PhysPage → List PhysPage
  | _, [] => []
  | physOff, p :: rest =>
    let addr := p.Addr
    let size := p.Size
    let physEnd := toInt64 (physOff + size)
    let adjust := toInt64 (off - physOff)
    let addr1 := if adjust > 0 then add64 addr (toUint64 adjust) else addr
    let size1 := if adjust > 0 then toInt64 (size - adjust) else size
    if adjust > 0 ∧ size1 ≤ 0 then sliceBlocks off «end» physEnd rest
    else
      let adjust2 := toInt64 (physEnd - «end»)
      let size2 := if adjust2 > 0 then toInt64 (size1 - adjust2) else size1
      if adjust2 > 0 ∧ size2 ≤ 0 then []
      else ⟨addr1, size2⟩ :: sliceBlocks off «end» physEnd rest

/-- Method `IOMem.Slice`; fatal for the panic "slicing beyond buffer end" and
for the bounds panic of the slice expression `m.Mem[off:end:end]`. -/
def IOMem.Slice (m : IOMem) (off «end» : Int) : Result IOMem :=
  if «end» > m.Mem.length then Result.fatal
  else if off < 0 ∨ off > «end» then Result.fatal
  else
    Result.ok ⟨(m.Mem.drop off.toNat).take («end» - off).toNat,
      sliceBlocks off «end» 0 m.Blocks⟩

/-- The sum of the sizes of the blocks. -/
def blocksSize : List PhysPage → Int
  | [] => 0
  | p :: rest => p.Size + blocksSize rest

/-- The physical address of byte `i` of a buffer that the blocks `bs` back in
this order. -/
def physAddrAt : List PhysPage → Int → Option Nat
  | [], _ => none
  | p :: rest, i =>
    if i < p.Size then some (add64 p.Addr (toUint64 i)) else physAddrAt rest (i - p.Size)

/-- A buffer of 12 bytes in three blocks of 4, 5 and 3 bytes. -/
def exampleMem : IOMem :=
  ⟨[0, 1, 2, 3, 4, 5, 6, 7, 8, 9, 10, 11], [⟨0x1000, 4⟩, ⟨0x3000, 5⟩, ⟨0x8000, 3⟩]⟩

/-! ## Input events (input/input.go, lines 16-30, 78-80, 157-175) -/

/-- Type `Event` of package `input`: `Type` and `Code` are `uint16`, `Value` a
`uint32`. -/
structure input.Event where
  «Type» : Nat
  Code : Nat
  Value : Nat
  deriving Repr, DecidableEq

/-- Constant `eventSize`: the size of an `Event` in bytes. -/
def input.eventSize : Nat := 8

/-- The event that `*(*Event)(unsafe.Pointer(&buf[0]))` reads from the first 8
bytes of `buf` on the little-endian amd64. -/
def input.decodeEvent (buf : List Nat) : input.Event :=
  ⟨buf.getD 0 0 + 256 * buf.getD 1 0, buf.getD 2 0 + 256 * buf.getD 3 0,
    buf.getD 4 0 + 256 * buf.getD 5 0 + 65536 * buf.getD 6 0 + 16777216 * buf.getD 7 0⟩

/-- The loop of `Device.Read` (lines 165-171) with room for `n` events in
`events`: the events it stores and what is left of `buf`. -/
def input.parseEvents : Nat → List Nat → List input.Event × List Nat
  | 0, buf => ([], buf)
  | n + 1, buf =>
    if buf.length ≥ input.eventSize then
      match input.parseEvents n (buf.drop input.eventSize) with
      | (events, rest) => (input.decodeEvent buf :: events, rest)
    else ([], buf)

/-- Type `Device` of package `input`, as far as `Read` uses it: `buf` and
`off`. The reader `d.r` is outside of it. -/
structure input.Device where
  buf : List Nat
  off : Nat
  deriving Repr, DecidableEq

/-- A call `d.r.Read(p)` with `len(p) = room` on a reader that has the bytes
`stream` still to come and hands out `k` bytes at most this time: the bytes
stored in `p` and the rest of the stream. -/
def input.readerRead (stream : List Nat) (k room : Nat) : List Nat × List Nat :=
  (stream.take (min k room), stream.drop (min k room))

/-- Method `Device.Read` with room for `nevents` events in `events`: the events
stored, the device and the rest of the stream after the call. -/
def input.Device.Read (d : input.Device) (nevents : Nat) (stream : List Nat) (k : Nat) :
    List input.Event × input.Device × List Nat :=
  let r :=
    if d.off < input.eventSize then
      let p := input.readerRead stream k (d.buf.length - d.off)
      (d.buf.take d.off ++ p.1 ++ d.buf.drop (d.off + p.1.length), d.off + p.1.length, p.2)
    else (d.buf, d.off, stream)
  match r with
  | (buf1, off1, stream1) =>
    let buf := buf1.take off1
    match input.parseEvents nevents buf with
    | (events, rest) => (events, ⟨rest ++ buf1.drop rest.length, rest.length⟩, stream1)

/-- The number of bytes at the start of `d.buf` when the loop of `Device.Read`
begins (line 164): `d.off`, and with fewer than `eventSize` bytes there, the
bytes that the call `d.r.Read(d.buf[d.off:])` has added. -/
def input.buffered (d : input.Device) (stream : List Nat) (k : Nat) : Nat :=
  if d.off < input.eventSize then
    d.off + (input.readerRead stream k (d.buf.length - d.off)).1.length
  else d.off

/-- A sequence of calls of `Device.Read`, each with the room `nevents` in
`events` and the number `k` of bytes the reader hands out at most: all the
events returned, in order, the device and the rest of the stream. -/
def input.readAll (d : input.Device) (stream : List Nat) :
    List (Nat × Nat) → List input.Event × input.Device × List Nat
  | [] => ([], d, stream)
  | (nevents, k) :: calls =>
    match d.Read nevents stream k with
    | (events, d1, stream1) =>
      match input.readAll d1 stream1 calls with
      | (events2, d2, stream2) => (events ++ events2, d2, stream2)

/-- The first `n` records of 8 bytes of a byte stream, as events. -/
def input.records : Nat → List Nat → List input.Event
  | 0, _ => []
  | n + 1, s => input.decodeEvent s :: input.records n (s.drop 8)

/-- The invariant of `Device.Read` on the stream `s0` after `n` events have
been returned: the first `d.off` bytes of `d.buf` are the bytes of the stream
that follow the `n` records, and `s` is the rest of the stream after them. -/
def input.inv (s0 : List Nat) (n : Nat) (d : input.Device) (s : List Nat) : Prop :=
  d.off ≤ d.buf.length ∧ 8 * n + d.off ≤ s0.length ∧
    d.buf.take d.off = (s0.drop (8 * n)).take d.off ∧ s = s0.drop (8 * n + d.off)

/-- A device with a buffer of 16 bytes, as `newDevice` makes it for a queue
of two descriptors. -/
def input.exampleDevice : input.Device := ⟨List.replicate 16 0, 0⟩

/-- Three events `(EV_ABS, ABS_X, 100)`, `(EV_ABS, ABS_Y, 200)`,
`(EV_SYN, 0, 0)` as a byte stream, and 3 bytes of a fourth. -/
def input.exampleStream : List Nat :=
  [3, 0, 0, 0, 100, 0, 0, 0, 3, 0, 1, 0, 200, 0, 0, 0, 0, 0, 0, 0, 0, 0, 0, 0, 1, 0, 16]

/-! ## Batching 3D commands (gpu/gpu.go, lines 19-35, 83-89, 188-192, 1031-1121) -/

/-- Constant `_VIRTIO_GPU_CMD_SUBMIT_3D`: `0x0200 + iota` in the eighth line of
its constant block. -/
def gpu._VIRTIO_GPU_CMD_SUBMIT_3D : Nat := 0x0200 + 7

/-- The 4 bytes that `binary.LittleEndian.PutUint32` stores for a `uint32`. -/
def putUint32 (v : Nat) : List Nat :=
  [v % 256, v / 256 % 256, v / 65536 % 256, v / 16777216 % 256]

/-- The 24 bytes of a `ctrlHdr` with the given `_type` and `ctx_id`, the other
fields being zero, in memory order on the little-endian amd64: `_type`,
`flags`, `fence_id`, `ctx_id`, `padding`. -/
def gpu.ctrlHdr (type ctx_id : Nat) : List Nat :=
  putUint32 type ++ putUint32 0 ++ (putUint32 0 ++ putUint32 0) ++ putUint32 ctx_id ++
    putUint32 0

/-- The 32 bytes of a `cmdSubmitReq`: the header, `size` and `padding`. -/
def gpu.cmdSubmitReq (type ctx_id size : Nat) : List Nat :=
  gpu.ctrlHdr type ctx_id ++ putUint32 size ++ putUint32 0

/-- Storing `bytes` at offset `off` of a buffer. -/
def writeAt (mem : List Nat) (off : Nat) (bytes : List Nat) : List Nat :=
  mem.take off ++ bytes ++ mem.drop (off + bytes.length)

/-- Type `Device` of package `gpu`, as far as the staging buffer of the control
queue goes. `mem` holds the bytes of the backing array of `d.cmd.buf.Mem`, so
its length is `cap(d.cmd.buf.Mem)`, and `len` is `len(d.cmd.buf.Mem)`;
`bufOff` is `d.cmd.bufOff`; `begun`, `offset` and `size` are the fields of
`d.cmd3d`. The `int` fields never leave the range `[0, cap]`. `allocFails`
says that `kernel.Alloc` has no memory left for `Ensure`, and `sent` lists the
requests handed to the control queue by `d.command`, the latest last. -/
structure gpu.Device where
  mem : List Nat
  len : Nat
  bufOff : Nat
  begun : Bool
  offset : Nat
  size : Nat
  ctxID : Nat
  allocFails : Bool
  sent : List (List Nat)
  deriving Repr, DecidableEq

/-- Method `Device.flush3D`: the size field of the pending request is stored,
the request `d.cmd.buf.Slice(offset, bufOff)` is handed to the control queue
together with a response buffer of 24 bytes. Fatal for a panic, and for the
call of `sync` from `alloc` when the response does not fit: `sync` calls
`flush3D` again with `begun` still set, which does not end. -/
def gpu.Device.flush3D (d : gpu.Device) : Result gpu.Device :=
  if !d.begun then Result.ok d
  else if d.offset + 24 + 4 > d.len then Result.fatal
  else
    let mem1 := writeAt d.mem (d.offset + 24) (putUint32 (d.size % 2 ^ 32))
    if d.bufOff > d.len ∨ d.offset > d.bufOff then Result.fatal
    else
      let reqBuf := (mem1.drop d.offset).take (d.bufOff - d.offset)
      if d.bufOff + 24 > d.mem.length then Result.fatal
      else if d.allocFails = true ∧ d.bufOff + 24 > d.len then Result.fatal
      else
        Result.ok { d with mem := mem1, len := max d.len (d.bufOff + 24),
                           bufOff := d.bufOff + 24, begun := false,
                           sent := d.sent ++ [reqBuf] }

/-- Method `Device.sync`; the wait for the queue to drain (`d.cmd.q.Sync()`) is
taken to end. -/
def gpu.Device.sync (d : gpu.Device) : Result gpu.Device :=
  match d.flush3D with
  | Result.ok d1 => Result.ok { d1 with bufOff := 0, begun := false }
  | Result.err => Result.err
  | Result.fatal => Result.fatal

/-- Method `Device.ensure`. -/
def gpu.Device.ensure (d : gpu.Device) (size : Nat) : Result gpu.Device :=
  if d.bufOff + size > d.mem.length then d.sync else Result.ok d

/-- Method `Device.alloc`: the offset of the slice it returns, which has `size`
bytes; `err` when `Ensure` fails for lack of memory, fatal for the panic
"buffer overflow" of `Ensure`. `Ensure` is taken to map the missing bytes
exactly; `kernel.Alloc` may map more, and `len` is only read by the bound
checks, which a longer slice passes as well. -/
def gpu.Device.alloc (d : gpu.Device) (size : Nat) : Result (Nat × gpu.Device) :=
  match d.ensure size with
  | Result.ok d1 =>
    if d1.bufOff + size > d1.mem.length then Result.fatal
    else if d1.allocFails = true ∧ d1.bufOff + size > d1.len then Result.err
    else
      Result.ok (d1.bufOff,
        { d1 with len := max d1.len (d1.bufOff + size), bufOff := d1.bufOff + size })
  | Result.err => Result.err
  | Result.fatal => Result.fatal

/-- The first part of `submit3d` (lines 1033-1057): room is made, and the
header of a new request is stored when none is begun. -/
def gpu.Device.begin3d (d : gpu.Device) (cmd : List Nat) : Result gpu.Device :=
  let total := cmd.length + 24 + (if !d.begun then 32 else 0)
  match d.ensure total with
  | Result.ok d1 =>
    if !d1.begun then
      let d2 := { d1 with size := 0, offset := d1.bufOff }
      match d2.alloc 32 with
      | Result.ok (header, d3) =>
        Result.ok { d3 with
          mem := writeAt d3.mem header
            (gpu.cmdSubmitReq gpu._VIRTIO_GPU_CMD_SUBMIT_3D d3.ctxID 0),
          begun := true }
      | _ => Result.fatal
    else Result.ok d1
  | Result.err => Result.err
  | Result.fatal => Result.fatal

/-- Method `Device.submit3d`. -/
def gpu.Device.submit3d (d : gpu.Device) (cmd : List Nat) : Result gpu.Device :=
  match d.begin3d cmd with
  | Result.ok d1 =>
    match d1.alloc cmd.length with
    | Result.ok (buf, d2) =>
      Result.ok { d2 with size := d2.size + cmd.length, mem := writeAt d2.mem buf cmd }
    | _ => Result.fatal
  | Result.err => Result.err
  | Result.fatal => Result.fatal

/-- A sequence of calls of `submit3d`. -/
def gpu.Device.submitAll (d : gpu.Device) : List (List Nat) → Result gpu.Device
  | [] => Result.ok d
  | cmd :: cmds =>
    match d.submit3d cmd with
    | Result.ok d1 => d1.submitAll cmds
    | Result.err => Result.err
    | Result.fatal => Result.fatal

/-- A sequence of calls of `submit3d` followed by `flush3D`. -/
def gpu.Device.submitFlush (d : gpu.Device) (cmds : List (List Nat)) : Result gpu.Device :=
  match d.submitAll cmds with
  | Result.ok d1 => d1.flush3D
  | Result.err => Result.err
  | Result.fatal => Result.fatal

/-- A device with a staging buffer of 128 bytes that held the byte 0xaa
everywhere when it was used before, and the context id 5. -/
def gpu.exampleDevice : gpu.Device :=
  ⟨List.replicate 128 0xaa, 100, 8, false, 0, 0, 5, false, []⟩

/-- The state of a request that `submit3d` has begun at the buffer offset
`start`, with `content` being the commands submitted so far: the request
occupies the buffer from `start` to `d.bufOff` and holds the header with the
size field zero and then `content`. -/
structure gpu.pending (d : gpu.Device) (start cap ctx : Nat) (sent : List (List Nat))
    (content : List Nat) : Prop where
  begun_eq : d.begun = true
  offset_eq : d.offset = start
  bufOff_eq : d.bufOff = start + 32 + content.length
  size_eq : d.size = content.length
  len_le : d.bufOff ≤ d.len
  cap_eq : d.mem.length = cap
  ctx_eq : d.ctxID = ctx
  alloc_ok : d.allocFails = false
  sent_eq : d.sent = sent
  bytes_eq : (d.mem.drop start).take (32 + content.length)
    = gpu.cmdSubmitReq gpu._VIRTIO_GPU_CMD_SUBMIT_3D ctx 0 ++ content

/-! ## The reader of a device queue (virtio.go, lines 365-470)

A `Reader` hands out the bytes that the device stores into the descriptors of
a queue. The calls of `Read` and the completions of the device are taken one
after the other: the device stores into descriptors that are available and not
used yet, and `Read` looks at descriptors between `r.used` and the used index
it has loaded, so that a completion during a call of `Read` has the effect of
one right after it. -/

/-- Type `Reader`. `used` is a `uint16`; `read` is an `int` that is never
negative; `buffer` holds the bytes of the slice `buffer`, whose capacity is
taken to be its length, as it is for the slices that `IOMem.Slice` makes;
`offsets` is a slice of `int`. -/
structure Reader where
  q : Queue
  used : Nat
  read : Nat
  buffer : List Nat
  offsets : List Int
  deriving Repr, DecidableEq

/-- The loops of `NewReader` (lines 391-415) from the block at the head of the
list on, in which `blockOff` bytes are taken: the final `desc`, `r.offsets`
and the descriptor table. Each round either leaves a block or counts `desc`
up, so the first argument is at least the number of rounds when it is the
number of blocks plus `size` plus one; `none` is the index-out-of-range panic
at `q.queue.descriptors[desc]`. -/
def newReaderLoop (descSize : Int) (size : Nat) :
    Nat → List PhysPage → Int → Int → Nat → List Int → List queueDescriptor →
      Option (Nat × List Int × List queueDescriptor)
  | 0, _, _, _, _, _, _ => none
  | _ + 1, [], _, _, desc, offsets, ds => some (desc, offsets, ds)
  | fuel + 1, b :: bs, blockOff, bufOffset, desc, offsets, ds =>
    if desc ≥ size then some (desc, offsets, ds)
    else
      let max := toInt64 (b.Size - blockOff)
      let sz := if descSize > max then max else descSize
      if sz = 0 then newReaderLoop descSize size fuel bs 0 bufOffset desc offsets ds
      else if desc ≥ ds.length then none
      else
        newReaderLoop descSize size fuel (b :: bs) (toInt64 (blockOff + sz))
          (toInt64 (bufOffset + sz)) (desc + 1) (offsets.set desc bufOffset)
          (ds.set desc
            ⟨add64 b.Addr (toUint64 blockOff), (sz % 2 ^ 32).toNat, _VIRTQ_DESC_F_WRITE, 0⟩)

/-- The loop of `fill` (lines 426-436) with the local variable `avail` and the
available ring: their final values. The difference `limit - desc` goes down by
one in each round, so the loop ends within `2 ^ 16` rounds; `none` is the
division by zero for a queue of size 0 and the index-out-of-range panic. -/
def fillLoop (used size : Nat) : Nat → Nat → List Nat → Option (Nat × List Nat)
  | 0, _, _ => none
  | fuel + 1, avail, ring =>
    let desc := avail
    let limit := (used + 2 ^ 16 - 1) % 2 ^ 16
    if size = 0 then none
    else if (limit + 2 ^ 16 - desc) % 2 ^ 16 % size = 0 then some (avail, ring)
    else
      let idx := desc % size
      if idx ≥ ring.length then none
      else fillLoop used size fuel ((avail + 1) % 2 ^ 16) (ring.set idx idx)

/-- Method `Reader.fill`; `none` for a panic. -/
def Reader.fill (r : Reader) : Option Reader :=
  match fillLoop r.used r.q.size (2 ^ 16) r.q.queue.available.idx r.q.queue.available.ring with
  | none => none
  | some (avail, ring) =>
    let a := r.q.queue.available
    let q1 := r.q.setAvailable ⟨a.flags, a.idx, ring, a.used_event⟩
    some { r with q := q1.notifyDevice avail }

/-- Function `NewReader`. -/
def NewReader (q : Queue) (buffer : IOMem) (descSize : Int) : Outcome (Result Reader) :=
  match newReaderLoop descSize q.size (buffer.Blocks.length + q.size + 1) buffer.Blocks 0 0 0
      (List.replicate q.size 0) q.queue.descriptors with
  | none => Outcome.panic
  | some (desc, offsets, ds) =>
    if desc ≠ q.size then Outcome.returned Result.err
    else
      match (Reader.mk (q.setDescriptors ds) 0 0 buffer.Mem offsets).fill with
      | none => Outcome.panic
      | some r => Outcome.returned (Result.ok r)

/-- The second loop of `Read` (lines 450-467) with `room = len(buf)` and the
bytes `out` stored in the caller's buffer so far: the bytes stored and the
reader at the end, with `Result.err` for the return of the error "device
returned descriptors out-of-order". The loop ends within `2 ^ 16` rounds, as
`r.used` goes up to `qused`; `none` is a panic. -/
def readerLoop (qused : Nat) : Nat → Reader → Nat → List Nat → Option (Result (List Nat) × Reader)
  | 0, _, _, _ => none
  | fuel + 1, r, room, out =>
    if qused = r.used then some (Result.ok out, r)
    else if r.q.size = 0 then none
    else
      let idx := r.used % r.q.size
      match r.q.queue.used.ring[idx]? with
      | none => none
      | some desc =>
        if desc.id % 2 ^ 16 ≠ idx then some (Result.err, r)
        else
          match r.offsets[idx]? with
          | none => none
          | some off =>
            if off < 0 ∨ off > r.buffer.length then none
            else
              let src := r.buffer.drop off.toNat
              if r.read > desc.len ∨ desc.len > src.length then none
              else
                let chunk := (src.drop r.read).take (desc.len - r.read)
                let read := min room chunk.length
                let out1 := out ++ chunk.take read
                if room - read = 0 then some (Result.ok out1, { r with read := r.read + read })
                else
                  readerLoop qused fuel { r with used := (r.used + 1) % 2 ^ 16, read := 0 }
                    (room - read) out1

/-- Method `Reader.Read` with `room = len(buf)`: the bytes stored in `buf`
(their number is the result `n`) and the reader after the call. With the used
index equal to `r.used` the call receives from the interrupt channel until no
signal is left, and waits. -/
def Reader.Read (r : Reader) (room : Nat) : Outcome (Result (List Nat) × Reader) :=
  if r.q.queue.used.idx = r.used then Outcome.waiting
  else
    match readerLoop r.q.queue.used.idx (2 ^ 16) r room [] with
    | none => Outcome.panic
    | some (Result.ok out, r1) =>
      match r1.fill with
      | none => Outcome.panic
      | some r2 => Outcome.returned (Result.ok out, r2)
    | some (e, r1) => Outcome.returned (e, r1)

/-! ### The device of a read queue

The device is not part of the driver. It takes the entries of the available
ring in ring order and completes each right away: it stores a payload into the
memory of the descriptor, which must be writable for the device and long
enough, and appends the descriptor to the used ring. -/

/-- The bytes of a buffer that the blocks `blocks` back after the device has
stored `payload` at the physical addresses from `addr` on. -/
def deviceStore (blocks : List PhysPage) (buffer : List Nat) (addr : Nat) (payload : List Nat) :
    List Nat :=
  (List.range buffer.length).map (fun (i : Nat) =>
    match physAddrAt blocks (i : Int) with
    | some p => if sub64 p addr < payload.length then payload.getD (sub64 p addr) 0
      else buffer.getD i 0
    | none => buffer.getD i 0)

/-- The device completes the next entry of the available ring with `payload`;
`none` when there is no entry, or no such descriptor, or the descriptor is not
writable for the device or shorter than the payload. -/
def readerDevice (blocks : List PhysPage) (r : Reader) (payload : List Nat) : Option Reader :=
  if r.q.queue.used.idx = r.q.queue.available.idx ∨ r.q.size = 0 then none
  else
    match r.q.queue.available.ring[r.q.queue.used.idx % r.q.size]? with
    | none => none
    | some head =>
      match r.q.queue.descriptors[head]? with
      | none => none
      | some d =>
        if d.flags &&& _VIRTQ_DESC_F_WRITE = 0 ∨ payload.length > d.len then none
        else
          some { r with q := deviceComplete r.q head payload.length,
                        buffer := deviceStore blocks r.buffer d.addr payload }

/-- An event on a read queue: the device completes a descriptor with a
payload, or `Read` is called with a buffer of `room` bytes. -/
inductive readerEvent where
  | complete (payload : List Nat)
  | read (room : Nat)
  deriving Repr, DecidableEq

/-- A reader with the record of what has happened: `payloads` are the payloads
of the completions and `returned` are the bytes that the calls of `Read` have
returned, both in the order of the events. -/
structure readerTrace where
  r : Reader
  payloads : List (List Nat)
  returned : List Nat
  deriving Repr, DecidableEq

/-- One event. A completion that the device cannot make and a call of `Read`
that does not return bytes (it waits, panics or returns the error) are not
steps (`none`). -/
def readerStep (blocks : List PhysPage) (tr : readerTrace) : readerEvent → Option readerTrace
  | readerEvent.complete payload =>
    match readerDevice blocks tr.r payload with
    | some r1 => some ⟨r1, tr.payloads ++ [payload], tr.returned⟩
    | none => none
  | readerEvent.read room =>
    match tr.r.Read room with
    | Outcome.returned (Result.ok out, r1) => some ⟨r1, tr.payloads, tr.returned ++ out⟩
    | _ => none

/-- A sequence of events. -/
def readerRun (blocks : List PhysPage) (tr : readerTrace) : List readerEvent → Option readerTrace
  | [] => some tr
  | e :: es =>
    match readerStep blocks tr e with
    | some tr1 => readerRun blocks tr1 es
    | none => none

/-- A buffer as `NewIOMem` and `Slice` make it: the blocks are not empty and
add up to the length of the buffer, they lie in the physical address space,
and no two of them overlap. -/
structure IOMem.wf (m : IOMem) : Prop where
  pos : ∀ p ∈ m.Blocks, 0 < p.Size
  sum : blocksSize m.Blocks = m.Mem.length
  len_lt : (m.Mem.length : Int) < 2 ^ 63
  fits : ∀ p ∈ m.Blocks, (p.Addr : Int) + p.Size ≤ 2 ^ 64
  disjoint : m.Blocks.Pairwise (fun a b =>
    (a.Addr : Int) + a.Size ≤ b.Addr ∨ (b.Addr : Int) + b.Size ≤ a.Addr)

/-- A queue as `ConfigureQueue` hands it over: the size is a power of two up
to `maxQueueSize`, the arrays have `maxQueueSize` elements, and both ring
indices are zero. -/
structure Queue.ready (q : Queue) : Prop where
  size_pos : 1 ≤ q.size
  size_le : q.size ≤ maxQueueSize
  size_dvd : q.size ∣ 2 ^ 16
  descs_len : q.queue.descriptors.length = maxQueueSize
  avail_len : q.queue.available.ring.length = maxQueueSize
  used_len : q.queue.used.ring.length = maxQueueSize
  avail_idx : q.queue.available.idx = 0
  used_idx : q.queue.used.idx = 0

/-- A buffer of 8 bytes in two blocks of 5 and 3 bytes. -/
def readerMem : IOMem :=
  ⟨[0, 0, 0, 0, 0, 0, 0, 0], [⟨0x1000, 5⟩, ⟨0x3000, 3⟩]⟩

/-- The reader that `NewReader` makes for a fresh queue of 4 descriptors and
`readerMem` with descriptors of 2 bytes. -/
def exampleReader : Reader :=
  match NewReader (freshQueue 4) readerMem 2 with
  | Outcome.returned (Result.ok r) => r
  | _ => ⟨freshQueue 4, 0, 0, [], []⟩

/-- A run: the device completes three descriptors with payloads of 2, 1 and 1
bytes, `Read` is called with room for 3 bytes and then for 5 bytes, the
device completes one more descriptor, and `Read` is called with room for one
byte. -/
def readerEvents : List readerEvent :=
  [readerEvent.complete [11, 12], readerEvent.complete [13], readerEvent.complete [14],
    readerEvent.read 3, readerEvent.read 5, readerEvent.complete [15, 16], readerEvent.read 1]

/-- The state after the run `readerEvents`. -/
def readerExample : readerTrace :=
  match readerRun readerMem.Blocks ⟨exampleReader, [], []⟩ readerEvents with
  | some tr => tr
  | none => ⟨exampleReader, [], []⟩

/-- The layout that `NewReader` gives the descriptors of a queue of `size`
descriptors: descriptor `i` is writable for the device, its memory is the
part of the buffer at the offset `offsets[i]`, the parts of the descriptors
follow one another in the buffer, and no two bytes of the buffer share a
physical address. -/
structure readerLayout (blocks : List PhysPage) (size : Nat) (ds : List queueDescriptor)
    (offsets : List Int) (buflen : Nat) : Prop where
  entry : ∀ i, i < size → ∃ (d : queueDescriptor) (o : Nat), ds[i]? = some d ∧
    offsets[i]? = some (o : Int) ∧ o + d.len ≤ buflen ∧
    d.flags &&& _VIRTQ_DESC_F_WRITE ≠ 0 ∧
    ∀ k : Nat, k < d.len → physAddrAt blocks ((o + k : Nat) : Int) = some (add64 d.addr k)
  apart : ∀ (i j : Nat) (di dj : queueDescriptor) (oi oj : Nat), i < j → j < size →
    ds[i]? = some di → ds[j]? = some dj → offsets[i]? = some (oi : Int) →
    offsets[j]? = some (oj : Int) → oi + di.len ≤ oj
  inj : ∀ i j : Nat, i < buflen → j < buflen →
    physAddrAt blocks (i : Int) = physAddrAt blocks (j : Int) → i = j
  len_lt : buflen < 2 ^ 63

/-- The invariant of the loops of `NewReader` over a buffer with the blocks
`blocks`: the descriptors below `desc` are set up, each with its part of the
buffer, which ends at or before `bufOffset`, and in the order of the buffer. -/
structure newReaderInv (blocks : List PhysPage) (size : Nat) (bufOffset : Int) (desc : Nat)
    (offsets : List Int) (ds : List queueDescriptor) : Prop where
  offs_len : offsets.length = size
  entry : ∀ i, i < desc → ∃ (d : queueDescriptor) (o : Nat), ds[i]? = some d ∧
    offsets[i]? = some (o : Int) ∧ (o : Int) + d.len ≤ bufOffset ∧
    d.flags &&& _VIRTQ_DESC_F_WRITE ≠ 0 ∧
    ∀ k : Nat, k < d.len → physAddrAt blocks ((o + k : Nat) : Int) = some (add64 d.addr k)
  apart : ∀ (i j : Nat) (di dj : queueDescriptor) (oi oj : Nat), i < j → j < desc →
    ds[i]? = some di → ds[j]? = some dj → offsets[i]? = some (oi : Int) →
    offsets[j]? = some (oj : Int) → oi + di.len ≤ oj

/-- The used ring of a reader holds, from the index `r.used` on, the
descriptors that the device has completed with the payloads `done`, and the
buffer holds each payload at the offset of its descriptor. -/
def usedWindow (size : Nat) (r : Reader) (done : List (List Nat)) : Prop :=
  ∀ (t : Nat) (p : List Nat), done[t]? = some p → ∃ (u : usedElem) (o : Nat),
    r.q.queue.used.ring[(r.used + t) % size]? = some u ∧
    u.id % 2 ^ 16 = (r.used + t) % size ∧ u.len = p.length ∧
    r.offsets[(r.used + t) % size]? = some (o : Int) ∧ o + p.length ≤ r.buffer.length ∧
    (r.buffer.drop o).take p.length = p ∧
    ∃ d : queueDescriptor, r.q.queue.descriptors[(r.used + t) % size]? = some d ∧
      p.length ≤ d.len

/-- The invariant of a read queue of `size` descriptors with its device,
`done` being the payloads of the descriptors that the device has completed and
`Read` has not left yet: all descriptors but one are available to the device
or completed; the available ring holds those the device has not completed,
each in the slot of its index; the used ring and the buffer hold the completed
ones; and the bytes returned so far, followed by the bytes of `done` that
`Read` has not returned, are the bytes of all payloads. -/
structure readerInv (blocks : List PhysPage) (size : Nat) (tr : readerTrace)
    (done : List (List Nat)) : Prop where
  size_eq : tr.r.q.size = size
  size_pos : 1 ≤ size
  size_le : size ≤ maxQueueSize
  size_dvd : size ∣ 2 ^ 16
  avail_len : tr.r.q.queue.available.ring.length = maxQueueSize
  used_len : tr.r.q.queue.used.ring.length = maxQueueSize
  lay : readerLayout blocks size tr.r.q.queue.descriptors tr.r.offsets tr.r.buffer.length
  used_lt : tr.r.used < 2 ^ 16
  done_lt : done.length < size
  used_idx : tr.r.q.queue.used.idx = (tr.r.used + done.length) % 2 ^ 16
  avail_idx : tr.r.q.queue.available.idx = (tr.r.used + (size - 1)) % 2 ^ 16
  avail_win : ∀ t, done.length ≤ t → t < size - 1 →
    tr.r.q.queue.available.ring[(tr.r.used + t) % size]? = some ((tr.r.used + t) % size)
  used_win : usedWindow size tr.r done
  read_le : tr.r.read ≤ (done.headD []).length
  stream : tr.returned ++ done.flatten.drop tr.r.read = tr.payloads.flatten

/-- The example reader when the second loop of `Read` has left two
descriptors and `fill` has not run yet. -/
def fillExample : Reader := { exampleReader with used := 2 }

/-! ## Word-level lemmas -/

theorem testBit_not64 (x i : Nat) (h : i < 64) : (not64 x).testBit i = !x.testBit i := by
  unfold not64 wordMod
  rw [Nat.testBit_xor, Nat.testBit_two_pow_sub_one]
  simp [h]

theorem testBit_andNot64 (x y i : Nat) (h : i < 64) :
    (andNot64 x y).testBit i = (x.testBit i && !y.testBit i) := by
  simp [andNot64, testBit_not64 y i h]

theorem andNot64_lt (x y : Nat) (hx : x < wordMod) : andNot64 x y < wordMod := by
  unfold andNot64
  exact lt_of_le_of_lt Nat.and_le_left hx

theorem and_one_shiftLeft_eq_zero_iff (w k : Nat) :
    w &&& (1 <<< k) = 0 ↔ w.testBit k = false := by
  rw [Nat.one_shiftLeft]
  constructor
  · intro h
    have h1 : (w &&& 2 ^ k).testBit k = false := by rw [h]; simp
    simpa [Nat.testBit_two_pow_self] using h1
  · intro h
    apply Nat.eq_of_testBit_eq
    intro i
    by_cases hik : k = i
    · subst hik; simp [h]
    · simp [Nat.testBit_two_pow_of_ne hik]

theorem startPattern_eq (k : Nat) (h : k < 64) :
    sub64 (shl64 1 (64 - k)) 1 = 2 ^ (64 - k) - 1 := by
  interval_cases k <;> rfl

theorem testBit_startPattern (k b : Nat) (hk : k < 64) (hb : b < 64) :
    (sub64 (shl64 1 (64 - k)) 1).testBit (63 - b) = decide (k ≤ b) := by
  rw [startPattern_eq k hk, Nat.testBit_two_pow_sub_one]
  congr 1
  apply propext
  omega

theorem testBit_endPattern (k b : Nat) (hk : k < 64) (hb : b < 64) :
    (not64 (sub64 (shl64 1 (64 - k)) 1)).testBit (63 - b) = decide (b < k) := by
  rw [testBit_not64 _ _ (by omega), testBit_startPattern k b hk hb]
  by_cases h : k ≤ b
  · simp [h]
  · simp [h]; omega

theorem startPattern_lt (k : Nat) : sub64 (shl64 1 (64 - k)) 1 < wordMod := by
  unfold sub64
  exact Nat.mod_lt _ (by decide)

theorem not64_lt (x : Nat) (hx : x < wordMod) : not64 x < wordMod := by
  unfold not64 wordMod
  exact Nat.xor_lt_two_pow hx (by decide)

/-! ## Lemmas on the bitmap -/

theorem leadingZerosBelow_le (n w : Nat) : leadingZerosBelow n w ≤ n := by
  induction n with
  | zero => simp [leadingZerosBelow]
  | succ n ih =>
    unfold leadingZerosBelow
    split <;> omega

theorem leadingZerosBelow_testBit (n w : Nat) (h : leadingZerosBelow n w ≠ n) :
    w.testBit (n - 1 - leadingZerosBelow n w) = true := by
  induction n with
  | zero => simp [leadingZerosBelow] at h
  | succ n ih =>
    unfold leadingZerosBelow at h ⊢
    by_cases hb : w.testBit n = true
    · simp [hb]
    · simp only [hb] at h ⊢
      have h1 : leadingZerosBelow n w ≠ n := by simpa using h
      have h2 := ih h1
      have h3 := leadingZerosBelow_le n w
      have h4 : n + 1 - 1 - (leadingZerosBelow n w + 1) = n - 1 - leadingZerosBelow n w := by omega
      rw [if_neg (by decide), h4]
      exact h2

theorem getD_set_word (bits : List Nat) (j v k : Nat) (hj : j < bits.length) :
    (bits.set j v).getD k 0 = if k = j then v else bits.getD k 0 := by
  simp only [List.getD_eq_getElem?_getD, List.getElem?_set]
  by_cases h : j = k
  · subst h; simp [hj]
  · have h' : ¬ k = j := fun e => h e.symm
    simp [h, h']

theorem bit_false_of_le (m : memory) (i : Nat) (h : m.bits.length ≤ i / 64) : m.bit i = false := by
  unfold memory.bit
  rw [List.getD_eq_getElem?_getD, List.getElem?_eq_none_iff.mpr h]
  simp

theorem bit_lt_of_true (m : memory) (i : Nat) (h : m.bit i = true) : i / 64 < m.bits.length := by
  by_contra hc
  rw [bit_false_of_le m i (by omega)] at h
  exact Bool.noConfusion h

/-- What `mark` does: it reports the bit of the page and clears it. -/
theorem mark_spec (m m1 : memory) (p : Nat) (b : Bool) (h : m.mark p = some (m1, b)) :
    b = m.bit p ∧ m1.start = m.start ∧ m1.word = m.word ∧
      m1.bits.length = m.bits.length ∧
      (∀ q, m1.bit q = if q = p then false else m.bit q) ∧ (m.wf → m1.wf) := by
  unfold memory.mark at h
  simp only at h
  cases hw : m.bits[p / 64]? with
  | none => rw [hw] at h; exact Option.noConfusion h
  | some word =>
    rw [hw] at h
    have hlen : p / 64 < m.bits.length := by
      by_contra hc
      rw [List.getElem?_eq_none_iff.mpr (by omega)] at hw
      exact Option.noConfusion hw
    have hget : m.bits.getD (p / 64) 0 = word := by
      rw [List.getD_eq_getElem?_getD, hw]; rfl
    have hsh : 64 - p % 64 - 1 = 63 - p % 64 := by omega
    rw [hsh] at h
    simp only at h
    by_cases hz : word &&& 1 <<< (63 - p % 64) = 0
    · rw [if_pos hz] at h
      simp only [Option.some.injEq, Prod.mk.injEq] at h
      obtain ⟨rfl, rfl⟩ := h
      have hb : m.bit p = false := by
        unfold memory.bit
        rw [hget]
        exact (and_one_shiftLeft_eq_zero_iff _ _).mp hz
      refine ⟨hb.symm, rfl, rfl, rfl, ?_, fun h => h⟩
      intro q
      by_cases hq : q = p
      · subst hq; simp [hb]
      · simp [hq]
    · rw [if_neg hz] at h
      simp only [Option.some.injEq, Prod.mk.injEq] at h
      obtain ⟨rfl, rfl⟩ := h
      have hb : m.bit p = true := by
        unfold memory.bit
        rw [hget]
        by_contra hc
        exact hz ((and_one_shiftLeft_eq_zero_iff _ _).mpr (by simpa using hc))
      refine ⟨hb.symm, rfl, rfl, by simp, ?_, ?_⟩
      · intro q
        unfold memory.bit
        simp only
        rw [getD_set_word _ _ _ _ hlen]
        by_cases hq : q = p
        · subst hq
          simp only [if_true]
          rw [testBit_andNot64 _ _ _ (by omega), Nat.one_shiftLeft, Nat.testBit_two_pow_self]
          simp
        · simp only [hq, if_false]
          by_cases hqw : q / 64 = p / 64
          · rw [if_pos hqw, testBit_andNot64 _ _ _ (by omega), Nat.one_shiftLeft,
              Nat.testBit_two_pow_of_ne (by omega), hqw, hget]
            simp
          · rw [if_neg hqw]
      · intro hwf w hw1
        simp only at hw1
        rcases List.mem_or_eq_of_mem_set hw1 with h1 | h1
        · exact hwf w h1
        · rw [h1]
          exact andNot64_lt _ _ (hwf word (List.getElem?_mem hw))

theorem pageSize_eq : pageSize = 4096 := by decide

theorem wordMod_eq : wordMod = 18446744073709551616 := by decide

theorem nextFreePageLoop_spec (m : memory) (n i : Nat) (m1 : memory) (p : Nat)
    (h : nextFreePageLoop m n i = some (m1, p)) :
    m1 = { m with word := p / 64 } ∧ m.bit p = true := by
  induction n generalizing i with
  | zero => simp [nextFreePageLoop] at h
  | succ n ih =>
    unfold nextFreePageLoop at h
    simp only at h
    by_cases hb : leadingZeros64 (m.bits.getD ((i + m.word) % m.bits.length) 0) = 64
    · rw [if_pos hb] at h
      exact ih (i + 1) h
    · rw [if_neg hb] at h
      simp only [Option.some.injEq, Prod.mk.injEq] at h
      obtain ⟨rfl, rfl⟩ := h
      have hle := leadingZerosBelow_le 64 (m.bits.getD ((i + m.word) % m.bits.length) 0)
      have hlt : leadingZeros64 (m.bits.getD ((i + m.word) % m.bits.length) 0) < 64 := by
        unfold leadingZeros64 at hb ⊢
        omega
      have hdiv : ((i + m.word) % m.bits.length * 64 +
          leadingZeros64 (m.bits.getD ((i + m.word) % m.bits.length) 0)) / 64 =
          (i + m.word) % m.bits.length := by omega
      have hmod : ((i + m.word) % m.bits.length * 64 +
          leadingZeros64 (m.bits.getD ((i + m.word) % m.bits.length) 0)) % 64 =
          leadingZeros64 (m.bits.getD ((i + m.word) % m.bits.length) 0) := by omega
      refine ⟨by rw [hdiv], ?_⟩
      unfold memory.bit
      rw [hdiv, hmod]
      exact leadingZerosBelow_testBit 64 _ hb

theorem nextFreePage_spec (m m1 : memory) (p : Nat) (h : m.nextFreePage = some (m1, p)) :
    m1 = { m with word := p / 64 } ∧ m.bit p = true :=
  nextFreePageLoop_spec m _ _ m1 p h

theorem allocLoop_spec (fuel : Nat) (m : memory) (p size : Nat) (maxSize : Int)
    (m1 : memory) (p1 size1 : Nat)
    (h : allocLoop fuel m p size maxSize = some (m1, p1, size1)) :
    p ≤ p1 ∧ size1 = size + (p1 - p) * pageSize ∧ m1.start = m.start ∧ m1.word = m.word ∧
      m1.bits.length = m.bits.length ∧
      (∀ q, m1.bit q = if p ≤ q ∧ q < p1 then false else m.bit q) ∧
      (∀ q, p ≤ q → q < p1 → m.bit q = true) ∧ (m.wf → m1.wf) := by
  induction fuel generalizing m p size maxSize with
  | zero =>
    simp only [allocLoop, Option.some.injEq, Prod.mk.injEq] at h
    obtain ⟨rfl, rfl, rfl⟩ := h
    refine ⟨le_refl _, by simp, rfl, rfl, rfl, ?_, ?_, fun h => h⟩
    · intro q
      rw [if_neg (by omega)]
    · intro q h1 h2; omega
  | succ fuel ih =>
    unfold allocLoop at h
    by_cases hm : maxSize > 0
    · rw [if_pos hm] at h
      cases hmk : m.mark p with
      | none => rw [hmk] at h; exact Option.noConfusion h
      | some r =>
        obtain ⟨m2, b⟩ := r
        rw [hmk] at h
        obtain ⟨hb, hs, hw, hl, hbit, hwf⟩ := mark_spec m m2 p b hmk
        cases b with
        | false =>
          simp only [Option.some.injEq, Prod.mk.injEq] at h
          obtain ⟨rfl, rfl, rfl⟩ := h
          refine ⟨le_refl _, by simp, hs, hw, hl, ?_, ?_, hwf⟩
          · intro q
            rw [if_neg (by omega), hbit q]
            by_cases hq : q = p
            · subst hq; simp [← hb]
            · simp [hq]
          · intro q h1 h2; omega
        | true =>
          simp only at h
          obtain ⟨h1, h2, h3, h4, h5, h6, h7, h8⟩ := ih m2 (p + 1) (size + pageSize) _ h
          refine ⟨by omega, ?_, by rw [h3, hs], by rw [h4, hw], by rw [h5, hl], ?_, ?_,
            fun h => h8 (hwf h)⟩
          · rw [h2]
            have : p1 - p = (p1 - (p + 1)) + 1 := by omega
            rw [this, Nat.add_mul]
            omega
          · intro q
            rw [h6 q, hbit q]
            by_cases hq : q = p
            · subst hq
              rw [if_neg (by omega), if_pos rfl, if_pos ⟨le_refl _, by omega⟩]
            · by_cases hc : p + 1 ≤ q ∧ q < p1
              · rw [if_pos hc, if_pos ⟨by omega, hc.2⟩]
              · rw [if_neg hc, if_neg hq, if_neg (by omega)]
          · intro q hq1 hq2
            by_cases hq : q = p
            · subst hq; exact hb.symm
            · have := h7 q (by omega) hq2
              rw [hbit q, if_neg hq] at this
              exact this
    · rw [if_neg hm] at h
      simp only [Option.some.injEq, Prod.mk.injEq] at h
      obtain ⟨rfl, rfl, rfl⟩ := h
      refine ⟨le_refl _, by simp, rfl, rfl, rfl, ?_, ?_, fun h => h⟩
      · intro q
        rw [if_neg (by omega)]
      · intro q h1 h2; omega

/-- What a successful `alloc` does to the bitmap: it returns `k` pages from
page index `p` on, all of which were free and are now not free, and it
changes no other bit. -/
theorem alloc_spec (m : memory) (maxSize : Int) (addr size : Nat) (m1 : memory)
    (h : m.alloc maxSize = Result.ok (addr, size, m1)) :
    ∃ p k, addr = (p * pageSize) % wordMod ∧ size = k * pageSize ∧
      p / 64 < m.bits.length ∧ m1.start = m.start ∧
      m1.bits.length = m.bits.length ∧
      (∀ q, m1.bit q = if p ≤ q ∧ q < p + k then false else m.bit q) ∧
      (∀ q, p ≤ q → q < p + k → m.bit q = true) ∧ (m.wf → m1.wf) := by
  unfold memory.alloc at h
  cases hn : m.nextFreePage with
  | none => rw [hn] at h; exact Result.noConfusion h
  | some r =>
    obtain ⟨m0, p⟩ := r
    rw [hn] at h
    simp only at h
    obtain ⟨hm0, hp⟩ := nextFreePage_spec m m0 p hn
    cases hl : allocLoop (maxSize.toNat / pageSize + 1) m0 p 0 maxSize with
    | none => rw [hl] at h; exact Result.noConfusion h
    | some r2 =>
      obtain ⟨m2, p2, size2⟩ := r2
      rw [hl] at h
      simp only [Result.ok.injEq, Prod.mk.injEq] at h
      obtain ⟨rfl, rfl, rfl⟩ := h
      obtain ⟨h1, h2, h3, h4, h5, h6, h7, h8⟩ := allocLoop_spec _ m0 p 0 maxSize m2 p2 size2 hl
      have hbit0 : ∀ q, m0.bit q = m.bit q := by
        intro q; rw [hm0]; rfl
      have hwf0 : m.wf → m0.wf := by
        intro hw; rw [hm0]; exact hw
      refine ⟨p, p2 - p, rfl, by rw [h2]; simp, bit_lt_of_true m p hp, ?_, ?_, ?_, ?_,
        fun h => h8 (hwf0 h)⟩
      · rw [h3, hm0]
      · rw [h5, hm0]
      · intro q
        rw [h6 q, hbit0 q]
        have : p + (p2 - p) = p2 := by omega
        rw [this]
      · intro q hq1 hq2
        rw [← hbit0 q]
        exact h7 q hq1 (by omega)

theorem allocMany_mono (ns : List Int) (m m1 : memory) (h : allocMany m ns = some m1) :
    m1.bits.length = m.bits.length ∧ ∀ q, m1.bit q = true → m.bit q = true := by
  induction ns generalizing m with
  | nil =>
    simp only [allocMany, Option.some.injEq] at h
    subst h
    exact ⟨rfl, fun _ h => h⟩
  | cons n ns ih =>
    unfold allocMany at h
    cases ha : m.alloc n with
    | ok r =>
      obtain ⟨a, s, m2⟩ := r
      rw [ha] at h
      simp only at h
      obtain ⟨p, k, -, -, -, -, hl, hb, -, -⟩ := alloc_spec m n a s m2 ha
      obtain ⟨h1, h2⟩ := ih m2 h
      refine ⟨by rw [h1, hl], ?_⟩
      intro q hq
      have := h2 q hq
      rw [hb q] at this
      by_cases hc : p ≤ q ∧ q < p + k
      · rw [if_pos hc] at this; exact Bool.noConfusion this
      · rw [if_neg hc] at this; exact this
    | err =>
      rw [ha] at h
      exact ih m h
    | fatal =>
      rw [ha] at h
      exact Option.noConfusion h

/-- The loop bound that `alloc` passes to `allocLoop` is never what stops the
loop: a larger bound gives the same result. -/
theorem allocLoop_fuel (fuel extra : Nat) (m : memory) (p size : Nat) (maxSize : Int)
    (h : maxSize < fuel * pageSize) :
    allocLoop (fuel + extra) m p size maxSize = allocLoop fuel m p size maxSize := by
  induction fuel generalizing m p size maxSize with
  | zero =>
    have hm : ¬ maxSize > 0 := by
      rw [pageSize_eq] at h
      push_cast at h
      omega
    cases extra with
    | zero => rfl
    | succ e =>
      rw [Nat.zero_add]
      simp only [allocLoop, if_neg hm]
  | succ fuel ih =>
    have e : fuel + 1 + extra = (fuel + extra) + 1 := by omega
    rw [e]
    unfold allocLoop
    by_cases hm : maxSize > 0
    · rw [if_pos hm, if_pos hm]
      cases hmk : m.mark p with
      | none => rfl
      | some r =>
        obtain ⟨m2, b⟩ := r
        cases b with
        | false => rfl
        | true =>
          simp only
          apply ih
          rw [pageSize_eq] at h ⊢
          push_cast at h ⊢
          omega
    · rw [if_neg hm, if_neg hm]

/-- C1 (frame-allocator disjointness). Two successful `alloc` calls with only
further `alloc` calls between them (none, for two calls made one after the
other) return byte ranges `[a1, a1+s1)` and `[a2, a2+s2)` that have no byte
in common. The bitmap describes pages inside the 64-bit address space. -/
theorem alloc_disjoint (m m1 m2 m3 : memory) (n1 n2 : Int) (between : List Int)
    (a1 s1 a2 s2 : Nat)
    (hsize : m.bits.length * 64 * pageSize ≤ wordMod)
    (h1 : m.alloc n1 = Result.ok (a1, s1, m1))
    (hb : allocMany m1 between = some m2)
    (h2 : m2.alloc n2 = Result.ok (a2, s2, m3)) :
    ∀ x, ¬ (a1 ≤ x ∧ x < a1 + s1 ∧ a2 ≤ x ∧ x < a2 + s2) := by
  obtain ⟨p1, k1, ha1, hs1, hp1, -, hl1, hbit1, -, -⟩ := alloc_spec m n1 a1 s1 m1 h1
  obtain ⟨p2, k2, ha2, hs2, hp2, -, -, -, hfree2, -⟩ := alloc_spec m2 n2 a2 s2 m3 h2
  obtain ⟨hl2, hmono⟩ := allocMany_mono between m1 m2 hb
  rw [hl2, hl1] at hp2
  have hps := pageSize_eq
  have hwm := wordMod_eq
  rw [hps] at hsize ha1 hs1 ha2 hs2
  rw [hwm] at hsize
  have e1 : a1 = p1 * 4096 := by rw [ha1]; exact Nat.mod_eq_of_lt (by omega)
  have e2 : a2 = p2 * 4096 := by rw [ha2]; exact Nat.mod_eq_of_lt (by omega)
  -- no page index lies in both runs
  have hdis : ∀ q, ¬ (p1 ≤ q ∧ q < p1 + k1 ∧ p2 ≤ q ∧ q < p2 + k2) := by
    rintro q ⟨c1, c2, c3, c4⟩
    have t1 := hmono q (hfree2 q c3 c4)
    rw [hbit1 q, if_pos ⟨c1, c2⟩] at t1
    exact Bool.noConfusion t1
  intro x hx
  obtain ⟨x1, x2, x3, x4⟩ := hx
  apply hdis (x / 4096)
  subst e1 e2 hs1 hs2
  refine ⟨?_, ?_, ?_, ?_⟩ <;> omega

/-- C1, witness: page 1 and 2 are handed out first, then page 3. -/
theorem alloc_disjoint_witness :
    (memory.mk 0 0 [0x7000000000000000, 0]).alloc 8192
        = Result.ok (4096, 8192, memory.mk 0 0 [0x1000000000000000, 0]) ∧
      (memory.mk 0 0 [0x1000000000000000, 0]).alloc 4096
        = Result.ok (12288, 4096, memory.mk 0 0 [0, 0]) ∧
      ∀ x, ¬ (4096 ≤ x ∧ x < 4096 + 8192 ∧ 12288 ≤ x ∧ x < 12288 + 4096) :=
  ⟨by decide, by decide,
    alloc_disjoint ⟨0, 0, [0x7000000000000000, 0]⟩ ⟨0, 0, [0x1000000000000000, 0]⟩
      ⟨0, 0, [0x1000000000000000, 0]⟩ ⟨0, 0, [0, 0]⟩ 8192 4096 [] 4096 8192 12288 4096
      (by decide) (by decide) (by decide) (by decide)⟩

/-- C2 (failing input). The allocator starts at physical address 0x1000 and
its only free page is 0x2000 (bit 1, as `setFree` marks it). `alloc(4096)`
claims bit 1 but returns address 0x1000, the page of bit 0, which was not
free before the call: `alloc` leaves `m.start` out of the address. -/
theorem alloc_ignores_start :
    (memory.mk 0x1000 0 [0]).setFree true 0x2000 0x3000
        = Result.ok (memory.mk 0x1000 0 [0x4000000000000000]) ∧
      (memory.mk 0x1000 0 [0x4000000000000000]).alloc 4096
        = Result.ok (0x1000, 4096, memory.mk 0x1000 0 [0]) ∧
      (memory.mk 0x1000 0 [0x4000000000000000]).bit ((0x1000 - 0x1000) / 4096) = false ∧
      (memory.mk 0x1000 0 [0x4000000000000000]).bit ((0x2000 - 0x1000) / 4096) = true := by
  decide

/-! ## `setFree` -/

theorem testBit_patch (free : Bool) (w pat i : Nat) (h : i < 64) :
    (if free = true then w ||| pat else andNot64 w pat).testBit i =
      if pat.testBit i = true then free else w.testBit i := by
  cases free with
  | true =>
    simp only [if_true, Nat.testBit_or]
    by_cases hp : pat.testBit i = true
    · simp [hp]
    · simp [hp]
  | false =>
    rw [if_neg (by decide), testBit_andNot64 _ _ _ h]
    by_cases hp : pat.testBit i = true
    · simp [hp]
    · simp [hp]

theorem fill_spec (n s pattern : Nat) (bits : List Nat) :
    ((List.range n).foldl (fun bs k => bs.set (s + k) pattern) bits).length = bits.length ∧
    ∀ j, ((List.range n).foldl (fun bs k => bs.set (s + k) pattern) bits).getD j 0 =
      if s ≤ j ∧ j < s + n ∧ j < bits.length then pattern else bits.getD j 0 := by
  induction n with
  | zero =>
    refine ⟨rfl, fun j => ?_⟩
    rw [if_neg (by omega)]
    rfl
  | succ n ih =>
    rw [List.range_succ, List.foldl_append]
    simp only [List.foldl_cons, List.foldl_nil]
    obtain ⟨ihl, ihg⟩ := ih
    refine ⟨by rw [List.length_set, ihl], fun j => ?_⟩
    by_cases hin : s + n < bits.length
    · rw [getD_set_word _ _ _ _ (by rw [ihl]; exact hin), ihg j]
      by_cases hj : j = s + n
      · rw [if_pos hj, if_pos (by omega)]
      · rw [if_neg hj]
        by_cases hc : s ≤ j ∧ j < s + n ∧ j < bits.length
        · rw [if_pos hc, if_pos (by omega)]
        · rw [if_neg hc, if_neg (by omega)]
    · rw [List.set_eq_of_length_le (by rw [ihl]; omega), ihg j]
      by_cases hc : s ≤ j ∧ j < s + n ∧ j < bits.length
      · rw [if_pos hc, if_pos (by omega)]
      · rw [if_neg hc, if_neg (by omega)]

theorem getElem?_eq_some_getD (l : List Nat) (j : Nat) (h : j < l.length) :
    l[j]? = some (l.getD j 0) := by
  rw [List.getD_eq_getElem?_getD, List.getElem?_eq_getElem h]
  rfl

theorem testBit_fillPattern (free : Bool) (i : Nat) (h : i < 64) :
    (if free = true then not64 0 else 0).testBit i = free := by
  cases free with
  | true => rw [if_pos rfl, testBit_not64 _ _ h]; simp
  | false => rw [if_neg (by decide)]; simp

/-- The words `setFree` writes, bit by bit: exactly the bits `startBit ≤ i <
endBit` take the value `free`. -/
theorem setFreeWords_spec (bits : List Nat) (free : Bool) (sb eb : Nat) (hle : sb ≤ eb)
    (hlen : eb / 64 < bits.length) :
    ∃ bits1, setFreeWords bits free sb eb = Result.ok bits1 ∧ bits1.length = bits.length ∧
      ∀ i, (bits1.getD (i / 64) 0).testBit (63 - i % 64) =
        if sb ≤ i ∧ i < eb then free else (bits.getD (i / 64) 0).testBit (63 - i % 64) := by
  have hsw : sb / 64 < bits.length := lt_of_le_of_lt (Nat.div_le_div_right hle) hlen
  have hswew : sb / 64 ≤ eb / 64 := Nat.div_le_div_right hle
  unfold setFreeWords
  simp only
  rw [getElem?_eq_some_getD bits _ hsw]
  simp only
  rw [getElem?_eq_some_getD _ (eb / 64) (by rw [List.length_set]; exact hlen)]
  simp only
  refine ⟨_, rfl, ?_, ?_⟩
  · rw [(fill_spec _ _ _ _).1, List.length_set, List.length_set]
  · intro i
    have hb : i % 64 < 64 := Nat.mod_lt _ (by decide)
    have hb63 : 63 - i % 64 < 64 := by omega
    have hks : sb % 64 < 64 := Nat.mod_lt _ (by decide)
    have hke : eb % 64 < 64 := Nat.mod_lt _ (by decide)
    rw [(fill_spec _ _ _ _).2 (i / 64), List.length_set, List.length_set,
      getD_set_word _ _ _ _ (by rw [List.length_set]; exact hlen),
      getD_set_word _ _ _ _ hsw, getD_set_word _ _ _ _ hsw]
    by_cases hmid : sb / 64 + 1 ≤ i / 64 ∧ i / 64 < sb / 64 + 1 + (eb / 64 - (sb / 64 + 1)) ∧
        i / 64 < bits.length
    · rw [if_pos hmid, testBit_fillPattern _ _ hb63, if_pos (by omega)]
    · rw [if_neg hmid]
      by_cases hje : i / 64 = eb / 64
      · rw [if_pos hje, testBit_patch _ _ _ _ hb63]
        by_cases hse : sb / 64 = eb / 64
        · -- one word holds both ends
          simp only [if_pos hse, if_pos hse.symm]
          rw [testBit_patch _ _ _ _ hb63, Nat.testBit_and,
            testBit_startPattern _ _ hks hb, testBit_endPattern _ _ hke hb]
          by_cases hin : sb ≤ i ∧ i < eb
          · have h1 : sb % 64 ≤ i % 64 := by omega
            have h2 : i % 64 < eb % 64 := by omega
            simp [hin, h1, h2]
          · rw [if_neg hin]
            have h3 : ¬ (sb % 64 ≤ i % 64 ∧ i % 64 < eb % 64) := by omega
            have h4 : (decide (sb % 64 ≤ i % 64) && decide (i % 64 < eb % 64)) = false := by
              simpa using h3
            rw [h4, if_neg (by decide), if_neg (by decide), hje, hse]
        · -- last word
          have hse2 : ¬ eb / 64 = sb / 64 := fun h => hse h.symm
          simp only [if_neg hse, if_neg hse2]
          rw [testBit_endPattern _ _ hke hb]
          by_cases hin : sb ≤ i ∧ i < eb
          · have h2 : i % 64 < eb % 64 := by omega
            simp [hin, h2]
          · rw [if_neg hin]
            have h3 : ¬ (i % 64 < eb % 64) := by omega
            simp [h3, hje]
      · rw [if_neg hje]
        by_cases hjs : i / 64 = sb / 64
        · -- first word
          have hse : ¬ sb / 64 = eb / 64 := by omega
          simp only [if_pos hjs, if_neg hse]
          rw [testBit_patch _ _ _ _ hb63, testBit_startPattern _ _ hks hb]
          by_cases hin : sb ≤ i ∧ i < eb
          · have h1 : sb % 64 ≤ i % 64 := by omega
            simp [hin, h1]
          · rw [if_neg hin]
            have h3 : ¬ (sb % 64 ≤ i % 64) := by omega
            simp [h3, hjs]
        · rw [if_neg hjs, if_neg (by omega)]


theorem testBit_eq_false_of_lt_wordMod (x i : Nat) (hx : x < wordMod) (hi : 64 ≤ i) :
    x.testBit i = false := by
  apply Nat.testBit_lt_two_pow
  exact lt_of_lt_of_le hx (Nat.pow_le_pow_right (by decide) hi)

/-- Clearing the low `k` bits of a `uint64` rounds it down to a multiple of
`2 ^ k`. -/
theorem andNot64_low_mask (x k : Nat) (hx : x < wordMod) :
    andNot64 x (2 ^ k - 1) = x / 2 ^ k * 2 ^ k := by
  apply Nat.eq_of_testBit_eq
  intro i
  rw [Nat.mul_comm, Nat.testBit_mul_pow_two, ← Nat.shiftRight_eq_div_pow, Nat.testBit_shiftRight]
  by_cases hi : i < 64
  · rw [testBit_andNot64 _ _ _ hi, Nat.testBit_two_pow_sub_one]
    by_cases hk : i < k
    · simp [hk]
    · have : k + (i - k) = i := by omega
      simp [hk, this]
      omega
  · have h1 : x.testBit i = false := testBit_eq_false_of_lt_wordMod x i hx (by omega)
    unfold andNot64
    rw [Nat.testBit_and, h1]
    by_cases hk : i ≥ k
    · have : k + (i - k) = i := by omega
      simp [hk, this, h1]
    · simp [hk]

theorem andNot64_pageMask (x : Nat) (hx : x < wordMod) :
    andNot64 x (pageSize - 1) = x / 4096 * 4096 := by
  have h := andNot64_low_mask x 12 hx
  have e1 : pageSize - 1 = 2 ^ 12 - 1 := by decide
  have e2 : (2 : Nat) ^ 12 = 4096 := by decide
  rw [e1, h, e2]

theorem setFree_ok_of_words (m : memory) (free : Bool) (start «end» : Nat) (bs : List Nat)
    (hs64 : start < wordMod) (he64 : «end» < wordMod)
    (hs : start % pageSize = 0) (he : «end» % pageSize = 0) (hle : start ≤ «end»)
    (hms : m.start ≤ start)
    (hw : setFreeWords m.bits free ((start - m.start) / pageSize) ((«end» - m.start) / pageSize)
      = Result.ok bs) :
    m.setFree free start «end» = Result.ok { m with bits := bs } := by
  unfold memory.setFree
  rw [pageSize_eq] at hs he
  have h1 : ¬ (andNot64 start (pageSize - 1) ≠ start ∨ andNot64 «end» (pageSize - 1) ≠ «end») := by
    rw [andNot64_pageMask start hs64, andNot64_pageMask «end» he64]
    omega
  rw [if_neg h1, if_neg (by omega), if_neg (by omega)]
  simp only
  rw [hw]

/-- C3 (`setFree`). For page-aligned `start ≤ end` at or above `m.start` whose
end bit index `(end − m.start)/4096` is below `64·len(m.bits)`, `setFree`
returns, keeps `start`, `word` and the length of the bitmap, gives the bit of
every page `p` with `start ≤ p < end` (bit index `(p − m.start)/4096`, most
significant bit first in each word, the bit `mark` and `nextFreePage` read)
the value `free`, and leaves every other bit as it was. When `start` or `end`
is not a multiple of 4096 the call is fatal. -/
theorem setFree_spec (m : memory) (free : Bool) (start «end» : Nat)
    (hs64 : start < wordMod) (he64 : «end» < wordMod) :
    (start % pageSize = 0 → «end» % pageSize = 0 → start ≤ «end» → m.start ≤ start →
      («end» - m.start) / pageSize < 64 * m.bits.length →
      ∃ m1, m.setFree free start «end» = Result.ok m1 ∧ m1.start = m.start ∧
        m1.word = m.word ∧ m1.bits.length = m.bits.length ∧
        (∀ p, p % pageSize = 0 → start ≤ p → p < «end» →
          m1.bit ((p - m.start) / pageSize) = free) ∧
        (∀ i, (∀ p, p % pageSize = 0 → start ≤ p → p < «end» →
          i ≠ (p - m.start) / pageSize) → m1.bit i = m.bit i)) ∧
    ((start % pageSize ≠ 0 ∨ «end» % pageSize ≠ 0) →
      m.setFree free start «end» = Result.fatal) := by
  constructor
  · intro hs he hle hms hend
    have hps := pageSize_eq
    have hsb : (start - m.start) / pageSize ≤ («end» - m.start) / pageSize :=
      Nat.div_le_div_right (by omega)
    obtain ⟨bs, hw, hl, hbits⟩ := setFreeWords_spec m.bits free _ _ hsb (by omega)
    refine ⟨{ m with bits := bs }, setFree_ok_of_words m free start «end» bs hs64 he64 hs he hle
      hms hw, rfl, rfl, hl, ?_, ?_⟩
    · intro p hp h1 h2
      unfold memory.bit
      simp only
      rw [hbits, if_pos]
      rw [hps] at hs he hp ⊢
      constructor <;> omega
    · intro i hi
      unfold memory.bit
      simp only
      rw [hbits, if_neg]
      rintro ⟨c1, c2⟩
      rw [hps] at hs he hi c1 c2
      apply hi (start + 4096 * (i - (start - m.start) / 4096))
      · omega
      · omega
      · omega
      · omega
  · intro hbad
    unfold memory.setFree
    rw [if_pos]
    rw [andNot64_pageMask start hs64, andNot64_pageMask «end» he64]
    rw [pageSize_eq] at hbad
    omega

/-- C3, witness: freeing pages 3..69 of a two-word bitmap, and an unaligned
call. -/
theorem setFree_spec_witness :
    (∃ m1, (memory.mk 0 0 [0, 0]).setFree true 0x3000 0x46000 = Result.ok m1 ∧
        m1.start = 0 ∧ m1.word = 0 ∧ m1.bits.length = 2 ∧
        (∀ p, p % pageSize = 0 → 0x3000 ≤ p → p < 0x46000 →
          m1.bit ((p - 0) / pageSize) = true) ∧
        (∀ i, (∀ p, p % pageSize = 0 → 0x3000 ≤ p → p < 0x46000 →
          i ≠ (p - 0) / pageSize) → m1.bit i = (memory.mk 0 0 [0, 0]).bit i)) ∧
      (memory.mk 0 0 [0, 0]).setFree true 0x3001 0x46000 = Result.fatal :=
  ⟨(setFree_spec ⟨0, 0, [0, 0]⟩ true 0x3000 0x46000 (by decide) (by decide)).1
      (by decide) (by decide) (by decide) (by decide) (by decide),
    (setFree_spec ⟨0, 0, [0, 0]⟩ true 0x3001 0x46000 (by decide) (by decide)).2
      (Or.inl (by decide))⟩


/-! ## Lemmas on the virtual range map -/

theorem rangesSorted_iff_pairwise (l : List memoryRange) :
    rangesSorted l ↔
      List.Pairwise (fun r r2 => r.«end» ≤ r2.start) l ∧ ∀ r ∈ l, r.start ≤ r.«end» := by
  induction l with
  | nil => simp [rangesSorted]
  | cons r rest ih =>
    cases rest with
    | nil => simp [rangesSorted]
    | cons r2 rest2 =>
      unfold rangesSorted
      rw [ih]
      constructor
      · rintro ⟨h1, h2, h3, h4⟩
        refine ⟨List.pairwise_cons.mpr ⟨?_, h3⟩, ?_⟩
        · intro b hb
          rcases List.mem_cons.mp hb with rfl | hb2
          · exact h2
          · have h5 := (List.pairwise_cons.mp h3).1 b hb2
            have h6 := h4 r2 (List.mem_cons_self _ _)
            omega
        · intro b hb
          rcases List.mem_cons.mp hb with rfl | hb2
          · exact h1
          · exact h4 b hb2
      · rintro ⟨h1, h2⟩
        have h3 := List.pairwise_cons.mp h1
        exact ⟨h2 r (List.mem_cons_self _ _), h3.1 r2 (List.mem_cons_self _ _), h3.2,
          fun b hb => h2 b (List.mem_cons_of_mem _ hb)⟩

theorem getD_eq_getElem_range (l : List memoryRange) (k : Nat) (h : k < l.length) :
    l.getD k default = l[k] := by
  rw [List.getD_eq_getElem?_getD, List.getElem?_eq_getElem h]
  rfl

theorem getD_mem_range (l : List memoryRange) (k : Nat) (h : k < l.length) :
    l.getD k default ∈ l := by
  rw [getD_eq_getElem_range l k h]
  exact List.getElem_mem h

/-- In a sorted map a range ends at or before the start of every later one. -/
theorem rangesSorted_end_le_start (l : List memoryRange) (hs : rangesSorted l) (k1 k2 : Nat)
    (h12 : k1 < k2) (h2 : k2 < l.length) :
    (l.getD k1 default).«end» ≤ (l.getD k2 default).start := by
  have hp := ((rangesSorted_iff_pairwise l).mp hs).1
  rw [getD_eq_getElem_range l k1 (by omega), getD_eq_getElem_range l k2 h2]
  exact List.pairwise_iff_getElem.mp hp k1 k2 (by omega) h2 h12

theorem rangesSorted_start_le_end (l : List memoryRange) (hs : rangesSorted l) (k : Nat)
    (h : k < l.length) : (l.getD k default).start ≤ (l.getD k default).«end» :=
  ((rangesSorted_iff_pairwise l).mp hs).2 _ (getD_mem_range l k h)

theorem rangesSorted_end_mono (l : List memoryRange) (hs : rangesSorted l) (k1 k2 : Nat)
    (h12 : k1 ≤ k2) (h2 : k2 < l.length) :
    (l.getD k1 default).«end» ≤ (l.getD k2 default).«end» := by
  rcases Nat.eq_or_lt_of_le h12 with rfl | hlt
  · exact le_refl _
  · have h3 := rangesSorted_end_le_start l hs k1 k2 hlt h2
    have h4 := rangesSorted_start_le_end l hs k2 h2
    omega

theorem closestRangeLoop_spec (l : List memoryRange) (a : Nat) (hs : rangesSorted l)
    (fuel i j : Nat) (hij : i ≤ j) (hj : j ≤ l.length) (hf : j - i ≤ fuel)
    (hlo : ∀ k, k < i → (l.getD k default).«end» ≤ a)
    (hhi : ∀ k, j ≤ k → k < l.length → a < (l.getD k default).«end») :
    closestRangeLoop l a fuel i j ≤ l.length ∧
      (∀ k, k < closestRangeLoop l a fuel i j → (l.getD k default).«end» ≤ a) ∧
      (∀ k, closestRangeLoop l a fuel i j ≤ k → k < l.length →
        a < (l.getD k default).«end») := by
  induction fuel generalizing i j with
  | zero =>
    have e : i = j := by omega
    subst e
    exact ⟨hj, hlo, hhi⟩
  | succ fuel ih =>
    unfold closestRangeLoop
    by_cases hlt : i < j
    · rw [if_pos hlt]
      simp only
      have hh : (i + j) >>> 1 = (i + j) / 2 := by
        rw [Nat.shiftRight_eq_div_pow]
      rw [hh]
      by_cases hc : (l.getD ((i + j) / 2) default).«end» ≤ a
      · rw [if_pos hc]
        apply ih ((i + j) / 2 + 1) j (by omega) hj (by omega) _ hhi
        intro k hk
        have := rangesSorted_end_mono l hs k ((i + j) / 2) (by omega) (by omega)
        omega
      · rw [if_neg hc]
        apply ih i ((i + j) / 2) (by omega) (by omega) (by omega) hlo
        intro k hk1 hk2
        have := rangesSorted_end_mono l hs ((i + j) / 2) k hk1 hk2
        omega
    · rw [if_neg hlt]
      have e : i = j := by omega
      subst e
      exact ⟨hj, hlo, hhi⟩

/-- What the binary search of `closestRange` finds on a sorted map: every
range below the result ends at or before `a`, every range from the result on
ends above `a`. -/
theorem closestRange_bounds (vm : virtMemory) (a : Nat) (hs : rangesSorted vm.ranges) :
    vm.closestRange a ≤ vm.ranges.length ∧
      (∀ k, k < vm.closestRange a → (vm.ranges.getD k default).«end» ≤ a) ∧
      (∀ k, vm.closestRange a ≤ k → k < vm.ranges.length →
        a < (vm.ranges.getD k default).«end») :=
  closestRangeLoop_spec vm.ranges a hs vm.ranges.length 0 vm.ranges.length
    (Nat.zero_le _) (le_refl _) (by omega) (fun k hk => absurd hk (Nat.not_lt_zero k))
    (fun k h1 h2 => absurd h2 (by omega))

/-- C6 (`closestRange`). On a sorted map of pairwise disjoint ranges,
`closestRange(a)` is the smallest index `i` with `ranges[i].end > a`: every
range below it ends at or before `a`, the range at it (when there is one) ends
above `a`; and it is `len(ranges)` when no range ends above `a`. -/
theorem closestRange_spec (vm : virtMemory) (a : Nat) (hs : rangesSorted vm.ranges) :
    vm.closestRange a ≤ vm.ranges.length ∧
      (∀ k, k < vm.closestRange a → (vm.ranges.getD k default).«end» ≤ a) ∧
      (vm.closestRange a < vm.ranges.length →
        a < (vm.ranges.getD (vm.closestRange a) default).«end») ∧
      ((∀ k, k < vm.ranges.length → (vm.ranges.getD k default).«end» ≤ a) →
        vm.closestRange a = vm.ranges.length) := by
  have h := closestRangeLoop_spec vm.ranges a hs vm.ranges.length 0 vm.ranges.length
    (Nat.zero_le _) (le_refl _) (by omega) (fun k hk => absurd hk (Nat.not_lt_zero k))
    (fun k h1 h2 => absurd h2 (by omega))
  obtain ⟨h1, h2, h3⟩ := h
  refine ⟨h1, h2, fun hlt => h3 _ (le_refl _) hlt, ?_⟩
  intro hall
  by_contra hne
  have hlt : closestRangeLoop vm.ranges a vm.ranges.length 0 vm.ranges.length
      < vm.ranges.length := by
    unfold virtMemory.closestRange at hne
    omega
  have h4 := h3 _ (le_refl _) hlt
  have h5 := hall _ hlt
  omega

/-- C6, witness: three ranges, an address in the gap before the second. -/
theorem closestRange_spec_witness :
    (virtMemory.mk [⟨0, 10, 0⟩, ⟨20, 30, 0⟩, ⟨30, 40, 0⟩] 8 0).closestRange 15 ≤ 3 ∧
      (∀ k, k < (virtMemory.mk [⟨0, 10, 0⟩, ⟨20, 30, 0⟩, ⟨30, 40, 0⟩] 8 0).closestRange 15 →
        (([⟨0, 10, 0⟩, ⟨20, 30, 0⟩, ⟨30, 40, 0⟩] : List memoryRange).getD k default).«end»
          ≤ 15) ∧
      ((virtMemory.mk [⟨0, 10, 0⟩, ⟨20, 30, 0⟩, ⟨30, 40, 0⟩] 8 0).closestRange 15 < 3 →
        15 < (([⟨0, 10, 0⟩, ⟨20, 30, 0⟩, ⟨30, 40, 0⟩] : List memoryRange).getD
          ((virtMemory.mk [⟨0, 10, 0⟩, ⟨20, 30, 0⟩, ⟨30, 40, 0⟩] 8 0).closestRange 15)
          default).«end») ∧
      ((∀ k, k < 3 →
          (([⟨0, 10, 0⟩, ⟨20, 30, 0⟩, ⟨30, 40, 0⟩] : List memoryRange).getD k default).«end»
            ≤ 15) →
        (virtMemory.mk [⟨0, 10, 0⟩, ⟨20, 30, 0⟩, ⟨30, 40, 0⟩] 8 0).closestRange 15 = 3) :=
  closestRange_spec ⟨[⟨0, 10, 0⟩, ⟨20, 30, 0⟩, ⟨30, 40, 0⟩], 8, 0⟩ 15 (by decide)


theorem closestRange_below (vm : virtMemory) (a : Nat) (hs : rangesSorted vm.ranges)
    (r : memoryRange) (hr : r ∈ vm.ranges.take (vm.closestRange a)) : r.«end» ≤ a := by
  obtain ⟨k, hk, rfl⟩ := List.mem_take_iff_getElem.mp hr
  have hk1 : k < vm.closestRange a := by omega
  have hk2 : k < vm.ranges.length := by omega
  have := (closestRange_bounds vm a hs).2.1 k hk1
  rw [getD_eq_getElem_range _ _ hk2] at this
  exact this

theorem mem_drop_getD (l : List memoryRange) (i : Nat) (r : memoryRange) (hr : r ∈ l.drop i) :
    ∃ k, i ≤ k ∧ k < l.length ∧ l.getD k default = r := by
  obtain ⟨k, hk, rfl⟩ := List.mem_drop_iff_getElem.mp hr
  have hk2 : i + k < l.length := by omega
  exact ⟨i + k, by omega, hk2, getD_eq_getElem_range _ _ hk2⟩

/-- When the range at `closestRange(start)` does not overlap the new range,
the new range ends at or before the start of it and of every later range. -/
theorem closestRange_above (vm : virtMemory) (s e f : Nat) (hs : rangesSorted vm.ranges)
    (hno : ¬ (vm.closestRange s < vm.ranges.length ∧
      (vm.ranges.getD (vm.closestRange s) default).overlaps ⟨s, e, f⟩ = true))
    (r : memoryRange) (hr : r ∈ vm.ranges.drop (vm.closestRange s)) :
    e ≤ r.start ∧ s < r.start := by
  obtain ⟨k, hk1, hk2, rfl⟩ := mem_drop_getD _ _ _ hr
  have hi : vm.closestRange s < vm.ranges.length := by omega
  have h1 := (closestRange_bounds vm s hs).2.2 _ (le_refl _) hi
  have h2 : (vm.ranges.getD (vm.closestRange s) default).overlaps ⟨s, e, f⟩ ≠ true :=
    fun h => hno ⟨hi, h⟩
  have h3 := rangesSorted_start_le_end _ hs _ hi
  simp only [memoryRange.overlaps, Bool.or_eq_true, Bool.and_eq_true, decide_eq_true_eq,
    not_or, not_and, ne_eq] at h2
  rcases Nat.eq_or_lt_of_le hk1 with heq | hlt
  · rw [← heq]
    omega
  · have h4 := rangesSorted_end_le_start _ hs _ k hlt hk2
    omega

theorem rangesSorted_insert (vm : virtMemory) (s e f : Nat) (hs : rangesSorted vm.ranges)
    (hse : s ≤ e)
    (hno : ¬ (vm.closestRange s < vm.ranges.length ∧
      (vm.ranges.getD (vm.closestRange s) default).overlaps ⟨s, e, f⟩ = true)) :
    rangesSorted (insertAt vm.ranges (vm.closestRange s) ⟨s, e, f⟩) := by
  unfold insertAt
  obtain ⟨hp, hall⟩ := (rangesSorted_iff_pairwise _).mp hs
  rw [rangesSorted_iff_pairwise]
  constructor
  · rw [List.pairwise_append]
    refine ⟨hp.sublist (List.take_sublist _ _), ?_, ?_⟩
    · rw [List.pairwise_cons]
      refine ⟨?_, hp.sublist (List.drop_sublist _ _)⟩
      intro b hb
      exact (closestRange_above vm s e f hs hno b hb).1
    · intro a ha b hb
      have h1 := closestRange_below vm s hs a ha
      rcases List.mem_cons.mp hb with rfl | hb2
      · exact h1
      · have := (closestRange_above vm s e f hs hno b hb2).2
        omega
  · intro r hr
    rcases List.mem_append.mp hr with h1 | h1
    · exact hall r (List.mem_of_mem_take h1)
    · rcases List.mem_cons.mp h1 with rfl | h2
      · exact hse
      · exact hall r (List.mem_of_mem_drop h2)

/-- The three outcomes of `addRange` on a sorted map. -/
theorem addRange_cases (vm : virtMemory) (s e f : Nat) (hse : s ≤ e) :
    (vm.closestRange s < vm.ranges.length ∧
        (vm.ranges.getD (vm.closestRange s) default).overlaps ⟨s, e, f⟩ = true ∧
        vm.addRange s e f = Result.ok (false, vm)) ∨
      (¬ (vm.closestRange s < vm.ranges.length ∧
          (vm.ranges.getD (vm.closestRange s) default).overlaps ⟨s, e, f⟩ = true) ∧
        vm.cap < vm.ranges.length + 1 ∧ vm.addRange s e f = Result.fatal) ∨
      (¬ (vm.closestRange s < vm.ranges.length ∧
          (vm.ranges.getD (vm.closestRange s) default).overlaps ⟨s, e, f⟩ = true) ∧
        vm.ranges.length < vm.cap ∧
        vm.addRange s e f = Result.ok (true,
          { vm with ranges := insertAt vm.ranges (vm.closestRange s) ⟨s, e, f⟩ })) := by
  unfold virtMemory.addRange
  rw [if_neg (by omega)]
  simp only
  by_cases hov : vm.closestRange s < vm.ranges.length ∧
      (vm.ranges.getD (vm.closestRange s) default).overlaps ⟨s, e, f⟩ = true
  · rw [if_pos hov]
    exact Or.inl ⟨hov.1, hov.2, rfl⟩
  · rw [if_neg hov]
    by_cases hcap : vm.cap < vm.ranges.length + 1
    · rw [if_pos hcap]
      exact Or.inr (Or.inl ⟨hov, hcap, rfl⟩)
    · rw [if_neg hcap]
      exact Or.inr (Or.inr ⟨hov, by omega, rfl⟩)

/-- A successful `addRange` keeps the map sorted and inserts a range that
meets none of the ranges that were there. -/
theorem addRange_true (vm vm1 : virtMemory) (s e f : Nat) (hs : rangesSorted vm.ranges)
    (h : vm.addRange s e f = Result.ok (true, vm1)) :
    s ≤ e ∧ vm1.cap = vm.cap ∧ vm1.next = vm.next ∧ rangesSorted vm1.ranges ∧
      (⟨s, e, f⟩ : memoryRange) ∈ vm1.ranges ∧
      (∀ r, r ∈ vm1.ranges ↔ r = ⟨s, e, f⟩ ∨ r ∈ vm.ranges) ∧
      (∀ r ∈ vm.ranges, ¬ rangesMeet r.start r.«end» s e) := by
  have hse : s ≤ e := by
    by_contra hc
    unfold virtMemory.addRange at h
    rw [if_pos (by omega)] at h
    exact Result.noConfusion h
  rcases addRange_cases vm s e f hse with ⟨-, -, h1⟩ | ⟨-, -, h1⟩ | ⟨hno, -, h1⟩
  · rw [h1] at h
    simp at h
  · rw [h1] at h
    exact Result.noConfusion h
  · rw [h1] at h
    simp only [Result.ok.injEq, Prod.mk.injEq, true_and] at h
    subst h
    have hmem : ∀ r, r ∈ insertAt vm.ranges (vm.closestRange s) ⟨s, e, f⟩ ↔
        r = ⟨s, e, f⟩ ∨ r ∈ vm.ranges := by
      intro r
      unfold insertAt
      rw [List.mem_append, List.mem_cons]
      constructor
      · rintro (h2 | h2 | h2)
        · exact Or.inr (List.mem_of_mem_take h2)
        · exact Or.inl h2
        · exact Or.inr (List.mem_of_mem_drop h2)
      · rintro (h2 | h2)
        · exact Or.inr (Or.inl h2)
        · rw [← List.take_append_drop (vm.closestRange s) vm.ranges, List.mem_append] at h2
          rcases h2 with h3 | h3
          · exact Or.inl h3
          · exact Or.inr (Or.inr h3)
    refine ⟨hse, rfl, rfl, rangesSorted_insert vm s e f hs hse hno, (hmem _).mpr (Or.inl rfl),
      hmem, ?_⟩
    intro r hr
    rw [← List.take_append_drop (vm.closestRange s) vm.ranges, List.mem_append] at hr
    rintro ⟨x, x1, x2, x3, x4⟩
    rcases hr with h3 | h3
    · have := closestRange_below vm s hs r h3
      omega
    · have := (closestRange_above vm s e f hs hno r h3).1
      omega

theorem addRange_false (vm vm1 : virtMemory) (s e f : Nat)
    (h : vm.addRange s e f = Result.ok (false, vm1)) : vm1 = vm := by
  unfold virtMemory.addRange at h
  by_cases hse : s > e
  · rw [if_pos hse] at h
    exact Result.noConfusion h
  · rw [if_neg hse] at h
    simp only at h
    split at h
    · simp only [Result.ok.injEq, Prod.mk.injEq, true_and] at h
      exact h.symm
    · split at h
      · exact Result.noConfusion h
      · simp at h


/-- A successful forward search of `mmap` is one successful `addRange` at the
end of one of the ranges tried. -/
theorem mmapSearch_spec (vm : virtMemory) (size flags n idx v : Nat) (vm1 : virtMemory)
    (h : mmapSearch vm size flags n idx = Result.ok (v, vm1)) :
    ∃ k vm0, idx ≤ k ∧ k < idx + n ∧ v = (vm.ranges.getD k default).«end» ∧
      vm.addRange v (AlignUp (add64 v size)) flags = Result.ok (true, vm0) ∧
      vm1 = { vm0 with next := AlignUp (add64 v size) } := by
  induction n generalizing idx with
  | zero =>
    unfold mmapSearch at h
    exact Result.noConfusion h
  | succ n ih =>
    unfold mmapSearch at h
    simp only at h
    cases ha : vm.addRange (vm.ranges.getD idx default).«end»
        (AlignUp (add64 (vm.ranges.getD idx default).«end» size)) flags with
    | ok r =>
      obtain ⟨b, vm0⟩ := r
      rw [ha] at h
      cases b with
      | true =>
        simp only [Result.ok.injEq, Prod.mk.injEq] at h
        obtain ⟨rfl, rfl⟩ := h
        exact ⟨idx, vm0, le_refl _, by omega, rfl, ha, rfl⟩
      | false =>
        simp only at h
        obtain ⟨k, vm2, h1, h2, h3⟩ := ih (idx + 1) h
        exact ⟨k, vm2, by omega, by omega, h3⟩
    | err =>
      rw [ha] at h
      exact Result.noConfusion h
    | fatal =>
      rw [ha] at h
      exact Result.noConfusion h

/-- A successful `mmap` is one successful `addRange`, either at the aligned
hint (or `vm.next` for a zero hint) or at the end of an existing range. -/
theorem mmap_spec (vm : virtMemory) (addr size flags v : Nat) (vm1 : virtMemory)
    (h : vm.mmap addr size flags = Result.ok (v, vm1)) :
    ∃ a vm0, vm.addRange v (AlignUp (add64 a size)) flags = Result.ok (true, vm0) ∧
      vm1.ranges = vm0.ranges ∧
      (vm1.next = vm0.next ∨ vm1.next = AlignUp (add64 a size)) ∧
      ((a = (if addr = 0 then vm.next else addr) ∧ v = Align a) ∨
        (a = v ∧ ∃ k, k < vm.ranges.length ∧ v = (vm.ranges.getD k default).«end»)) := by
  unfold virtMemory.mmap at h
  simp only at h
  cases ha : vm.addRange (Align (if addr = 0 then vm.next else addr))
      (AlignUp (add64 (if addr = 0 then vm.next else addr) size)) flags with
  | ok r =>
    obtain ⟨b, vm0⟩ := r
    rw [ha] at h
    cases b with
    | true =>
      simp only [Result.ok.injEq, Prod.mk.injEq] at h
      obtain ⟨rfl, rfl⟩ := h
      exact ⟨_, vm0, ha, rfl, Or.inl rfl, Or.inl ⟨rfl, rfl⟩⟩
    | false =>
      simp only at h
      obtain ⟨k, vm2, h1, h2, h3, h4, h5⟩ := mmapSearch_spec vm size flags _ _ v vm1 h
      have hcl : vm.closestRange vm.next ≤ k := h1
      refine ⟨v, vm2, h4, by rw [h5], Or.inr (by rw [h5]), Or.inr ⟨rfl, k, by omega, h3⟩⟩
  | err =>
    rw [ha] at h
    exact Result.noConfusion h
  | fatal =>
    rw [ha] at h
    exact Result.noConfusion h

theorem vmStep_sorted (vm vm1 : virtMemory) (c : vmCall) (hs : rangesSorted vm.ranges)
    (h : vmStep vm c = some vm1) : rangesSorted vm1.ranges := by
  have key : ∀ (s e f : Nat) (b : Bool) (vm2 : virtMemory),
      vm.addRange s e f = Result.ok (b, vm2) → rangesSorted vm2.ranges := by
    intro s e f b vm2 h2
    cases b with
    | true => exact (addRange_true vm vm2 s e f hs h2).2.2.2.1
    | false => rw [addRange_false vm vm2 s e f h2]; exact hs
  cases c with
  | addRange s e f =>
    simp only [vmStep] at h
    cases ha : vm.addRange s e f with
    | ok r =>
      obtain ⟨b, vm2⟩ := r
      rw [ha] at h
      simp only [Option.some.injEq] at h
      subst h
      exact key s e f b _ ha
    | err => rw [ha] at h; simp only [Option.some.injEq] at h; subst h; exact hs
    | fatal => rw [ha] at h; exact Option.noConfusion h
  | mustAddRange s e f =>
    simp only [vmStep, virtMemory.mustAddRange] at h
    cases ha : vm.addRange s e f with
    | ok r =>
      obtain ⟨b, vm2⟩ := r
      rw [ha] at h
      cases b with
      | true =>
        simp only [Option.some.injEq] at h
        subst h
        exact key s e f true _ ha
      | false => exact Option.noConfusion h
    | err => rw [ha] at h; exact Option.noConfusion h
    | fatal => rw [ha] at h; exact Option.noConfusion h
  | mmap a n f =>
    simp only [vmStep] at h
    cases hm : vm.mmap a n f with
    | ok r =>
      obtain ⟨v, vm2⟩ := r
      rw [hm] at h
      simp only [Option.some.injEq] at h
      subst h
      obtain ⟨a1, vm0, h1, h2, -, -⟩ := mmap_spec vm a n f v _ hm
      rw [h2]
      exact key _ _ _ true vm0 h1
    | err => rw [hm] at h; simp only [Option.some.injEq] at h; subst h; exact hs
    | fatal => rw [hm] at h; exact Option.noConfusion h
  | mmapFixed a n f =>
    simp only [vmStep, virtMemory.mmapFixed] at h
    by_cases hal : a ≠ Align a
    · rw [if_pos hal] at h
      simp only [Option.some.injEq] at h
      subst h
      exact hs
    · rw [if_neg hal] at h
      cases ha : vm.addRange a (AlignUp (add64 a n)) f with
      | ok r =>
        obtain ⟨b, vm2⟩ := r
        rw [ha] at h
        simp only [Option.some.injEq] at h
        subst h
        exact key _ _ _ b _ ha
      | err => rw [ha] at h; simp only [Option.some.injEq] at h; subst h; exact hs
      | fatal => rw [ha] at h; exact Option.noConfusion h

theorem vmRun_sorted_from (calls : List vmCall) (vm vm1 : virtMemory)
    (hs : rangesSorted vm.ranges) (h : vmRun vm calls = some vm1) :
    rangesSorted vm1.ranges := by
  induction calls generalizing vm with
  | nil =>
    simp only [vmRun, Option.some.injEq] at h
    subst h
    exact hs
  | cons c cs ih =>
    unfold vmRun at h
    cases hc : vmStep vm c with
    | none => rw [hc] at h; exact Option.noConfusion h
    | some vm2 =>
      rw [hc] at h
      exact ih vm2 (vmStep_sorted vm vm2 c hs hc) h

/-- C4 (invariant of the virtual range map). From an empty map, after any
sequence of `addRange`, `mustAddRange`, `mmap` and `mmapFixed` calls none of
which is fatal, the list is sorted and no two ranges overlap: consecutive
ranges `r`, `r2` have `r.start ≤ r.end ≤ r2.start`, and any two ranges are in
order of `start` and have no address in common. -/
theorem vmRun_sorted (cap next : Nat) (calls : List vmCall) (vm : virtMemory)
    (h : vmRun ⟨[], cap, next⟩ calls = some vm) :
    rangesSorted vm.ranges ∧
      (∀ k, k + 1 < vm.ranges.length →
        (vm.ranges.getD k default).start ≤ (vm.ranges.getD k default).«end» ∧
        (vm.ranges.getD k default).«end» ≤ (vm.ranges.getD (k + 1) default).start) ∧
      (∀ k1 k2, k1 < k2 → k2 < vm.ranges.length →
        (vm.ranges.getD k1 default).start ≤ (vm.ranges.getD k2 default).start ∧
        ¬ rangesMeet (vm.ranges.getD k1 default).start (vm.ranges.getD k1 default).«end»
          (vm.ranges.getD k2 default).start (vm.ranges.getD k2 default).«end») := by
  have hs : rangesSorted vm.ranges := vmRun_sorted_from calls ⟨[], cap, next⟩ vm trivial h
  refine ⟨hs, ?_, ?_⟩
  · intro k hk
    exact ⟨rangesSorted_start_le_end _ hs k (by omega),
      rangesSorted_end_le_start _ hs k (k + 1) (by omega) hk⟩
  · intro k1 k2 h12 h2
    have h3 := rangesSorted_end_le_start _ hs k1 k2 h12 h2
    have h4 := rangesSorted_start_le_end _ hs k1 (by omega)
    refine ⟨by omega, ?_⟩
    rintro ⟨x, x1, x2, x3, x4⟩
    omega

/-- C4, witness: two `mmap` calls with a zero hint, a fixed mapping below them,
an `addRange` that overlaps (refused) and a `mustAddRange` far above. -/
theorem vmRun_sorted_witness :
    rangesSorted [⟨0, 4096, 2⟩, ⟨1048576, 1056768, 6⟩, ⟨1056768, 1064960, 6⟩,
        ⟨1 <<< 32, 1 <<< 33, 2⟩] ∧
      (∀ k, k + 1 < 4 →
        (([⟨0, 4096, 2⟩, ⟨1048576, 1056768, 6⟩, ⟨1056768, 1064960, 6⟩,
          ⟨1 <<< 32, 1 <<< 33, 2⟩] : List memoryRange).getD k default).start ≤
        (([⟨0, 4096, 2⟩, ⟨1048576, 1056768, 6⟩, ⟨1056768, 1064960, 6⟩,
          ⟨1 <<< 32, 1 <<< 33, 2⟩] : List memoryRange).getD k default).«end» ∧
        (([⟨0, 4096, 2⟩, ⟨1048576, 1056768, 6⟩, ⟨1056768, 1064960, 6⟩,
          ⟨1 <<< 32, 1 <<< 33, 2⟩] : List memoryRange).getD k default).«end» ≤
        (([⟨0, 4096, 2⟩, ⟨1048576, 1056768, 6⟩, ⟨1056768, 1064960, 6⟩,
          ⟨1 <<< 32, 1 <<< 33, 2⟩] : List memoryRange).getD (k + 1) default).start) ∧
      (∀ k1 k2, k1 < k2 → k2 < 4 →
        (([⟨0, 4096, 2⟩, ⟨1048576, 1056768, 6⟩, ⟨1056768, 1064960, 6⟩,
          ⟨1 <<< 32, 1 <<< 33, 2⟩] : List memoryRange).getD k1 default).start ≤
        (([⟨0, 4096, 2⟩, ⟨1048576, 1056768, 6⟩, ⟨1056768, 1064960, 6⟩,
          ⟨1 <<< 32, 1 <<< 33, 2⟩] : List memoryRange).getD k2 default).start ∧
        ¬ rangesMeet
          (([⟨0, 4096, 2⟩, ⟨1048576, 1056768, 6⟩, ⟨1056768, 1064960, 6⟩,
            ⟨1 <<< 32, 1 <<< 33, 2⟩] : List memoryRange).getD k1 default).start
          (([⟨0, 4096, 2⟩, ⟨1048576, 1056768, 6⟩, ⟨1056768, 1064960, 6⟩,
            ⟨1 <<< 32, 1 <<< 33, 2⟩] : List memoryRange).getD k1 default).«end»
          (([⟨0, 4096, 2⟩, ⟨1048576, 1056768, 6⟩, ⟨1056768, 1064960, 6⟩,
            ⟨1 <<< 32, 1 <<< 33, 2⟩] : List memoryRange).getD k2 default).start
          (([⟨0, 4096, 2⟩, ⟨1048576, 1056768, 6⟩, ⟨1056768, 1064960, 6⟩,
            ⟨1 <<< 32, 1 <<< 33, 2⟩] : List memoryRange).getD k2 default).«end») :=
  vmRun_sorted 16 0x100000
    [vmCall.mmap 0 8192 6, vmCall.mmap 0 8192 6, vmCall.mmapFixed 0 4096 2,
      vmCall.addRange 4000 5000 2, vmCall.mustAddRange (1 <<< 32) (1 <<< 33) 2]
    ⟨[⟨0, 4096, 2⟩, ⟨1048576, 1056768, 6⟩, ⟨1056768, 1064960, 6⟩, ⟨1 <<< 32, 1 <<< 33, 2⟩],
      16, 1064960⟩ (by decide)


/-- For non-empty ranges `overlaps` is true exactly when the two ranges have
an address in common. -/
theorem overlaps_iff_meet (r r2 : memoryRange) (h1 : r.start < r.«end»)
    (h2 : r2.start < r2.«end») :
    r.overlaps r2 = true ↔ rangesMeet r.start r.«end» r2.start r2.«end» := by
  simp only [memoryRange.overlaps, Bool.or_eq_true, Bool.and_eq_true, decide_eq_true_eq]
  constructor
  · rintro (⟨a, b⟩ | ⟨a, b⟩)
    · exact ⟨r2.start, a, by omega, le_refl _, h2⟩
    · exact ⟨r.start, le_refl _, h1, a, by omega⟩
  · rintro ⟨x, x1, x2, x3, x4⟩
    omega

/-- C5 (counterexample). The map holds the single range `[0, 4096)` in a slab
with room for one range; `[8192, 12288)` overlaps nothing, yet `addRange` does
not return true: growing the slice beyond its capacity is fatal. -/
theorem addRange_full_slab :
    rangesSorted (virtMemory.mk [⟨0, 4096, 2⟩] 1 0).ranges ∧
      (∀ r ∈ (virtMemory.mk [⟨0, 4096, 2⟩] 1 0).ranges, r.start < r.«end») ∧
      (8192 : Nat) < 12288 ∧
      (¬ ∃ r ∈ (virtMemory.mk [⟨0, 4096, 2⟩] 1 0).ranges,
        rangesMeet r.start r.«end» 8192 12288) ∧
      (virtMemory.mk [⟨0, 4096, 2⟩] 1 0).addRange 8192 12288 2 = Result.fatal ∧
      ¬ ∃ vm1, (virtMemory.mk [⟨0, 4096, 2⟩] 1 0).addRange 8192 12288 2
        = Result.ok (true, vm1) := by
  refine ⟨by decide, by decide, by decide, ?_, by decide, ?_⟩
  · rintro ⟨r, hr, x, x1, x2, x3, x4⟩
    simp only [List.mem_singleton] at hr
    subst hr
    simp only at x2
    omega
  · rintro ⟨vm1, h⟩
    have hf : (virtMemory.mk [⟨0, 4096, 2⟩] 1 0).addRange 8192 12288 2 = Result.fatal := by
      decide
    rw [hf] at h
    exact Result.noConfusion h

/-- C5 (amended: the slab has room for one more range). On a sorted map of
pairwise disjoint non-empty ranges with `len(ranges) < cap(ranges)` and for
`start < end`, `addRange` returns false and leaves the map unchanged if and
only if `[start, end)` has an address in common with some range of the map;
otherwise it returns true and the new map is the old one with
`(start, end, flags)` inserted at the index that keeps it sorted. -/
theorem addRange_spec (vm : virtMemory) (s e f : Nat) (hs : rangesSorted vm.ranges)
    (hne : ∀ r ∈ vm.ranges, r.start < r.«end») (hlt : s < e)
    (hcap : vm.ranges.length < vm.cap) :
    (vm.addRange s e f = Result.ok (false, vm) ↔
        ∃ r ∈ vm.ranges, rangesMeet r.start r.«end» s e) ∧
      ((¬ ∃ r ∈ vm.ranges, rangesMeet r.start r.«end» s e) →
        ∃ i, i ≤ vm.ranges.length ∧
          vm.addRange s e f = Result.ok (true, { vm with ranges := insertAt vm.ranges i ⟨s, e, f⟩ }) ∧
          rangesSorted (insertAt vm.ranges i ⟨s, e, f⟩)) := by
  have hcs := closestRange_bounds vm s hs
  rcases addRange_cases vm s e f (le_of_lt hlt) with ⟨h1, h2, h3⟩ | ⟨-, h2, -⟩ | ⟨hno, -, h3⟩
  · -- the range at `closestRange(start)` overlaps
    have hmem := getD_mem_range vm.ranges _ h1
    have hmeet : ∃ r ∈ vm.ranges, rangesMeet r.start r.«end» s e :=
      ⟨_, hmem, (overlaps_iff_meet _ ⟨s, e, f⟩ (hne _ hmem) hlt).mp h2⟩
    exact ⟨⟨fun _ => hmeet, fun _ => h3⟩, fun h => absurd hmeet h⟩
  · omega
  · have hnone : ¬ ∃ r ∈ vm.ranges, rangesMeet r.start r.«end» s e := by
      rintro ⟨r, hr, x, x1, x2, x3, x4⟩
      rw [← List.take_append_drop (vm.closestRange s) vm.ranges, List.mem_append] at hr
      rcases hr with h4 | h4
      · have := closestRange_below vm s hs r h4
        omega
      · have := (closestRange_above vm s e f hs hno r h4).1
        omega
    refine ⟨⟨fun h => ?_, fun h => absurd h hnone⟩, fun _ => ⟨_, hcs.1, h3, ?_⟩⟩
    · rw [h3] at h
      simp at h
    · exact rangesSorted_insert vm s e f hs (le_of_lt hlt) hno

/-- C5, witness: a range that fits in the gap of a two-range map. -/
theorem addRange_spec_witness :
    ((virtMemory.mk [⟨0, 4096, 2⟩, ⟨16384, 20480, 2⟩] 4 0).addRange 8192 12288 6
          = Result.ok (false, virtMemory.mk [⟨0, 4096, 2⟩, ⟨16384, 20480, 2⟩] 4 0) ↔
        ∃ r ∈ (virtMemory.mk [⟨0, 4096, 2⟩, ⟨16384, 20480, 2⟩] 4 0).ranges,
          rangesMeet r.start r.«end» 8192 12288) ∧
      ((¬ ∃ r ∈ (virtMemory.mk [⟨0, 4096, 2⟩, ⟨16384, 20480, 2⟩] 4 0).ranges,
          rangesMeet r.start r.«end» 8192 12288) →
        ∃ i, i ≤ (virtMemory.mk [⟨0, 4096, 2⟩, ⟨16384, 20480, 2⟩] 4 0).ranges.length ∧
          (virtMemory.mk [⟨0, 4096, 2⟩, ⟨16384, 20480, 2⟩] 4 0).addRange 8192 12288 6
            = Result.ok (true, { (virtMemory.mk [⟨0, 4096, 2⟩, ⟨16384, 20480, 2⟩] 4 0) with
                ranges := insertAt [⟨0, 4096, 2⟩, ⟨16384, 20480, 2⟩] i ⟨8192, 12288, 6⟩ }) ∧
          rangesSorted (insertAt [⟨0, 4096, 2⟩, ⟨16384, 20480, 2⟩] i ⟨8192, 12288, 6⟩)) :=
  addRange_spec ⟨[⟨0, 4096, 2⟩, ⟨16384, 20480, 2⟩], 4, 0⟩ 8192 12288 6 (by decide) (by decide)
    (by decide) (by decide)


theorem containsRange_iff (r : memoryRange) (a : Nat) (n : Int) (hn : 1 ≤ n)
    (hov : (a : Int) + n < wordMod) :
    r.containsRange a n = true ↔ r.start ≤ a ∧ (a : Int) + n ≤ r.«end» := by
  have hw := wordMod_eq
  have h1 : n % (wordMod : Int) = n := Int.emod_eq_of_lt (by omega) (by omega)
  unfold memoryRange.containsRange add64
  rw [h1]
  have h2 : (a + n.toNat) % wordMod = a + n.toNat := Nat.mod_eq_of_lt (by omega)
  rw [h2]
  simp only [Bool.and_eq_true, decide_eq_true_eq]
  constructor
  · rintro ⟨x1, x2⟩
    exact ⟨x1, by omega⟩
  · rintro ⟨x1, x2⟩
    exact ⟨x1, by omega⟩

/-- The range `rangeForAddress` returns for a size `m ≥ 1` that does not
overflow, on a sorted map. -/
theorem rangeForAddress_iff (vm : virtMemory) (a : Nat) (m : Int)
    (hs : rangesSorted vm.ranges) (hm : 1 ≤ m) (hmo : (a : Int) + m < wordMod)
    (r : memoryRange) :
    vm.rangeForAddress a m = some r ↔
      (r ∈ vm.ranges ∧ r.start ≤ a ∧ (a : Int) + m ≤ r.«end») := by
  have hcs := closestRange_bounds vm a hs
  unfold virtMemory.rangeForAddress
  simp only
  constructor
  · intro h
    by_cases hi : vm.closestRange a ≥ vm.ranges.length
    · rw [if_pos hi] at h
      exact Option.noConfusion h
    · rw [if_neg hi] at h
      by_cases hc : (vm.ranges.getD (vm.closestRange a) default).containsRange a m = true
      · rw [if_pos hc] at h
        simp only [Option.some.injEq] at h
        subst h
        exact ⟨getD_mem_range _ _ (by omega), (containsRange_iff _ a m hm hmo).mp hc⟩
      · rw [if_neg hc] at h
        exact Option.noConfusion h
  · rintro ⟨hr, h1, h2⟩
    obtain ⟨j, hj, rfl⟩ := List.mem_iff_getElem.mp hr
    rw [← getD_eq_getElem_range _ _ hj] at h1 h2 ⊢
    have hij : vm.closestRange a ≤ j := by
      by_contra hc
      have := hcs.2.1 j (by omega)
      omega
    have hi : vm.closestRange a < vm.ranges.length := by omega
    have hgt := hcs.2.2 _ (le_refl _) hi
    have heq : vm.closestRange a = j := by
      rcases Nat.eq_or_lt_of_le hij with h3 | h3
      · exact h3
      · have := rangesSorted_end_le_start _ hs _ j h3 hj
        omega
    rw [if_neg (by omega), heq, if_pos ((containsRange_iff _ a m hm hmo).mpr ⟨h1, h2⟩)]

/-- C7 (`rangeForAddress`). On a sorted map of pairwise disjoint ranges, for a
size `n ≥ 1` with `a + n` not overflowing, `rangeForAddress(a, n)` returns
`(r, true)` exactly when `r` is a range of the map that contains the whole of
`[a, a+n)`; in particular `rangeForAddress(a, 1)` returns a range if and only
if some range covers `a`. -/
theorem rangeForAddress_spec (vm : virtMemory) (a : Nat) (n : Int)
    (hs : rangesSorted vm.ranges) (hn : 1 ≤ n) (hov : (a : Int) + n < wordMod) :
    (∀ r, vm.rangeForAddress a n = some r ↔
        (r ∈ vm.ranges ∧ r.start ≤ a ∧ (a : Int) + n ≤ r.«end»)) ∧
      ((vm.rangeForAddress a 1).isSome = true ↔ ∃ r ∈ vm.ranges, r.contains a = true) := by
  refine ⟨rangeForAddress_iff vm a n hs hn hov, ?_⟩
  have h1 := rangeForAddress_iff vm a 1 hs (le_refl _) (by omega)
  constructor
  · intro h
    obtain ⟨r, hr⟩ := Option.isSome_iff_exists.mp h
    obtain ⟨x1, x2, x3⟩ := (h1 r).mp hr
    refine ⟨r, x1, ?_⟩
    simp only [memoryRange.contains, Bool.and_eq_true, decide_eq_true_eq]
    omega
  · rintro ⟨r, x1, x2⟩
    simp only [memoryRange.contains, Bool.and_eq_true, decide_eq_true_eq] at x2
    have := (h1 r).mpr ⟨x1, x2.1, by omega⟩
    rw [this]
    rfl

/-- C7, witness: a page inside the second of three ranges. -/
theorem rangeForAddress_spec_witness :
    (∀ r, (virtMemory.mk [⟨0, 4096, 2⟩, ⟨8192, 20480, 6⟩, ⟨20480, 24576, 2⟩] 8 0).rangeForAddress
          12288 4096 = some r ↔
        (r ∈ (virtMemory.mk [⟨0, 4096, 2⟩, ⟨8192, 20480, 6⟩, ⟨20480, 24576, 2⟩] 8 0).ranges ∧
          r.start ≤ 12288 ∧ ((12288 : Nat) : Int) + 4096 ≤ r.«end»)) ∧
      (((virtMemory.mk [⟨0, 4096, 2⟩, ⟨8192, 20480, 6⟩, ⟨20480, 24576, 2⟩] 8 0).rangeForAddress
          12288 1).isSome = true ↔
        ∃ r ∈ (virtMemory.mk [⟨0, 4096, 2⟩, ⟨8192, 20480, 6⟩, ⟨20480, 24576, 2⟩] 8 0).ranges,
          r.contains 12288 = true) :=
  rangeForAddress_spec ⟨[⟨0, 4096, 2⟩, ⟨8192, 20480, 6⟩, ⟨20480, 24576, 2⟩], 8, 0⟩ 12288 4096
    (by decide) (by decide) (by decide)


theorem Align_eq (a : Nat) (ha : a < wordMod) : Align a = a / 4096 * 4096 :=
  andNot64_pageMask a ha

theorem AlignUp_eq (a : Nat) (ha : a + 4095 < wordMod) : AlignUp a = (a + 4095) / 4096 * 4096 := by
  have h1 : AlignUp a = andNot64 (add64 a (pageSize - 1)) (pageSize - 1) := rfl
  have h2 : add64 a (pageSize - 1) = a + 4095 := by
    unfold add64
    rw [pageSize_eq]
    exact Nat.mod_eq_of_lt ha
  rw [h1, h2, andNot64_pageMask _ ha]

/-- C8 (failing input). On an empty map with `next = 0x100000`,
`mmap(0, 2^64 − 1, flags)` succeeds and returns 0x100000, but the range it
inserted is the empty range `[0x100000, 0x100000)`: `addr + size` wraps around
and `AlignUp` brings `end` back to `start`. -/
theorem mmap_wraps :
    (virtMemory.mk [] 16 0x100000).mmap 0 (2 ^ 64 - 1) 6
      = Result.ok (0x100000, virtMemory.mk [⟨0x100000, 0x100000, 6⟩] 16 0x100000) := by
  decide

/-- What a successful `mmap` gives when the arithmetic does not wrap around
(the returned region ends at least two pages below `2^64`): a page-aligned
address `v` such that `[v, v+size)` lies inside a range with the given flags
that the call inserted and that meets no range present before the call. The
new map is sorted and its range bounds are page-aligned again. -/
theorem mmap_spec_no_wrap (vm vm1 : virtMemory) (hint size flags v : Nat)
    (hs : rangesSorted vm.ranges)
    (hal : ∀ r ∈ vm.ranges, r.start % pageSize = 0 ∧ r.«end» % pageSize = 0)
    (hhint : hint < wordMod) (hnext : vm.next < wordMod)
    (hnw : v + size + 2 * pageSize ≤ wordMod)
    (h : vm.mmap hint size flags = Result.ok (v, vm1)) :
    v % pageSize = 0 ∧ rangesSorted vm1.ranges ∧ vm1.next < wordMod ∧
      (∀ r ∈ vm1.ranges, r.start % pageSize = 0 ∧ r.«end» % pageSize = 0) ∧
      ∃ r : memoryRange, r.flags = flags ∧ r.start ≤ v ∧ v + size ≤ r.«end» ∧
        (∀ r2, r2 ∈ vm1.ranges ↔ r2 = r ∨ r2 ∈ vm.ranges) ∧
        (∀ r2 ∈ vm.ranges, ¬ rangesMeet r2.start r2.«end» r.start r.«end») := by
  obtain ⟨a, vm0, hadd, hr, hnx, hcase⟩ := mmap_spec vm hint size flags v vm1 h
  obtain ⟨hse, -, hnx0, hsorted, -, hmem, hmeet⟩ := addRange_true vm vm0 _ _ _ hs hadd
  have hps := pageSize_eq
  have hwm := wordMod_eq
  rw [hps] at hnw
  -- the base address `a` of the attempt lies in the page of `v`
  have hav : v % 4096 = 0 ∧ v ≤ a ∧ a < v + 4096 := by
    rcases hcase with ⟨h1, h2⟩ | ⟨h1, k, hk, h2⟩
    · have ha : a < wordMod := by
        rw [h1]
        split
        · exact hnext
        · exact hhint
      rw [Align_eq a ha] at h2
      omega
    · have := (hal _ (getD_mem_range vm.ranges k hk)).2
      rw [← h2, hps] at this
      omega
  have hsum : add64 a size = a + size := by
    unfold add64
    exact Nat.mod_eq_of_lt (by omega)
  have hend : AlignUp (add64 a size) = (a + size + 4095) / 4096 * 4096 := by
    rw [hsum, AlignUp_eq _ (by omega)]
  rw [hr]
  refine ⟨by rw [hps]; exact hav.1, hsorted, ?_, ?_, ⟨v, AlignUp (add64 a size), flags⟩, rfl,
    le_refl _, ?_, hmem, hmeet⟩
  · rcases hnx with h1 | h1
    · rw [h1, hnx0]; exact hnext
    · rw [h1, hend]
      omega
  · intro r hr2
    rcases (hmem r).mp hr2 with h1 | h1
    · rw [h1, hps]
      simp only
      rw [hend]
      omega
    · exact hal r h1
  · simp only
    rw [hend]
    omega


/-- Two successive `mmap(0, 8192, flags)` calls that succeed below the top of
the address space return two distinct regions with no address in common. -/
theorem mmap_twice_disjoint (vm vm1 vm2 : virtMemory) (flags v1 v2 : Nat)
    (hs : rangesSorted vm.ranges)
    (hal : ∀ r ∈ vm.ranges, r.start % pageSize = 0 ∧ r.«end» % pageSize = 0)
    (hnext : vm.next < wordMod)
    (hnw1 : v1 + 8192 + 2 * pageSize ≤ wordMod) (hnw2 : v2 + 8192 + 2 * pageSize ≤ wordMod)
    (h1 : vm.mmap 0 8192 flags = Result.ok (v1, vm1))
    (h2 : vm1.mmap 0 8192 flags = Result.ok (v2, vm2)) :
    v1 ≠ v2 ∧ ¬ rangesMeet v1 (v1 + 8192) v2 (v2 + 8192) := by
  obtain ⟨-, hs1, hn1, hal1, r1, -, a1, a2, hmem1, -⟩ :=
    mmap_spec_no_wrap vm vm1 0 8192 flags v1 hs hal (by decide) hnext hnw1 h1
  obtain ⟨-, -, -, -, r2, -, b1, b2, -, hmeet2⟩ :=
    mmap_spec_no_wrap vm1 vm2 0 8192 flags v2 hs1 hal1 (by decide) hn1 hnw2 h2
  have hno := hmeet2 r1 ((hmem1 r1).mpr (Or.inl rfl))
  have key : ¬ rangesMeet v1 (v1 + 8192) v2 (v2 + 8192) := by
    rintro ⟨x, x1, x2, x3, x4⟩
    exact hno ⟨x, by omega, by omega, by omega, by omega⟩
  refine ⟨?_, key⟩
  intro heq
  apply key
  exact ⟨v1, le_refl _, by omega, by omega, by omega⟩

/-! ## Allocating single pages -/

theorem leadingZerosBelow_eq (n w : Nat) (h : leadingZerosBelow n w = n) :
    ∀ b, b < n → w.testBit b = false := by
  induction n with
  | zero => intro b hb; omega
  | succ n ih =>
    unfold leadingZerosBelow at h
    by_cases hb : w.testBit n = true
    · rw [if_pos hb] at h
      omega
    · rw [if_neg hb] at h
      intro b hb2
      rcases Nat.eq_or_lt_of_le (Nat.le_of_lt_succ hb2) with rfl | hlt
      · simpa using hb
      · exact ih (by omega) b hlt

theorem mark_of_bit (m : memory) (p : Nat) (hb : m.bit p = true) :
    ∃ m1, m.mark p = some (m1, true) ∧ m1.start = m.start ∧ m1.word = m.word ∧
      m1.bits.length = m.bits.length ∧ (∀ q, m1.bit q = if q = p then false else m.bit q) := by
  have hlen := bit_lt_of_true m p hb
  cases hmk : m.mark p with
  | none =>
    unfold memory.mark at hmk
    simp only at hmk
    rw [List.getElem?_eq_getElem hlen] at hmk
    simp only at hmk
    split at hmk <;> exact Option.noConfusion hmk
  | some r =>
    obtain ⟨m1, b⟩ := r
    obtain ⟨h1, h2, h3, h4, h5, -⟩ := mark_spec m m1 p b hmk
    rw [hb] at h1
    subst h1
    exact ⟨m1, rfl, h2, h3, h4, h5⟩

theorem nextFreePageLoop_none (m : memory) (n i : Nat) (h : nextFreePageLoop m n i = none) :
    ∀ j, j < n →
      leadingZeros64 (m.bits.getD ((i + j + m.word) % m.bits.length) 0) = 64 := by
  induction n generalizing i with
  | zero => intro j hj; omega
  | succ n ih =>
    unfold nextFreePageLoop at h
    simp only at h
    by_cases hb : leadingZeros64 (m.bits.getD ((i + m.word) % m.bits.length) 0) = 64
    · rw [if_pos hb] at h
      intro j hj
      cases j with
      | zero => simpa using hb
      | succ j =>
        have := ih (i + 1) h j (by omega)
        have e : i + 1 + j + m.word = i + (j + 1) + m.word := by omega
        rw [e] at this
        exact this
    · rw [if_neg hb] at h
      exact Option.noConfusion h

theorem rot_index (t w L : Nat) (h : t < L) : ((t + L - w % L) % L + w) % L = t := by
  have hpos : 0 < L := by omega
  have hw := Nat.mod_lt w hpos
  have e : t + L - w % L + w % L = t + L := by omega
  calc ((t + L - w % L) % L + w) % L
      = ((t + L - w % L) % L % L + w % L) % L := Nat.add_mod _ _ _
    _ = ((t + L - w % L) % L + w % L % L) % L := by rw [Nat.mod_mod, Nat.mod_mod]
    _ = (t + L - w % L + w % L) % L := (Nat.add_mod _ _ _).symm
    _ = (t + L) % L := by rw [e]
    _ = t := by rw [Nat.add_mod_right, Nat.mod_eq_of_lt h]

theorem nextFreePage_none_iff (m : memory) :
    m.nextFreePage = none ↔ ∀ i, m.bit i = false := by
  constructor
  · intro h i
    by_cases hi : i / 64 < m.bits.length
    · -- the scan reaches word `i / 64`
      have hpos : 0 < m.bits.length := by omega
      have hj := nextFreePageLoop_none m _ 0 h
        ((i / 64 + m.bits.length - m.word % m.bits.length) % m.bits.length)
        (Nat.mod_lt _ hpos)
      have hidx : (0 + (i / 64 + m.bits.length - m.word % m.bits.length) % m.bits.length
          + m.word) % m.bits.length = i / 64 := by
        rw [Nat.zero_add]
        exact rot_index _ _ _ hi
      rw [hidx] at hj
      unfold memory.bit
      exact leadingZerosBelow_eq 64 _ hj (63 - i % 64) (by omega)
    · exact bit_false_of_le m i (by omega)
  · intro h
    cases hn : m.nextFreePage with
    | none => rfl
    | some r =>
      obtain ⟨m1, p⟩ := r
      have := (nextFreePage_spec m m1 p hn).2
      rw [h p] at this
      exact Bool.noConfusion this

/-- A call `alloc(pageSize)`: out of memory when no bit of the bitmap is set,
otherwise one page whose bit was set, and that bit is cleared. -/
theorem alloc_page (m : memory) :
    ((∀ i, m.bit i = false) ∧ m.alloc pageSize = Result.err) ∨
      (∃ p m1, m.bit p = true ∧
        m.alloc pageSize = Result.ok ((p * pageSize) % wordMod, pageSize, m1) ∧
        m1.start = m.start ∧ m1.bits.length = m.bits.length ∧
        (∀ q, m1.bit q = if q = p then false else m.bit q)) := by
  cases hn : m.nextFreePage with
  | none =>
    left
    refine ⟨(nextFreePage_none_iff m).mp hn, ?_⟩
    unfold memory.alloc
    rw [hn]
  | some r =>
    obtain ⟨m0, p⟩ := r
    right
    obtain ⟨hm0, hp⟩ := nextFreePage_spec m m0 p hn
    have hp0 : m0.bit p = true := by rw [hm0]; exact hp
    obtain ⟨m1, hmk, h1, -, h3, h4⟩ := mark_of_bit m0 p hp0
    refine ⟨p, m1, hp, ?_, by rw [h1, hm0], by rw [h3, hm0], ?_⟩
    · unfold memory.alloc
      rw [hn]
      simp only
      have hf : ((pageSize : Nat) : Int).toNat / pageSize + 1 = 2 := by decide
      rw [hf]
      have hpos : ((pageSize : Nat) : Int) > 0 := by decide
      have hz : ¬ (((pageSize : Nat) : Int) - (pageSize : Nat) > 0) := by decide
      simp only [allocLoop, if_pos hpos, hmk, if_neg hz, Nat.zero_add]
    · intro q
      rw [h4 q, hm0]
      rfl

theorem freeCount_eq_zero_iff (m : memory) : m.freeCount = 0 ↔ ∀ i, m.bit i = false := by
  unfold memory.freeCount
  rw [List.countP_eq_zero]
  constructor
  · intro h i
    by_cases hi : i < 64 * m.bits.length
    · simpa using h i (List.mem_range.mpr hi)
    · exact bit_false_of_le m i (by omega)
  · intro h i _
    simp [h i]

theorem countP_range_clear (f g : Nat → Bool) (p n : Nat) (hp : p < n) (hfp : f p = true)
    (hg : ∀ q, g q = if q = p then false else f q) :
    (List.range n).countP g + 1 = (List.range n).countP f := by
  induction n with
  | zero => omega
  | succ n ih =>
    rw [List.range_succ, List.countP_append, List.countP_append, List.countP_singleton,
      List.countP_singleton]
    rcases Nat.eq_or_lt_of_le (Nat.le_of_lt_succ hp) with heq | hlt
    · subst heq
      have h1 : (List.range p).countP g = (List.range p).countP f := by
        apply List.countP_congr
        intro x hx
        have : x ≠ p := by
          have := List.mem_range.mp hx
          omega
        rw [hg x, if_neg this]
      rw [h1, hg p, if_pos rfl, hfp]
      simp
    · have := ih hlt
      have h2 : g n = f n := by rw [hg n, if_neg (by omega)]
      rw [h2]
      omega

theorem freeCount_clear (m m1 : memory) (p : Nat) (hp : m.bit p = true)
    (hl : m1.bits.length = m.bits.length)
    (hb : ∀ q, m1.bit q = if q = p then false else m.bit q) :
    m1.freeCount + 1 = m.freeCount := by
  unfold memory.freeCount
  rw [hl]
  have hlt := bit_lt_of_true m p hp
  exact countP_range_clear (fun i => m.bit i) (fun i => m1.bit i) p _ (by omega) hp hb


/-! ## Page table entries -/

theorem and_flag_ne_zero (e k : Nat) : (e &&& (1 <<< k) != 0) = e.testBit k := by
  by_cases h : e.testBit k = true
  · have h1 : e &&& (1 <<< k) ≠ 0 := by
      intro hc
      have := (and_one_shiftLeft_eq_zero_iff e k).mp hc
      rw [h] at this
      exact Bool.noConfusion this
    rw [h]
    exact bne_iff_ne.mpr h1
  · have h2 : e.testBit k = false := by
      cases hb : e.testBit k with
      | true => exact absurd hb h
      | false => rfl
    have h3 := (and_one_shiftLeft_eq_zero_iff e k).mpr h2
    rw [h3, h2]
    rfl

theorem present_iff_testBit (e : Nat) : pageTableEntry.present e = e.testBit 0 :=
  and_flag_ne_zero e 0

theorem huge_iff_testBit (e : Nat) : pageTableEntry.huge e = e.testBit 7 :=
  and_flag_ne_zero e 7

theorem getPageTable_eq (e : Nat) :
    pageTableEntry.getPageTable e =
      if pageTableEntry.huge e = true then Result.fatal else Result.ok (pageTableEntry.frame e) := by
  unfold pageTableEntry.getPageTable pageTableEntry.huge pageTableEntry.frame
  by_cases h : e &&& pageSizeFlag = 0
  · simp [h]
  · simp [h]

theorem testBit_frame (e j : Nat) :
    (pageTableEntry.frame e).testBit j = (e.testBit j && decide (12 ≤ j) && decide (j < 52)) := by
  unfold pageTableEntry.frame
  have e1 : MAXPHYADDR - 1 = 2 ^ 52 - 1 := by decide
  have e2 : pageSize - 1 = 2 ^ 12 - 1 := by decide
  rw [e1, e2, Nat.testBit_and, Nat.testBit_and, Nat.testBit_two_pow_sub_one]
  by_cases hj : j < 64
  · rw [testBit_not64 _ _ hj, Nat.testBit_two_pow_sub_one]
    by_cases h1 : j < 12
    · have h2 : ¬ 12 ≤ j := by omega
      simp [h1, h2]
    · have h2 : 12 ≤ j := by omega
      simp [h1, h2]
  · have h2 : ¬ j < 52 := by omega
    simp [h2]

/-- A page-aligned physical address below `MAXPHYADDR`, as a bit pattern. -/
theorem testBit_frameAddr (a j : Nat) (ha : a % pageSize = 0) (hlt : a < MAXPHYADDR) :
    a.testBit j = (a.testBit j && decide (12 ≤ j) && decide (j < 52)) := by
  rw [pageSize_eq] at ha
  by_cases h1 : j < 12
  · have h2 : ¬ 12 ≤ j := by omega
    have h3 : a.testBit j = false := by
      have h4 : (a % 2 ^ 12).testBit j = false := by
        have : a % 2 ^ 12 = 0 := ha
        rw [this]; simp
      rw [Nat.testBit_mod_two_pow] at h4
      simpa [h1] using h4
    simp [h3]
  · by_cases h5 : j < 52
    · simp [h5]; omega
    · have h3 : a.testBit j = false := by
        apply Nat.testBit_lt_two_pow
        have : MAXPHYADDR = 2 ^ 52 := by decide
        rw [this] at hlt
        exact lt_of_lt_of_le hlt (Nat.pow_le_pow_right (by decide) (by omega))
      simp [h3]

/-- An entry made of a page-aligned address below `MAXPHYADDR` and of flag
bits outside bits 12..51 points to that address. -/
theorem frame_or_flags (a fl : Nat) (ha : a % pageSize = 0) (hlt : a < MAXPHYADDR)
    (hfl : ∀ j, 12 ≤ j → j < 52 → fl.testBit j = false) :
    pageTableEntry.frame (a ||| fl) = a := by
  apply Nat.eq_of_testBit_eq
  intro j
  rw [testBit_frame, Nat.testBit_or, testBit_frameAddr a j ha hlt]
  by_cases h1 : 12 ≤ j
  · by_cases h2 : j < 52
    · simp [h1, h2, hfl j h1 h2]
    · simp [h2]
  · simp [h1]

theorem testBit_small (x j b : Nat) (hx : x < 2 ^ b) (hj : b ≤ j) : x.testBit j = false := by
  apply Nat.testBit_lt_two_pow
  exact lt_of_lt_of_le hx (Nat.pow_le_pow_right (by decide) hj)

/-- The entry `setPageTable` makes for a table frame is present, is not a
huge-page entry, and points to the frame. -/
theorem setPageTable_entry (a : Nat) (ha : a % pageSize = 0) (hlt : a < MAXPHYADDR) :
    pageTableEntry.present (pageTableEntry.setPageTable a) = true ∧
      pageTableEntry.huge (pageTableEntry.setPageTable a) = false ∧
      pageTableEntry.frame (pageTableEntry.setPageTable a) = a := by
  have e7 : pageFlagPresent ||| pageFlagWritable ||| pageFlagUserAccess = 7 := by decide
  have hb := testBit_frameAddr a
  refine ⟨?_, ?_, ?_⟩
  · rw [present_iff_testBit]
    unfold pageTableEntry.setPageTable
    rw [e7, Nat.testBit_or]
    have : Nat.testBit 7 0 = true := by decide
    simp [this]
  · rw [huge_iff_testBit]
    unfold pageTableEntry.setPageTable
    rw [e7, Nat.testBit_or, hb 7 ha hlt]
    have : Nat.testBit 7 7 = false := by decide
    simp [this]
  · unfold pageTableEntry.setPageTable
    rw [e7]
    apply frame_or_flags a 7 ha hlt
    intro j h1 h2
    exact testBit_small 7 j 3 (by decide) (by omega)

theorem present_zero : pageTableEntry.present 0 = false := by decide


/-! ## States of the page-fault path -/

theorem stateExtends_refl (k : kernelState) : stateExtends k k :=
  ⟨rfl, rfl, rfl, rfl, rfl, fun _ h => h, fun _ _ h => absurd rfl h⟩

theorem stateExtends_trans (k k1 k2 : kernelState) (h1 : stateExtends k k1)
    (h2 : stateExtends k1 k2) : stateExtends k k2 := by
  obtain ⟨a1, a2, a3, a4, a5, a6, a7⟩ := h1
  obtain ⟨b1, b2, b3, b4, b5, b6, b7⟩ := h2
  refine ⟨by rw [b1, a1], by rw [b2, a2], by rw [b3, a3], by rw [b4, a4], by rw [b5, a5],
    fun p h => a6 p (b6 p h), ?_⟩
  intro f j hne
  by_cases hc : k1.ram f j = k.ram f j
  · rw [← hc]
    rcases b7 f j (by rw [hc]; exact hne) with h | h
    · exact Or.inl (a6 _ h)
    · exact Or.inr h
  · exact a7 f j hc

/-- A present entry in an allocated frame is not changed. -/
theorem stateExtends_keeps (k k1 : kernelState) (h : stateExtends k k1) (f j : Nat)
    (hf : k.globalMem.bit (f / pageSize) = false)
    (hp : pageTableEntry.present (k.ram f j) = true) : k1.ram f j = k.ram f j := by
  by_contra hne
  rcases h.2.2.2.2.2.2 f j hne with h1 | h1
  · rw [hf] at h1; exact Bool.noConfusion h1
  · rw [hp] at h1; exact Bool.noConfusion h1

theorem stateExtends_allocated (k k1 : kernelState) (h : stateExtends k k1) (x : Nat)
    (hx : k.globalMem.bit x = false) : k1.globalMem.bit x = false := by
  cases hb : k1.globalMem.bit x with
  | false => rfl
  | true =>
    have := h.2.2.2.2.2.1 x hb
    rw [hx] at this
    exact Bool.noConfusion this

theorem not_present_eq (e : Nat) (h : pageTableEntry.present e = true) :
    ((!pageTableEntry.present e) = true) = False := by
  rw [h]; simp

theorem walkPT_preserved (k k1 : kernelState) (h : stateExtends k k1) (t q : Nat)
    (hall : ∀ f ∈ [t], k.globalMem.bit (f / pageSize) = false)
    (hm : (walkPT k.ram t q).mapped = true) : walkPT k1.ram t q = walkPT k.ram t q := by
  unfold walkPT at hm ⊢
  simp only at hm ⊢
  by_cases p : pageTableEntry.present (k.ram t (q / pageSize % pageTableSize)) = true
  · rw [stateExtends_keeps k k1 h t _ (hall t (by simp)) p]
  · simp [p, Walk.mapped] at hm

theorem walkPD_preserved (k k1 : kernelState) (h : stateExtends k k1) (t q : Nat)
    (hall : ∀ f ∈ tablesPD k.ram t q, k.globalMem.bit (f / pageSize) = false)
    (hm : (walkPD k.ram t q).mapped = true) : walkPD k1.ram t q = walkPD k.ram t q := by
  unfold tablesPD at hall
  unfold walkPD at hm ⊢
  simp only at hall hm ⊢
  by_cases p : pageTableEntry.present (k.ram t (q / pageSize2MB % pageTableSize)) = true
  · have ht : k.globalMem.bit (t / pageSize) = false := by
      apply hall
      split
      · simp
      · split <;> simp
    rw [stateExtends_keeps k k1 h t _ ht p]
    by_cases hh : pageTableEntry.huge (k.ram t (q / pageSize2MB % pageTableSize)) = true
    · simp [p, hh]
    · simp only [p, hh, Bool.not_true, Bool.false_eq_true, if_false] at hall hm ⊢
      exact walkPT_preserved k k1 h _ q (fun f hf => hall f (by
        simp only [List.mem_singleton] at hf
        subst hf
        simp)) hm
  · simp [p, Walk.mapped] at hm

theorem walkPDPT_preserved (k k1 : kernelState) (h : stateExtends k k1) (t q : Nat)
    (hall : ∀ f ∈ tablesPDPT k.ram t q, k.globalMem.bit (f / pageSize) = false)
    (hm : (walkPDPT k.ram t q).mapped = true) : walkPDPT k1.ram t q = walkPDPT k.ram t q := by
  unfold tablesPDPT at hall
  unfold walkPDPT at hm ⊢
  simp only at hall hm ⊢
  by_cases p : pageTableEntry.present (k.ram t (q / pageSize1GB % pageTableSize)) = true
  · have ht : k.globalMem.bit (t / pageSize) = false := by
      apply hall
      split
      · simp
      · split <;> simp
    rw [stateExtends_keeps k k1 h t _ ht p]
    by_cases hh : pageTableEntry.huge (k.ram t (q / pageSize1GB % pageTableSize)) = true
    · simp [p, hh]
    · simp only [p, hh, Bool.not_true, Bool.false_eq_true, if_false] at hall hm ⊢
      exact walkPD_preserved k k1 h _ q (fun f hf => hall f (List.mem_cons_of_mem _ hf)) hm
  · simp [p, Walk.mapped] at hm

/-- The translation of a mapped page whose tables lie in allocated frames is
the same in every state that extends the given one. -/
theorem walk_preserved (k k1 : kernelState) (h : stateExtends k k1) (q : Nat)
    (hall : tablesAllocated k q) (hm : (walk k.ram k.globalPT q).mapped = true) :
    walk k1.ram k1.globalPT q = walk k.ram k.globalPT q := by
  unfold tablesAllocated walkTables at hall
  unfold walk at hm ⊢
  rw [h.1]
  simp only at hall hm ⊢
  by_cases p : pageTableEntry.present (k.ram k.globalPT (q / pageSizeRoot % pageTableSize)) = true
  · have ht : k.globalMem.bit (k.globalPT / pageSize) = false := by
      apply hall
      split
      · simp
      · split <;> simp
    rw [stateExtends_keeps k k1 h _ _ ht p]
    by_cases hh : pageTableEntry.huge (k.ram k.globalPT (q / pageSizeRoot % pageTableSize)) = true
    · simp [p, hh]
    · simp only [p, hh, Bool.not_true, Bool.false_eq_true, if_false] at hall hm ⊢
      exact walkPDPT_preserved k k1 h _ q (fun f hf => hall f (List.mem_cons_of_mem _ hf)) hm
  · simp [p, Walk.mapped] at hm

/-- A call `alloc(pageSize)` on the kernel state, for a bitmap that describes
physical memory below `MAXPHYADDR`: out of memory when no page is free,
otherwise the frame of a free page `p`, zero-filled, with its bit cleared. -/
theorem kalloc_page (k : kernelState)
    (hB : k.globalMem.bits.length * 64 * pageSize ≤ MAXPHYADDR) :
    (k.globalMem.freeCount = 0 ∧ k.alloc pageSize = Result.err) ∨
      (∃ p m1, k.globalMem.bit p = true ∧ m1.bits.length = k.globalMem.bits.length ∧
        (∀ q, m1.bit q = if q = p then false else k.globalMem.bit q) ∧
        m1.freeCount + 1 = k.globalMem.freeCount ∧ p * pageSize < MAXPHYADDR ∧
        k.globalMem.alloc pageSize = Result.ok (p * pageSize, pageSize, m1) ∧
        k.alloc pageSize = Result.ok (p * pageSize, pageSize, k.withPage m1 (p * pageSize))) := by
  rcases alloc_page k.globalMem with ⟨h1, h2⟩ | ⟨p, m1, h1, h2, -, h4, h5⟩
  · left
    refine ⟨(freeCount_eq_zero_iff _).mpr h1, ?_⟩
    unfold kernelState.alloc
    rw [h2]
  · right
    have hlt := bit_lt_of_true _ p h1
    have hps := pageSize_eq
    have hpa : p * pageSize < MAXPHYADDR := by
      rw [hps] at hB ⊢
      omega
    have hmod : (p * pageSize) % wordMod = p * pageSize := by
      apply Nat.mod_eq_of_lt
      have : MAXPHYADDR < wordMod := by decide
      omega
    refine ⟨p, m1, h1, h4, h5, freeCount_clear _ m1 p h1 h4 h5, hpa, by rw [h2, hmod], ?_⟩
    unfold kernelState.alloc
    rw [h2, hmod]
    rfl

theorem frame_div (p : Nat) : p * pageSize / pageSize = p := by
  rw [pageSize_eq]
  omega

theorem frame_mod (p : Nat) : p * pageSize % pageSize = 0 := by
  rw [pageSize_eq]
  omega

/-- Zero-filling a page that was free extends the state. -/
theorem alloc_extends (k : kernelState) (p : Nat) (m1 : memory)
    (hp : k.globalMem.bit p = true) (hl : m1.bits.length = k.globalMem.bits.length)
    (hb : ∀ q, m1.bit q = if q = p then false else k.globalMem.bit q) :
    stateExtends k (k.withPage m1 (p * pageSize)) := by
  refine ⟨rfl, rfl, rfl, rfl, hl, ?_, ?_⟩
  · intro q hq
    simp only [kernelState.withPage] at hq
    rw [hb q] at hq
    by_cases hqp : q = p
    · rw [if_pos hqp] at hq; exact Bool.noConfusion hq
    · rw [if_neg hqp] at hq; exact hq
  · intro f j hne
    left
    simp only [kernelState.withPage, zeroFill] at hne
    by_cases hc : p * pageSize ≤ f ∧ f < p * pageSize + pageSize
    · have : f / pageSize = p := by
        rw [pageSize_eq] at hc ⊢
        omega
      rw [this]
      exact hp
    · rw [if_neg hc] at hne
      exact absurd rfl hne

/-- The four outcomes of `lookupOrCreatePageTable`. -/
theorem loc_cases (k : kernelState) (t i : Nat)
    (hB : k.globalMem.bits.length * 64 * pageSize ≤ MAXPHYADDR) :
    (pageTableEntry.present (k.ram t i) = true ∧ pageTableEntry.huge (k.ram t i) = true ∧
        lookupOrCreatePageTable k t i = Result.fatal) ∨
      (pageTableEntry.present (k.ram t i) = true ∧ pageTableEntry.huge (k.ram t i) = false ∧
        lookupOrCreatePageTable k t i = Result.ok (pageTableEntry.frame (k.ram t i), k)) ∨
      (pageTableEntry.present (k.ram t i) = false ∧ k.globalMem.freeCount = 0 ∧
        lookupOrCreatePageTable k t i = Result.err) ∨
      (pageTableEntry.present (k.ram t i) = false ∧
        ∃ p m1, k.globalMem.bit p = true ∧ m1.bits.length = k.globalMem.bits.length ∧
          (∀ q, m1.bit q = if q = p then false else k.globalMem.bit q) ∧
          m1.freeCount + 1 = k.globalMem.freeCount ∧ p * pageSize < MAXPHYADDR ∧
          lookupOrCreatePageTable k t i
            = Result.ok (p * pageSize, k.withTable m1 (p * pageSize) t i)) := by
  unfold lookupOrCreatePageTable
  simp only
  by_cases hp : pageTableEntry.present (k.ram t i) = true
  · rw [if_pos hp, getPageTable_eq]
    by_cases hh : pageTableEntry.huge (k.ram t i) = true
    · left
      rw [if_pos hh]
      exact ⟨hp, hh, rfl⟩
    · right; left
      rw [if_neg hh]
      exact ⟨hp, by simpa using hh, rfl⟩
  · rw [if_neg hp]
    have hpf : pageTableEntry.present (k.ram t i) = false := by simpa using hp
    rcases kalloc_page k hB with ⟨h1, h2⟩ | ⟨p, m1, h1, h2, h3, h4, h5, -, h6⟩
    · right; right; left
      rw [h2]
      exact ⟨hpf, h1, rfl⟩
    · right; right; right
      rw [h6]
      exact ⟨hpf, p, m1, h1, h2, h3, h4, h5, rfl⟩

/-- The state after `lookupOrCreatePageTable` has created a table: it extends
the old one, the entry points to the new table, the new table is empty and
its frame is allocated. -/
theorem created_facts (k : kernelState) (t i p : Nat) (m1 : memory)
    (ht : k.globalMem.bit (t / pageSize) = false)
    (hnp : pageTableEntry.present (k.ram t i) = false)
    (hp : k.globalMem.bit p = true) (hl : m1.bits.length = k.globalMem.bits.length)
    (hb : ∀ q, m1.bit q = if q = p then false else k.globalMem.bit q) :
    stateExtends k (k.withTable m1 (p * pageSize) t i) ∧
      (k.withTable m1 (p * pageSize) t i).ram t i = pageTableEntry.setPageTable (p * pageSize) ∧
      (∀ j, (k.withTable m1 (p * pageSize) t i).ram (p * pageSize) j = 0) ∧
      (k.withTable m1 (p * pageSize) t i).globalMem.bit (p * pageSize / pageSize) = false := by
  have hne : p * pageSize ≠ t := by
    intro hc
    rw [← hc, frame_div, hp] at ht
    exact Bool.noConfusion ht
  refine ⟨?_, ?_, ?_, ?_⟩
  · have h0 := alloc_extends k p m1 hp hl hb
    refine ⟨rfl, rfl, rfl, rfl, hl, h0.2.2.2.2.2.1, ?_⟩
    intro f j hne2
    simp only [kernelState.withTable, ramWrite] at hne2
    by_cases hc : f = t ∧ j = i
    · right
      rw [hc.1, hc.2]
      exact hnp
    · rw [if_neg hc] at hne2
      exact h0.2.2.2.2.2.2 f j hne2
  · simp [kernelState.withTable, ramWrite]
  · intro j
    simp only [kernelState.withTable, ramWrite, zeroFill]
    rw [if_neg (fun h => hne h.1), if_pos]
    rw [pageSize_eq]
    omega
  · simp only [kernelState.withTable]
    rw [frame_div, hb p, if_pos rfl]


/-! ## Mapping one 4 KiB page -/

theorem present_mmap (nx : Bool) (a fl : Nat) :
    pageTableEntry.present (pageTableEntry.mmap nx a fl) = true := by
  rw [present_iff_testBit]
  unfold pageTableEntry.mmap pageFlagPresent
  simp only [Nat.testBit_or]
  have : Nat.testBit (1 <<< 0) 0 = true := by decide
  simp [this]

/-- Storing into a word whose entry is not present extends the state. -/
theorem write_extends (k : kernelState) (t i v : Nat)
    (h : pageTableEntry.present (k.ram t i) = false) :
    stateExtends k { k with ram := ramWrite k.ram t i v } := by
  refine ⟨rfl, rfl, rfl, rfl, rfl, fun _ h => h, ?_⟩
  intro f j hne
  simp only [ramWrite] at hne
  by_cases hc : f = t ∧ j = i
  · right
    rw [hc.1, hc.2]
    exact h
  · rw [if_neg hc] at hne
    exact absurd rfl hne

theorem mem_tablesPD_self (ram : Nat → Nat → Nat) (t q : Nat) : t ∈ tablesPD ram t q := by
  unfold tablesPD
  simp only
  split
  · simp
  · split <;> simp

theorem mem_tablesPDPT_self (ram : Nat → Nat → Nat) (t q : Nat) : t ∈ tablesPDPT ram t q := by
  unfold tablesPDPT
  simp only
  split
  · simp
  · split <;> simp

theorem mem_walkTables_self (ram : Nat → Nat → Nat) (t q : Nat) : t ∈ walkTables ram t q := by
  unfold walkTables
  simp only
  split
  · simp
  · split <;> simp

/-- The walk from an empty table ends at once. -/
theorem walkPD_empty (ram : Nat → Nat → Nat) (t q : Nat) (h : ∀ j, ram t j = 0) :
    walkPD ram t q = Walk.notPresent 2 ∧ tablesPD ram t q = [t] := by
  unfold walkPD tablesPD
  simp only
  rw [h, present_zero]
  simp

theorem walkPDPT_empty (ram : Nat → Nat → Nat) (t q : Nat) (h : ∀ j, ram t j = 0) :
    walkPDPT ram t q = Walk.notPresent 3 ∧ tablesPDPT ram t q = [t] := by
  unfold walkPDPT tablesPDPT
  simp only
  rw [h, present_zero]
  simp

/-- The last part of an iteration of `mmapAligned`, from the page directory
in the allocated frame `pd` on: fatal at a 2 MiB page, an error when a page
table is missing and no page is free, and otherwise the 4 KiB entry is
written; when the page was not mapped before, the new state extends the old
one and the walk from `pd` ends at the new entry. -/
theorem mmapAlignedPT_outcome (k : kernelState) (pd start paddr flags : Nat)
    (hB : k.globalMem.bits.length * 64 * pageSize ≤ MAXPHYADDR)
    (hall : ∀ f ∈ tablesPD k.ram pd start, k.globalMem.bit (f / pageSize) = false) :
    ((walkPD k.ram pd start).hitsHuge = true →
        mmapAlignedPT k pd start paddr flags = Result.fatal) ∧
      ((walkPD k.ram pd start).hitsHuge = false →
        k.globalMem.freeCount < (walkPD k.ram pd start).missingTables →
        mmapAlignedPT k pd start paddr flags = Result.err) ∧
      ((walkPD k.ram pd start).hitsHuge = false →
        (walkPD k.ram pd start).missingTables ≤ k.globalMem.freeCount →
        ∃ k1, mmapAlignedPT k pd start paddr flags
            = Result.ok (k1, add64 start pageSize, add64 paddr pageSize) ∧
          k1.globalMem.freeCount + (walkPD k.ram pd start).missingTables
            = k.globalMem.freeCount ∧
          ((walkPD k.ram pd start).mapped = false →
            stateExtends k k1 ∧
            walkPD k1.ram pd start
              = Walk.page4KB (pageTableEntry.mmap k.nxSupport paddr flags))) := by
  have hpd : k.globalMem.bit (pd / pageSize) = false := hall pd (mem_tablesPD_self _ _ _)
  unfold mmapAlignedPT
  simp only
  rcases loc_cases k pd (start / pageSize2MB % pageTableSize) hB with
    ⟨h1, h2, h3⟩ | ⟨h1, h2, h3⟩ | ⟨h1, h2, h3⟩ | ⟨h1, p, m1, c1, c2, c3, c4, c5, h3⟩
  · -- a 2 MiB page
    have hw : walkPD k.ram pd start
        = Walk.page2MB (k.ram pd (start / pageSize2MB % pageTableSize)) := by
      unfold walkPD
      simp [h1, h2]
    rw [hw, h3]
    simp [Walk.hitsHuge]
  · -- the page table exists
    have hw : walkPD k.ram pd start = walkPT k.ram
        (pageTableEntry.frame (k.ram pd (start / pageSize2MB % pageTableSize))) start := by
      unfold walkPD
      simp [h1, h2]
    rw [hw, h3]
    simp only
    by_cases hp1 : pageTableEntry.present (k.ram
        (pageTableEntry.frame (k.ram pd (start / pageSize2MB % pageTableSize)))
        (start / pageSize % pageTableSize)) = true
    · have hw1 : walkPT k.ram
          (pageTableEntry.frame (k.ram pd (start / pageSize2MB % pageTableSize))) start
          = Walk.page4KB (k.ram
            (pageTableEntry.frame (k.ram pd (start / pageSize2MB % pageTableSize)))
            (start / pageSize % pageTableSize)) := by
        unfold walkPT
        simp [hp1]
      rw [hw1]
      simp [Walk.hitsHuge, Walk.missingTables, Walk.mapped]
    · have hp1f : pageTableEntry.present (k.ram
          (pageTableEntry.frame (k.ram pd (start / pageSize2MB % pageTableSize)))
          (start / pageSize % pageTableSize)) = false := by simpa using hp1
      have hw1 : walkPT k.ram
          (pageTableEntry.frame (k.ram pd (start / pageSize2MB % pageTableSize))) start
          = Walk.notPresent 1 := by
        unfold walkPT
        simp [hp1f]
      rw [hw1]
      simp only [Walk.hitsHuge, Walk.missingTables, Walk.mapped, Bool.false_eq_true,
        false_implies, true_and, Nat.sub_self, Nat.not_lt_zero, Nat.zero_le, Nat.add_zero,
        forall_const, true_implies]
      refine ⟨_, rfl, rfl, write_extends k _ _ _ hp1f, ?_⟩
      have hslot : ramWrite k.ram
          (pageTableEntry.frame (k.ram pd (start / pageSize2MB % pageTableSize)))
          (start / pageSize % pageTableSize) (pageTableEntry.mmap k.nxSupport paddr flags)
          pd (start / pageSize2MB % pageTableSize)
          = k.ram pd (start / pageSize2MB % pageTableSize) := by
        simp only [ramWrite]
        rw [if_neg]
        rintro ⟨e1, e2⟩
        rw [← e1, ← e2, h1] at hp1f
        exact Bool.noConfusion hp1f
      unfold walkPD
      simp only
      rw [hslot]
      simp only [h1, h2, Bool.not_true, Bool.false_eq_true, if_false]
      unfold walkPT
      simp only [ramWrite, and_self, if_true, present_mmap, Bool.not_true, Bool.false_eq_true,
        if_false]
  · -- no page table and no free page
    have hw : walkPD k.ram pd start = Walk.notPresent 2 := by
      unfold walkPD
      simp [h1]
    rw [hw, h3]
    simp [Walk.hitsHuge, Walk.missingTables, h2]
  · -- the page table is created
    have hw : walkPD k.ram pd start = Walk.notPresent 2 := by
      unfold walkPD
      simp [h1]
    obtain ⟨f1, f2, f3, f4⟩ := created_facts k pd _ p m1 hpd h1 c1 c2 c3
    rw [hw, h3]
    simp only [Walk.hitsHuge, Walk.missingTables, Walk.mapped, Bool.false_eq_true,
      false_implies, true_and, forall_const, true_implies]
    refine ⟨fun hlt => by omega, fun _ => ⟨_, rfl, ?_, ?_, ?_⟩⟩
    · show m1.freeCount + (2 - 1) = k.globalMem.freeCount
      omega
    · exact stateExtends_trans _ _ _ f1 (write_extends _ _ _ _ (by rw [f3]; exact present_zero))
    · have hne : pd ≠ p * pageSize := by
        intro hc
        rw [hc, frame_div, c1] at hpd
        exact Bool.noConfusion hpd
      obtain ⟨s1, s2, s3⟩ := setPageTable_entry (p * pageSize) (frame_mod p) c5
      have hslot : ramWrite
          (k.withTable m1 (p * pageSize) pd (start / pageSize2MB % pageTableSize)).ram
          (p * pageSize) (start / pageSize % pageTableSize)
          (pageTableEntry.mmap k.nxSupport paddr flags) pd (start / pageSize2MB % pageTableSize)
          = pageTableEntry.setPageTable (p * pageSize) := by
        simp only [ramWrite]
        rw [if_neg (fun h => hne h.1)]
        exact f2
      show walkPD (ramWrite
          (k.withTable m1 (p * pageSize) pd (start / pageSize2MB % pageTableSize)).ram
          (p * pageSize) (start / pageSize % pageTableSize)
          (pageTableEntry.mmap k.nxSupport paddr flags)) pd start = _
      unfold walkPD
      simp only
      rw [hslot]
      simp only [s1, s2, s3, Bool.not_true, Bool.false_eq_true, if_false]
      unfold walkPT
      simp only [ramWrite, and_self, if_true, present_mmap, Bool.not_true, Bool.false_eq_true,
        if_false]


/-- The part of an iteration of `mmapAligned` from the table in the allocated
frame `pdpt` on, for a span below 2 MiB: as `mmapAlignedPT_outcome`, one
level up. -/
theorem mmapAlignedPD_outcome (k : kernelState) (pdpt start «end» paddr flags : Nat)
    (hB : k.globalMem.bits.length * 64 * pageSize ≤ MAXPHYADDR)
    (hsz : «end» - start < pageSize2MB)
    (hall : ∀ f ∈ tablesPDPT k.ram pdpt start, k.globalMem.bit (f / pageSize) = false) :
    ((walkPDPT k.ram pdpt start).hitsHuge = true →
        mmapAlignedPD k pdpt start «end» paddr flags = Result.fatal) ∧
      ((walkPDPT k.ram pdpt start).hitsHuge = false →
        k.globalMem.freeCount < (walkPDPT k.ram pdpt start).missingTables →
        mmapAlignedPD k pdpt start «end» paddr flags = Result.err) ∧
      ((walkPDPT k.ram pdpt start).hitsHuge = false →
        (walkPDPT k.ram pdpt start).missingTables ≤ k.globalMem.freeCount →
        ∃ k1, mmapAlignedPD k pdpt start «end» paddr flags
            = Result.ok (k1, add64 start pageSize, add64 paddr pageSize) ∧
          k1.globalMem.freeCount + (walkPDPT k.ram pdpt start).missingTables
            = k.globalMem.freeCount ∧
          ((walkPDPT k.ram pdpt start).mapped = false →
            stateExtends k k1 ∧
            walkPDPT k1.ram pdpt start
              = Walk.page4KB (pageTableEntry.mmap k.nxSupport paddr flags))) := by
  have hpdpt : k.globalMem.bit (pdpt / pageSize) = false :=
    hall pdpt (mem_tablesPDPT_self _ _ _)
  have hnot2 : ¬ («end» - start ≥ pageSize2MB ∧ start % pageSize2MB = 0 ∧
      paddr % pageSize2MB = 0) := fun h => absurd h.1 (by omega)
  unfold mmapAlignedPD
  simp only
  rcases loc_cases k pdpt (start / pageSize1GB % pageTableSize) hB with
    ⟨h1, h2, h3⟩ | ⟨h1, h2, h3⟩ | ⟨h1, h2, h3⟩ | ⟨h1, p, m1, c1, c2, c3, c4, c5, h3⟩
  · -- a 1 GiB page
    have hw : walkPDPT k.ram pdpt start
        = Walk.page1GB (k.ram pdpt (start / pageSize1GB % pageTableSize)) := by
      unfold walkPDPT
      simp [h1, h2]
    rw [hw, h3]
    simp [Walk.hitsHuge]
  · -- the page directory exists
    have hw : walkPDPT k.ram pdpt start = walkPD k.ram
        (pageTableEntry.frame (k.ram pdpt (start / pageSize1GB % pageTableSize))) start := by
      unfold walkPDPT
      simp [h1, h2]
    have ht : tablesPDPT k.ram pdpt start = pdpt :: tablesPD k.ram
        (pageTableEntry.frame (k.ram pdpt (start / pageSize1GB % pageTableSize))) start := by
      unfold tablesPDPT
      simp [h1, h2]
    have low := mmapAlignedPT_outcome k
      (pageTableEntry.frame (k.ram pdpt (start / pageSize1GB % pageTableSize))) start paddr
      flags hB (fun f hf => hall f (by rw [ht]; exact List.mem_cons_of_mem _ hf))
    rw [hw, h3]
    simp only [if_neg hnot2]
    refine ⟨low.1, low.2.1, ?_⟩
    intro a1 a2
    obtain ⟨k1, b1, b2, b3⟩ := low.2.2 a1 a2
    refine ⟨k1, b1, b2, fun a3 => ?_⟩
    obtain ⟨d1, d2⟩ := b3 a3
    refine ⟨d1, ?_⟩
    unfold walkPDPT
    simp only
    rw [stateExtends_keeps k k1 d1 _ _ hpdpt h1]
    simp only [h1, h2, Bool.not_true, Bool.false_eq_true, if_false]
    exact d2
  · -- no page directory and no free page
    have hw : walkPDPT k.ram pdpt start = Walk.notPresent 3 := by
      unfold walkPDPT
      simp [h1]
    rw [hw, h3]
    simp [Walk.hitsHuge, Walk.missingTables, h2]
  · -- the page directory is created
    have hw : walkPDPT k.ram pdpt start = Walk.notPresent 3 := by
      unfold walkPDPT
      simp [h1]
    obtain ⟨f1, f2, f3, f4⟩ := created_facts k pdpt _ p m1 hpdpt h1 c1 c2 c3
    obtain ⟨e1, e2⟩ := walkPD_empty _ _ start f3
    have low := mmapAlignedPT_outcome
      (k.withTable m1 (p * pageSize) pdpt (start / pageSize1GB % pageTableSize))
      (p * pageSize) start paddr flags (by rw [f1.2.2.2.2.1]; exact hB)
      (fun f hf => by
        rw [e2, List.mem_singleton] at hf
        rw [hf]
        exact f4)
    rw [e1] at low
    rw [hw, h3]
    simp only [if_neg hnot2]
    simp only [Walk.hitsHuge, Walk.missingTables, Walk.mapped, Bool.false_eq_true,
      false_implies, true_and, forall_const, true_implies] at low ⊢
    have hfc : (k.withTable m1 (p * pageSize) pdpt
        (start / pageSize1GB % pageTableSize)).globalMem.freeCount = m1.freeCount := rfl
    rw [hfc] at low
    refine ⟨fun hlt => low.1 (by omega), fun hle => ?_⟩
    obtain ⟨k1, b1, b2, d1, d2⟩ := low.2 (by omega)
    refine ⟨k1, b1, by omega, stateExtends_trans _ _ _ f1 d1, ?_⟩
    obtain ⟨s1, s2, s3⟩ := setPageTable_entry (p * pageSize) (frame_mod p) c5
    unfold walkPDPT
    simp only
    rw [stateExtends_keeps _ k1 d1 _ _ (stateExtends_allocated k _ f1 _ hpdpt)
      (by rw [f2]; exact s1), f2]
    simp only [s1, s2, s3, Bool.not_true, Bool.false_eq_true, if_false]
    exact d2

/-- One iteration of `mmapAligned` for a span below 2 MiB, from the root table
in an allocated frame: fatal at an entry with the page size flag, an error
when tables are missing and too few pages are free, and otherwise the 4 KiB
entry is written; when the page was not mapped before, the new state extends
the old one and the walk ends at the new entry. -/
theorem mmapAlignedStep_outcome (k : kernelState) (pml4 start «end» paddr flags : Nat)
    (hB : k.globalMem.bits.length * 64 * pageSize ≤ MAXPHYADDR)
    (hsz : «end» - start < pageSize2MB)
    (hall : ∀ f ∈ walkTables k.ram pml4 start, k.globalMem.bit (f / pageSize) = false) :
    ((walk k.ram pml4 start).hitsHuge = true →
        mmapAlignedStep k pml4 start «end» paddr flags = Result.fatal) ∧
      ((walk k.ram pml4 start).hitsHuge = false →
        k.globalMem.freeCount < (walk k.ram pml4 start).missingTables →
        mmapAlignedStep k pml4 start «end» paddr flags = Result.err) ∧
      ((walk k.ram pml4 start).hitsHuge = false →
        (walk k.ram pml4 start).missingTables ≤ k.globalMem.freeCount →
        ∃ k1, mmapAlignedStep k pml4 start «end» paddr flags
            = Result.ok (k1, add64 start pageSize, add64 paddr pageSize) ∧
          k1.globalMem.freeCount + (walk k.ram pml4 start).missingTables
            = k.globalMem.freeCount ∧
          ((walk k.ram pml4 start).mapped = false →
            stateExtends k k1 ∧
            walk k1.ram pml4 start
              = Walk.page4KB (pageTableEntry.mmap k.nxSupport paddr flags))) := by
  have hroot : k.globalMem.bit (pml4 / pageSize) = false :=
    hall pml4 (mem_walkTables_self _ _ _)
  have hlt : pageSize2MB < pageSize1GB := by decide
  have hnot1 : ∀ b : Bool, ¬ («end» - start ≥ pageSize1GB ∧ start % pageSize2MB = 0 ∧
      paddr % pageSize1GB = 0 ∧ b = true) := fun _ h => absurd h.1 (by omega)
  unfold mmapAlignedStep
  simp only
  rcases loc_cases k pml4 (start / pageSizeRoot % pageTableSize) hB with
    ⟨h1, h2, h3⟩ | ⟨h1, h2, h3⟩ | ⟨h1, h2, h3⟩ | ⟨h1, p, m1, c1, c2, c3, c4, c5, h3⟩
  · -- an entry of the root table with the page size flag
    have hw : walk k.ram pml4 start = Walk.notATable := by
      unfold walk
      simp [h1, h2]
    rw [hw, h3]
    simp [Walk.hitsHuge]
  · -- the table exists
    have hw : walk k.ram pml4 start = walkPDPT k.ram
        (pageTableEntry.frame (k.ram pml4 (start / pageSizeRoot % pageTableSize))) start := by
      unfold walk
      simp [h1, h2]
    have ht : walkTables k.ram pml4 start = pml4 :: tablesPDPT k.ram
        (pageTableEntry.frame (k.ram pml4 (start / pageSizeRoot % pageTableSize))) start := by
      unfold walkTables
      simp [h1, h2]
    have low := mmapAlignedPD_outcome k
      (pageTableEntry.frame (k.ram pml4 (start / pageSizeRoot % pageTableSize))) start «end»
      paddr flags hB hsz (fun f hf => hall f (by rw [ht]; exact List.mem_cons_of_mem _ hf))
    rw [hw, h3]
    simp only [if_neg (hnot1 _)]
    refine ⟨low.1, low.2.1, ?_⟩
    intro a1 a2
    obtain ⟨k1, b1, b2, b3⟩ := low.2.2 a1 a2
    refine ⟨k1, b1, b2, fun a3 => ?_⟩
    obtain ⟨d1, d2⟩ := b3 a3
    refine ⟨d1, ?_⟩
    unfold walk
    simp only
    rw [stateExtends_keeps k k1 d1 _ _ hroot h1]
    simp only [h1, h2, Bool.not_true, Bool.false_eq_true, if_false]
    exact d2
  · -- no table and no free page
    have hw : walk k.ram pml4 start = Walk.notPresent 4 := by
      unfold walk
      simp [h1]
    rw [hw, h3]
    simp [Walk.hitsHuge, Walk.missingTables, h2]
  · -- the table is created
    have hw : walk k.ram pml4 start = Walk.notPresent 4 := by
      unfold walk
      simp [h1]
    obtain ⟨f1, f2, f3, f4⟩ := created_facts k pml4 _ p m1 hroot h1 c1 c2 c3
    obtain ⟨e1, e2⟩ := walkPDPT_empty _ _ start f3
    have low := mmapAlignedPD_outcome
      (k.withTable m1 (p * pageSize) pml4 (start / pageSizeRoot % pageTableSize))
      (p * pageSize) start «end» paddr flags (by rw [f1.2.2.2.2.1]; exact hB) hsz
      (fun f hf => by
        rw [e2, List.mem_singleton] at hf
        rw [hf]
        exact f4)
    rw [e1] at low
    rw [hw, h3]
    simp only [if_neg (hnot1 _)]
    simp only [Walk.hitsHuge, Walk.missingTables, Walk.mapped, Bool.false_eq_true,
      false_implies, true_and, forall_const, true_implies] at low ⊢
    have hfc : (k.withTable m1 (p * pageSize) pml4
        (start / pageSizeRoot % pageTableSize)).globalMem.freeCount = m1.freeCount := rfl
    rw [hfc] at low
    refine ⟨fun hlt => low.1 (by omega), fun hle => ?_⟩
    obtain ⟨k1, b1, b2, d1, d2⟩ := low.2 (by omega)
    refine ⟨k1, b1, by omega, stateExtends_trans _ _ _ f1 d1, ?_⟩
    obtain ⟨s1, s2, s3⟩ := setPageTable_entry (p * pageSize) (frame_mod p) c5
    unfold walk
    simp only
    rw [stateExtends_keeps _ k1 d1 _ _ (stateExtends_allocated k _ f1 _ hroot)
      (by rw [f2]; exact s1), f2]
    simp only [s1, s2, s3, Bool.not_true, Bool.false_eq_true, if_false]
    exact d2


/-! ## The page-fault path -/

theorem walkPT_congr (ram ram1 : Nat → Nat → Nat) (t q : Nat) (h : ∀ j, ram1 t j = ram t j) :
    walkPT ram1 t q = walkPT ram t q := by
  unfold walkPT
  simp only [h]

theorem walkPD_congr (ram ram1 : Nat → Nat → Nat) (t q : Nat)
    (h : ∀ f ∈ tablesPD ram t q, ∀ j, ram1 f j = ram f j) :
    walkPD ram1 t q = walkPD ram t q ∧ tablesPD ram1 t q = tablesPD ram t q := by
  have ht := h t (mem_tablesPD_self _ _ _)
  unfold tablesPD at h
  unfold walkPD tablesPD
  simp only [ht] at h ⊢
  by_cases p : pageTableEntry.present (ram t (q / pageSize2MB % pageTableSize)) = true
  · by_cases hh : pageTableEntry.huge (ram t (q / pageSize2MB % pageTableSize)) = true
    · simp [p, hh]
    · simp only [p, hh, Bool.not_true, Bool.false_eq_true, if_false] at h ⊢
      exact ⟨walkPT_congr _ _ _ _ (h _ (by simp)), trivial⟩
  · have pf : pageTableEntry.present (ram t (q / pageSize2MB % pageTableSize)) = false := by
      simpa using p
    simp [pf]

theorem walkPDPT_congr (ram ram1 : Nat → Nat → Nat) (t q : Nat)
    (h : ∀ f ∈ tablesPDPT ram t q, ∀ j, ram1 f j = ram f j) :
    walkPDPT ram1 t q = walkPDPT ram t q ∧ tablesPDPT ram1 t q = tablesPDPT ram t q := by
  have ht := h t (mem_tablesPDPT_self _ _ _)
  unfold tablesPDPT at h
  unfold walkPDPT tablesPDPT
  simp only [ht] at h ⊢
  by_cases p : pageTableEntry.present (ram t (q / pageSize1GB % pageTableSize)) = true
  · by_cases hh : pageTableEntry.huge (ram t (q / pageSize1GB % pageTableSize)) = true
    · simp [p, hh]
    · simp only [p, hh, Bool.not_true, Bool.false_eq_true, if_false] at h ⊢
      obtain ⟨c1, c2⟩ := walkPD_congr ram ram1 _ q (fun f hf => h f (List.mem_cons_of_mem _ hf))
      rw [c1, c2]
      exact ⟨rfl, rfl⟩
  · have pf : pageTableEntry.present (ram t (q / pageSize1GB % pageTableSize)) = false := by
      simpa using p
    simp [pf]

/-- The walk depends only on the tables it reads. -/
theorem walk_congr (ram ram1 : Nat → Nat → Nat) (t q : Nat)
    (h : ∀ f ∈ walkTables ram t q, ∀ j, ram1 f j = ram f j) :
    walk ram1 t q = walk ram t q ∧ walkTables ram1 t q = walkTables ram t q := by
  have ht := h t (mem_walkTables_self _ _ _)
  unfold walkTables at h
  unfold walk walkTables
  simp only [ht] at h ⊢
  by_cases p : pageTableEntry.present (ram t (q / pageSizeRoot % pageTableSize)) = true
  · by_cases hh : pageTableEntry.huge (ram t (q / pageSizeRoot % pageTableSize)) = true
    · simp [p, hh]
    · simp only [p, hh, Bool.not_true, Bool.false_eq_true, if_false] at h ⊢
      obtain ⟨c1, c2⟩ := walkPDPT_congr ram ram1 _ q
        (fun f hf => h f (List.mem_cons_of_mem _ hf))
      rw [c1, c2]
      exact ⟨rfl, rfl⟩
  · have pf : pageTableEntry.present (ram t (q / pageSizeRoot % pageTableSize)) = false := by
      simpa using p
    simp [pf]

/-- Handing out a free page leaves the walk of a page whose tables are
allocated as it was, and its tables allocated. -/
theorem walk_withPage (k : kernelState) (p q : Nat) (m1 : memory)
    (hp : k.globalMem.bit p = true)
    (hb : ∀ x, m1.bit x = if x = p then false else k.globalMem.bit x)
    (hall : tablesAllocated k q) :
    walk (k.withPage m1 (p * pageSize)).ram k.globalPT q = walk k.ram k.globalPT q ∧
      ∀ f ∈ walkTables (k.withPage m1 (p * pageSize)).ram k.globalPT q,
        (k.withPage m1 (p * pageSize)).globalMem.bit (f / pageSize) = false := by
  have hc := walk_congr k.ram (k.withPage m1 (p * pageSize)).ram k.globalPT q (by
    intro f hf j
    simp only [kernelState.withPage, zeroFill]
    rw [if_neg]
    intro hc
    have e : f / pageSize = p := by
      rw [pageSize_eq] at hc ⊢
      omega
    have := hall f hf
    rw [e, hp] at this
    exact Bool.noConfusion this)
  refine ⟨hc.1, ?_⟩
  rw [hc.2]
  intro f hf
  show m1.bit (f / pageSize) = false
  rw [hb]
  split
  · rfl
  · exact hall f hf

theorem mmapAlignedLoop_one (n : Nat) (k : kernelState) (pml4 start «end» paddr flags : Nat)
    (hlt : start < «end») :
    (mmapAlignedStep k pml4 start «end» paddr flags = Result.fatal →
        mmapAlignedLoop pml4 «end» flags (n + 2) k start paddr = Result.fatal) ∧
      (mmapAlignedStep k pml4 start «end» paddr flags = Result.err →
        mmapAlignedLoop pml4 «end» flags (n + 2) k start paddr = Result.err) ∧
      (∀ k1 p1, mmapAlignedStep k pml4 start «end» paddr flags = Result.ok (k1, «end», p1) →
        mmapAlignedLoop pml4 «end» flags (n + 2) k start paddr = Result.ok k1) := by
  refine ⟨fun h => ?_, fun h => ?_, fun k1 p1 h => ?_⟩
  · rw [mmapAlignedLoop, if_pos hlt, h]
  · rw [mmapAlignedLoop, if_pos hlt, h]
  · rw [mmapAlignedLoop, if_pos hlt, h]
    simp only
    rw [mmapAlignedLoop, if_neg (Nat.lt_irrefl _)]

/-- Function `mmapAligned` over one page runs the loop body once. -/
theorem mmapAligned_one (k : kernelState) (pml4 page paddr flags : Nat)
    (hp : paddr % pageSize = 0) (hlast : page + pageSize < wordMod) :
    (mmapAlignedStep k pml4 page (page + pageSize) paddr flags = Result.fatal →
        mmapAligned k pml4 page (add64 page pageSize) paddr flags = Result.fatal) ∧
      (mmapAlignedStep k pml4 page (page + pageSize) paddr flags = Result.err →
        mmapAligned k pml4 page (add64 page pageSize) paddr flags = Result.err) ∧
      (∀ k1 p1, mmapAlignedStep k pml4 page (page + pageSize) paddr flags
          = Result.ok (k1, add64 page pageSize, p1) →
        mmapAligned k pml4 page (add64 page pageSize) paddr flags = Result.ok k1) := by
  have hadd : add64 page pageSize = page + pageSize := by
    unfold add64
    exact Nat.mod_eq_of_lt hlast
  have hw : wordMod = (wordMod - 2) + 2 := by decide
  have hlt : page < page + pageSize := by
    rw [pageSize_eq]
    omega
  unfold mmapAligned
  rw [if_neg (by rw [hp]; exact fun h => h rfl), hadd, hw]
  exact mmapAlignedLoop_one _ k pml4 page (page + pageSize) paddr flags hlt

/-- The outcomes of `faultPage` for a page that a range with flags other than
`{NX}` covers, in a state whose page tables for the page lie in allocated
frames: an error when no page is free, fatal when the walk meets an entry
with the page size flag, an error when fewer pages are free than the page and
its missing tables need, and otherwise the allocated frame is mapped. -/
theorem faultPage_outcome (k : kernelState) (addr page : Nat) (r : memoryRange)
    (hpage : page = addr &&& not64 (pageSize - 1))
    (hB : k.globalMem.bits.length * 64 * pageSize ≤ MAXPHYADDR)
    (hlast : page + pageSize < wordMod)
    (hall : tablesAllocated k page)
    (hr : k.globalMap.rangeForAddress page pageSize = some r)
    (hnx : r.flags ≠ pageFlagNX) :
    (k.globalMem.freeCount = 0 → faultPage k addr = Result.err) ∧
      (0 < k.globalMem.freeCount → (walk k.ram k.globalPT page).hitsHuge = true →
        faultPage k addr = Result.fatal) ∧
      ((walk k.ram k.globalPT page).hitsHuge = false →
        k.globalMem.freeCount < 1 + (walk k.ram k.globalPT page).missingTables →
        faultPage k addr = Result.err) ∧
      ((walk k.ram k.globalPT page).hitsHuge = false →
        1 + (walk k.ram k.globalPT page).missingTables ≤ k.globalMem.freeCount →
        ∃ k1 p m1, k.globalMem.alloc pageSize = Result.ok (p * pageSize, pageSize, m1) ∧
          p * pageSize < MAXPHYADDR ∧ faultPage k addr = Result.ok k1 ∧
          k1.globalMem.freeCount + 1 + (walk k.ram k.globalPT page).missingTables
            = k.globalMem.freeCount ∧
          ((walk k.ram k.globalPT page).mapped = false →
            stateExtends k k1 ∧
            walk k1.ram k1.globalPT page
              = Walk.page4KB (pageTableEntry.mmap k.nxSupport (p * pageSize) r.flags))) := by
  unfold faultPage
  simp only
  rw [← hpage, hr]
  simp only [if_neg hnx]
  rcases kalloc_page k hB with ⟨h1, h2⟩ | ⟨p, m1, c1, c2, c3, c4, c5, c6, h2⟩
  · rw [h2]
    refine ⟨fun _ => rfl, fun h => absurd h (by omega), fun _ _ => rfl, fun _ h => ?_⟩
    omega
  · rw [h2]
    simp only
    obtain ⟨w1, w2⟩ := walk_withPage k p page m1 c1 c3 hall
    have hsz : page + pageSize - page < pageSize2MB := by
      have : pageSize2MB = 2097152 := by decide
      rw [this, pageSize_eq]
      omega
    have step := mmapAlignedStep_outcome (k.withPage m1 (p * pageSize)) k.globalPT page
      (page + pageSize) (p * pageSize) r.flags (by rw [(alloc_extends k p m1 c1 c2 c3).2.2.2.2.1]; exact hB)
      hsz w2
    rw [w1] at step
    have one := mmapAligned_one (k.withPage m1 (p * pageSize)) k.globalPT page (p * pageSize)
      r.flags (frame_mod p) hlast
    have hfc : (k.withPage m1 (p * pageSize)).globalMem.freeCount = m1.freeCount := rfl
    rw [hfc] at step
    have hpt : (k.withPage m1 (p * pageSize)).globalPT = k.globalPT := rfl
    rw [hpt]
    refine ⟨fun h => absurd h (by omega), fun _ h => one.1 (step.1 h),
      fun h1 h3 => one.2.1 (step.2.1 h1 (by omega)), fun h1 h3 => ?_⟩
    obtain ⟨k1, b1, b2, b3⟩ := step.2.2 h1 (by omega)
    refine ⟨k1, p, m1, c6, c5, one.2.2 k1 _ b1, by omega, fun h4 => ?_⟩
    obtain ⟨d1, d2⟩ := b3 h4
    have hext := stateExtends_trans _ _ _ (alloc_extends k p m1 c1 c2 c3) d1
    refine ⟨hext, ?_⟩
    rw [hext.1]
    exact d2


theorem faultPage_no_range (k : kernelState) (addr : Nat)
    (h : k.globalMap.rangeForAddress (addr &&& not64 (pageSize - 1)) pageSize = none) :
    faultPage k addr = Result.err := by
  unfold faultPage
  simp only
  rw [h]

theorem faultPage_prot_none (k : kernelState) (addr : Nat) (r : memoryRange)
    (h : k.globalMap.rangeForAddress (addr &&& not64 (pageSize - 1)) pageSize = some r)
    (hnx : r.flags = pageFlagNX) : faultPage k addr = Result.err := by
  unfold faultPage
  simp only
  rw [h]
  simp only [if_pos hnx]

/-- Function `handlePageFault` is fatal exactly when the present bit of the error code
is set or `faultPage` does not return normally. -/
theorem handlePageFault_isFatal (k : kernelState) (errCode addr : Nat) :
    (handlePageFault k errCode addr).isFatal = true ↔
      (errCode &&& 1 ≠ 0 ∨ (faultPage k addr).isOk = false) := by
  unfold handlePageFault
  by_cases hb : errCode &&& 1 ≠ 0
  · rw [if_pos hb]
    exact ⟨fun _ => Or.inl hb, fun _ => rfl⟩
  · rw [if_neg hb]
    cases hf : faultPage k addr with
    | ok v =>
      constructor
      · intro h
        exact Bool.noConfusion h
      · rintro (h | h)
        · exact absurd h hb
        · exact Bool.noConfusion h
    | err => exact ⟨fun _ => Or.inr rfl, fun _ => rfl⟩
    | fatal => exact ⟨fun _ => Or.inr rfl, fun _ => rfl⟩

theorem handlePageFault_ok (k k1 : kernelState) (errCode addr : Nat)
    (hb : ¬ errCode &&& 1 ≠ 0) (h : faultPage k addr = Result.ok k1) :
    handlePageFault k errCode addr = Result.ok k1 := by
  unfold handlePageFault
  rw [if_neg hb, h]

/-- The range that covers a whole page, as `rangeForAddress` finds it. -/
theorem rangeForAddress_page (vm : virtMemory) (page : Nat) (hs : rangesSorted vm.ranges)
    (hlast : page + pageSize < wordMod) (r : memoryRange) :
    vm.rangeForAddress page pageSize = some r ↔
      (r ∈ vm.ranges ∧ r.start ≤ page ∧ page + pageSize ≤ r.«end») := by
  have h1 : (1 : Int) ≤ ((pageSize : Nat) : Int) := by decide
  have h2 : (page : Int) + ((pageSize : Nat) : Int) < wordMod := by
    have := hlast
    omega
  rw [rangeForAddress_iff vm page pageSize hs h1 h2 r]
  constructor
  · rintro ⟨a, b, c⟩
    exact ⟨a, b, by omega⟩
  · rintro ⟨a, b, c⟩
    exact ⟨a, b, by omega⟩


/-- The outcomes of `handlePageFault` for a fault below the last page of the
address space. -/
theorem handlePageFault_below_last (k : kernelState) (errCode addr page : Nat)
    (hpage : page = addr &&& not64 (pageSize - 1))
    (hs : rangesSorted k.globalMap.ranges)
    (hB : k.globalMem.bits.length * 64 * pageSize ≤ MAXPHYADDR)
    (hlast : page + pageSize < wordMod)
    (hall : tablesAllocated k page) :
    ((handlePageFault k errCode addr).isFatal = true ↔
        (errCode &&& 1 ≠ 0 ∨
          (¬ ∃ r ∈ k.globalMap.ranges, r.start ≤ page ∧ page + pageSize ≤ r.«end») ∨
          (∃ r ∈ k.globalMap.ranges,
            r.start ≤ page ∧ page + pageSize ≤ r.«end» ∧ r.flags = pageFlagNX) ∨
          k.globalMem.freeCount < 1 + (walk k.ram k.globalPT page).missingTables ∨
          (walk k.ram k.globalPT page).hitsHuge = true)) ∧
      ((handlePageFault k errCode addr).isFatal = false →
        ∃ k1 r a m1, handlePageFault k errCode addr = Result.ok k1 ∧
          r ∈ k.globalMap.ranges ∧ r.start ≤ page ∧ page + pageSize ≤ r.«end» ∧
          k.globalMem.alloc pageSize = Result.ok (a, pageSize, m1) ∧
          k1.globalMem.freeCount + 1 + (walk k.ram k.globalPT page).missingTables
            = k.globalMem.freeCount ∧
          ((walk k.ram k.globalPT page).mapped = false →
            walk k1.ram k1.globalPT page
              = Walk.page4KB (pageTableEntry.mmap k.nxSupport a r.flags))) := by
  have hfat := handlePageFault_isFatal k errCode addr
  by_cases hb : errCode &&& 1 ≠ 0
  · have hf : (handlePageFault k errCode addr).isFatal = true := hfat.mpr (Or.inl hb)
    refine ⟨⟨fun _ => Or.inl hb, fun _ => hf⟩, fun h => ?_⟩
    rw [hf] at h
    exact Bool.noConfusion h
  · cases hr : k.globalMap.rangeForAddress page pageSize with
    | none =>
      have hfp : faultPage k addr = Result.err := faultPage_no_range k addr (by rw [← hpage]; exact hr)
      have hf : (handlePageFault k errCode addr).isFatal = true :=
        hfat.mpr (Or.inr (by rw [hfp]; rfl))
      have hno : ¬ ∃ r ∈ k.globalMap.ranges, r.start ≤ page ∧ page + pageSize ≤ r.«end» := by
        rintro ⟨r, h1, h2, h3⟩
        have := (rangeForAddress_page _ page hs hlast r).mpr ⟨h1, h2, h3⟩
        rw [hr] at this
        exact Option.noConfusion this
      refine ⟨⟨fun _ => Or.inr (Or.inl hno), fun _ => hf⟩, fun h => ?_⟩
      rw [hf] at h
      exact Bool.noConfusion h
    | some r =>
      obtain ⟨r1, r2, r3⟩ := (rangeForAddress_page _ page hs hlast r).mp hr
      have huniq : ∀ r2 ∈ k.globalMap.ranges,
          r2.start ≤ page ∧ page + pageSize ≤ r2.«end» → r2 = r := by
        intro r2 h1 h2
        have := (rangeForAddress_page _ page hs hlast r2).mpr ⟨h1, h2.1, h2.2⟩
        rw [hr] at this
        exact (Option.some.inj this).symm
      by_cases hnx : r.flags = pageFlagNX
      · have hfp : faultPage k addr = Result.err :=
          faultPage_prot_none k addr r (by rw [← hpage]; exact hr) hnx
        have hf : (handlePageFault k errCode addr).isFatal = true :=
          hfat.mpr (Or.inr (by rw [hfp]; rfl))
        refine ⟨⟨fun _ => Or.inr (Or.inr (Or.inl ⟨r, r1, r2, r3, hnx⟩)), fun _ => hf⟩,
          fun h => ?_⟩
        rw [hf] at h
        exact Bool.noConfusion h
      · obtain ⟨o1, o2, o3, o4⟩ := faultPage_outcome k addr page r hpage hB hlast hall hr hnx
        have hbad : ∀ res : Result kernelState, faultPage k addr = res → res.isOk = false →
            (errCode &&& 1 ≠ 0 ∨
              (¬ ∃ r ∈ k.globalMap.ranges, r.start ≤ page ∧ page + pageSize ≤ r.«end») ∨
              (∃ r ∈ k.globalMap.ranges,
                r.start ≤ page ∧ page + pageSize ≤ r.«end» ∧ r.flags = pageFlagNX) ∨
              k.globalMem.freeCount < 1 + (walk k.ram k.globalPT page).missingTables ∨
              (walk k.ram k.globalPT page).hitsHuge = true) →
            ((handlePageFault k errCode addr).isFatal = true ↔
              (errCode &&& 1 ≠ 0 ∨
                (¬ ∃ r ∈ k.globalMap.ranges, r.start ≤ page ∧ page + pageSize ≤ r.«end») ∨
                (∃ r ∈ k.globalMap.ranges,
                  r.start ≤ page ∧ page + pageSize ≤ r.«end» ∧ r.flags = pageFlagNX) ∨
                k.globalMem.freeCount < 1 + (walk k.ram k.globalPT page).missingTables ∨
                (walk k.ram k.globalPT page).hitsHuge = true)) ∧
              ((handlePageFault k errCode addr).isFatal = false →
                ∃ k1 r a m1, handlePageFault k errCode addr = Result.ok k1 ∧
                  r ∈ k.globalMap.ranges ∧ r.start ≤ page ∧ page + pageSize ≤ r.«end» ∧
                  k.globalMem.alloc pageSize = Result.ok (a, pageSize, m1) ∧
                  k1.globalMem.freeCount + 1 + (walk k.ram k.globalPT page).missingTables
                    = k.globalMem.freeCount ∧
                  ((walk k.ram k.globalPT page).mapped = false →
                    walk k1.ram k1.globalPT page
                      = Walk.page4KB (pageTableEntry.mmap k.nxSupport a r.flags))) := by
          intro res h1 h2 h3
          have hf : (handlePageFault k errCode addr).isFatal = true :=
            hfat.mpr (Or.inr (by rw [h1]; exact h2))
          refine ⟨⟨fun _ => h3, fun _ => hf⟩, fun h => ?_⟩
          rw [hf] at h
          exact Bool.noConfusion h
        by_cases hh1 : (walk k.ram k.globalPT page).hitsHuge = true
        · by_cases hfree : k.globalMem.freeCount = 0
          · exact hbad _ (o1 hfree) rfl (Or.inr (Or.inr (Or.inr (Or.inl (by omega)))))
          · exact hbad _ (o2 (by omega) hh1) rfl (Or.inr (Or.inr (Or.inr (Or.inr hh1))))
        · have hh : (walk k.ram k.globalPT page).hitsHuge = false := by simpa using hh1
          by_cases hfree : k.globalMem.freeCount < 1 + (walk k.ram k.globalPT page).missingTables
          · exact hbad _ (o3 hh hfree) rfl (Or.inr (Or.inr (Or.inr (Or.inl hfree))))
          · obtain ⟨k1, p, m1, a1, a2, a3, a4, a5⟩ := o4 hh (by omega)
            have hok := handlePageFault_ok k k1 errCode addr hb a3
            have hnf : (handlePageFault k errCode addr).isFatal = false := by
              rw [hok]; rfl
            refine ⟨⟨fun h => ?_, fun h => ?_⟩, fun _ => ?_⟩
            · rw [hnf] at h
              exact Bool.noConfusion h
            · rcases h with h | h | h | h | h
              · exact absurd h hb
              · exact absurd ⟨r, r1, r2, r3⟩ h
              · obtain ⟨r2, b1, b2, b3, b4⟩ := h
                rw [huniq r2 b1 ⟨b2, b3⟩] at b4
                exact absurd b4 hnx
              · exact absurd h hfree
              · exact absurd h hh1
            · exact ⟨k1, r, p * pageSize, m1, hok, r1, r2, r3, a1, a4,
                fun hm => (a5 hm).2⟩

/-! ## The entry of a mapped page -/

theorem testBit_of_or_eq (x y j : Nat) (h : x ||| y = y) (hx : x.testBit j = true) :
    y.testBit j = true := by
  rw [← h, Nat.testBit_or, hx]
  rfl

theorem allPageFlags_middle (j : Nat) (h1 : 12 ≤ j) (h2 : j < 52) :
    allPageFlags.testBit j = false := by
  have e : allPageFlags = 2 ^ 63 + 23 := by decide
  rw [e, Nat.testBit_two_pow_add_gt (by omega)]
  exact testBit_small 23 j 5 (by decide) (by omega)

theorem entryFlags_sub (nx : Bool) (fl j : Nat) (hfl : fl ||| allPageFlags = allPageFlags)
    (h : (entryFlags nx fl).testBit j = true) : allPageFlags.testBit j = true := by
  unfold entryFlags at h
  rw [Nat.testBit_or] at h
  rcases Bool.or_eq_true _ _ ▸ h with h1 | h1
  · apply testBit_of_or_eq fl _ j hfl
    split at h1
    · rw [Nat.testBit_and] at h1
      exact (Bool.and_eq_true _ _ ▸ h1).1
    · exact h1
  · exact testBit_of_or_eq pageFlagPresent _ j (by decide) h1

/-- The entry that maps a page-aligned frame below `MAXPHYADDR` with flags
among the page flags points to the frame and carries the flags. -/
theorem mmap_entry (nx : Bool) (a fl : Nat) (ha : a % pageSize = 0) (hlt : a < MAXPHYADDR)
    (hfl : fl ||| allPageFlags = allPageFlags) :
    pageTableEntry.mmap nx a fl = a ||| entryFlags nx fl ∧
      pageTableEntry.frame (pageTableEntry.mmap nx a fl) = a ∧
      pageTableEntry.mmap nx a fl &&& allPageFlags = entryFlags nx fl := by
  have hsub := entryFlags_sub nx fl
  have he : pageTableEntry.mmap nx a fl = a ||| entryFlags nx fl := rfl
  refine ⟨he, ?_, ?_⟩
  · rw [he]
    apply frame_or_flags a _ ha hlt
    intro j h1 h2
    cases hb : (entryFlags nx fl).testBit j with
    | false => rfl
    | true =>
      have := hsub j hfl hb
      rw [allPageFlags_middle j h1 h2] at this
      exact Bool.noConfusion this
  · rw [he]
    apply Nat.eq_of_testBit_eq
    intro j
    rw [Nat.testBit_and, Nat.testBit_or, testBit_frameAddr a j ha hlt]
    cases hb : (entryFlags nx fl).testBit j with
    | true =>
      rw [hsub j hfl hb]
      simp
    | false =>
      by_cases h1 : 12 ≤ j ∧ j < 52
      · rw [allPageFlags_middle j h1.1 h1.2]
        simp
      · have : (decide (12 ≤ j) && decide (j < 52)) = false := by
          simp only [Bool.and_eq_false_imp, decide_eq_true_eq, decide_eq_false_iff_not]
          intro h2 h3
          exact h1 ⟨h2, h3⟩
        rw [Bool.and_assoc, this]
        simp


/-- What a successful `faultPage` does, for a fault below the last page of the
address space. -/
theorem faultPage_maps_below_last (k : kernelState) (addr page : Nat)
    (hpage : page = addr &&& not64 (pageSize - 1))
    (hs : rangesSorted k.globalMap.ranges)
    (hfl : ∀ r ∈ k.globalMap.ranges, r.flags ||| allPageFlags = allPageFlags)
    (hB : k.globalMem.bits.length * 64 * pageSize ≤ MAXPHYADDR)
    (hlast : page + pageSize < wordMod)
    (hall : tablesAllocated k page)
    (hun : (walk k.ram k.globalPT page).mapped = false)
    (hok : (faultPage k addr).isOk = true) :
    ∃ k1 r a m1 e, faultPage k addr = Result.ok k1 ∧
      r ∈ k.globalMap.ranges ∧ r.start ≤ page ∧ page + pageSize ≤ r.«end» ∧
      k.globalMem.alloc pageSize = Result.ok (a, pageSize, m1) ∧
      walk k1.ram k1.globalPT page = Walk.page4KB e ∧
      pageTableEntry.present e = true ∧ pageTableEntry.frame e = a ∧
      e &&& allPageFlags = entryFlags k.nxSupport r.flags ∧
      (∀ q, tablesAllocated k q → (walk k.ram k.globalPT q).mapped = true →
        walk k1.ram k1.globalPT q = walk k.ram k.globalPT q) := by
  cases hr : k.globalMap.rangeForAddress page pageSize with
  | none =>
    rw [faultPage_no_range k addr (by rw [← hpage]; exact hr)] at hok
    exact Bool.noConfusion hok
  | some r =>
    obtain ⟨r1, r2, r3⟩ := (rangeForAddress_page _ page hs hlast r).mp hr
    by_cases hnx : r.flags = pageFlagNX
    · rw [faultPage_prot_none k addr r (by rw [← hpage]; exact hr) hnx] at hok
      exact Bool.noConfusion hok
    · obtain ⟨o1, o2, o3, o4⟩ := faultPage_outcome k addr page r hpage hB hlast hall hr hnx
      by_cases hfree : k.globalMem.freeCount = 0
      · rw [o1 hfree] at hok
        exact Bool.noConfusion hok
      · by_cases hh1 : (walk k.ram k.globalPT page).hitsHuge = true
        · rw [o2 (by omega) hh1] at hok
          exact Bool.noConfusion hok
        · have hh : (walk k.ram k.globalPT page).hitsHuge = false := by simpa using hh1
          by_cases hfew : k.globalMem.freeCount
              < 1 + (walk k.ram k.globalPT page).missingTables
          · rw [o3 hh hfew] at hok
            exact Bool.noConfusion hok
          · obtain ⟨k1, p, m1, a1, a2, a3, -, a5⟩ := o4 hh (by omega)
            obtain ⟨d1, d2⟩ := a5 hun
            obtain ⟨-, e2, e3⟩ := mmap_entry k.nxSupport (p * pageSize) r.flags (frame_mod p) a2
              (hfl r r1)
            exact ⟨k1, r, p * pageSize, m1, _, a3, r1, r2, r3, a1, d2, present_mmap _ _ _,
              e2, e3, fun q hq hm => walk_preserved k k1 d1 q hq hm⟩

/-! ## Page faults in a well-formed state -/

theorem page_aligned (addr : Nat) (haddr : addr < wordMod) :
    (addr &&& not64 (pageSize - 1)) % pageSize = 0 ∧ addr &&& not64 (pageSize - 1) ≤ addr := by
  have h : addr &&& not64 (pageSize - 1) = addr / 4096 * 4096 := andNot64_pageMask addr haddr
  rw [h, pageSize_eq]
  omega

/-- No range with a page-aligned 64-bit end reaches into the last page of the
address space, and `rangeForAddress` finds none there. -/
theorem rangeForAddress_last_page (vm : virtMemory) (page : Nat)
    (hs : rangesSorted vm.ranges)
    (hend : ∀ r ∈ vm.ranges, r.«end» % pageSize = 0 ∧ r.«end» < wordMod)
    (hp : page % pageSize = 0) (hl : ¬ page + pageSize < wordMod) :
    vm.rangeForAddress page pageSize = none ∧
      ¬ ∃ r ∈ vm.ranges, r.start ≤ page ∧ page + pageSize ≤ r.«end» := by
  constructor
  · unfold virtMemory.rangeForAddress
    simp only
    rw [if_pos]
    by_contra hc
    have hi : vm.closestRange page < vm.ranges.length := by omega
    have h1 := (closestRange_bounds vm page hs).2.2 _ (le_refl _) hi
    have h2 := hend _ (getD_mem_range vm.ranges _ hi)
    rw [pageSize_eq] at h2 hp hl
    omega
  · rintro ⟨r, h1, h2, h3⟩
    have := (hend r h1).2
    omega

/-- The outcomes of `handlePageFault` whatever the walk for the page meets. In
a state with a sorted range map whose range ends are
page-aligned 64-bit addresses, a bitmap that describes memory below
`MAXPHYADDR` and the page tables of the faulting page in allocated frames:
`handlePageFault(errCode, addr)` is fatal if and only if `errCode` has the
present bit set, or no range of the map contains the whole 4 KiB page of
`addr`, or the covering range has flags exactly `{NX}`, or fewer pages are
free than the page and its missing tables need, or the walk for the page
meets a present entry with the page size flag. In every other case it
returns; the frame it maps is the one `alloc(pageSize)` hands out, and when
the page was not mapped before, the walk for the page then ends at the entry
made of that frame and the flags of the covering range. -/
theorem handlePageFault_walk (k : kernelState) (errCode addr page : Nat)
    (hpage : page = addr &&& not64 (pageSize - 1)) (haddr : addr < wordMod)
    (hs : rangesSorted k.globalMap.ranges)
    (hend : ∀ r ∈ k.globalMap.ranges, r.«end» % pageSize = 0 ∧ r.«end» < wordMod)
    (hB : k.globalMem.bits.length * 64 * pageSize ≤ MAXPHYADDR)
    (hall : tablesAllocated k page) :
    ((handlePageFault k errCode addr).isFatal = true ↔
        (errCode &&& 1 ≠ 0 ∨
          (¬ ∃ r ∈ k.globalMap.ranges, r.start ≤ page ∧ page + pageSize ≤ r.«end») ∨
          (∃ r ∈ k.globalMap.ranges,
            r.start ≤ page ∧ page + pageSize ≤ r.«end» ∧ r.flags = pageFlagNX) ∨
          k.globalMem.freeCount < 1 + (walk k.ram k.globalPT page).missingTables ∨
          (walk k.ram k.globalPT page).hitsHuge = true)) ∧
      ((handlePageFault k errCode addr).isFatal = false →
        ∃ k1 r a m1, handlePageFault k errCode addr = Result.ok k1 ∧
          r ∈ k.globalMap.ranges ∧ r.start ≤ page ∧ page + pageSize ≤ r.«end» ∧
          k.globalMem.alloc pageSize = Result.ok (a, pageSize, m1) ∧
          k1.globalMem.freeCount + 1 + (walk k.ram k.globalPT page).missingTables
            = k.globalMem.freeCount ∧
          ((walk k.ram k.globalPT page).mapped = false →
            walk k1.ram k1.globalPT page
              = Walk.page4KB (pageTableEntry.mmap k.nxSupport a r.flags))) := by
  by_cases hlast : page + pageSize < wordMod
  · exact handlePageFault_below_last k errCode addr page hpage hs hB hlast hall
  · -- the last page of the address space lies in no range
    have hp : page % pageSize = 0 := by rw [hpage]; exact (page_aligned addr haddr).1
    obtain ⟨h1, h2⟩ := rangeForAddress_last_page k.globalMap page hs hend hp hlast
    have hfp : faultPage k addr = Result.err :=
      faultPage_no_range k addr (by rw [← hpage]; exact h1)
    have hf : (handlePageFault k errCode addr).isFatal = true :=
      (handlePageFault_isFatal k errCode addr).mpr (Or.inr (by rw [hfp]; rfl))
    refine ⟨⟨fun _ => Or.inr (Or.inl h2), fun _ => hf⟩, fun h => ?_⟩
    rw [hf] at h
    exact Bool.noConfusion h


theorem Walk.absent_cases (w : Walk) (h : w.absent = true) :
    w.hitsHuge = false ∧ w.mapped = false := by
  cases w with
  | notPresent level => exact ⟨rfl, rfl⟩
  | notATable => exact Bool.noConfusion h
  | page1GB e => exact Bool.noConfusion h
  | page2MB e => exact Bool.noConfusion h
  | page4KB e => exact Bool.noConfusion h

/-- C9. In a state with a sorted range map whose range ends are page-aligned
64-bit addresses, a bitmap that describes memory below `MAXPHYADDR` and the
page tables of the faulting page in allocated frames, and for a fault as the
MMU delivers it, with the present bit of the error code clear only when the
walk for the page meets an entry that is not present:
`handlePageFault(errCode, addr)` is fatal if and only if `errCode` has the
present bit set, or no range of the map contains the whole 4 KiB page of
`addr`, or the covering range has flags exactly `{NX}`, or fewer pages are
free than the page and its missing tables need. In every other case it
returns: it has taken the frame that `alloc(pageSize)` hands out, and one
frame for each missing table, and the walk for the page then ends at the
present 4 KiB entry that `pageTableEntry.mmap` makes of that frame and the
flags of the covering range. -/
theorem handlePageFault_spec (k : kernelState) (errCode addr page : Nat)
    (hpage : page = addr &&& not64 (pageSize - 1)) (haddr : addr < wordMod)
    (hs : rangesSorted k.globalMap.ranges)
    (hend : ∀ r ∈ k.globalMap.ranges, r.«end» % pageSize = 0 ∧ r.«end» < wordMod)
    (hB : k.globalMem.bits.length * 64 * pageSize ≤ MAXPHYADDR)
    (hall : tablesAllocated k page)
    (hmmu : errCode &&& 1 = 0 → (walk k.ram k.globalPT page).absent = true) :
    ((handlePageFault k errCode addr).isFatal = true ↔
        (errCode &&& 1 ≠ 0 ∨
          (¬ ∃ r ∈ k.globalMap.ranges, r.start ≤ page ∧ page + pageSize ≤ r.«end») ∨
          (∃ r ∈ k.globalMap.ranges,
            r.start ≤ page ∧ page + pageSize ≤ r.«end» ∧ r.flags = pageFlagNX) ∨
          k.globalMem.freeCount < 1 + (walk k.ram k.globalPT page).missingTables)) ∧
      ((handlePageFault k errCode addr).isFatal = false →
        ∃ k1 r a m1, handlePageFault k errCode addr = Result.ok k1 ∧
          r ∈ k.globalMap.ranges ∧ r.start ≤ page ∧ page + pageSize ≤ r.«end» ∧
          k.globalMem.alloc pageSize = Result.ok (a, pageSize, m1) ∧
          k1.globalMem.freeCount + 1 + (walk k.ram k.globalPT page).missingTables
            = k.globalMem.freeCount ∧
          walk k1.ram k1.globalPT page
            = Walk.page4KB (pageTableEntry.mmap k.nxSupport a r.flags) ∧
          pageTableEntry.present (pageTableEntry.mmap k.nxSupport a r.flags) = true) := by
  obtain ⟨h1, h2⟩ := handlePageFault_walk k errCode addr page hpage haddr hs hend hB hall
  by_cases hb : errCode &&& 1 ≠ 0
  · have hf : (handlePageFault k errCode addr).isFatal = true := h1.mpr (Or.inl hb)
    refine ⟨⟨fun _ => Or.inl hb, fun _ => hf⟩, fun h => ?_⟩
    rw [hf] at h
    exact Bool.noConfusion h
  · obtain ⟨hh, hm⟩ := Walk.absent_cases _ (hmmu (Decidable.not_not.mp hb))
    refine ⟨⟨fun h => ?_, fun h => ?_⟩, fun h => ?_⟩
    · rcases h1.mp h with c | c | c | c | c
      · exact Or.inl c
      · exact Or.inr (Or.inl c)
      · exact Or.inr (Or.inr (Or.inl c))
      · exact Or.inr (Or.inr (Or.inr c))
      · rw [hh] at c
        exact Bool.noConfusion c
    · rcases h with c | c | c | c
      · exact h1.mpr (Or.inl c)
      · exact h1.mpr (Or.inr (Or.inl c))
      · exact h1.mpr (Or.inr (Or.inr (Or.inl c)))
      · exact h1.mpr (Or.inr (Or.inr (Or.inr (Or.inl c))))
    · obtain ⟨k1, r, a, m1, a1, a2, a3, a4, a5, a6, a7⟩ := h2 h
      exact ⟨k1, r, a, m1, a1, a2, a3, a4, a5, a6, a7 hm, present_mmap _ _ _⟩

/-- C9, witness: the second fault in the reserved range of `freshState`, at
0x101008 with the error code 0; the page tables made for the first fault are
there and the entry of the page is not present. The fault is not fatal. -/
theorem handlePageFault_spec_witness :
    (walk onceFaultedState.ram onceFaultedState.globalPT 0x101000).absent = true ∧
      (handlePageFault onceFaultedState 0 0x101008).isFatal = false ∧
      (((handlePageFault onceFaultedState 0 0x101008).isFatal = true ↔
        (0 &&& 1 ≠ 0 ∨
          (¬ ∃ r ∈ onceFaultedState.globalMap.ranges,
            r.start ≤ 0x101000 ∧ 0x101000 + pageSize ≤ r.«end») ∨
          (∃ r ∈ onceFaultedState.globalMap.ranges,
            r.start ≤ 0x101000 ∧ 0x101000 + pageSize ≤ r.«end» ∧ r.flags = pageFlagNX) ∨
          onceFaultedState.globalMem.freeCount
            < 1 + (walk onceFaultedState.ram onceFaultedState.globalPT 0x101000).missingTables)) ∧
      ((handlePageFault onceFaultedState 0 0x101008).isFatal = false →
        ∃ k1 r a m1, handlePageFault onceFaultedState 0 0x101008 = Result.ok k1 ∧
          r ∈ onceFaultedState.globalMap.ranges ∧ r.start ≤ 0x101000 ∧
          0x101000 + pageSize ≤ r.«end» ∧
          onceFaultedState.globalMem.alloc pageSize = Result.ok (a, pageSize, m1) ∧
          k1.globalMem.freeCount + 1
              + (walk onceFaultedState.ram onceFaultedState.globalPT 0x101000).missingTables
            = onceFaultedState.globalMem.freeCount ∧
          walk k1.ram k1.globalPT 0x101000
            = Walk.page4KB (pageTableEntry.mmap onceFaultedState.nxSupport a r.flags) ∧
          pageTableEntry.present
            (pageTableEntry.mmap onceFaultedState.nxSupport a r.flags) = true)) :=
  ⟨by decide, by decide,
    handlePageFault_spec onceFaultedState 0 0x101008 0x101000 (by decide) (by decide)
      (by decide) (by decide) (by decide) (by decide) (by decide)⟩

/-- C10 (demand paging). In a state with a sorted range map whose range ends
are page-aligned 64-bit addresses and whose flags are page flags, a bitmap
that describes memory below `MAXPHYADDR` and the page tables of the page in
allocated frames, for a page that is not mapped yet: when `faultPage(addr)`
succeeds, the 4-level walk for the page of `addr` ends at a present 4 KiB
entry that points at the frame `alloc(pageSize)` has just handed out and
carries the flags of the covering range (without NX when the CPU lacks NX
support), and every page that was mapped through tables in allocated frames
keeps its translation. -/
theorem faultPage_maps (k : kernelState) (addr page : Nat)
    (hpage : page = addr &&& not64 (pageSize - 1)) (haddr : addr < wordMod)
    (hs : rangesSorted k.globalMap.ranges)
    (hend : ∀ r ∈ k.globalMap.ranges, r.«end» % pageSize = 0 ∧ r.«end» < wordMod)
    (hfl : ∀ r ∈ k.globalMap.ranges, r.flags ||| allPageFlags = allPageFlags)
    (hB : k.globalMem.bits.length * 64 * pageSize ≤ MAXPHYADDR)
    (hall : tablesAllocated k page)
    (hun : (walk k.ram k.globalPT page).mapped = false)
    (hok : (faultPage k addr).isOk = true) :
    ∃ k1 r a m1 e, faultPage k addr = Result.ok k1 ∧
      r ∈ k.globalMap.ranges ∧ r.start ≤ page ∧ page + pageSize ≤ r.«end» ∧
      k.globalMem.alloc pageSize = Result.ok (a, pageSize, m1) ∧
      walk k1.ram k1.globalPT page = Walk.page4KB e ∧
      pageTableEntry.present e = true ∧ pageTableEntry.frame e = a ∧
      e &&& allPageFlags = entryFlags k.nxSupport r.flags ∧
      (∀ q, tablesAllocated k q → (walk k.ram k.globalPT q).mapped = true →
        walk k1.ram k1.globalPT q = walk k.ram k.globalPT q) := by
  by_cases hlast : page + pageSize < wordMod
  · exact faultPage_maps_below_last k addr page hpage hs hfl hB hlast hall hun hok
  · have hp : page % pageSize = 0 := by rw [hpage]; exact (page_aligned addr haddr).1
    have h1 := (rangeForAddress_last_page k.globalMap page hs hend hp hlast).1
    rw [faultPage_no_range k addr (by rw [← hpage]; exact h1)] at hok
    exact Bool.noConfusion hok

/-- C10, witness: the second fault in the reserved range of `freshState`. The
page of the first fault is mapped through tables in allocated frames, and it
keeps its translation. -/
theorem faultPage_maps_witness :
    (tablesAllocated onceFaultedState 0x100000 ∧
        (walk onceFaultedState.ram onceFaultedState.globalPT 0x100000).mapped = true) ∧
      ∃ k1 r a m1 e, faultPage onceFaultedState 0x101008 = Result.ok k1 ∧
        r ∈ onceFaultedState.globalMap.ranges ∧ r.start ≤ 0x101000 ∧
        0x101000 + pageSize ≤ r.«end» ∧
        onceFaultedState.globalMem.alloc pageSize = Result.ok (a, pageSize, m1) ∧
        walk k1.ram k1.globalPT 0x101000 = Walk.page4KB e ∧
        pageTableEntry.present e = true ∧ pageTableEntry.frame e = a ∧
        e &&& allPageFlags = entryFlags onceFaultedState.nxSupport r.flags ∧
        (∀ q, tablesAllocated onceFaultedState q →
          (walk onceFaultedState.ram onceFaultedState.globalPT q).mapped = true →
          walk k1.ram k1.globalPT q = walk onceFaultedState.ram onceFaultedState.globalPT q) :=
  ⟨by decide,
    faultPage_maps onceFaultedState 0x101008 0x101000 (by decide) (by decide) (by decide)
      (by decide) (by decide) (by decide) (by decide) (by decide) (by decide)⟩


/-! ## Page size selection in `mmapAligned` -/

/-- C11 (failing input). With 1 GiB pages supported, `mmapAligned` is asked to
map the virtual range `[0x200000, 0x40200000)` to the physical range
`[0, 0x40000000)`. The current virtual address 0x200000 is 2 MiB-aligned but
not 1 GiB-aligned, yet the first iteration installs a 1 GiB page (entry 0x83
in word 0 of the page directory pointer table) and moves `start` and `paddr`
up by 1 GiB, which ends the loop: the test of line 622 reads
`start%pageSize2MB == 0`. The entry maps the virtual range `[0, 0x40000000)`,
so the address 0x200000 translates to the physical address 0x200000, not 0,
the address 0 below the range is mapped, and the last 2 MiB of the range,
from 0x40000000 on, are not mapped. -/
theorem mmapAligned_1GB_unaligned :
    0x200000 % pageSize1GB ≠ 0 ∧
      (mmapAlignedStep gigaPageState 0 0x200000 0x40200000 0 2).advance
        = some (0x200000 + pageSize1GB, pageSize1GB) ∧
      (mmapAligned gigaPageState 0 0x200000 0x40200000 0 2).walkAt 0x200000
        = some (Walk.page1GB 0x83) ∧
      (mmapAligned gigaPageState 0 0x200000 0x40200000 0 2).walkAt 0
        = some (Walk.page1GB 0x83) ∧
      (mmapAligned gigaPageState 0 0x200000 0x40200000 0 2).walkAt 0x40000000
        = some (Walk.notPresent 3) := by
  decide

/-! ## Sleeping threads -/

/-- C13 (failing input). Thread 0 calls `nanosleep(&timespec{1, 0})` while the
monotone clock reads 0 s 0 ns: it is blocked on the sleep condition with the
duration 10^9 ns. After `clock.advance(999)` the clock reads 0 s 999 ns and
`runnable(monotoneMillis())` reports the thread not runnable, and after
`clock.advance(1000)` the clock reads 0 s 1000 ns, a millionth of the
duration, and `runnable(monotoneMillis())` reports the thread runnable:
`monotoneMillis` returns the time in nanoseconds and `runnable` multiplies the
difference by `time.Millisecond`. -/
theorem nanosleep_wakes_early :
    (sleepingState.threadAt 0).block = ⟨1, sleepCondition, ⟨0, 1000000000⟩, 0⟩ ∧
      (sleepingState.unixClock.advance 999).monotoneTime = ⟨0, 999⟩ ∧
      ((sleepingState.threadAt 0).runnable sleepingState.pendingInterrupts
        (sleepingState.unixClock.advance 999).monotoneMillis).2.2 = (1000000, false) ∧
      (sleepingState.unixClock.advance 1000).monotoneTime = ⟨0, 1000⟩ ∧
      ((sleepingState.threadAt 0).runnable sleepingState.pendingInterrupts
        (sleepingState.unixClock.advance 1000).monotoneMillis).2.2 = (0, true) := by
  decide

/-! ## The clock -/

theorem toInt64_eq (x : Int) (h1 : -2 ^ 63 ≤ x) (h2 : x < 2 ^ 63) : toInt64 x = x := by
  unfold toInt64
  omega

theorem toUint64_eq (x : Int) (h1 : 0 ≤ x) (h2 : x < 2 ^ 64) : (toUint64 x : Int) = x := by
  unfold toUint64
  omega

/-- A sleeping thread is reported runnable as soon as the value passed to
`runnable` exceeds the one stored by `sleepFor` by a millionth of the
duration. -/
theorem runnable_sleep_iff (t : thread) (pending : List Bool) (T : Nat)
    (hc : t.block.conditions = sleepCondition)
    (h0 : t.block.sleep.monotoneTime ≤ T) (hT : T < wordMod)
    (hdiff : (T - t.block.sleep.monotoneTime) * 1000000 < 2 ^ 63)
    (hd1 : 0 ≤ t.block.sleep.duration) (hd2 : t.block.sleep.duration < 2 ^ 63) :
    (t.runnable pending T).2.2.2 = true ↔
      t.block.sleep.duration ≤ ((T - t.block.sleep.monotoneTime) * 1000000 : Nat) := by
  have hsub : sub64 T t.block.sleep.monotoneTime = T - t.block.sleep.monotoneTime := by
    unfold sub64 wordMod at *
    omega
  have e1 : toInt64 ((T - t.block.sleep.monotoneTime : Nat) : Int)
      = ((T - t.block.sleep.monotoneTime : Nat) : Int) := by
    apply toInt64_eq <;> omega
  have e2 : toInt64 (((T - t.block.sleep.monotoneTime : Nat) : Int) * 1000000)
      = ((T - t.block.sleep.monotoneTime : Nat) : Int) * 1000000 := by
    apply toInt64_eq <;> omega
  have e3 : toInt64 (t.block.sleep.duration
        - ((T - t.block.sleep.monotoneTime : Nat) : Int) * 1000000)
      = t.block.sleep.duration - ((T - t.block.sleep.monotoneTime : Nat) : Int) * 1000000 := by
    apply toInt64_eq <;> omega
  unfold thread.runnable
  rw [hc]
  simp only [sleepCondition, interruptCondition, hsub, e1, e2, e3]
  simp

/-- C17 (counterexample). The instant with `seconds` = 2^63 - 1 and no
nanoseconds satisfies the conditions of the claim for n = 10^9, but
`advance(10^9)` wraps `seconds` to -2^63: the total is not 10^9 larger. -/
theorem instant_advance_wraps :
    (instant.mk (2 ^ 63 - 1) 0).nanoseconds < 10 ^ 9 ∧
      10 ^ 9 + (instant.mk (2 ^ 63 - 1) 0).nanoseconds < 2 ^ 64 ∧
      (instant.mk (2 ^ 63 - 1) 0).advance (10 ^ 9) = ⟨-2 ^ 63, 0⟩ ∧
      ¬ (((instant.mk (2 ^ 63 - 1) 0).advance (10 ^ 9)).seconds * 10 ^ 9
            + (((instant.mk (2 ^ 63 - 1) 0).advance (10 ^ 9)).nanoseconds : Int)
          = (instant.mk (2 ^ 63 - 1) 0).seconds * 10 ^ 9
            + ((instant.mk (2 ^ 63 - 1) 0).nanoseconds : Int) + (10 ^ 9 : Nat)) := by
  decide

/-- C17 (amended). For every instant with nanoseconds < 10^9 and every n with
n + nanoseconds < 2^64 such that the new count of seconds fits an `int64`,
`advance(n)` yields an instant with nanoseconds < 10^9 whose total
seconds * 10^9 + nanoseconds is exactly n larger than before; and when the
instant is the monotone time of a clock, its seconds are not negative and the
new total is below 2^64, `monotoneMillis()` after `clock.advance(n)` is its
value before plus n, so it is not smaller. -/
theorem instant_advance_spec (t : instant) (n : Nat)
    (hns : t.nanoseconds < 10 ^ 9) (hn : n + t.nanoseconds < 2 ^ 64)
    (hlo : -2 ^ 63 ≤ t.seconds)
    (hhi : t.seconds + ((n + t.nanoseconds) / 10 ^ 9 : Nat) < 2 ^ 63) :
    (t.advance n).nanoseconds < 10 ^ 9 ∧
      (t.advance n).seconds * 10 ^ 9 + ((t.advance n).nanoseconds : Int)
        = t.seconds * 10 ^ 9 + (t.nanoseconds : Int) + (n : Int) ∧
      ∀ c : clock, c.monotoneTime = t → 0 ≤ t.seconds →
        t.seconds * 10 ^ 9 + (t.nanoseconds : Int) + (n : Int) < 2 ^ 64 →
        (c.advance n).monotoneMillis = c.monotoneMillis + n := by
  have hadd : add64 n t.nanoseconds = n + t.nanoseconds := by
    unfold add64 wordMod
    exact Nat.mod_eq_of_lt hn
  have hq : (n + t.nanoseconds) / 1000000000 < 2 ^ 63 := by omega
  have e1 : toInt64 (((n + t.nanoseconds) / 1000000000 : Nat) : Int)
      = (((n + t.nanoseconds) / 1000000000 : Nat) : Int) := by
    apply toInt64_eq <;> omega
  have e2 : toInt64 (t.seconds + (((n + t.nanoseconds) / 1000000000 : Nat) : Int))
      = t.seconds + (((n + t.nanoseconds) / 1000000000 : Nat) : Int) := by
    apply toInt64_eq
    · omega
    · norm_num at hhi ⊢
      exact hhi
  have hsec : (t.advance n).seconds
      = t.seconds + (((n + t.nanoseconds) / 1000000000 : Nat) : Int) := by
    unfold instant.advance
    simp only [hadd]
    rw [← e2, ← e1]
    rfl
  have hnano : (t.advance n).nanoseconds = (n + t.nanoseconds) % 1000000000 := by
    unfold instant.advance
    simp only [hadd]
    apply Nat.mod_eq_of_lt
    omega
  have htot : (t.advance n).seconds * 10 ^ 9 + ((t.advance n).nanoseconds : Int)
      = t.seconds * 10 ^ 9 + (t.nanoseconds : Int) + (n : Int) := by
    rw [hsec, hnano]
    push_cast
    omega
  refine ⟨by rw [hnano]; omega, htot, ?_⟩
  intro c hc h0 hlt
  have hs0 : 0 ≤ (t.advance n).seconds := by rw [hsec]; omega
  have hm1 : (c.advance n).monotoneTime = t.advance n := by
    unfold clock.advance
    rw [hc]
  have hn0 : (0 : Int) ≤ ((t.advance n).nanoseconds : Int) := Int.natCast_nonneg _
  have hn1 : (0 : Int) ≤ (t.nanoseconds : Int) := Int.natCast_nonneg _
  have u1 := toUint64_eq (t.advance n).seconds hs0 (by omega)
  have u0 := toUint64_eq t.seconds h0 (by omega)
  unfold clock.monotoneMillis
  rw [hm1, hc]
  unfold add64 wordMod
  have a1 : ((toUint64 (t.advance n).seconds * 1000000000 + (t.advance n).nanoseconds : Nat) : Int)
      = ((toUint64 t.seconds * 1000000000 + t.nanoseconds + n : Nat) : Int) := by
    push_cast
    rw [u1, u0]
    omega
  have a2 : toUint64 (t.advance n).seconds * 1000000000 + (t.advance n).nanoseconds
      = toUint64 t.seconds * 1000000000 + t.nanoseconds + n := by
    exact_mod_cast a1
  have a3 : toUint64 t.seconds * 1000000000 + t.nanoseconds + n < 2 ^ 64 := by
    have : ((toUint64 t.seconds * 1000000000 + t.nanoseconds + n : Nat) : Int) < 2 ^ 64 := by
      push_cast
      rw [u0]
      omega
    exact_mod_cast this
  omega

theorem instant_advance_spec_witness :
    ((instant.mk 5 999999999).advance 1500000002).nanoseconds < 10 ^ 9 ∧
      ((instant.mk 5 999999999).advance 1500000002).seconds * 10 ^ 9
          + (((instant.mk 5 999999999).advance 1500000002).nanoseconds : Int)
        = (instant.mk 5 999999999).seconds * 10 ^ 9
          + ((instant.mk 5 999999999).nanoseconds : Int) + (1500000002 : Nat) ∧
      ∀ c : clock, c.monotoneTime = instant.mk 5 999999999 →
        0 ≤ (instant.mk 5 999999999).seconds →
        (instant.mk 5 999999999).seconds * 10 ^ 9
          + ((instant.mk 5 999999999).nanoseconds : Int) + (1500000002 : Nat) < 2 ^ 64 →
        (c.advance 1500000002).monotoneMillis = c.monotoneMillis + 1500000002 :=
  instant_advance_spec ⟨5, 999999999⟩ 1500000002 (by decide) (by decide) (by decide) (by decide)

/-! ## Futex wake-up -/

theorem waitsOn_false_of_cond (t : thread) (a : Nat)
    (h : t.block.conditions &&& futexCondition = 0) : t.waitsOn a = false := by
  unfold thread.waitsOn
  simp [h]

theorem waitsOn_false_of_futex (t : thread) (a : Nat) (h : t.block.futex ≠ a) :
    t.waitsOn a = false := by
  unfold thread.waitsOn
  simp [h]

theorem waitsOn_true (t : thread) (a : Nat)
    (h1 : ¬ t.block.conditions &&& futexCondition = 0) (h2 : ¬ t.block.futex ≠ a) :
    t.waitsOn a = true := by
  unfold thread.waitsOn
  have h3 : t.block.futex = a := by
    by_contra hc
    exact h2 hc
  simp [h1, h3]

/-- The loop of `futexWakeup` clears the conditions of the waiters that have
fewer than `n` waiters before them and leaves the other threads as they are. -/
theorem futexWakeupLoop_spec (a : Nat) (l : List thread) :
    ∀ n : Int, 0 ≤ n → n < 2 ^ 63 →
      (futexWakeupLoop a n l).length = l.length ∧
      ∀ i, i < l.length →
        (futexWakeupLoop a n l).getD i default
          = if (l.getD i default).waitsOn a = true ∧
                (((l.take i).countP (fun t => t.waitsOn a) : Nat) : Int) < n
            then (l.getD i default).clearConditions else l.getD i default := by
  induction l with
  | nil =>
    intro n _ _
    exact ⟨rfl, fun i hi => absurd hi (Nat.not_lt_zero _)⟩
  | cons t rest ih =>
    intro n h0 h1
    unfold futexWakeupLoop
    by_cases hn : n = 0
    · rw [if_pos hn]
      refine ⟨rfl, fun i _ => ?_⟩
      rw [if_neg]
      rintro ⟨-, hlt⟩
      omega
    · rw [if_neg hn]
      by_cases hc : t.block.conditions &&& futexCondition = 0
      · rw [if_pos hc]
        have hw := waitsOn_false_of_cond t a hc
        obtain ⟨il, ig⟩ := ih n h0 h1
        refine ⟨by simp [il], fun i hi => ?_⟩
        cases i with
        | zero => simp [hw]
        | succ j =>
          have hj : j < rest.length := by simpa using hi
          simp only [List.getD_cons_succ, List.take_succ_cons, List.countP_cons, hw,
            Bool.false_eq_true, if_false, Nat.add_zero]
          exact ig j hj
      · rw [if_neg hc]
        by_cases hf : t.block.futex ≠ a
        · rw [if_pos hf]
          have hw := waitsOn_false_of_futex t a hf
          obtain ⟨il, ig⟩ := ih n h0 h1
          refine ⟨by simp [il], fun i hi => ?_⟩
          cases i with
          | zero => simp [hw]
          | succ j =>
            have hj : j < rest.length := by simpa using hi
            simp only [List.getD_cons_succ, List.take_succ_cons, List.countP_cons, hw,
              Bool.false_eq_true, if_false, Nat.add_zero]
            exact ig j hj
        · rw [if_neg hf]
          have hw := waitsOn_true t a hc hf
          have e : toInt64 (n - 1) = n - 1 := by
            apply toInt64_eq <;> omega
          rw [e]
          obtain ⟨il, ig⟩ := ih (n - 1) (by omega) (by omega)
          refine ⟨by simp [il], fun i hi => ?_⟩
          cases i with
          | zero =>
            have : (0 : Int) < n := by omega
            simp [hw, this]
          | succ j =>
            have hj : j < rest.length := by simpa using hi
            simp only [List.getD_cons_succ, List.take_succ_cons, List.countP_cons, hw, if_true]
            rw [ig j hj]
            have hiff : ((((rest.take j).countP (fun t => t.waitsOn a) : Nat) : Int) < n - 1) ↔
                ((((rest.take j).countP (fun t => t.waitsOn a) + 1 : Nat) : Int) < n) := by
              push_cast
              omega
            simp only [hiff]

theorem threadAt_setThread (s : sysState) (i : Nat) (t : thread)
    (hi : i < s.globalThreads.list.length) : (s.setThread i t).threadAt i = t := by
  unfold sysState.setThread sysState.threadAt
  simp [List.getD_eq_getElem?_getD, hi]

theorem sleepThread_length (s : sysState) (i a : Nat) :
    (s.sleepThread i a).globalThreads.list.length = s.globalThreads.list.length := by
  unfold sysState.sleepThread
  split
  · simp [sysState.setThread]
  · rfl

theorem countP_take_eq_zero (l : List thread) (a i : Nat)
    (h : ∀ k, k ≠ i → (l.getD k default).waitsOn a = false) :
    (l.take i).countP (fun t => t.waitsOn a) = 0 := by
  rw [List.countP_eq_zero]
  intro x hx
  obtain ⟨k, hk, rfl⟩ := List.mem_iff_getElem.1 hx
  have hk2 : k < i ∧ k < l.length := by simpa using hk
  have := h k (by omega)
  rw [List.getD_eq_getElem?_getD, List.getElem?_eq_getElem hk2.2] at this
  simpa [List.getElem_take] using this

theorem or_flag_and_flag (c : Nat) : ¬ (c ||| 4) &&& 4 = 0 := by
  intro h
  have h2 : ((c ||| 4) &&& 4).testBit 2 = true := by
    rw [Nat.testBit_and, Nat.testBit_or]
    have : (4 : Nat).testBit 2 = true := by decide
    simp [this]
  rw [h] at h2
  simp at h2

/-- A wake-up of one waiter on `a` makes the only thread waiting on `a`
runnable. -/
theorem futexWake_only_waiter (s1 : sysState) (i j a b3 : Nat)
    (hi : i < s1.globalThreads.list.length)
    (hw : (s1.threadAt i).waitsOn a = true)
    (hall : ∀ k, k ≠ i → (s1.threadAt k).waitsOn a = false) :
    ∃ s2, sysenter0 s1 j _SYS_futex a _FUTEX_WAKE 1 b3 = Result.ok (s2, _EOK, 0) ∧
      (s2.threadAt i).block.conditions = 0 ∧
      ∀ pending T, ((s2.threadAt i).runnable pending T).2.2 = (0, true) := by
  have e0 : sysenter0 s1 j _SYS_futex a _FUTEX_WAKE 1 b3 = sysFutex s1 j a _FUTEX_WAKE 1 b3 := by
    unfold sysenter0
    simp [_SYS_futex, _SYS_write, _SYS_mmap, _SYS_clone, _SYS_exit_group, _SYS_arch_prctl,
      _SYS_uname]
  rw [e0]
  unfold sysFutex
  have h1 : ¬ (_FUTEX_WAKE = _FUTEX_WAIT ∨ _FUTEX_WAKE = _FUTEX_WAIT_PRIVATE) := by decide
  have h2 : toInt64 ((1 : Nat) : Int) = 1 := by decide
  simp only [h1, if_false, true_or, if_true, h2]
  refine ⟨_, rfl, ?_⟩
  obtain ⟨-, hg⟩ := futexWakeupLoop_spec a s1.globalThreads.list 1 (by decide) (by decide)
  have hc := countP_take_eq_zero s1.globalThreads.list a i hall
  have hthread : sysState.threadAt
      { s1 with globalThreads := s1.globalThreads.futexWakeup a 1 } i
      = (s1.threadAt i).clearConditions := by
    show (futexWakeupLoop a 1 s1.globalThreads.list).getD i default = _
    rw [hg i hi, hc]
    unfold sysState.threadAt at hw
    rw [if_pos ⟨hw, by decide⟩]
    rfl
  rw [hthread]
  refine ⟨rfl, fun pending T => ?_⟩
  unfold thread.runnable
  have hz : (s1.threadAt i).clearConditions.block.conditions = 0 := rfl
  rw [if_pos hz]

/-- C14. For every thread table, address `a` and count `n ≥ 0`,
`futexWakeup(a, n)` keeps the length of the table and clears the block
conditions of exactly those threads waiting on `a` (futex condition set and
`futex == a`) that have fewer than `n` such threads before them in the table,
that is of the first min(n, k) of the k waiters; every other thread is left as
it is. And after thread `i` has made the system call `FUTEX_WAIT` on `a`, it
waits on `a`; if it is the only waiter, then after a system call
`FUTEX_WAKE(a, 1)` by any thread its block conditions are 0 and
`runnable(T)` reports it runnable for every `T`. -/
theorem futexWakeup_spec (ts : threads) (s : sysState) (a : Nat) (n : Int)
    (i j op a2 a3 b3 : Nat)
    (hn0 : 0 ≤ n) (hn1 : n < 2 ^ 63)
    (hop : op = _FUTEX_WAIT ∨ op = _FUTEX_WAIT_PRIVATE)
    (hi : i < s.globalThreads.list.length) :
    ((ts.futexWakeup a n).list.length = ts.list.length ∧
      ∀ k, k < ts.list.length →
        (ts.futexWakeup a n).list.getD k default
          = if (ts.list.getD k default).waitsOn a = true ∧
                (((ts.list.take k).countP (fun t => t.waitsOn a) : Nat) : Int) < n
            then (ts.list.getD k default).clearConditions
            else ts.list.getD k default) ∧
    ∃ s1, sysenter0 s i _SYS_futex a op a2 a3 = Result.ok (s1, 0, 0) ∧
      (s1.threadAt i).waitsOn a = true ∧
      ((∀ k, k ≠ i → (s1.threadAt k).waitsOn a = false) →
        ∃ s2, sysenter0 s1 j _SYS_futex a _FUTEX_WAKE 1 b3 = Result.ok (s2, _EOK, 0) ∧
          (s2.threadAt i).block.conditions = 0 ∧
          ∀ pending T, ((s2.threadAt i).runnable pending T).2.2 = (0, true)) := by
  refine ⟨futexWakeupLoop_spec a ts.list n hn0 hn1, ?_⟩
  have hsys : _SYS_futex = 202 := rfl
  have e0 : sysenter0 s i _SYS_futex a op a2 a3 = sysFutex s i a op a2 a3 := by
    unfold sysenter0
    simp [_SYS_futex, _SYS_write, _SYS_mmap, _SYS_clone, _SYS_exit_group, _SYS_arch_prctl,
      _SYS_uname]
  rw [e0]
  unfold sysFutex
  simp only [hop, if_true]
  have hlen := sleepThread_length s i a3
  refine ⟨_, rfl, ?_, ?_⟩
  · rw [threadAt_setThread _ _ _ (by rw [hlen]; exact hi)]
    unfold thread.waitsOn
    simp [futexCondition]
    exact or_flag_and_flag _
  · intro hall
    exact futexWake_only_waiter _ i j a b3 (by simp [sysState.setThread, hlen, hi])
      (by
        rw [threadAt_setThread _ _ _ (by rw [hlen]; exact hi)]
        unfold thread.waitsOn
        simp [futexCondition]
        exact or_flag_and_flag _) hall

theorem futexWakeup_spec_witness :
    ((futexTable.futexWakeup 0x7000 1).list.length = futexTable.list.length ∧
      ∀ k, k < futexTable.list.length →
        (futexTable.futexWakeup 0x7000 1).list.getD k default
          = if (futexTable.list.getD k default).waitsOn 0x7000 = true ∧
                (((futexTable.list.take k).countP (fun t => t.waitsOn 0x7000) : Nat) : Int) < 1
            then (futexTable.list.getD k default).clearConditions
            else futexTable.list.getD k default) ∧
    ∃ s1, sysenter0 twoThreadState 0 _SYS_futex 0x7000 _FUTEX_WAIT 0 0 = Result.ok (s1, 0, 0) ∧
      (s1.threadAt 0).waitsOn 0x7000 = true ∧
      ((∀ k, k ≠ 0 → (s1.threadAt k).waitsOn 0x7000 = false) →
        ∃ s2, sysenter0 s1 1 _SYS_futex 0x7000 _FUTEX_WAKE 1 0 = Result.ok (s2, _EOK, 0) ∧
          (s2.threadAt 0).block.conditions = 0 ∧
          ∀ pending T, ((s2.threadAt 0).runnable pending T).2.2 = (0, true)) :=
  futexWakeup_spec futexTable twoThreadState 0x7000 1 0 1 _FUTEX_WAIT 0 0 0 (by decide)
    (by decide) (Or.inl rfl) (by decide)

/-! ## The system calls `clone` and the stubs -/

theorem sysenter0_clone (s : sysState) (cur a0 a1 a2 a3 : Nat) :
    sysenter0 s cur _SYS_clone a0 a1 a2 a3 = sysClone s cur a0 a1 := by
  unfold sysenter0
  simp [_SYS_clone, _SYS_write, _SYS_mmap]

/-- C15. With the thread table capacity `maxThreads` = 100 that
`threads.init` sets up, `sysenter0` for `clone` made by thread `cur` returns
ENOTSUP and leaves the state as it is unless `flags` is exactly
CLONE_VM|CLONE_FS|CLONE_FILES|CLONE_SIGHAND|CLONE_SYSVSEM|CLONE_THREAD; with
exactly those flags and fewer than 100 threads the only change of the state is
one thread appended to the table, whose id is the previous thread count, whose
context is the context of the caller except that `sp` is the given stack and
`ax` is 0, and which has no block condition, and the call returns that id;
with 100 threads it returns ENOMEM and leaves the state as it is. -/
theorem clone_spec (s : sysState) (cur flags stack a2 a3 : Nat)
    (hcap : s.globalThreads.cap = maxThreads)
    (hlen : s.globalThreads.list.length ≤ s.globalThreads.cap)
    (hcur : cur < s.globalThreads.list.length) :
    (flags ≠ _CLONE_VM ||| _CLONE_FS ||| _CLONE_FILES ||| _CLONE_SIGHAND ||| _CLONE_SYSVSEM |||
          _CLONE_THREAD →
        sysenter0 s cur _SYS_clone flags stack a2 a3 = Result.ok (s, _ENOTSUP, 0)) ∧
      (flags = _CLONE_VM ||| _CLONE_FS ||| _CLONE_FILES ||| _CLONE_SIGHAND ||| _CLONE_SYSVSEM |||
          _CLONE_THREAD →
        (s.globalThreads.list.length < 100 →
          sysenter0 s cur _SYS_clone flags stack a2 a3
            = Result.ok (s.setThreads ⟨s.globalThreads.list ++
                [clonedThread (s.threadAt cur) stack s.globalThreads.list.length],
                s.globalThreads.cap⟩, s.globalThreads.list.length, 0)) ∧
        (¬ s.globalThreads.list.length < 100 →
          sysenter0 s cur _SYS_clone flags stack a2 a3 = Result.ok (s, _ENOMEM, 0))) := by
  rw [sysenter0_clone]
  unfold sysClone
  refine ⟨fun h => by rw [if_pos h], fun h => ⟨fun hl => ?_, fun hl => ?_⟩⟩
  all_goals rw [if_neg (not_not.mpr h)]
  · have hne : s.globalThreads.list.length ≠ s.globalThreads.cap := by
      rw [hcap, maxThreads]
      omega
    have hcur_get : (s.globalThreads.list ++
        [(⟨context.zero, s.globalThreads.list.length, blockCondition.zero⟩ : thread)]).getD cur
          default = s.threadAt cur := by
      unfold sysState.threadAt
      rw [List.getD_eq_getElem?_getD, List.getD_eq_getElem?_getD,
        List.getElem?_append_left hcur]
    have hnew_get : (s.globalThreads.list ++
        [(⟨context.zero, s.globalThreads.list.length, blockCondition.zero⟩ : thread)]).getD
          s.globalThreads.list.length default
          = ⟨context.zero, s.globalThreads.list.length, blockCondition.zero⟩ := by
      rw [List.getD_eq_getElem?_getD]
      simp
    simp only [threads.newThread, hne, if_false]
    simp only [sysState.threadAt, hcur_get, hnew_get, sysState.setThread, sysState.setThreads,
      clonedThread]
    simp
  · have heq : s.globalThreads.list.length = s.globalThreads.cap := by
      rw [hcap, maxThreads] at *
      omega
    simp only [threads.newThread, heq, if_true]

theorem clone_spec_witness :
    (0x50f00 ≠ _CLONE_VM ||| _CLONE_FS ||| _CLONE_FILES ||| _CLONE_SIGHAND ||| _CLONE_SYSVSEM |||
          _CLONE_THREAD →
        sysenter0 twoThreadState 0 _SYS_clone 0x50f00 0x9000 0 0
          = Result.ok (twoThreadState, _ENOTSUP, 0)) ∧
      (0x50f00 = _CLONE_VM ||| _CLONE_FS ||| _CLONE_FILES ||| _CLONE_SIGHAND |||
          _CLONE_SYSVSEM ||| _CLONE_THREAD →
        (twoThreadState.globalThreads.list.length < 100 →
          sysenter0 twoThreadState 0 _SYS_clone 0x50f00 0x9000 0 0
            = Result.ok (twoThreadState.setThreads ⟨twoThreadState.globalThreads.list ++
                [clonedThread (twoThreadState.threadAt 0) 0x9000
                  twoThreadState.globalThreads.list.length],
                twoThreadState.globalThreads.cap⟩, twoThreadState.globalThreads.list.length, 0)) ∧
        (¬ twoThreadState.globalThreads.list.length < 100 →
          sysenter0 twoThreadState 0 _SYS_clone 0x50f00 0x9000 0 0
            = Result.ok (twoThreadState, _ENOMEM, 0))) :=
  clone_spec twoThreadState 0 0x50f00 0x9000 0 0 rfl (by decide) (by decide)

/-- C16 (counterexample). Thread 0 of `twoThreadState` has no block condition.
After `sysenter0` for `epoll_pwait` with the timeout 5 (`a3`) it is blocked on
the sleep condition for 5000000 ns, and with the timeout 2^64 - 1, that is -1,
it is blocked on the dead condition. -/
theorem epoll_pwait_blocks :
    (twoThreadState.threadAt 0).block = blockCondition.zero ∧
      (sysenter0 twoThreadState 0 _SYS_epoll_pwait 0 0 0 5).rets = some (_EOK, 0) ∧
      ((sysenter0 twoThreadState 0 _SYS_epoll_pwait 0 0 0 5).state.map
          (fun s => (s.threadAt 0).block)) = some ⟨0, sleepCondition, ⟨0, 5000000⟩, 0⟩ ∧
      ((sysenter0 twoThreadState 0 _SYS_epoll_pwait 0 0 0 (2 ^ 64 - 1)).state.map
          (fun s => (s.threadAt 0).block)) = some ⟨0, deadCondition, ⟨0, 0⟩, 0⟩ := by
  decide

/-- C16 (amended). For each of the system calls rt_sigaction, rt_sigprocmask,
sigaltstack, uname, epoll_create1, epoll_ctl and pipe2, and for all argument
values, `sysenter0` returns EOK (0) and the state after the call is the state
before it. The system call epoll_pwait returns EOK as well, but blocks the
calling thread: with the timeout `a3` milliseconds, as an `int64` count of
nanoseconds, not negative it sets the sleep condition for that duration, and
otherwise it sets the block conditions to the dead condition. -/
theorem stub_syscalls_spec (s : sysState) (cur sysno a0 a1 a2 a3 : Nat)
    (h : sysno = _SYS_rt_sigaction ∨ sysno = _SYS_rt_sigprocmask ∨ sysno = _SYS_sigaltstack ∨
      sysno = _SYS_uname ∨ sysno = _SYS_epoll_create1 ∨ sysno = _SYS_epoll_ctl ∨
      sysno = _SYS_pipe2) :
    sysenter0 s cur sysno a0 a1 a2 a3 = Result.ok (s, _EOK, 0) ∧
      (toInt64 (toInt64 a3 * 1000000) ≥ 0 →
        sysenter0 s cur _SYS_epoll_pwait a0 a1 a2 a3
          = Result.ok (s.setThread cur ((s.threadAt cur).sleepFor s.unixClock.monotoneMillis
              (toInt64 (toInt64 a3 * 1000000))), _EOK, 0)) ∧
      (¬ toInt64 (toInt64 a3 * 1000000) ≥ 0 →
        sysenter0 s cur _SYS_epoll_pwait a0 a1 a2 a3
          = Result.ok (s.setThread cur ((s.threadAt cur).setConditions deadCondition),
              _EOK, 0)) := by
  have e : sysenter0 s cur _SYS_epoll_pwait a0 a1 a2 a3 = sysEpollPwait s cur a3 := by
    unfold sysenter0
    simp [_SYS_epoll_pwait, _SYS_write, _SYS_mmap, _SYS_clone, _SYS_exit_group,
      _SYS_arch_prctl, _SYS_uname, _SYS_futex, _SYS_rt_sigprocmask, _SYS_sigaltstack,
      _SYS_rt_sigaction, _SYS_nanosleep, _SYS_epoll_create1, _SYS_epoll_ctl, _SYS_pipe2]
  refine ⟨?_, fun h1 => ?_, fun h1 => ?_⟩
  · unfold sysenter0
    rcases h with h | h | h | h | h | h | h <;> subst h <;>
      simp [_SYS_epoll_pwait, _SYS_write, _SYS_mmap, _SYS_clone, _SYS_exit_group,
        _SYS_arch_prctl, _SYS_uname, _SYS_futex, _SYS_rt_sigprocmask, _SYS_sigaltstack,
        _SYS_rt_sigaction, _SYS_nanosleep, _SYS_epoll_create1, _SYS_epoll_ctl, _SYS_pipe2]
  · rw [e]
    unfold sysEpollPwait
    simp only
    rw [if_pos h1]
  · rw [e]
    unfold sysEpollPwait
    simp only
    rw [if_neg h1]

theorem stub_syscalls_spec_witness :
    sysenter0 twoThreadState 1 _SYS_pipe2 1 2 3 4 = Result.ok (twoThreadState, _EOK, 0) ∧
      (toInt64 (toInt64 4 * 1000000) ≥ 0 →
        sysenter0 twoThreadState 1 _SYS_epoll_pwait 1 2 3 4
          = Result.ok (twoThreadState.setThread 1
              ((twoThreadState.threadAt 1).sleepFor twoThreadState.unixClock.monotoneMillis
              (toInt64 (toInt64 4 * 1000000))), _EOK, 0)) ∧
      (¬ toInt64 (toInt64 4 * 1000000) ≥ 0 →
        sysenter0 twoThreadState 1 _SYS_epoll_pwait 1 2 3 4
          = Result.ok (twoThreadState.setThread 1
              ((twoThreadState.threadAt 1).setConditions deadCondition), _EOK, 0)) :=
  stub_syscalls_spec twoThreadState 1 _SYS_pipe2 1 2 3 4
    (Or.inr (Or.inr (Or.inr (Or.inr (Or.inr (Or.inr rfl))))))

/-! ## CMOS time -/

/-- C18 (failing input). For 2020-12-25 12:00:00 (month 11, day 24)
`cmosToUnix` returns 1611576000, the Unix time of 2021-01-25 12:00:00, and not
1608897600: `norm(year, month, 11)` turns December into January of the next
year. -/
theorem cmosToUnix_december :
    norm 2020 11 11 = (2021, 0) ∧
      cmosToUnix 2020 11 24 12 0 0 = Result.ok 1611576000 ∧
      civilSeconds 2020 11 24 12 0 0 = 1608897600 ∧
      civilSeconds 2021 0 24 12 0 0 = 1611576000 := by
  decide

/-! ## Virtio command queue -/

theorem linkDesc_length (ds : List queueDescriptor) (d idx : Nat) :
    (linkDesc ds d idx).length = ds.length := by
  unfold linkDesc
  simp

theorem linkDesc_ne (ds : List queueDescriptor) (d idx j : Nat) (h : j ≠ d) :
    (linkDesc ds d idx)[j]? = ds[j]? := by
  unfold linkDesc
  simp only
  rw [List.getElem?_set_ne (Ne.symm h)]

theorem linkDesc_self (ds : List queueDescriptor) (d idx : Nat) (o : queueDescriptor)
    (h : ds[d]? = some o) :
    (linkDesc ds d idx)[d]? = some ⟨o.addr, o.len, o.flags ||| _VIRTQ_DESC_F_NEXT, idx⟩ := by
  have hd : d < ds.length := by
    by_contra hc
    rw [List.getElem?_eq_none (by omega)] at h
    exact Option.noConfusion h
  unfold linkDesc
  simp only
  rw [List.getElem?_set_self hd, List.getD_eq_getElem?_getD, h]
  rfl

theorem linkPrev_length (ds : List queueDescriptor) (desc : Option Nat) (idx : Nat) :
    (linkPrev ds desc idx).length = ds.length := by
  cases desc with
  | none => rfl
  | some d => exact linkDesc_length _ _ _

theorem linkPrev_ne (ds : List queueDescriptor) (desc : Option Nat) (idx j : Nat)
    (h : desc ≠ some j) : (linkPrev ds desc idx)[j]? = ds[j]? := by
  cases desc with
  | none => rfl
  | some d =>
    apply linkDesc_ne
    intro hc
    exact h (by rw [hc])

theorem lastDesc_cons (x : Nat) (xs : List Nat) (desc : Option Nat) :
    lastDesc (x :: xs) desc = lastDesc xs (some x) := by
  cases xs with
  | nil => rfl
  | cons y ys =>
    have h : (y :: ys).getLast? = some ((y :: ys).getLast (List.cons_ne_nil _ _)) :=
      List.getLast?_eq_getLast _ _
    simp only [lastDesc, List.getLast?_cons_cons, h]

theorem allocDesc_append (q : Queue) (used : Nat) (F : List Nat) (x : Nat) :
    (Commander.mk q used (F ++ [x])).allocDesc = some (x, ⟨q, used, F⟩) := by
  unfold Commander.allocDesc
  simp

/-- One iteration of the first loop of `Command`. -/
theorem commandReq_cons (p : PhysPage) (ps : List PhysPage) (q : Queue) (used : Nat)
    (F : List Nat) (x : Nat) (first : Bool) (desc : Option Nat)
    (hs1 : 1 ≤ q.size) (hs2 : q.size ≤ q.queue.available.ring.length)
    (hx : x < q.queue.descriptors.length) :
    commandReq (p :: ps) ⟨q, used, F ++ [x]⟩ first desc
      = commandReq ps ⟨(q.setAvailable (ringAfter q.queue.available q.size first [x])).setDescriptors
          ((linkPrev q.queue.descriptors desc x).set x
            ⟨p.Addr, (p.Size % 2 ^ 32).toNat, 0, 0⟩), used, F⟩ false (some x) := by
  have hmod : q.queue.available.idx % q.size < q.queue.available.ring.length :=
    lt_of_lt_of_le (Nat.mod_lt _ (by omega)) hs2
  have hne : q.size ≠ 0 := by omega
  have hd := linkPrev_length q.queue.descriptors desc x
  rw [commandReq, allocDesc_append]
  simp only [Queue.setDescriptors, Queue.setAvailable]
  rw [if_neg (by
    rintro ⟨-, h | h⟩
    · exact hne h
    · omega)]
  rw [if_neg (by rw [hd]; omega)]
  cases first <;> rfl

/-- The first loop of `Command` over the blocks `ps`, the free stack ending
in the descriptors `xs` in reverse: the descriptors `xs` are linked into a
chain that holds the blocks, the descriptor `desc` is linked to the first of
them, and no other descriptor changes. -/
theorem commandReq_spec :
    ∀ (ps : List PhysPage) (xs : List Nat) (q : Queue) (used : Nat) (F : List Nat)
      (first : Bool) (desc : Option Nat),
      xs.length = ps.length → xs.Nodup →
      (∀ x ∈ xs, x < q.queue.descriptors.length) →
      (∀ d, desc = some d → d ∉ xs) →
      1 ≤ q.size → q.size ≤ q.queue.available.ring.length →
      ∃ ds, commandReq ps ⟨q, used, F ++ xs.reverse⟩ first desc
          = some (⟨(q.setAvailable (ringAfter q.queue.available q.size first xs)).setDescriptors
              ds, used, F⟩, lastDesc xs desc) ∧
        ds.length = q.queue.descriptors.length ∧
        (∀ t x p, xs[t]? = some x → ps[t]? = some p →
          ds[x]? = some (queueDescriptor.mk p.Addr (p.Size % 2 ^ 32).toNat
            (if t + 1 < xs.length then 0 ||| _VIRTQ_DESC_F_NEXT else 0)
            (if t + 1 < xs.length then xs.getD (t + 1) 0 else 0))) ∧
        (∀ d, desc = some d →
          ds[d]? = (linkPrev q.queue.descriptors (if xs = [] then none else desc)
            (xs.headD 0))[d]?) ∧
        (∀ j, j ∉ xs → desc ≠ some j → ds[j]? = q.queue.descriptors[j]?) := by
  intro ps
  induction ps with
  | nil =>
    intro xs q used F first desc hl _ _ _ _ _
    have hx : xs = [] := List.length_eq_zero.mp hl
    subst hx
    refine ⟨q.queue.descriptors, ?_, rfl, ?_, ?_, ?_⟩
    · cases first <;>
        simp [commandReq, lastDesc, ringAfter, Queue.setAvailable, Queue.setDescriptors]
    · intro t x p h
      simp at h
    · intro d _
      rfl
    · intro j _ _
      rfl
  | cons p ps ih =>
    intro xs q used F first desc hl hnd hlt hdesc hs1 hs2
    cases xs with
    | nil => simp at hl
    | cons x xs =>
      have hl2 : xs.length = ps.length := by simpa using hl
      have hx : x < q.queue.descriptors.length := hlt x (List.mem_cons_self _ _)
      have hxn : x ∉ xs := (List.nodup_cons.mp hnd).1
      have hnd2 : xs.Nodup := (List.nodup_cons.mp hnd).2
      have hds1 := linkPrev_length q.queue.descriptors desc x
      have hds2 : ((linkPrev q.queue.descriptors desc x).set x
          (queueDescriptor.mk p.Addr (p.Size % 2 ^ 32).toNat 0 0)).length
          = q.queue.descriptors.length := by
        simp [hds1]
      obtain ⟨ds, hrun, hlen, hchain, hprev, hother⟩ := ih xs
        ((q.setAvailable (ringAfter q.queue.available q.size first [x])).setDescriptors
          ((linkPrev q.queue.descriptors desc x).set x ⟨p.Addr, (p.Size % 2 ^ 32).toNat, 0, 0⟩))
        used F false (some x) hl2 hnd2
        (fun y hy => by
          show y < ((linkPrev q.queue.descriptors desc x).set x _).length
          rw [hds2]
          exact hlt y (List.mem_cons_of_mem _ hy))
        (fun d hd => by
          cases hd
          exact hxn)
        hs1 (by
          show q.size ≤ (ringAfter q.queue.available q.size first [x]).ring.length
          cases first <;> simp [ringAfter] <;> exact hs2)
      have hxget : ((linkPrev q.queue.descriptors desc x).set x
          (queueDescriptor.mk p.Addr (p.Size % 2 ^ 32).toNat 0 0))[x]?
          = some ⟨p.Addr, (p.Size % 2 ^ 32).toNat, 0, 0⟩ := by
        rw [List.getElem?_set_self (by rw [hds1]; exact hx)]
      refine ⟨ds, ?_, ?_, ?_, ?_, ?_⟩
      · -- the run
        have hfree : F ++ (x :: xs).reverse = (F ++ xs.reverse) ++ [x] := by simp
        rw [hfree, commandReq_cons p ps q used _ x first desc hs1 hs2 hx, hrun, lastDesc_cons]
        cases first <;> rfl
      · rw [hlen]
        exact hds2
      · intro t y p2 hy hp
        cases t with
        | zero =>
          simp only [List.getElem?_cons_zero, Option.some.injEq] at hy hp
          subst hy
          subst hp
          have h1 := hprev x rfl
          rw [h1]
          by_cases hxs : xs = []
          · subst hxs
            simp only [if_true, linkPrev]
            show ((linkPrev q.queue.descriptors desc x).set x _)[x]? = _
            rw [hxget]
            simp
          · obtain ⟨y, ys, rfl⟩ := List.exists_cons_of_ne_nil hxs
            simp only [if_false, linkPrev, reduceCtorEq]
            show (linkDesc ((linkPrev q.queue.descriptors desc x).set x _) x
              ((y :: ys).headD 0))[x]? = _
            rw [linkDesc_self _ _ _ _ hxget]
            simp
        | succ t =>
          simp only [List.getElem?_cons_succ] at hy hp
          have h1 := hchain t y p2 hy hp
          rw [h1]
          simp [Nat.add_lt_add_iff_right]
      · intro d hd
        have hdx : d ≠ x := by
          intro hc
          subst hc
          exact (hdesc d hd) (List.mem_cons_self _ _)
        have hdxs : d ∉ xs := fun hc => (hdesc d hd) (List.mem_cons_of_mem _ hc)
        rw [hother d hdxs (by
          intro hc
          cases hc
          exact hdx rfl)]
        show ((linkPrev q.queue.descriptors desc x).set x _)[d]? = _
        rw [List.getElem?_set_ne (Ne.symm hdx)]
        simp
      · intro j hj hjd
        have hjx : j ≠ x := fun hc => hj (by rw [hc]; exact List.mem_cons_self _ _)
        have hjxs : j ∉ xs := fun hc => hj (List.mem_cons_of_mem _ hc)
        rw [hother j hjxs (by
          intro hc
          cases hc
          exact hjx rfl)]
        show ((linkPrev q.queue.descriptors desc x).set x _)[j]? = _
        rw [List.getElem?_set_ne (Ne.symm hjx)]
        exact linkPrev_ne _ _ _ _ hjd
/-- One iteration of the second loop of `Command`. -/
theorem commandResp_cons (p : PhysPage) (ps : List PhysPage) (q : Queue) (used : Nat)
    (F : List Nat) (x d : Nat) (hx : x < q.queue.descriptors.length) :
    commandResp (p :: ps) ⟨q, used, F ++ [x]⟩ (some d)
      = commandResp ps ⟨q.setDescriptors ((linkDesc q.queue.descriptors d x).set x
          ⟨p.Addr, (p.Size % 2 ^ 32).toNat, _VIRTQ_DESC_F_WRITE, 0⟩), used, F⟩ (some x) := by
  have hd := linkDesc_length q.queue.descriptors d x
  rw [commandResp, allocDesc_append]
  simp only
  rw [if_neg (by rw [hd]; omega)]

/-- The second loop of `Command` over the blocks `ps`, the free stack ending
in the descriptors `xs` in reverse: the descriptors `xs` are linked into a
chain that holds the blocks with the Write flag, the descriptor `d` is linked
to the first of them, and no other descriptor changes. -/
theorem commandResp_spec :
    ∀ (ps : List PhysPage) (xs : List Nat) (q : Queue) (used : Nat) (F : List Nat) (d : Nat),
      xs.length = ps.length → xs.Nodup →
      (∀ x ∈ xs, x < q.queue.descriptors.length) → d ∉ xs →
      ∃ ds, commandResp ps ⟨q, used, F ++ xs.reverse⟩ (some d)
          = some (⟨q.setDescriptors ds, used, F⟩, lastDesc xs (some d)) ∧
        ds.length = q.queue.descriptors.length ∧
        (∀ t x p, xs[t]? = some x → ps[t]? = some p →
          ds[x]? = some (queueDescriptor.mk p.Addr (p.Size % 2 ^ 32).toNat
            (if t + 1 < xs.length then _VIRTQ_DESC_F_WRITE ||| _VIRTQ_DESC_F_NEXT
              else _VIRTQ_DESC_F_WRITE)
            (if t + 1 < xs.length then xs.getD (t + 1) 0 else 0))) ∧
        ds[d]? = (linkPrev q.queue.descriptors (if xs = [] then none else some d)
            (xs.headD 0))[d]? ∧
        (∀ j, j ∉ xs → j ≠ d → ds[j]? = q.queue.descriptors[j]?) := by
  intro ps
  induction ps with
  | nil =>
    intro xs q used F d hl _ _ _
    have hx : xs = [] := List.length_eq_zero.mp hl
    subst hx
    refine ⟨q.queue.descriptors, ?_, rfl, ?_, rfl, ?_⟩
    · simp [commandResp, lastDesc, Queue.setDescriptors]
    · intro t x p h
      simp at h
    · intro j _ _
      rfl
  | cons p ps ih =>
    intro xs q used F d hl hnd hlt hdesc
    cases xs with
    | nil => simp at hl
    | cons x xs =>
      have hl2 : xs.length = ps.length := by simpa using hl
      have hx : x < q.queue.descriptors.length := hlt x (List.mem_cons_self _ _)
      have hxn : x ∉ xs := (List.nodup_cons.mp hnd).1
      have hnd2 : xs.Nodup := (List.nodup_cons.mp hnd).2
      have hds1 := linkDesc_length q.queue.descriptors d x
      have hds2 : ((linkDesc q.queue.descriptors d x).set x
          (queueDescriptor.mk p.Addr (p.Size % 2 ^ 32).toNat _VIRTQ_DESC_F_WRITE 0)).length
          = q.queue.descriptors.length := by
        simp [hds1]
      have hdx : d ≠ x := by
        intro hc
        subst hc
        exact hdesc (List.mem_cons_self _ _)
      have hdxs : d ∉ xs := fun hc => hdesc (List.mem_cons_of_mem _ hc)
      obtain ⟨ds, hrun, hlen, hchain, hprev, hother⟩ := ih xs
        (q.setDescriptors ((linkDesc q.queue.descriptors d x).set x
          ⟨p.Addr, (p.Size % 2 ^ 32).toNat, _VIRTQ_DESC_F_WRITE, 0⟩))
        used F x hl2 hnd2
        (fun y hy => by
          show y < ((linkDesc q.queue.descriptors d x).set x _).length
          rw [hds2]
          exact hlt y (List.mem_cons_of_mem _ hy))
        hxn
      have hxget : ((linkDesc q.queue.descriptors d x).set x
          (queueDescriptor.mk p.Addr (p.Size % 2 ^ 32).toNat _VIRTQ_DESC_F_WRITE 0))[x]?
          = some ⟨p.Addr, (p.Size % 2 ^ 32).toNat, _VIRTQ_DESC_F_WRITE, 0⟩ := by
        rw [List.getElem?_set_self (by rw [hds1]; exact hx)]
      refine ⟨ds, ?_, ?_, ?_, ?_, ?_⟩
      · have hfree : F ++ (x :: xs).reverse = (F ++ xs.reverse) ++ [x] := by simp
        rw [hfree, commandResp_cons p ps q used _ x d hx, hrun, lastDesc_cons]
        rfl
      · rw [hlen]
        exact hds2
      · intro t y p2 hy hp
        cases t with
        | zero =>
          simp only [List.getElem?_cons_zero, Option.some.injEq] at hy hp
          subst hy
          subst hp
          rw [hprev]
          by_cases hxs : xs = []
          · subst hxs
            simp only [if_true, linkPrev]
            show ((linkDesc q.queue.descriptors d x).set x _)[x]? = _
            rw [hxget]
            simp
          · obtain ⟨y, ys, rfl⟩ := List.exists_cons_of_ne_nil hxs
            simp only [if_false, linkPrev, reduceCtorEq]
            show (linkDesc ((linkDesc q.queue.descriptors d x).set x _) x
              ((y :: ys).headD 0))[x]? = _
            rw [linkDesc_self _ _ _ _ hxget]
            simp
        | succ t =>
          simp only [List.getElem?_cons_succ] at hy hp
          have h1 := hchain t y p2 hy hp
          rw [h1]
          simp [Nat.add_lt_add_iff_right]
      · rw [hother d hdxs hdx]
        show ((linkDesc q.queue.descriptors d x).set x _)[d]? = _
        rw [List.getElem?_set_ne (Ne.symm hdx)]
        simp [linkPrev]
      · intro j hj hjd
        have hjx : j ≠ x := fun hc => hj (by rw [hc]; exact List.mem_cons_self _ _)
        have hjxs : j ∉ xs := fun hc => hj (List.mem_cons_of_mem _ hc)
        rw [hother j hjxs hjx]
        show ((linkDesc q.queue.descriptors d x).set x _)[j]? = _
        rw [List.getElem?_set_ne (Ne.symm hjx)]
        exact linkDesc_ne _ _ _ _ hjd

theorem lastDesc_mem (xs : List Nat) (h : xs ≠ []) :
    ∃ d, lastDesc xs none = some d ∧ xs[xs.length - 1]? = some d := by
  have h1 : xs.getLast? = some (xs.getLast h) := List.getLast?_eq_getLast _ _
  refine ⟨xs.getLast h, by simp [lastDesc, h1], ?_⟩
  rw [List.getLast_eq_getElem]
  exact List.getElem?_eq_getElem _

/-- The two loops of `Command` and the call of `notifyDevice`, for a free stack
that ends with the descriptors `xs` for the request (top first) and `ys` for
the response. -/
theorem Command_chain (c : Commander) (req resp : IOMem)
    (hnd : c.freeDesc.Nodup)
    (hlt : ∀ x ∈ c.freeDesc, x < c.q.queue.descriptors.length)
    (hs1 : 1 ≤ c.q.size) (hs2 : c.q.size ≤ c.q.queue.available.ring.length) :
    (∀ F xs ys : List Nat, c.freeDesc = F ++ ys.reverse ++ xs.reverse →
      xs.length = req.Blocks.length → ys.length = resp.Blocks.length → req.Blocks ≠ [] →
      ∃ ds,
        c.setupChain req resp
          = some ⟨(c.q.setAvailable ⟨c.q.queue.available.flags, c.q.queue.available.idx,
              c.q.queue.available.ring.set (c.q.queue.available.idx % c.q.size) (xs.headD 0),
              c.q.queue.available.used_event⟩).setDescriptors ds, c.used, F⟩ ∧
        c.Command req resp
          = Outcome.returned (true,
              ⟨((c.q.setAvailable ⟨c.q.queue.available.flags, c.q.queue.available.idx,
                c.q.queue.available.ring.set (c.q.queue.available.idx % c.q.size) (xs.headD 0),
                c.q.queue.available.used_event⟩).setDescriptors ds).notifyDevice
                ((c.q.queue.available.idx + 1) % 2 ^ 16), c.used, F⟩) ∧
        ds.length = c.q.queue.descriptors.length ∧
        (∀ t x p, xs[t]? = some x → req.Blocks[t]? = some p →
          ds[x]? = some (queueDescriptor.mk p.Addr (p.Size % 2 ^ 32).toNat
            (if t + 1 < xs.length + ys.length then _VIRTQ_DESC_F_NEXT else 0)
            (if t + 1 < xs.length then xs.getD (t + 1) 0 else ys.headD 0))) ∧
        (∀ t y p, ys[t]? = some y → resp.Blocks[t]? = some p →
          ds[y]? = some (queueDescriptor.mk p.Addr (p.Size % 2 ^ 32).toNat
            (if t + 1 < ys.length then _VIRTQ_DESC_F_WRITE ||| _VIRTQ_DESC_F_NEXT
              else _VIRTQ_DESC_F_WRITE)
            (if t + 1 < ys.length then ys.getD (t + 1) 0 else 0))) ∧
        (∀ j, j ∉ xs → j ∉ ys → ds[j]? = c.q.queue.descriptors[j]?)) := by
  intro F xs ys hfree hxl hyl hreq
  obtain ⟨q, used, free⟩ := c
  simp only at hfree hnd hlt hs1 hs2 ⊢
  subst hfree
  have hnd1 : (xs ++ ys).Nodup := by
    have h1 : (ys.reverse ++ xs.reverse).Nodup := by
      rw [List.append_assoc] at hnd
      exact (List.nodup_append.mp hnd).2.1
    have h2 : ys.reverse ++ xs.reverse = (xs ++ ys).reverse := by simp
    rw [h2, List.nodup_reverse] at h1
    exact h1
  have hxnd : xs.Nodup := (List.nodup_append.mp hnd1).1
  have hynd : ys.Nodup := (List.nodup_append.mp hnd1).2.1
  have hdisj : ∀ a, a ∈ xs → a ∉ ys := fun a ha hb =>
    (List.nodup_append.mp hnd1).2.2 ha hb
  have hxlt : ∀ x ∈ xs, x < q.queue.descriptors.length := fun x hx =>
    hlt x (by simp [hx])
  have hylt : ∀ y ∈ ys, y < q.queue.descriptors.length := fun y hy =>
    hlt y (by simp [hy])
  have hxne : xs ≠ [] := by
    intro hc
    rw [hc] at hxl
    exact hreq (List.length_eq_zero.mp hxl.symm)
  obtain ⟨ds1, hrun1, hlen1, hchain1, -, hother1⟩ := commandReq_spec req.Blocks xs q used
    (F ++ ys.reverse) true none hxl hxnd hxlt (fun d hd => Option.noConfusion hd) hs1 hs2
  obtain ⟨d, hd1, hd2⟩ := lastDesc_mem xs hxne
  have hdmem : d ∈ xs := List.getElem?_mem hd2
  obtain ⟨ds2, hrun2, hlen2, hchain2, hprev2, hother2⟩ := commandResp_spec resp.Blocks ys
    ((q.setAvailable (ringAfter q.queue.available q.size true xs)).setDescriptors ds1)
    used F d hyl hynd
    (fun y hy => by
      show y < ds1.length
      rw [hlen1]
      exact hylt y hy)
    (hdisj d hdmem)
  have hring : ringAfter q.queue.available q.size true xs
      = ⟨q.queue.available.flags, q.queue.available.idx,
          q.queue.available.ring.set (q.queue.available.idx % q.size) (xs.headD 0),
          q.queue.available.used_event⟩ := by
    obtain ⟨x, xs2, rfl⟩ := List.exists_cons_of_ne_nil hxne
    rfl
  have hsetup : Commander.setupChain ⟨q, used, F ++ ys.reverse ++ xs.reverse⟩ req resp
      = some ⟨(q.setAvailable ⟨q.queue.available.flags, q.queue.available.idx,
          q.queue.available.ring.set (q.queue.available.idx % q.size) (xs.headD 0),
          q.queue.available.used_event⟩).setDescriptors ds2, used, F⟩ := by
    unfold Commander.setupChain
    rw [hrun1, hd1]
    simp only
    rw [hrun2, hring]
    rfl
  refine ⟨ds2, hsetup, ?_, ?_, ?_, ?_, ?_⟩
  · unfold Commander.Command
    rw [if_neg (by
      simp only [List.length_append, List.length_reverse]
      omega)]
    rw [hsetup]
    rfl
  · rw [hlen2]
    exact hlen1
  · intro t x p hx hp
    have htl : t < xs.length := by
      by_contra hc
      rw [List.getElem?_eq_none (by omega)] at hx
      exact Option.noConfusion hx
    have hxmem : x ∈ xs := List.getElem?_mem hx
    have h1 := hchain1 t x p hx hp
    have hz : 0 ||| _VIRTQ_DESC_F_NEXT = _VIRTQ_DESC_F_NEXT := Nat.zero_or _
    by_cases hlast : t + 1 < xs.length
    · have hxd : x ≠ d := by
        intro hc
        rw [hc, ← hd2] at hx
        have := List.getElem?_inj htl hxnd hx
        omega
      rw [hother2 x (hdisj x hxmem) hxd]
      show ds1[x]? = _
      rw [h1, if_pos hlast, if_pos hlast, if_pos (by omega), if_pos hlast, hz]
    · have ht : t = xs.length - 1 := by omega
      have hxd : x = d := by
        rw [ht, hd2] at hx
        exact (Option.some.inj hx).symm
      subst hxd
      rw [if_neg hlast, if_neg hlast] at h1
      rw [hprev2, if_neg hlast]
      by_cases hys : ys = []
      · subst hys
        simp only [if_true, linkPrev]
        show ds1[x]? = _
        have hc1 : ¬ t + 1 < xs.length + ([] : List Nat).length := by
          simp only [List.length_nil]
          omega
        rw [h1, if_neg hc1]
        rfl
      · obtain ⟨y, ys2, rfl⟩ := List.exists_cons_of_ne_nil hys
        simp only [if_false, linkPrev, reduceCtorEq]
        show (linkDesc ds1 x ((y :: ys2).headD 0))[x]? = _
        have hc1 : t + 1 < xs.length + (y :: ys2).length := by
          simp only [List.length_cons]
          omega
        rw [linkDesc_self _ _ _ _ h1, if_pos hc1, hz]
  · intro t y p hy hp
    exact hchain2 t y p hy hp
  · intro j hjx hjy
    rw [hother2 j hjy (fun hc => hjx (by rw [hc]; exact hdmem))]
    exact hother1 j hjx (fun hc => Option.noConfusion hc)

/-- C19. Let the free stack of a Commander hold distinct indices into the
descriptor table, with 1 ≤ size ≤ length of the available ring. If the stack
ends with the descriptors `xs` (top first, one per block of `req`, which has
at least one block) and below them `ys` (one per block of `resp`), then
`Command(req, resp)` returns true with those descriptors popped. In the state
it returns, `available.ring[available.idx mod size]`, taken at the old index,
holds the index of the head descriptor; `available.idx` is the old index plus
one (as a `uint16`); the queue index has been stored at the notify address
once more, which rings the doorbell; every descriptor of `xs` holds the
address and the size (as a `uint32`) of its request block without the Write
flag, every descriptor of `ys` those of its response block with the Write
flag, each descriptor but the last has the Next flag and the index of the
next one of the chain in `next`, and no other descriptor has changed; the
used ring, the flags of the available ring, the size and the interrupt
channel are as before. The index is advanced only then: in the state before
`notifyDevice` runs (`setupChain`) the ring entry and the chain are written
and `available.idx` and the notify address are as before. With fewer free
descriptors than blocks `Command` returns false and changes neither the rings
nor the free stack; when responses are outstanding
(`used.idx != available.idx`) it takes one signal from the interrupt channel
first and waits as long as there is none. -/
theorem Command_spec (c : Commander) (req resp : IOMem)
    (hnd : c.freeDesc.Nodup)
    (hlt : ∀ x ∈ c.freeDesc, x < c.q.queue.descriptors.length)
    (hs1 : 1 ≤ c.q.size) (hs2 : c.q.size ≤ c.q.queue.available.ring.length) :
    (∀ F xs ys : List Nat, c.freeDesc = F ++ ys.reverse ++ xs.reverse →
      xs.length = req.Blocks.length → ys.length = resp.Blocks.length → req.Blocks ≠ [] →
      ∃ ds,
        c.setupChain req resp
          = some (Commander.mk
              (Queue.mk
                (virtioDeviceQueue.mk ds
                  (availableRing.mk c.q.queue.available.flags c.q.queue.available.idx
                    (c.q.queue.available.ring.set (c.q.queue.available.idx % c.q.size)
                      (xs.headD 0))
                    c.q.queue.available.used_event)
                  c.q.queue.used)
                c.q.size c.q.queueIndex c.q.notified c.q.interrupt)
              c.used F) ∧
        c.Command req resp
          = Outcome.returned (true,
              Commander.mk
                (Queue.mk
                  (virtioDeviceQueue.mk ds
                    (availableRing.mk c.q.queue.available.flags
                      ((c.q.queue.available.idx + 1) % 2 ^ 16)
                      (c.q.queue.available.ring.set (c.q.queue.available.idx % c.q.size)
                        (xs.headD 0))
                      c.q.queue.available.used_event)
                    c.q.queue.used)
                  c.q.size c.q.queueIndex (c.q.queueIndex :: c.q.notified) c.q.interrupt)
                c.used F) ∧
        ds.length = c.q.queue.descriptors.length ∧
        (∀ t x p, xs[t]? = some x → req.Blocks[t]? = some p →
          ds[x]? = some (queueDescriptor.mk p.Addr (p.Size % 2 ^ 32).toNat
            (if t + 1 < xs.length + ys.length then _VIRTQ_DESC_F_NEXT else 0)
            (if t + 1 < xs.length then xs.getD (t + 1) 0 else ys.headD 0))) ∧
        (∀ t y p, ys[t]? = some y → resp.Blocks[t]? = some p →
          ds[y]? = some (queueDescriptor.mk p.Addr (p.Size % 2 ^ 32).toNat
            (if t + 1 < ys.length then _VIRTQ_DESC_F_WRITE ||| _VIRTQ_DESC_F_NEXT
              else _VIRTQ_DESC_F_WRITE)
            (if t + 1 < ys.length then ys.getD (t + 1) 0 else 0))) ∧
        (∀ j, j ∉ xs → j ∉ ys → ds[j]? = c.q.queue.descriptors[j]?)) ∧
    (c.freeDesc.length < req.Blocks.length + resp.Blocks.length →
      (c.q.queue.used.idx = c.q.queue.available.idx →
        c.Command req resp = Outcome.returned (false, c)) ∧
      (c.q.queue.used.idx ≠ c.q.queue.available.idx → 0 < c.q.interrupt →
        c.Command req resp = Outcome.returned (false,
          ⟨⟨c.q.queue, c.q.size, c.q.queueIndex, c.q.notified, c.q.interrupt - 1⟩,
            c.used, c.freeDesc⟩)) ∧
      (c.q.queue.used.idx ≠ c.q.queue.available.idx → c.q.interrupt = 0 →
        c.Command req resp = Outcome.waiting)) := by
  refine ⟨fun F xs ys h1 h2 h3 h4 => ?_, ?_⟩
  · obtain ⟨ds, a1, a2, a3, a4, a5, a6⟩ :=
      Command_chain c req resp hnd hlt hs1 hs2 F xs ys h1 h2 h3 h4
    exact ⟨ds, a1, a2, a3, a4, a5, a6⟩
  intro hlen
  unfold Commander.Command
  rw [if_pos (by exact_mod_cast hlen)]
  refine ⟨fun h => ?_, fun h hi => ?_, fun h hi => ?_⟩
  · simp [h]
  · simp only [ne_eq, h, not_false_eq_true, if_true]
    rw [if_neg (by omega)]
  · simp only [ne_eq, h, not_false_eq_true, if_true, hi]

set_option maxRecDepth 100000 in
/-- C19, witness: `Command` with a request of two blocks and a response of one
block on the Commander of a fresh queue of 4 descriptors takes the descriptors
3, 2 and 1, puts 3 into slot 0 of the available ring, advances `available.idx`
from 0 to 1 and stores the queue index at the notify address. -/
theorem Command_spec_witness :
    exampleCommander.freeDesc = [0] ++ [1].reverse ++ [3, 2].reverse ∧
      (∃ ds, exampleCommander.Command exampleReq exampleResp
          = Outcome.returned (true,
              Commander.mk
                (Queue.mk
                  (virtioDeviceQueue.mk ds
                    (availableRing.mk 0 1 ((List.replicate maxQueueSize 0).set 0 3) 0)
                    exampleCommander.q.queue.used)
                  4 0 [0] 0)
                0 [0]) ∧
        ds[3]? = some ⟨0x1000, 4096, _VIRTQ_DESC_F_NEXT, 2⟩ ∧
        ds[2]? = some ⟨0x3000, 100, _VIRTQ_DESC_F_NEXT, 1⟩ ∧
        ds[1]? = some ⟨0x5000, 64, _VIRTQ_DESC_F_WRITE, 0⟩) ∧
      ((∀ F xs ys : List Nat, exampleCommander.freeDesc = F ++ ys.reverse ++ xs.reverse →
        xs.length = exampleReq.Blocks.length → ys.length = exampleResp.Blocks.length →
        exampleReq.Blocks ≠ [] →
        ∃ ds,
          exampleCommander.setupChain exampleReq exampleResp
            = some (Commander.mk
                (Queue.mk
                  (virtioDeviceQueue.mk ds
                    (availableRing.mk exampleCommander.q.queue.available.flags
                      exampleCommander.q.queue.available.idx
                      (exampleCommander.q.queue.available.ring.set
                        (exampleCommander.q.queue.available.idx % exampleCommander.q.size)
                        (xs.headD 0))
                      exampleCommander.q.queue.available.used_event)
                    exampleCommander.q.queue.used)
                  exampleCommander.q.size exampleCommander.q.queueIndex
                  exampleCommander.q.notified exampleCommander.q.interrupt)
                exampleCommander.used F) ∧
          exampleCommander.Command exampleReq exampleResp
            = Outcome.returned (true,
                Commander.mk
                  (Queue.mk
                    (virtioDeviceQueue.mk ds
                      (availableRing.mk exampleCommander.q.queue.available.flags
                        ((exampleCommander.q.queue.available.idx + 1) % 2 ^ 16)
                        (exampleCommander.q.queue.available.ring.set
                          (exampleCommander.q.queue.available.idx % exampleCommander.q.size)
                          (xs.headD 0))
                        exampleCommander.q.queue.available.used_event)
                      exampleCommander.q.queue.used)
                    exampleCommander.q.size exampleCommander.q.queueIndex
                    (exampleCommander.q.queueIndex :: exampleCommander.q.notified)
                    exampleCommander.q.interrupt)
                  exampleCommander.used F) ∧
          ds.length = exampleCommander.q.queue.descriptors.length ∧
          (∀ t x p, xs[t]? = some x → exampleReq.Blocks[t]? = some p →
            ds[x]? = some (queueDescriptor.mk p.Addr (p.Size % 2 ^ 32).toNat
              (if t + 1 < xs.length + ys.length then _VIRTQ_DESC_F_NEXT else 0)
              (if t + 1 < xs.length then xs.getD (t + 1) 0 else ys.headD 0))) ∧
          (∀ t y p, ys[t]? = some y → exampleResp.Blocks[t]? = some p →
            ds[y]? = some (queueDescriptor.mk p.Addr (p.Size % 2 ^ 32).toNat
              (if t + 1 < ys.length then _VIRTQ_DESC_F_WRITE ||| _VIRTQ_DESC_F_NEXT
                else _VIRTQ_DESC_F_WRITE)
              (if t + 1 < ys.length then ys.getD (t + 1) 0 else 0))) ∧
          (∀ j, j ∉ xs → j ∉ ys → ds[j]? = exampleCommander.q.queue.descriptors[j]?)) ∧
      (exampleCommander.freeDesc.length
          < exampleReq.Blocks.length + exampleResp.Blocks.length →
        (exampleCommander.q.queue.used.idx = exampleCommander.q.queue.available.idx →
          exampleCommander.Command exampleReq exampleResp
            = Outcome.returned (false, exampleCommander)) ∧
        (exampleCommander.q.queue.used.idx ≠ exampleCommander.q.queue.available.idx →
          0 < exampleCommander.q.interrupt →
          exampleCommander.Command exampleReq exampleResp = Outcome.returned (false,
            ⟨⟨exampleCommander.q.queue, exampleCommander.q.size, exampleCommander.q.queueIndex,
              exampleCommander.q.notified, exampleCommander.q.interrupt - 1⟩,
              exampleCommander.used, exampleCommander.freeDesc⟩)) ∧
        (exampleCommander.q.queue.used.idx ≠ exampleCommander.q.queue.available.idx →
          exampleCommander.q.interrupt = 0 →
          exampleCommander.Command exampleReq exampleResp = Outcome.waiting))) :=
  ⟨by decide,
    ⟨(exampleCommander.q.queue.descriptors.set 3 ⟨0x1000, 4096, _VIRTQ_DESC_F_NEXT, 2⟩).set 2
        ⟨0x3000, 100, _VIRTQ_DESC_F_NEXT, 1⟩ |>.set 1 ⟨0x5000, 64, _VIRTQ_DESC_F_WRITE, 0⟩,
      by decide, by decide, by decide, by decide⟩,
    Command_spec exampleCommander exampleReq exampleResp (by decide) (by decide)
      (by decide) (by decide)⟩

set_option maxRecDepth 100000 in
/-- C20 (counterexample). On a fresh queue of 2 descriptors a call of
`Command` with a request and a response without blocks returns true: it stores
no head in the available ring but advances `available.idx`. The device
fetches the entry, which holds 0, and completes it; `Read` then puts the
descriptor 0 on the free stack although it is there already: the free stack is
`[0, 1, 0]`, with 3 entries for 2 descriptors. -/
theorem Command_without_blocks :
    ((cmdRun (newTrace 2) [cmdEvent.command ⟨[], []⟩ ⟨[], []⟩, cmdEvent.fetch,
        cmdEvent.complete 0 0, cmdEvent.read]).map (fun tr => tr.c.freeDesc))
      = some [0, 1, 0] := by
  decide

/-! ## Runs of a command queue -/

/-- The inner loop of `Read` started at the descriptor `t` of a chain appends
the rest of the chain to the free stack. -/
theorem readChain_spec (ds : List queueDescriptor) (ch : List Nat) (hch : chainOk ds ch) :
    ∀ (fuel t x : Nat) (free : List Nat), ch[t]? = some x → ch.length - t ≤ fuel →
      readChain ds fuel x free = some (free ++ ch.drop t) := by
  intro fuel
  induction fuel with
  | zero =>
    intro t x free hx hf
    have : t < ch.length := by
      by_contra hc
      rw [List.getElem?_eq_none (by omega)] at hx
      exact Option.noConfusion hx
    omega
  | succ fuel ih =>
    intro t x free hx hf
    have htl : t < ch.length := by
      by_contra hc
      rw [List.getElem?_eq_none (by omega)] at hx
      exact Option.noConfusion hx
    obtain ⟨d, hd, hnext, hlast⟩ := hch t x hx
    have hdrop : ch.drop t = x :: ch.drop (t + 1) := by
      rw [List.drop_eq_getElem_cons htl]
      rw [List.getElem?_eq_getElem htl] at hx
      rw [Option.some.inj hx]
    unfold readChain
    simp only [hd]
    by_cases hl : t + 1 < ch.length
    · obtain ⟨hflag, hn⟩ := hnext hl
      rw [if_neg hflag, ih (t + 1) d.next (free ++ [x]) hn (by omega), hdrop]
      simp
    · rw [if_pos (hlast hl), hdrop]
      have : ch.drop (t + 1) = [] := List.drop_eq_nil_of_le (by omega)
      rw [this]

theorem mod_window (size a t : Nat) (h : size ∣ 2 ^ 16) :
    (a % 2 ^ 16 + t) % size = (a + t) % size := by
  rw [Nat.add_mod, Nat.mod_mod_of_dvd _ h, ← Nat.add_mod]

theorem head_getElem? (ch : List Nat) (h : ch ≠ []) : ch[0]? = some (ch.headD 0) := by
  obtain ⟨x, xs, rfl⟩ := List.exists_cons_of_ne_nil h
  simp

/-- The outer loop of `Read` consumes the completed chains `D` that the used
ring holds from the index `used` on: their descriptors are appended to the
free stack. -/
theorem readLoop_spec (size : Nat) (hs1 : 1 ≤ size) (hdvd : size ∣ 2 ^ 16) :
    ∀ (D : List (List Nat)) (fuel : Nat) (q : Queue) (used : Nat) (free : List Nat)
      (count : Nat),
      q.size = size → used < 2 ^ 16 → D.length < 2 ^ 16 → D.length < fuel →
      q.queue.used.idx = (used + D.length) % 2 ^ 16 →
      (∀ t ch, D[t]? = some ch → ch ≠ [] ∧ chainOk q.queue.descriptors ch ∧
        ch.length ≤ q.queue.descriptors.length ∧
        ∃ u, q.queue.used.ring[(used + t) % size]? = some u ∧ u.id % 2 ^ 16 = ch.headD 0) →
      readLoop fuel ⟨q, used, free⟩ count
        = some (count + D.length, ⟨q, (used + D.length) % 2 ^ 16, free ++ D.flatten⟩) := by
  intro D
  induction D with
  | nil =>
    intro fuel q used free count hq hu _ hf hidx _
    obtain ⟨fuel, rfl⟩ : ∃ f, fuel = f + 1 := ⟨fuel - 1, by simp at hf; omega⟩
    simp only [List.length_nil, Nat.add_zero] at hidx ⊢
    rw [Nat.mod_eq_of_lt hu] at hidx ⊢
    unfold readLoop
    simp [hidx]
  | cons ch D ih =>
    intro fuel q used free count hq hu hD hf hidx hwin
    obtain ⟨fuel, rfl⟩ : ∃ f, fuel = f + 1 := ⟨fuel - 1, by omega⟩
    simp only [List.length_cons] at hidx hD hf ⊢
    obtain ⟨hne, hok, hlen, u, hu1, hu2⟩ := hwin 0 ch (by simp)
    have hne_idx : used ≠ q.queue.used.idx := by
      rw [hidx]
      omega
    have hsz : q.size ≠ 0 := by omega
    rw [Nat.add_zero, ← hq] at hu1
    have hchain := readChain_spec q.queue.descriptors ch hok (q.queue.descriptors.length + 1) 0
      (ch.headD 0) free (head_getElem? ch hne) (by omega)
    rw [readLoop]
    simp only [ne_eq, hne_idx, not_false_eq_true, if_true, hsz, if_false, hu1, hu2, hchain,
      List.drop_zero]
    rw [ih fuel q ((used + 1) % 2 ^ 16) (free ++ ch) (count + 1) hq (Nat.mod_lt _ (by decide))
      (by omega) (by omega) (by rw [hidx]; omega)
      (fun t ch2 h2 => by
        obtain ⟨a, b, c, u2, d1, d2⟩ := hwin (t + 1) ch2 (by simpa using h2)
        refine ⟨a, b, c, u2, ?_, d2⟩
        rw [mod_window size _ _ hdvd, Nat.add_assoc, Nat.add_comm 1 t]
        exact d1)]
    have e1 : ((used + 1) % 2 ^ 16 + D.length) % 2 ^ 16 = (used + (D.length + 1)) % 2 ^ 16 := by
      omega
    rw [e1]
    simp [Nat.add_assoc, Nat.add_comm]
    omega

theorem length_le_flatten (L : List (List Nat)) (h : ∀ l ∈ L, l ≠ []) :
    L.length ≤ L.flatten.length := by
  induction L with
  | nil => simp
  | cons l L ih =>
    have h1 : 0 < l.length := List.length_pos.mpr (h l (List.mem_cons_self _ _))
    have h2 := ih (fun x hx => h x (List.mem_cons_of_mem _ hx))
    simp only [List.length_cons, List.flatten_cons, List.length_append]
    omega

/-- There are at most `size` chains in flight. -/
theorem cmdInv.count_le {size : Nat} {tr : cmdTrace} (h : cmdInv size tr) :
    tr.avail.length + tr.fetched.length + tr.done.length ≤ size := by
  have h1 := length_le_flatten (tr.avail ++ tr.fetched ++ tr.done) (fun l hl => (h.chains l hl).1)
  have h2 := h.perm.length_eq
  simp only [List.length_append, List.length_range, cmdTrace.inFlight] at h1 h2
  omega

theorem cmdInv.nodup {size : Nat} {tr : cmdTrace} (h : cmdInv size tr) :
    (tr.c.freeDesc ++ tr.inFlight).Nodup :=
  h.perm.nodup_iff.mpr (List.nodup_range size)

theorem cmdInv.lt_size {size : Nat} {tr : cmdTrace} (h : cmdInv size tr) (x : Nat)
    (hx : x ∈ tr.c.freeDesc ++ tr.inFlight) : x < size :=
  List.mem_range.mp (h.perm.mem_iff.mp hx)

theorem cmdInv_init (size : Nat) (h1 : 1 ≤ size) (h2 : size ≤ maxQueueSize)
    (h3 : size ∣ 2 ^ 16) : cmdInv size (newTrace size) := by
  have hfree : (NewCommander (freshQueue size)).freeDesc = List.range size := by
    unfold NewCommander freshQueue
    simp only
    conv_rhs => rw [← List.map_id (List.range size)]
    apply List.map_congr_left
    intro a ha
    have : a < size := List.mem_range.mp ha
    have : size ≤ 128 := h2
    simp only [id]
    omega
  refine ⟨rfl, h1, h2, h3, ?_, ?_, ?_, ?_, ?_, Nat.two_pow_pos 16, rfl, ?_, rfl,
    Nat.two_pow_pos 16, rfl, ?_⟩
  · simp [newTrace, NewCommander, freshQueue]
  · simp [newTrace, NewCommander, freshQueue]
  · simp [newTrace, NewCommander, freshQueue]
  · show ((NewCommander (freshQueue size)).freeDesc ++ []).Perm _
    rw [hfree, List.append_nil]
  · intro ch hch
    simp [newTrace] at hch
  · intro t ch hch
    simp [newTrace] at hch
  · intro t ch hch
    simp [newTrace] at hch

/-- The device fetching an entry of the available ring keeps the invariant. -/
theorem cmdInv_fetch (size : Nat) (tr : cmdTrace) (d1 : deviceState) (h : cmdInv size tr)
    (hf : deviceFetch tr.c.q tr.dev = some d1) :
    cmdInv size ⟨tr.c, d1, tr.avail.drop 1, tr.fetched ++ tr.avail.take 1, tr.done⟩ := by
  unfold deviceFetch at hf
  split at hf
  · exact Option.noConfusion hf
  · rename_i hcond
    have hne : tr.dev.lastAvail ≠ tr.c.q.queue.available.idx := fun hc => hcond (Or.inl hc)
    have hA : tr.avail ≠ [] := by
      intro hc
      apply hne
      rw [h.avail_idx, hc, List.length_nil, Nat.add_zero, Nat.mod_eq_of_lt h.last_lt]
    obtain ⟨ch, A, hAeq⟩ := List.exists_cons_of_ne_nil hA
    have hw := h.avail_win 0 ch (by rw [hAeq]; simp)
    rw [Nat.add_zero, ← h.size_eq] at hw
    rw [hw] at hf
    simp only [Option.some.injEq] at hf
    subst hf
    have hperm : (A ++ (tr.fetched ++ [ch]) ++ tr.done).Perm (tr.avail ++ tr.fetched ++ tr.done) := by
      rw [hAeq]
      apply List.Perm.append_right
      rw [← List.append_assoc]
      exact List.perm_append_singleton ch (A ++ tr.fetched)
    have hidx := h.avail_idx
    have hlast := h.last_lt
    rw [hAeq] at hidx
    simp only [List.length_cons] at hidx
    refine ⟨h.size_eq, h.size_pos, h.size_le, h.size_dvd, h.descs_len, h.avail_len, h.used_len,
      ?_, ?_, Nat.mod_lt _ (Nat.two_pow_pos 16), ?_, ?_, ?_, h.used_lt, h.used_idx, h.used_win⟩
    · show (tr.c.freeDesc ++ (tr.avail.drop 1 ++ (tr.fetched ++ tr.avail.take 1)
        ++ tr.done).flatten).Perm _
      rw [hAeq]
      simp only [List.drop_succ_cons, List.drop_zero, List.take_succ_cons, List.take_zero]
      exact List.Perm.trans (List.Perm.append_left _ (List.Perm.flatten hperm)) h.perm
    · intro c2 hc2
      apply h.chains
      rw [hAeq] at hc2
      simp only [List.drop_succ_cons, List.drop_zero, List.take_succ_cons, List.take_zero] at hc2
      exact hperm.mem_iff.mp hc2
    · show tr.c.q.queue.available.idx = ((tr.dev.lastAvail + 1) % 2 ^ 16
        + (tr.avail.drop 1).length) % 2 ^ 16
      rw [hidx, hAeq]
      simp only [List.drop_succ_cons, List.drop_zero]
      omega
    · intro t c2 hc2
      show tr.c.q.queue.available.ring[((tr.dev.lastAvail + 1) % 2 ^ 16 + t) % size]? = _
      rw [mod_window _ _ _ h.size_dvd]
      have := h.avail_win (t + 1) c2 (by
        rw [hAeq]
        rw [hAeq] at hc2
        simpa using hc2)
      rw [← this]
      congr 2
      omega
    · show tr.dev.fetched ++ [ch.headD 0] = (tr.fetched ++ tr.avail.take 1).map _
      rw [h.heads, hAeq]
      simp

theorem slot_ne (size p t n : Nat) (h1 : t < n) (h2 : n < size) :
    (p + t) % size ≠ (p + n) % size := by
  intro hc
  have h3 : t ≡ n [MOD size] := Nat.ModEq.add_left_cancel' p hc
  have h4 : t % size = n % size := h3
  rw [Nat.mod_eq_of_lt (by omega), Nat.mod_eq_of_lt h2] at h4
  omega

theorem eraseIdx_perm (L : List (List Nat)) (i : Nat) (ch : List Nat) (h : L[i]? = some ch) :
    L.Perm (ch :: L.eraseIdx i) ∧ (L.drop i).take 1 = [ch] := by
  have hi : i < L.length := by
    by_contra hc
    rw [List.getElem?_eq_none (by omega)] at h
    exact Option.noConfusion h
  have hget : L[i] = ch := by
    rw [List.getElem?_eq_getElem hi] at h
    exact Option.some.inj h
  have hdrop : L.drop i = ch :: L.drop (i + 1) := by
    rw [List.drop_eq_getElem_cons hi, hget]
  constructor
  · rw [List.eraseIdx_eq_take_drop_succ]
    conv_lhs => rw [← List.take_append_drop i L, hdrop]
    exact List.perm_middle
  · rw [hdrop]
    rfl

/-- The device completing a fetched chain keeps the invariant. -/
theorem cmdInv_complete (size : Nat) (tr : cmdTrace) (i head len : Nat) (h : cmdInv size tr)
    (hi : tr.dev.fetched[i]? = some head) :
    cmdInv size ⟨{ tr.c with q := deviceComplete tr.c.q head len },
      ⟨tr.dev.lastAvail, tr.dev.fetched.eraseIdx i⟩,
      tr.avail, tr.fetched.eraseIdx i, tr.done ++ (tr.fetched.drop i).take 1⟩ := by
  have hm := h.heads
  rw [hm, List.getElem?_map] at hi
  obtain ⟨ch, hch, hhead⟩ := Option.map_eq_some'.mp hi
  obtain ⟨hp, htake⟩ := eraseIdx_perm tr.fetched i ch hch
  have hchmem : ch ∈ tr.avail ++ tr.fetched ++ tr.done := by
    simp [List.getElem?_mem hch]
  have hchne : ch ≠ [] := (h.chains ch hchmem).1
  have hcount := h.count_le
  have hFpos : 0 < tr.fetched.length := by
    by_contra hc
    rw [List.getElem?_eq_none (by omega)] at hch
    exact Option.noConfusion hch
  have hheadlt : head < size := by
    apply h.lt_size
    rw [← hhead]
    have hmh : ch.headD 0 ∈ ch := by
      obtain ⟨x, xs, rfl⟩ := List.exists_cons_of_ne_nil hchne
      exact List.mem_cons_self _ _
    exact List.mem_append_right _ (List.mem_flatten.mpr ⟨ch, hchmem, hmh⟩)
  have hperm : (tr.avail ++ tr.fetched.eraseIdx i ++ (tr.done ++ [ch])).Perm
      (tr.avail ++ tr.fetched ++ tr.done) := by
    rw [List.append_assoc, List.append_assoc]
    apply List.Perm.append_left
    refine List.Perm.trans ?_ (List.Perm.append_right _ hp.symm)
    rw [← List.append_assoc]
    refine List.Perm.trans (List.perm_append_singleton ch _) ?_
    simp
  have hsz : size ≤ 128 := h.size_le
  have hslot : (tr.c.q.queue.used.idx % tr.c.q.size)
      = (tr.c.used + tr.done.length) % size := by
    rw [h.used_idx, h.size_eq, Nat.mod_mod_of_dvd _ h.size_dvd]
  rw [htake]
  refine ⟨h.size_eq, h.size_pos, h.size_le, h.size_dvd, h.descs_len, h.avail_len, ?_,
    ?_, ?_, h.last_lt, h.avail_idx, h.avail_win, ?_, h.used_lt, ?_, ?_⟩
  · show (tr.c.q.queue.used.ring.set _ _).length = _
    rw [List.length_set]
    exact h.used_len
  · exact List.Perm.trans (List.Perm.append_left _ (List.Perm.flatten hperm)) h.perm
  · intro c2 hc2
    exact h.chains c2 (hperm.mem_iff.mp hc2)
  · show tr.dev.fetched.eraseIdx i = (tr.fetched.eraseIdx i).map _
    rw [hm, List.eraseIdx_eq_take_drop_succ, List.eraseIdx_eq_take_drop_succ]
    simp [List.map_take, List.map_drop]
  · show (tr.c.q.queue.used.idx + 1) % 2 ^ 16 = (tr.c.used + (tr.done ++ [ch]).length) % 2 ^ 16
    rw [h.used_idx]
    simp only [List.length_append, List.length_singleton]
    omega
  · intro t c2 hc2
    change (tr.done ++ [ch])[t]? = some c2 at hc2
    show ∃ u, (tr.c.q.queue.used.ring.set (tr.c.q.queue.used.idx % tr.c.q.size)
      ⟨head, len⟩)[(tr.c.used + t) % size]? = some u ∧ _
    rw [hslot]
    by_cases ht : t < tr.done.length
    · rw [List.getElem?_append_left ht] at hc2
      rw [List.getElem?_set_ne (Ne.symm (slot_ne size _ t _ ht (by omega)))]
      exact h.used_win t c2 hc2
    · have hlen : t < (tr.done ++ [ch]).length := by
        by_contra hc
        rw [List.getElem?_eq_none (by omega)] at hc2
        exact Option.noConfusion hc2
      simp only [List.length_append, List.length_singleton] at hlen
      have hte : t = tr.done.length := by omega
      subst hte
      rw [List.getElem?_append_right (le_refl _)] at hc2
      simp only [Nat.sub_self, List.getElem?_cons_zero, Option.some.injEq] at hc2
      subst hc2
      have hlt : (tr.c.used + tr.done.length) % size < tr.c.q.queue.used.ring.length := by
        rw [h.used_len]
        exact lt_of_lt_of_le (Nat.mod_lt _ (by omega)) h.size_le
      rw [List.getElem?_set_self hlt]
      refine ⟨_, rfl, ?_⟩
      show head % 2 ^ 16 = _
      rw [hhead]
      omega

theorem length_le_flatten_of_mem (L : List (List Nat)) (l : List Nat) (h : l ∈ L) :
    l.length ≤ L.flatten.length := by
  induction L with
  | nil => simp at h
  | cons a L ih =>
    simp only [List.flatten_cons, List.length_append]
    rcases List.mem_cons.mp h with rfl | h2
    · omega
    · have := ih h2
      omega

/-- The value of `Read` under the invariant: it consumes all completed chains. -/
theorem cmdInv_Read_eq (size : Nat) (tr : cmdTrace) (h : cmdInv size tr) :
    tr.c.Read = Outcome.returned (tr.done.length,
      ⟨tr.c.q, (tr.c.used + tr.done.length) % 2 ^ 16, tr.c.freeDesc ++ tr.done.flatten⟩) := by
  have hcount := h.count_le
  have hsz : size ≤ 128 := h.size_le
  have hl := h.perm.length_eq
  simp only [List.length_append, List.length_range, cmdTrace.inFlight] at hl
  have hspec := readLoop_spec size h.size_pos h.size_dvd tr.done (2 ^ 16) tr.c.q tr.c.used
    tr.c.freeDesc 0 h.size_eq h.used_lt (by omega) (by omega) h.used_idx
    (fun t ch hch => by
      have hmem : ch ∈ tr.avail ++ tr.fetched ++ tr.done :=
        List.mem_append_right _ (List.getElem?_mem hch)
      refine ⟨(h.chains ch hmem).1, (h.chains ch hmem).2, ?_, h.used_win t ch hch⟩
      have := length_le_flatten_of_mem _ ch hmem
      rw [h.descs_len]
      show ch.length ≤ 128
      omega)
  unfold Commander.Read
  have heta : tr.c = ⟨tr.c.q, tr.c.used, tr.c.freeDesc⟩ := rfl
  rw [heta, hspec]
  simp

/-- A call of `Read` that returns keeps the invariant. -/
theorem cmdInv_read (size : Nat) (tr : cmdTrace) (count : Nat) (c1 : Commander)
    (h : cmdInv size tr) (hr : tr.c.Read = Outcome.returned (count, c1)) :
    cmdInv size ⟨c1, tr.dev, tr.avail, tr.fetched, tr.done.drop count⟩ := by
  rw [cmdInv_Read_eq size tr h] at hr
  simp only [Outcome.returned.injEq, Prod.mk.injEq] at hr
  obtain ⟨hc, hc1⟩ := hr
  subst hc
  subst hc1
  rw [List.drop_length]
  refine ⟨h.size_eq, h.size_pos, h.size_le, h.size_dvd, h.descs_len, h.avail_len, h.used_len,
    ?_, ?_, h.last_lt, h.avail_idx, h.avail_win, h.heads, Nat.mod_lt _ (Nat.two_pow_pos 16),
    ?_, ?_⟩
  · show ((tr.c.freeDesc ++ tr.done.flatten) ++ (tr.avail ++ tr.fetched ++ []).flatten).Perm _
    refine List.Perm.trans ?_ h.perm
    simp only [cmdTrace.inFlight, List.flatten_append, List.append_nil, List.append_assoc]
    apply List.Perm.append_left
    rw [← List.append_assoc tr.avail.flatten]
    exact List.perm_append_comm
  · intro ch hch
    apply h.chains
    simp only [List.append_nil] at hch
    exact List.mem_append_left _ hch
  · show tr.c.q.queue.used.idx = ((tr.c.used + tr.done.length) % 2 ^ 16 + 0) % 2 ^ 16
    rw [h.used_idx]
    omega
  · intro t ch hch
    simp at hch

theorem chainOk_congr (ds ds2 : List queueDescriptor) (ch : List Nat) (h : chainOk ds ch)
    (heq : ∀ x ∈ ch, ds2[x]? = ds[x]?) : chainOk ds2 ch := by
  intro t x hx
  obtain ⟨d, hd, h1, h2⟩ := h t x hx
  exact ⟨d, by rw [heq x (List.getElem?_mem hx)]; exact hd, h1, h2⟩

theorem getElem?_lt {α : Type} (l : List α) (t : Nat) (x : α) (h : l[t]? = some x) :
    t < l.length := by
  by_contra hc
  rw [List.getElem?_eq_none (by omega)] at h
  exact Option.noConfusion h

/-- The descriptors that `Command` has set up for the request and the
response form one chain. -/
theorem chainOk_new (ds : List queueDescriptor) (xs ys : List Nat) (rq rs : List PhysPage)
    (hxl : xs.length = rq.length) (hyl : ys.length = rs.length)
    (hx : ∀ t x p, xs[t]? = some x → rq[t]? = some p →
      ds[x]? = some (queueDescriptor.mk p.Addr (p.Size % 2 ^ 32).toNat
        (if t + 1 < xs.length + ys.length then _VIRTQ_DESC_F_NEXT else 0)
        (if t + 1 < xs.length then xs.getD (t + 1) 0 else ys.headD 0)))
    (hy : ∀ t y p, ys[t]? = some y → rs[t]? = some p →
      ds[y]? = some (queueDescriptor.mk p.Addr (p.Size % 2 ^ 32).toNat
        (if t + 1 < ys.length then _VIRTQ_DESC_F_WRITE ||| _VIRTQ_DESC_F_NEXT
          else _VIRTQ_DESC_F_WRITE)
        (if t + 1 < ys.length then ys.getD (t + 1) 0 else 0))) :
    chainOk ds (xs ++ ys) := by
  intro t x htx
  have htl := getElem?_lt _ _ _ htx
  rw [List.length_append] at htl
  by_cases ht : t < xs.length
  · rw [List.getElem?_append_left ht] at htx
    have hb : t < rq.length := by omega
    have hp : rq[t]? = some rq[t] := List.getElem?_eq_getElem hb
    have hd := hx t x _ htx hp
    refine ⟨_, hd, ?_, ?_⟩
    · intro hlt
      rw [List.length_append] at hlt
      simp only [hlt, if_true]
      refine ⟨by decide, ?_⟩
      by_cases ht1 : t + 1 < xs.length
      · rw [if_pos ht1, List.getElem?_append_left ht1, List.getD_eq_getElem?_getD,
          List.getElem?_eq_getElem ht1]
        rfl
      · rw [if_neg ht1, List.getElem?_append_right (by omega)]
        have : t + 1 - xs.length = 0 := by omega
        rw [this]
        apply head_getElem?
        intro hc
        rw [hc] at hlt
        simp at hlt
        omega
    · intro hlt
      rw [List.length_append] at hlt
      simp only [hlt, if_false]
      decide
  · have hge : xs.length ≤ t := by omega
    rw [List.getElem?_append_right hge] at htx
    have hb : t - xs.length < rs.length := by omega
    have hp : rs[t - xs.length]? = some rs[t - xs.length] := List.getElem?_eq_getElem hb
    have hd := hy (t - xs.length) x _ htx hp
    refine ⟨_, hd, ?_, ?_⟩
    · intro hlt
      rw [List.length_append] at hlt
      have h1 : t - xs.length + 1 < ys.length := by omega
      simp only [h1, if_true]
      refine ⟨by decide, ?_⟩
      rw [List.getElem?_append_right (by omega), List.getD_eq_getElem?_getD,
        List.getElem?_eq_getElem h1]
      have : t + 1 - xs.length = t - xs.length + 1 := by omega
      simp [this]
    · intro hlt
      rw [List.length_append] at hlt
      have h1 : ¬ t - xs.length + 1 < ys.length := by omega
      simp only [h1, if_false]
      decide

/-- A call of `Command` with a request of at least one block that returns true
keeps the invariant. -/
theorem cmdInv_command (size : Nat) (tr : cmdTrace) (req resp : IOMem) (c1 : Commander)
    (h : cmdInv size tr) (hreq : req.Blocks ≠ [])
    (hc : tr.c.Command req resp = Outcome.returned (true, c1)) :
    cmdInv size ⟨c1, tr.dev,
      tr.avail ++ [(tr.c.freeDesc.drop c1.freeDesc.length).reverse], tr.fetched, tr.done⟩ := by
  have hsz : size ≤ 128 := h.size_le
  have hnd := h.nodup
  have hfnd : tr.c.freeDesc.Nodup := (List.nodup_append.mp hnd).1
  have hdisj : ∀ x, x ∈ tr.c.freeDesc → x ∉ tr.inFlight := fun x h1 h2 =>
    (List.nodup_append.mp hnd).2.2 h1 h2
  have hflt : ∀ x ∈ tr.c.freeDesc, x < tr.c.q.queue.descriptors.length := by
    intro x hx
    rw [h.descs_len]
    show x < 128
    have := h.lt_size x (List.mem_append_left _ hx)
    omega
  have hs1 : 1 ≤ tr.c.q.size := by rw [h.size_eq]; exact h.size_pos
  have hs2 : tr.c.q.size ≤ tr.c.q.queue.available.ring.length := by
    rw [h.size_eq, h.avail_len]
    exact h.size_le
  -- enough free descriptors
  have hlen : req.Blocks.length + resp.Blocks.length ≤ tr.c.freeDesc.length := by
    by_contra hcon
    unfold Commander.Command at hc
    rw [if_pos (by
      have : tr.c.freeDesc.length < req.Blocks.length + resp.Blocks.length := by omega
      exact_mod_cast this)] at hc
    simp only at hc
    split at hc
    · split at hc
      · exact Outcome.noConfusion hc
      · simp at hc
    · simp at hc
  -- the descriptors on top of the free stack
  obtain ⟨F, zs, hfree, hzl⟩ : ∃ F zs : List Nat, tr.c.freeDesc = F ++ zs.reverse ∧
      zs.length = req.Blocks.length + resp.Blocks.length := by
    refine ⟨tr.c.freeDesc.take (tr.c.freeDesc.length - (req.Blocks.length + resp.Blocks.length)),
      (tr.c.freeDesc.drop
        (tr.c.freeDesc.length - (req.Blocks.length + resp.Blocks.length))).reverse, ?_, ?_⟩
    · rw [List.reverse_reverse, List.take_append_drop]
    · rw [List.length_reverse, List.length_drop]
      omega
  have hsplit : zs = zs.take req.Blocks.length ++ zs.drop req.Blocks.length :=
    (List.take_append_drop _ _).symm
  have hxl : (zs.take req.Blocks.length).length = req.Blocks.length := by
    rw [List.length_take]
    omega
  have hyl : (zs.drop req.Blocks.length).length = resp.Blocks.length := by
    rw [List.length_drop]
    omega
  have hfree2 : tr.c.freeDesc = F ++ (zs.drop req.Blocks.length).reverse
      ++ (zs.take req.Blocks.length).reverse := by
    rw [List.append_assoc, ← List.reverse_append, ← hsplit]
    exact hfree
  obtain ⟨ds, -, hcmd, hdl, hchx, hchy, hoth⟩ := Command_chain tr.c req resp hfnd hflt hs1 hs2
    F (zs.take req.Blocks.length) (zs.drop req.Blocks.length) hfree2 hxl hyl hreq
  rw [hcmd] at hc
  simp only [Outcome.returned.injEq, Prod.mk.injEq, true_and] at hc
  subst hc
  have hzok : chainOk ds zs := by
    rw [hsplit]
    exact chainOk_new ds _ _ req.Blocks resp.Blocks hxl hyl hchx hchy
  have hzne : zs ≠ [] := by
    intro hcon
    rw [hcon] at hzl
    have : 0 < req.Blocks.length := List.length_pos.mpr hreq
    simp at hzl
    omega
  have hghost : (tr.c.freeDesc.drop F.length).reverse = zs := by
    rw [hfree, List.drop_left, List.reverse_reverse]
  have hzfree : ∀ x ∈ zs, x ∈ tr.c.freeDesc := by
    intro x hx
    rw [hfree]
    exact List.mem_append_right _ (List.mem_reverse.mpr hx)
  have hhead : (zs.take req.Blocks.length).headD 0 = zs.headD 0 := by
    obtain ⟨z, zs2, rfl⟩ := List.exists_cons_of_ne_nil hzne
    obtain ⟨n, hn⟩ : ∃ n, req.Blocks.length = n + 1 :=
      ⟨req.Blocks.length - 1, by have := List.length_pos.mpr hreq; omega⟩
    rw [hn]
    rfl
  have hcount := h.count_le
  have hpl := h.perm.length_eq
  simp only [List.length_append, List.length_range] at hpl
  have hin : tr.avail.length + tr.fetched.length + tr.done.length ≤ tr.inFlight.length := by
    have := length_le_flatten (tr.avail ++ tr.fetched ++ tr.done) (fun l hl => (h.chains l hl).1)
    rw [List.length_append, List.length_append] at this
    exact this
  have hAlt : tr.avail.length < size := by
    have : 0 < req.Blocks.length := List.length_pos.mpr hreq
    omega
  show cmdInv size ⟨_, tr.dev, tr.avail ++ [(tr.c.freeDesc.drop F.length).reverse],
    tr.fetched, tr.done⟩
  rw [hghost]
  have hslot : tr.c.q.queue.available.idx % tr.c.q.size
      = (tr.dev.lastAvail + tr.avail.length) % size := by
    rw [h.avail_idx, h.size_eq, Nat.mod_mod_of_dvd _ h.size_dvd]
  refine ⟨h.size_eq, h.size_pos, h.size_le, h.size_dvd, ?_, ?_, h.used_len, ?_, ?_, h.last_lt,
    ?_, ?_, h.heads, h.used_lt, h.used_idx, h.used_win⟩
  · show ds.length = _
    rw [hdl]
    exact h.descs_len
  · show (tr.c.q.queue.available.ring.set _ _).length = _
    rw [List.length_set]
    exact h.avail_len
  · show (F ++ (tr.avail ++ [zs] ++ tr.fetched ++ tr.done).flatten).Perm _
    refine List.Perm.trans ?_ h.perm
    rw [hfree]
    simp only [cmdTrace.inFlight, List.flatten_append, List.flatten_cons, List.flatten_nil,
      List.append_nil, List.append_assoc]
    apply List.Perm.append_left
    rw [List.perm_iff_count]
    intro a
    simp only [List.count_append, List.count_reverse]
    omega
  · intro ch hch
    show ch ≠ [] ∧ chainOk ds ch
    have hcases : ch ∈ tr.avail ++ tr.fetched ++ tr.done ∨ ch = zs := by
      simp only [List.mem_append, List.mem_singleton] at hch ⊢
      tauto
    rcases hcases with hold | rfl
    · refine ⟨(h.chains ch hold).1, chainOk_congr _ _ _ (h.chains ch hold).2 ?_⟩
      intro x hx
      have hxin : x ∈ tr.inFlight := List.mem_flatten.mpr ⟨ch, hold, hx⟩
      have hxz : x ∉ zs := fun hc2 => hdisj x (hzfree x hc2) hxin
      apply hoth
      · exact fun hc2 => hxz (List.mem_of_mem_take hc2)
      · exact fun hc2 => hxz (List.mem_of_mem_drop hc2)
    · exact ⟨hzne, hzok⟩
  · show (tr.c.q.queue.available.idx + 1) % 2 ^ 16
      = (tr.dev.lastAvail + (tr.avail ++ [zs]).length) % 2 ^ 16
    rw [h.avail_idx]
    simp only [List.length_append, List.length_singleton]
    omega
  · intro t ch hch
    change (tr.avail ++ [zs])[t]? = some ch at hch
    show (tr.c.q.queue.available.ring.set (tr.c.q.queue.available.idx % tr.c.q.size)
      ((zs.take req.Blocks.length).headD 0))[(tr.dev.lastAvail + t) % size]? = _
    rw [hslot, hhead]
    by_cases ht : t < tr.avail.length
    · rw [List.getElem?_append_left ht] at hch
      rw [List.getElem?_set_ne (Ne.symm (slot_ne size _ t _ ht hAlt))]
      exact h.avail_win t ch hch
    · have hl2 := getElem?_lt _ _ _ hch
      simp only [List.length_append, List.length_singleton] at hl2
      have hte : t = tr.avail.length := by omega
      subst hte
      rw [List.getElem?_append_right (le_refl _)] at hch
      simp only [Nat.sub_self, List.getElem?_cons_zero, Option.some.injEq] at hch
      subst hch
      have hlt : (tr.dev.lastAvail + tr.avail.length) % size
          < tr.c.q.queue.available.ring.length := by
        rw [h.avail_len]
        exact lt_of_lt_of_le (Nat.mod_lt _ (by omega)) h.size_le
      rw [List.getElem?_set_self hlt]

/-- An event keeps the invariant. -/
theorem cmdInv_step (size : Nat) (tr tr1 : cmdTrace) (e : cmdEvent) (h : cmdInv size tr)
    (he : e.hasRequest = true) (hs : cmdStep tr e = some tr1) : cmdInv size tr1 := by
  cases e with
  | command req resp =>
    have hreq : req.Blocks ≠ [] := by
      intro hc
      simp [cmdEvent.hasRequest, hc] at he
    simp only [cmdStep] at hs
    split at hs
    · rename_i c1 hc
      cases hs
      exact cmdInv_command size tr req resp c1 h hreq hc
    · exact Option.noConfusion hs
  | fetch =>
    simp only [cmdStep] at hs
    split at hs
    · rename_i d1 hf
      cases hs
      exact cmdInv_fetch size tr d1 h hf
    · exact Option.noConfusion hs
  | complete i len =>
    simp only [cmdStep] at hs
    split at hs
    · rename_i head hi
      cases hs
      exact cmdInv_complete size tr i head len h hi
    · exact Option.noConfusion hs
  | read =>
    simp only [cmdStep] at hs
    split at hs
    · rename_i count c1 hr
      cases hs
      exact cmdInv_read size tr count c1 h hr
    · exact Option.noConfusion hs

/-- A run keeps the invariant. -/
theorem cmdInv_run (size : Nat) (events : List cmdEvent) :
    ∀ tr tr1 : cmdTrace, cmdInv size tr → (∀ e ∈ events, e.hasRequest = true) →
      cmdRun tr events = some tr1 → cmdInv size tr1 := by
  induction events with
  | nil =>
    intro tr tr1 h _ hr
    cases hr
    exact h
  | cons e es ih =>
    intro tr tr1 h hreq hr
    unfold cmdRun at hr
    split at hr
    · rename_i tr2 hs
      exact ih tr2 tr1 (cmdInv_step size tr tr2 e h (hreq e (List.mem_cons_self _ _)) hs)
        (fun e2 he2 => hreq e2 (List.mem_cons_of_mem _ he2)) hr
    · exact Option.noConfusion hr

/-- C20 (amended). Take a queue as `ConfigureQueue` sets it up, of a size
between 1 and `maxQueueSize` that divides 2^16 (a power of two), the Commander
that `NewCommander` makes for it, and a device that fetches the available
entries in ring order and completes fetched chains in any order. After every
interleaving of calls of `Command` that return true, each with a request of at
least one block, of fetches and completions by the device and of calls of
`Read` that return, the free stack and the descriptors of the chains not yet
consumed by `Read` hold every descriptor index below `size` exactly once: no
index occurs twice and |free| + |in flight| = size. A call of `Read` then
returns and consumes all completed chains; and when no chain is in flight, the
free stack holds all `size` indices. -/
theorem commander_partition (size : Nat) (events : List cmdEvent) (tr : cmdTrace)
    (h1 : 1 ≤ size) (h2 : size ≤ maxQueueSize) (h3 : size ∣ 2 ^ 16)
    (hreq : ∀ e ∈ events, e.hasRequest = true)
    (hrun : cmdRun (newTrace size) events = some tr) :
    (tr.c.freeDesc ++ tr.inFlight).Nodup ∧
      (∀ i, i < size ↔ i ∈ tr.c.freeDesc ++ tr.inFlight) ∧
      tr.c.freeDesc.length + tr.inFlight.length = size ∧
      tr.c.Read = Outcome.returned (tr.done.length,
        ⟨tr.c.q, (tr.c.used + tr.done.length) % 2 ^ 16, tr.c.freeDesc ++ tr.done.flatten⟩) ∧
      (tr.inFlight = [] → tr.c.freeDesc.Perm (List.range size)) := by
  have h := cmdInv_run size events (newTrace size) tr (cmdInv_init size h1 h2 h3) hreq hrun
  refine ⟨h.nodup, fun i => ?_, ?_, cmdInv_Read_eq size tr h, fun he => ?_⟩
  · rw [h.perm.mem_iff, List.mem_range]
  · have := h.perm.length_eq
    simpa using this
  · have := h.perm
    rw [he, List.append_nil] at this
    exact this

set_option maxRecDepth 100000 in
theorem commander_partition_witness :
    cmdRun (newTrace 4) exampleEvents = some exampleTrace ∧
      exampleTrace.c.freeDesc = [0, 3] ∧ exampleTrace.inFlight = [1, 2] ∧
      (exampleTrace.c.freeDesc ++ exampleTrace.inFlight).Nodup ∧
      (∀ i, i < 4 ↔ i ∈ exampleTrace.c.freeDesc ++ exampleTrace.inFlight) ∧
      exampleTrace.c.freeDesc.length + exampleTrace.inFlight.length = 4 ∧
      exampleTrace.c.Read = Outcome.returned (exampleTrace.done.length,
        ⟨exampleTrace.c.q, (exampleTrace.c.used + exampleTrace.done.length) % 2 ^ 16,
          exampleTrace.c.freeDesc ++ exampleTrace.done.flatten⟩) ∧
      (exampleTrace.inFlight = [] → exampleTrace.c.freeDesc.Perm (List.range 4)) :=
  ⟨by decide, by decide, by decide,
    commander_partition 4 exampleEvents exampleTrace (by decide) (by decide) (by decide)
      (by decide) (by decide)⟩

/-! ## The page table invariant of `mmapAligned` -/

theorem leafSize_pow (d : Nat) : ∃ s, 12 ≤ s ∧ s ≤ 30 ∧ leafSize d = 2 ^ s := by
  unfold leafSize
  by_cases h1 : d = 1
  · rw [if_pos h1]; exact ⟨30, by omega, by omega, by decide⟩
  · rw [if_neg h1]
    by_cases h2 : d = 2
    · rw [if_pos h2]; exact ⟨21, by omega, by omega, by decide⟩
    · rw [if_neg h2]; exact ⟨12, by omega, by omega, by decide⟩

theorem leafSize_pos (d : Nat) : 0 < leafSize d := by
  obtain ⟨s, -, -, h⟩ := leafSize_pow d
  rw [h]
  exact Nat.two_pow_pos s

theorem testBit_maskLow (e s j : Nat) :
    (andNot64 (e &&& (MAXPHYADDR - 1)) (2 ^ s - 1)).testBit j
      = (e.testBit j && decide (s ≤ j) && decide (j < 52)) := by
  unfold andNot64
  have e1 : MAXPHYADDR - 1 = 2 ^ 52 - 1 := by decide
  rw [e1, Nat.testBit_and, Nat.testBit_and, Nat.testBit_two_pow_sub_one]
  by_cases hj : j < 64
  · rw [testBit_not64 _ _ hj, Nat.testBit_two_pow_sub_one]
    by_cases h1 : j < s
    · have h2 : ¬ s ≤ j := by omega
      simp [h1, h2]
    · have h2 : s ≤ j := by omega
      simp [h1, h2]
  · have h2 : ¬ j < 52 := by omega
    simp [h2]

theorem testBit_alignedAddr (a s j : Nat) (ha : a % 2 ^ s = 0) (hlt : a < MAXPHYADDR) :
    a.testBit j = (a.testBit j && decide (s ≤ j) && decide (j < 52)) := by
  by_cases h1 : j < s
  · have h2 : ¬ s ≤ j := by omega
    have h3 : a.testBit j = false := by
      have h4 : (a % 2 ^ s).testBit j = false := by
        rw [ha]; simp
      rw [Nat.testBit_mod_two_pow] at h4
      simpa [h1] using h4
    simp [h3]
  · by_cases h5 : j < 52
    · simp [h5]; omega
    · have h3 : a.testBit j = false := by
        apply Nat.testBit_lt_two_pow
        have : MAXPHYADDR = 2 ^ 52 := by decide
        rw [this] at hlt
        exact lt_of_lt_of_le hlt (Nat.pow_le_pow_right (by decide) (by omega))
      simp [h3]

theorem maskLow_or_flags (a fl s : Nat) (hs : 12 ≤ s) (ha : a % 2 ^ s = 0)
    (hlt : a < MAXPHYADDR) (hfl : ∀ j, 12 ≤ j → j < 52 → fl.testBit j = false) :
    andNot64 ((a ||| fl) &&& (MAXPHYADDR - 1)) (2 ^ s - 1) = a := by
  apply Nat.eq_of_testBit_eq
  intro j
  rw [testBit_maskLow, Nat.testBit_or, testBit_alignedAddr a s j ha hlt]
  by_cases h1 : s ≤ j
  · by_cases h2 : j < 52
    · simp [h1, h2, hfl j (by omega) h2]
    · simp [h2]
  · simp [h1]

theorem entryFlags_middle (nx : Bool) (fl j : Nat) (hfl : fl ||| allPageFlags = allPageFlags)
    (h1 : 12 ≤ j) (h2 : j < 52) :
    (entryFlags nx fl).testBit j = false ∧
      (entryFlags nx (fl ||| pageSizeFlag)).testBit j = false := by
  have hf : fl.testBit j = false := by
    cases hb : fl.testBit j with
    | false => rfl
    | true =>
      have := testBit_of_or_eq fl _ j hfl hb
      rw [allPageFlags_middle j h1 h2] at this
      exact Bool.noConfusion this
  have hp : pageFlagPresent.testBit j = false :=
    testBit_small pageFlagPresent j 1 (by decide) (by omega)
  have hs : pageSizeFlag.testBit j = false :=
    testBit_small pageSizeFlag j 8 (by decide) (by omega)
  unfold entryFlags
  cases nx <;> simp [Nat.testBit_or, Nat.testBit_and, hf, hp, hs]

theorem huge_mmap_flag (nx : Bool) (a fl : Nat) :
    pageTableEntry.huge (pageTableEntry.mmap nx a (fl ||| pageSizeFlag)) = true := by
  rw [huge_iff_testBit]
  have he : pageTableEntry.mmap nx a (fl ||| pageSizeFlag)
      = a ||| entryFlags nx (fl ||| pageSizeFlag) := rfl
  rw [he]
  have h7 : pageSizeFlag.testBit 7 = true := by decide
  have hn : (not64 pageFlagNX).testBit 7 = true := by decide
  unfold entryFlags
  cases nx <;> simp [Nat.testBit_or, Nat.testBit_and, h7, hn]

/-- The physical address the dump reports for an entry that `mmap` made from
an address aligned to the page size of its level. -/
theorem leafPaddr_mmap (nx : Bool) (d a fl : Nat) (ha : a % leafSize d = 0)
    (hlt : a < MAXPHYADDR)
    (hfl : ∀ j, 12 ≤ j → j < 52 → (entryFlags nx fl).testBit j = false) :
    leafPaddr d (pageTableEntry.mmap nx a fl) = a := by
  obtain ⟨s, h1, -, h3⟩ := leafSize_pow d
  have he : pageTableEntry.mmap nx a fl = a ||| entryFlags nx fl := rfl
  unfold leafPaddr
  rw [he, h3]
  rw [h3] at ha
  exact maskLow_or_flags a _ s h1 ha hlt hfl

theorem isLeaf_zero (d : Nat) : isLeaf d 0 = false := by
  unfold isLeaf
  rw [present_zero]
  rfl

theorem isLeaf_huge (d e : Nat) (hd : d ≤ 2) (h : isLeaf d e = true) :
    pageTableEntry.huge e = true := by
  unfold isLeaf at h
  have h3 : decide (d = 3) = false := by
    simp only [decide_eq_false_iff_not]
    omega
  rw [h3, Bool.false_or] at h
  exact (Bool.and_eq_true _ _ ▸ h).2

theorem disjoint_of_fresh (U : Nat → Prop) (a s pa sz : Nat) (hs : 0 < s) (hsz : 0 < sz)
    (h1 : ∀ x, a ≤ x → x < a + s → U x) (h2 : ∀ x, pa ≤ x → x < pa + sz → ¬ U x) :
    a + s ≤ pa ∨ pa + sz ≤ a := by
  by_contra hc
  obtain ⟨c1, c2⟩ := not_or.mp hc
  by_cases h : a ≤ pa
  · exact h2 pa (Nat.le_refl _) (by omega) (h1 pa h (by omega))
  · exact h2 a (by omega) (by omega) (h1 a (Nat.le_refl _) (by omega))

/-- The invariant holds for an empty root table in an allocated frame. -/
theorem ptInv_init (k : kernelState) (pml4 : Nat)
    (hB : k.globalMem.bits.length * 64 * pageSize ≤ MAXPHYADDR)
    (hroot : k.globalMem.bit (pml4 / pageSize) = false)
    (hempty : ∀ i, i < pageTableSize → k.ram pml4 i = 0) :
    ptInv k pml4 (fun t => if t = pml4 then some [] else none) (fun _ => False) := by
  have hown : ∀ t p, (if t = pml4 then some [] else none : Option (List Nat)) = some p →
      t = pml4 ∧ p = [] := by
    intro t p h
    by_cases ht : t = pml4
    · rw [if_pos ht] at h; exact ⟨ht, (Option.some.inj h).symm⟩
    · rw [if_neg ht] at h; exact Option.noConfusion h
  refine ⟨hB, if_pos rfl, ?_, ?_, ?_, ?_, ?_, ?_, ?_⟩
  · intro t p h
    rw [(hown t p h).1]
    exact hroot
  · intro t p h
    rw [(hown t p h).2]
    exact Nat.zero_le _
  · intro t p i h _ hi hp _
    rw [(hown t p h).1, hempty i hi, present_zero] at hp
    exact Bool.noConfusion hp
  · intro t i h hi hp
    rw [(hown t [] h).1, hempty i hi, present_zero] at hp
    exact Bool.noConfusion hp
  · intro x h
    exact h.elim
  · intro t p i h hl
    rw [(hown t p h).2] at hl
    exact absurd hl (by decide)
  · intro t p i t2 p2 i2 h _ hl
    rw [(hown t p h).2] at hl
    exact absurd hl (by decide)

/-- Looking up or creating the next table keeps the invariant and returns the
table that the longer path owns. -/
theorem ptInv_lookup (k k1 : kernelState) (pml4 : Nat) (own : Nat → Option (List Nat))
    (U : Nat → Prop) (t i t1 : Nat) (p : List Nat)
    (hinv : ptInv k pml4 own U) (ht : own t = some p) (hp : p.length ≤ 2)
    (hi : i < pageTableSize)
    (h : lookupOrCreatePageTable k t i = Result.ok (t1, k1)) :
    ∃ own1, ptInv k1 pml4 own1 U ∧ own1 t1 = some (i :: p) := by
  rcases loc_cases k t i hinv.bound with
    ⟨_, _, h3⟩ | ⟨h1, h2, h3⟩ | ⟨_, _, h3⟩ | ⟨h1, q, m1, c1, c2, c3, _, c5, h3⟩
  · rw [h3] at h
    exact Result.noConfusion h
  · rw [h3] at h
    obtain ⟨e1, e2⟩ := Prod.mk.inj (Result.ok.inj h)
    subst e1
    subst e2
    exact ⟨own, hinv, hinv.child t p i ht hp hi h1 h2⟩
  · rw [h3] at h
    exact Result.noConfusion h
  · rw [h3] at h
    obtain ⟨e1, e2⟩ := Prod.mk.inj (Result.ok.inj h)
    subst e1
    subst e2
    have htal := hinv.alloc t p ht
    have hne : ∀ t2 p2, own t2 = some p2 →
        ¬ (q * pageSize ≤ t2 ∧ t2 < q * pageSize + pageSize) := by
      intro t2 p2 h2 hc
      have hq : t2 / pageSize = q := by
        rw [pageSize_eq] at hc ⊢
        omega
      have := hinv.alloc t2 p2 h2
      rw [hq, c1] at this
      exact Bool.noConfusion this
    have hfree : own (q * pageSize) = none := by
      cases ho : own (q * pageSize) with
      | none => rfl
      | some p2 =>
        exact absurd ⟨Nat.le_refl _, by rw [pageSize_eq]; omega⟩ (hne _ p2 ho)
    have hram : ∀ t2 p2 j, own t2 = some p2 →
        (k.withTable m1 (q * pageSize) t i).ram t2 j
          = if t2 = t ∧ j = i then pageTableEntry.setPageTable (q * pageSize)
            else k.ram t2 j := by
      intro t2 p2 j h2
      simp only [kernelState.withTable, ramWrite, zeroFill]
      by_cases hc : t2 = t ∧ j = i
      · rw [if_pos hc, if_pos hc]
      · rw [if_neg hc, if_neg hc, if_neg (hne t2 p2 h2)]
    obtain ⟨_, hnew0, hnew, hbit⟩ := created_facts k t i q m1 htal h1 c1 c2 c3
    obtain ⟨s1, s2, s3⟩ := setPageTable_entry (q * pageSize) (frame_mod q) c5
    have hcase : ∀ x p2, (if x = q * pageSize then some (i :: p) else own x) = some p2 →
        (x = q * pageSize ∧ p2 = i :: p) ∨ (x ≠ q * pageSize ∧ own x = some p2) := by
      intro x p2 hx
      by_cases hxq : x = q * pageSize
      · rw [if_pos hxq] at hx
        exact Or.inl ⟨hxq, (Option.some.inj hx).symm⟩
      · rw [if_neg hxq] at hx
        exact Or.inr ⟨hxq, hx⟩
    have hkeep : ∀ x p2, own x = some p2 →
        (if x = q * pageSize then some (i :: p) else own x) = some p2 := by
      intro x p2 hx
      have : x ≠ q * pageSize := by
        intro hc
        rw [hc, hfree] at hx
        exact Option.noConfusion hx
      rw [if_neg this]
      exact hx
    have hnotleaf : ∀ d, d ≤ 2 → isLeaf d (pageTableEntry.setPageTable (q * pageSize)) = false := by
      intro d hd
      cases hb : isLeaf d (pageTableEntry.setPageTable (q * pageSize)) with
      | false => rfl
      | true =>
        have := isLeaf_huge d _ hd hb
        rw [s2] at this
        exact Bool.noConfusion this
    have hleaf : ∀ x p2 j,
        (if x = q * pageSize then some (i :: p) else own x) = some p2 →
        isLeaf p2.length ((k.withTable m1 (q * pageSize) t i).ram x j) = true →
        own x = some p2 ∧ (k.withTable m1 (q * pageSize) t i).ram x j = k.ram x j := by
      intro x p2 j hx hl
      rcases hcase x p2 hx with ⟨a1, _⟩ | ⟨_, a2⟩
      · rw [a1, hnew j, isLeaf_zero] at hl
        exact Bool.noConfusion hl
      · rw [hram x p2 j a2] at hl ⊢
        by_cases hc : x = t ∧ j = i
        · rw [if_pos hc] at hl
          have e : p2 = p := by
            have := a2
            rw [hc.1, ht] at this
            exact (Option.some.inj this).symm
          rw [e, hnotleaf p.length hp] at hl
          exact Bool.noConfusion hl
        · rw [if_neg hc]
          exact ⟨a2, rfl⟩
    refine ⟨fun x => if x = q * pageSize then some (i :: p) else own x, ?_, if_pos rfl⟩
    refine ⟨?_, hkeep pml4 [] hinv.root, ?_, ?_, ?_, ?_, hinv.below, ?_, ?_⟩
    · show m1.bits.length * 64 * pageSize ≤ MAXPHYADDR
      rw [c2]
      exact hinv.bound
    · intro x p2 hx
      show m1.bit (x / pageSize) = false
      rw [c3]
      by_cases hxq : x / pageSize = q
      · rw [if_pos hxq]
      · rw [if_neg hxq]
        rcases hcase x p2 hx with ⟨a1, _⟩ | ⟨_, a2⟩
        · rw [a1, frame_div] at hxq
          exact absurd rfl hxq
        · exact hinv.alloc x p2 a2
    · intro x p2 hx
      rcases hcase x p2 hx with ⟨_, a2⟩ | ⟨_, a2⟩
      · rw [a2, List.length_cons]
        omega
      · exact hinv.depth x p2 a2
    · intro x p2 j hx hl hj hpr hhu
      rcases hcase x p2 hx with ⟨a1, _⟩ | ⟨_, a2⟩
      · rw [a1, hnew j, present_zero] at hpr
        exact Bool.noConfusion hpr
      · rw [hram x p2 j a2] at hpr hhu ⊢
        by_cases hc : x = t ∧ j = i
        · rw [if_pos hc, s3, if_pos rfl]
          have e : p2 = p := by
            have := a2
            rw [hc.1, ht] at this
            exact (Option.some.inj this).symm
          rw [e, hc.2]
        · rw [if_neg hc] at hpr hhu ⊢
          exact hkeep _ _ (hinv.child x p2 j a2 hl hj hpr hhu)
    · intro x j hx hj hpr
      rcases hcase x [] hx with ⟨_, a2⟩ | ⟨_, a2⟩
      · exact List.noConfusion a2
      · rw [hram x [] j a2] at hpr ⊢
        by_cases hc : x = t ∧ j = i
        · rw [if_pos hc]
          exact s2
        · rw [if_neg hc] at hpr ⊢
          exact hinv.top x j a2 hj hpr
    · intro x p2 j hx hl hj hlf
      obtain ⟨b1, b2⟩ := hleaf x p2 j hx hlf
      rw [b2] at hlf ⊢
      exact hinv.leafU x p2 j b1 hl hj hlf
    · intro x p2 j x2 p3 j2 hx hx2 hl hl2 hj hj2 hlf hlf2 hne2
      obtain ⟨b1, b2⟩ := hleaf x p2 j hx hlf
      obtain ⟨b3, b4⟩ := hleaf x2 p3 j2 hx2 hlf2
      rw [b2] at hlf ⊢
      rw [b4] at hlf2 ⊢
      exact hinv.leafD x p2 j x2 p3 j2 b1 b3 hl hl2 hj hj2 hlf hlf2 hne2

/-- Storing an entry that maps a fresh page into a table below the root keeps
the invariant, with the page added to the mapped addresses. -/
theorem ptInv_write (k : kernelState) (pml4 : Nat) (own : Nat → Option (List Nat))
    (U : Nat → Prop) (t i e pa : Nat) (p : List Nat)
    (hinv : ptInv k pml4 own U) (ht : own t = some p) (hp : 1 ≤ p.length)
    (hlf : isLeaf p.length e = true) (hpa : leafPaddr p.length e = pa)
    (hmax : pa + leafSize p.length ≤ MAXPHYADDR)
    (hfresh : ∀ x, pa ≤ x → x < pa + leafSize p.length → ¬ U x) :
    ptInv { k with ram := ramWrite k.ram t i e } pml4 own
      (fun x => U x ∨ (pa ≤ x ∧ x < pa + leafSize p.length)) := by
  have hram : ∀ x j, ramWrite k.ram t i e x j = if x = t ∧ j = i then e else k.ram x j :=
    fun _ _ => rfl
  have hsame : ∀ x p2, own x = some p2 → x = t → p2 = p := by
    intro x p2 hx hxt
    rw [hxt, ht] at hx
    exact (Option.some.inj hx).symm
  refine ⟨hinv.bound, hinv.root, hinv.alloc, hinv.depth, ?_, ?_, ?_, ?_, ?_⟩
  · intro x p2 j hx hl hj hpr hhu
    show own (pageTableEntry.frame (ramWrite k.ram t i e x j)) = some (j :: p2)
    change pageTableEntry.present (ramWrite k.ram t i e x j) = true at hpr
    change pageTableEntry.huge (ramWrite k.ram t i e x j) = false at hhu
    rw [hram] at hpr hhu ⊢
    by_cases hc : x = t ∧ j = i
    · rw [if_pos hc] at hhu
      have e2 := hsame x p2 hx hc.1
      rw [e2] at hl
      rw [isLeaf_huge p.length e hl hlf] at hhu
      exact Bool.noConfusion hhu
    · rw [if_neg hc] at hpr hhu ⊢
      exact hinv.child x p2 j hx hl hj hpr hhu
  · intro x j hx hj hpr
    show pageTableEntry.huge (ramWrite k.ram t i e x j) = false
    change pageTableEntry.present (ramWrite k.ram t i e x j) = true at hpr
    rw [hram] at hpr ⊢
    by_cases hc : x = t ∧ j = i
    · have e2 := hsame x [] hx hc.1
      rw [← e2] at hp
      exact absurd hp (by decide)
    · rw [if_neg hc] at hpr ⊢
      exact hinv.top x j hx hj hpr
  · intro x hx
    rcases hx with hx | ⟨_, hx⟩
    · exact hinv.below x hx
    · omega
  · intro x p2 j hx hl hj hlf2 y hy1 hy2
    change isLeaf p2.length (ramWrite k.ram t i e x j) = true at hlf2
    change leafPaddr p2.length (ramWrite k.ram t i e x j) ≤ y at hy1
    change y < leafPaddr p2.length (ramWrite k.ram t i e x j) + leafSize p2.length at hy2
    rw [hram] at hlf2 hy1 hy2
    by_cases hc : x = t ∧ j = i
    · rw [if_pos hc] at hy1 hy2
      have e2 := hsame x p2 hx hc.1
      rw [e2, hpa] at hy1 hy2
      exact Or.inr ⟨hy1, hy2⟩
    · rw [if_neg hc] at hlf2 hy1 hy2
      exact Or.inl (hinv.leafU x p2 j hx hl hj hlf2 y hy1 hy2)
  · intro x p2 j x2 p3 j2 hx hx2 hl hl2 hj hj2 hlf1 hlf2 hne
    change isLeaf p2.length (ramWrite k.ram t i e x j) = true at hlf1
    change isLeaf p3.length (ramWrite k.ram t i e x2 j2) = true at hlf2
    show leafPaddr p2.length (ramWrite k.ram t i e x j) + leafSize p2.length
          ≤ leafPaddr p3.length (ramWrite k.ram t i e x2 j2) ∨
        leafPaddr p3.length (ramWrite k.ram t i e x2 j2) + leafSize p3.length
          ≤ leafPaddr p2.length (ramWrite k.ram t i e x j)
    rw [hram] at hlf1 hlf2 ⊢
    rw [hram]
    by_cases hc : x = t ∧ j = i
    · by_cases hc2 : x2 = t ∧ j2 = i
      · rcases hne with hne | hne
        · exact absurd (hc.1.trans hc2.1.symm) hne
        · exact absurd (hc.2.trans hc2.2.symm) hne
      · rw [if_pos hc, if_neg hc2]
        rw [if_neg hc2] at hlf2
        have e2 := hsame x p2 hx hc.1
        rw [e2, hpa]
        exact (disjoint_of_fresh U _ _ pa _ (leafSize_pos _) (leafSize_pos _)
          (hinv.leafU x2 p3 j2 hx2 hl2 hj2 hlf2) hfresh).symm
    · by_cases hc2 : x2 = t ∧ j2 = i
      · rw [if_neg hc, if_pos hc2]
        rw [if_neg hc] at hlf1
        have e2 := hsame x2 p3 hx2 hc2.1
        rw [e2, hpa]
        exact disjoint_of_fresh U _ _ pa _ (leafSize_pos _) (leafSize_pos _)
          (hinv.leafU x p2 j hx hl hj hlf1) hfresh
      · rw [if_neg hc, if_neg hc2]
        rw [if_neg hc] at hlf1
        rw [if_neg hc2] at hlf2
        exact hinv.leafD x p2 j x2 p3 j2 hx hx2 hl hl2 hj hj2 hlf1 hlf2 hne

theorem ptInv_mono (k : kernelState) (pml4 : Nat) (own : Nat → Option (List Nat))
    (U V : Nat → Prop) (hinv : ptInv k pml4 own U) (hUV : ∀ x, U x → V x)
    (hV : ∀ x, V x → x < MAXPHYADDR) : ptInv k pml4 own V :=
  ⟨hinv.bound, hinv.root, hinv.alloc, hinv.depth, hinv.child, hinv.top, hV,
    fun t p i h1 h2 h3 h4 x h5 h6 => hUV x (hinv.leafU t p i h1 h2 h3 h4 x h5 h6), hinv.leafD⟩

theorem isLeaf_mmap_flag (nx : Bool) (d a fl : Nat) :
    isLeaf d (pageTableEntry.mmap nx a (fl ||| pageSizeFlag)) = true := by
  unfold isLeaf
  rw [present_mmap, huge_mmap_flag]
  simp

theorem isLeaf_mmap_pt (nx : Bool) (a fl : Nat) :
    isLeaf 3 (pageTableEntry.mmap nx a fl) = true := by
  unfold isLeaf
  rw [present_mmap]
  rfl

/-- Storing the entry `mmap` makes for a fresh page of the size of the level
keeps the invariant. -/
theorem ptInv_map (k : kernelState) (pml4 : Nat) (own : Nat → Option (List Nat))
    (U : Nat → Prop) (t i paddr fl sz rest : Nat) (p : List Nat)
    (hinv : ptInv k pml4 own U) (ht : own t = some p) (hp : 1 ≤ p.length)
    (hsz : leafSize p.length = sz)
    (hlf : isLeaf p.length (pageTableEntry.mmap k.nxSupport paddr fl) = true)
    (hmid : ∀ j, 12 ≤ j → j < 52 → (entryFlags k.nxSupport fl).testBit j = false)
    (hal : paddr % sz = 0) (hle : sz ≤ rest) (hmax : paddr + rest ≤ MAXPHYADDR)
    (hfresh : ∀ x, paddr ≤ x → x < paddr + rest → ¬ U x) :
    ptInv { k with ram := ramWrite k.ram t i (pageTableEntry.mmap k.nxSupport paddr fl) }
      pml4 own (fun x => U x ∨ (paddr ≤ x ∧ x < paddr + sz)) := by
  subst hsz
  have hpos := leafSize_pos p.length
  exact ptInv_write k pml4 own U t i _ paddr p hinv ht hp hlf
    (leafPaddr_mmap _ _ paddr fl hal (by omega) hmid) (by omega)
    (fun x h1 h2 => hfresh x h1 (by omega))

/-- The last part of an iteration of `mmapAligned` keeps the invariant and
maps the 4 KiB page at `paddr`. -/
theorem ptInv_stepPT (k k1 : kernelState) (pml4 pd start paddr flags s1 p1 rest : Nat)
    (own : Nat → Option (List Nat)) (U : Nat → Prop) (p : List Nat)
    (hinv : ptInv k pml4 own U) (hpd : own pd = some p) (hp : p.length = 2)
    (hpa : paddr % pageSize = 0) (hle : pageSize ≤ rest) (hmax : paddr + rest ≤ MAXPHYADDR)
    (hfl : flags ||| allPageFlags = allPageFlags)
    (hfresh : ∀ x, paddr ≤ x → x < paddr + rest → ¬ U x)
    (h : mmapAlignedPT k pd start paddr flags = Result.ok (k1, s1, p1)) :
    ∃ own1, ptInv k1 pml4 own1 (fun x => U x ∨ (paddr ≤ x ∧ x < paddr + pageSize)) ∧
      s1 = add64 start pageSize ∧ p1 = add64 paddr pageSize := by
  unfold mmapAlignedPT at h
  simp only at h
  cases hl : lookupOrCreatePageTable k pd (start / pageSize2MB % pageTableSize) with
  | err =>
    rw [hl] at h
    exact Result.noConfusion h
  | fatal =>
    rw [hl] at h
    exact Result.noConfusion h
  | ok v =>
    obtain ⟨pt, k3⟩ := v
    rw [hl] at h
    simp only at h
    obtain ⟨e1, e23⟩ := Prod.mk.inj (Result.ok.inj h)
    obtain ⟨e2, e3⟩ := Prod.mk.inj e23
    subst e1
    subst e2
    subst e3
    obtain ⟨own1, inv1, o1⟩ := ptInv_lookup k k3 pml4 own U pd _ pt p hinv hpd (by omega)
      (Nat.mod_lt _ (by decide)) hl
    refine ⟨own1, ?_, rfl, rfl⟩
    have hlen : (start / pageSize2MB % pageTableSize :: p).length = 3 := by
      rw [List.length_cons, hp]
    refine ptInv_map k3 pml4 own1 U pt _ paddr flags pageSize rest _ inv1 o1 (by omega)
      (by rw [hlen]; decide) (by rw [hlen]; exact isLeaf_mmap_pt _ _ _)
      (fun j h1 h2 => (entryFlags_middle _ flags j hfl h1 h2).1) hpa hle hmax hfresh

/-- The middle part of an iteration of `mmapAligned` keeps the invariant and
maps a 2 MiB or a 4 KiB page at `paddr`. -/
theorem ptInv_stepPD (k k1 : kernelState) (pml4 pdpt start «end» paddr flags s1 p1 : Nat)
    (own : Nat → Option (List Nat)) (U : Nat → Prop) (p : List Nat)
    (hinv : ptInv k pml4 own U) (hpdpt : own pdpt = some p) (hp : p.length = 1)
    (hpa : paddr % pageSize = 0) (hle : pageSize ≤ «end» - start)
    (hmax : paddr + («end» - start) ≤ MAXPHYADDR)
    (hfl : flags ||| allPageFlags = allPageFlags)
    (hfresh : ∀ x, paddr ≤ x → x < paddr + («end» - start) → ¬ U x)
    (h : mmapAlignedPD k pdpt start «end» paddr flags = Result.ok (k1, s1, p1)) :
    ∃ own1 sz, ptInv k1 pml4 own1 (fun x => U x ∨ (paddr ≤ x ∧ x < paddr + sz)) ∧
      0 < sz ∧ sz % pageSize = 0 ∧ sz ≤ «end» - start ∧
      s1 = add64 start sz ∧ p1 = add64 paddr sz := by
  unfold mmapAlignedPD at h
  simp only at h
  cases hl : lookupOrCreatePageTable k pdpt (start / pageSize1GB % pageTableSize) with
  | err =>
    rw [hl] at h
    exact Result.noConfusion h
  | fatal =>
    rw [hl] at h
    exact Result.noConfusion h
  | ok v =>
    obtain ⟨pd, k2⟩ := v
    rw [hl] at h
    simp only at h
    obtain ⟨own1, inv1, o1⟩ := ptInv_lookup k k2 pml4 own U pdpt _ pd p hinv hpdpt (by omega)
      (Nat.mod_lt _ (by decide)) hl
    have hlen : (start / pageSize1GB % pageTableSize :: p).length = 2 := by
      rw [List.length_cons, hp]
    by_cases hc : «end» - start ≥ pageSize2MB ∧ start % pageSize2MB = 0 ∧
        paddr % pageSize2MB = 0
    · rw [if_pos hc] at h
      obtain ⟨e1, e23⟩ := Prod.mk.inj (Result.ok.inj h)
      obtain ⟨e2, e3⟩ := Prod.mk.inj e23
      subst e1
      subst e2
      subst e3
      refine ⟨own1, pageSize2MB, ?_, by decide, by decide, hc.1, rfl, rfl⟩
      exact ptInv_map k2 pml4 own1 U pd _ paddr (flags ||| pageSizeFlag) pageSize2MB
        («end» - start) _ inv1 o1 (by omega)
        (by rw [hlen]; decide) (isLeaf_mmap_flag _ _ _ _)
        (fun j h1 h2 => (entryFlags_middle _ flags j hfl h1 h2).2) hc.2.2 hc.1 hmax hfresh
    · rw [if_neg hc] at h
      obtain ⟨own2, inv2, e2, e3⟩ := ptInv_stepPT k2 k1 pml4 pd start paddr flags s1 p1
        («end» - start) own1 U _ inv1 o1 hlen hpa hle hmax hfl hfresh h
      exact ⟨own2, pageSize, inv2, by decide, by decide, hle, e2, e3⟩

/-- One iteration of the loop of `mmapAligned` keeps the invariant and maps a
page of `sz` bytes at `paddr`. -/
theorem ptInv_step (k k1 : kernelState) (pml4 start «end» paddr flags s1 p1 : Nat)
    (own : Nat → Option (List Nat)) (U : Nat → Prop)
    (hinv : ptInv k pml4 own U)
    (hpa : paddr % pageSize = 0) (hle : pageSize ≤ «end» - start)
    (hmax : paddr + («end» - start) ≤ MAXPHYADDR)
    (hfl : flags ||| allPageFlags = allPageFlags)
    (hfresh : ∀ x, paddr ≤ x → x < paddr + («end» - start) → ¬ U x)
    (h : mmapAlignedStep k pml4 start «end» paddr flags = Result.ok (k1, s1, p1)) :
    ∃ own1 sz, ptInv k1 pml4 own1 (fun x => U x ∨ (paddr ≤ x ∧ x < paddr + sz)) ∧
      0 < sz ∧ sz % pageSize = 0 ∧ sz ≤ «end» - start ∧
      s1 = add64 start sz ∧ p1 = add64 paddr sz := by
  unfold mmapAlignedStep at h
  simp only at h
  cases hl : lookupOrCreatePageTable k pml4 (start / pageSizeRoot % pageTableSize) with
  | err =>
    rw [hl] at h
    exact Result.noConfusion h
  | fatal =>
    rw [hl] at h
    exact Result.noConfusion h
  | ok v =>
    obtain ⟨pdpt, k2⟩ := v
    rw [hl] at h
    simp only at h
    obtain ⟨own1, inv1, o1⟩ := ptInv_lookup k k2 pml4 own U pml4 _ pdpt [] hinv hinv.root
      (by decide) (Nat.mod_lt _ (by decide)) hl
    have hlen : [start / pageSizeRoot % pageTableSize].length = 1 := rfl
    by_cases hc : «end» - start ≥ pageSize1GB ∧ start % pageSize2MB = 0 ∧
        paddr % pageSize1GB = 0 ∧ k2.hugePage1GBSupport = true
    · rw [if_pos hc] at h
      obtain ⟨e1, e23⟩ := Prod.mk.inj (Result.ok.inj h)
      obtain ⟨e2, e3⟩ := Prod.mk.inj e23
      subst e1
      subst e2
      subst e3
      refine ⟨own1, pageSize1GB, ?_, by decide, by decide, hc.1, rfl, rfl⟩
      exact ptInv_map k2 pml4 own1 U pdpt _ paddr (flags ||| pageSizeFlag) pageSize1GB
        («end» - start) _ inv1 o1 (by omega)
        (by rw [hlen]; decide) (isLeaf_mmap_flag _ _ _ _)
        (fun j h1 h2 => (entryFlags_middle _ flags j hfl h1 h2).2) hc.2.2.1 hc.1 hmax hfresh
    · rw [if_neg hc] at h
      exact ptInv_stepPD k2 k1 pml4 pdpt start «end» paddr flags s1 p1 own1 U _ inv1 o1 hlen
        hpa hle hmax hfl hfresh h

/-- The loop of `mmapAligned` keeps the invariant; the pages it maps lie in
the physical range of the call. -/
theorem ptInv_loop (pml4 «end» flags : Nat) (hew : «end» < wordMod)
    (he : «end» % pageSize = 0) (hfl : flags ||| allPageFlags = allPageFlags) :
    ∀ (fuel : Nat) (k : kernelState) (start paddr : Nat) (own : Nat → Option (List Nat))
      (U : Nat → Prop) (k1 : kernelState),
      ptInv k pml4 own U → start % pageSize = 0 → paddr % pageSize = 0 →
      paddr + («end» - start) ≤ MAXPHYADDR →
      (∀ x, paddr ≤ x → x < paddr + («end» - start) → ¬ U x) →
      mmapAlignedLoop pml4 «end» flags fuel k start paddr = Result.ok k1 →
      ∃ own1, ptInv k1 pml4 own1
        (fun x => U x ∨ (paddr ≤ x ∧ x < paddr + («end» - start))) := by
  intro fuel
  induction fuel with
  | zero =>
    intro k start paddr own U k1 _ _ _ _ _ h
    exact Result.noConfusion h
  | succ n ih =>
    intro k start paddr own U k1 hinv hs hpa hmax hfresh h
    rw [mmapAlignedLoop] at h
    by_cases hlt : start < «end»
    · rw [if_pos hlt] at h
      cases hst : mmapAlignedStep k pml4 start «end» paddr flags with
      | err =>
        rw [hst] at h
        exact Result.noConfusion h
      | fatal =>
        rw [hst] at h
        exact Result.noConfusion h
      | ok v =>
        obtain ⟨k2, s2, p2⟩ := v
        rw [hst] at h
        simp only at h
        have hle : pageSize ≤ «end» - start := by
          rw [pageSize_eq] at hs he ⊢
          omega
        obtain ⟨own1, sz, inv1, z1, z2, z3, z4, z5⟩ := ptInv_step k k2 pml4 start «end» paddr
          flags s2 p2 own U hinv hpa hle hmax hfl hfresh hst
        have hM : MAXPHYADDR < wordMod := by decide
        have e4 : s2 = start + sz := by
          rw [z4]
          unfold add64
          exact Nat.mod_eq_of_lt (by omega)
        have e5 : p2 = paddr + sz := by
          rw [z5]
          unfold add64
          exact Nat.mod_eq_of_lt (by omega)
        subst e4
        subst e5
        obtain ⟨own2, inv2⟩ := ih k2 (start + sz) (paddr + sz) own1 _ k1 inv1
          (by rw [pageSize_eq] at hs z2 ⊢; omega) (by rw [pageSize_eq] at hpa z2 ⊢; omega)
          (by omega)
          (fun x h1 h2 hc => by
            rcases hc with hc | hc
            · exact hfresh x (by omega) (by omega) hc
            · omega) h
        refine ⟨own2, ptInv_mono k1 pml4 own2 _ _ inv2 ?_ ?_⟩
        · intro x hx
          rcases hx with (hx | hx) | hx
          · exact Or.inl hx
          · exact Or.inr ⟨hx.1, by omega⟩
          · exact Or.inr ⟨by omega, by omega⟩
        · intro x hx
          rcases hx with hx | hx
          · exact hinv.below x hx
          · omega
    · rw [if_neg hlt] at h
      have e := Result.ok.inj h
      subst e
      refine ⟨own, ptInv_mono k pml4 own _ _ hinv (fun x hx => Or.inl hx) ?_⟩
      intro x hx
      rcases hx with hx | hx
      · exact hinv.below x hx
      · omega

/-- A successful well-formed call whose physical range is fresh keeps the
invariant, with the range added to the mapped addresses. -/
theorem ptInv_call (k k1 : kernelState) (pml4 : Nat) (c : mmapCall)
    (own : Nat → Option (List Nat)) (U : Nat → Prop)
    (hinv : ptInv k pml4 own U) (hwf : c.wf)
    (hfresh : ∀ x, c.paddr ≤ x → x < c.paddr + (c.«end» - c.start) → ¬ U x)
    (h : mmapAligned k pml4 c.start c.«end» c.paddr c.flags = Result.ok k1) :
    ∃ own1, ptInv k1 pml4 own1
      (fun x => U x ∨ (c.paddr ≤ x ∧ x < c.paddr + (c.«end» - c.start))) := by
  obtain ⟨w1, w2, w3, w4, w5⟩ := hwf
  unfold mmapAligned at h
  by_cases hp : c.paddr % pageSize ≠ 0
  · rw [if_pos hp] at h
    exact Result.noConfusion h
  · rw [if_neg hp] at h
    exact ptInv_loop pml4 c.«end» c.flags w3 w2 w4 wordMod k c.start c.paddr own U k1 hinv w1
      (not_not.mp hp) w5 hfresh h

/-- A sequence of successful well-formed calls with pairwise disjoint physical
ranges keeps the invariant. -/
theorem ptInv_run (pml4 : Nat) :
    ∀ (calls : List mmapCall) (k : kernelState) (own : Nat → Option (List Nat))
      (U : Nat → Prop) (k1 : kernelState),
      ptInv k pml4 own U → (∀ c ∈ calls, c.wf) → calls.Pairwise mmapCall.physDisjoint →
      (∀ c ∈ calls, ∀ x, c.paddr ≤ x → x < c.paddr + (c.«end» - c.start) → ¬ U x) →
      mmapRun pml4 k calls = some k1 → ∃ own1 U1, ptInv k1 pml4 own1 U1 := by
  intro calls
  induction calls with
  | nil =>
    intro k own U k1 hinv _ _ _ h
    have e := Option.some.inj h
    subst e
    exact ⟨own, U, hinv⟩
  | cons c cs ih =>
    intro k own U k1 hinv hwf hpw hfresh h
    rw [mmapRun] at h
    cases hc : mmapAligned k pml4 c.start c.«end» c.paddr c.flags with
    | err =>
      rw [hc] at h
      exact Option.noConfusion h
    | fatal =>
      rw [hc] at h
      exact Option.noConfusion h
    | ok k2 =>
      rw [hc] at h
      simp only at h
      obtain ⟨own1, inv1⟩ := ptInv_call k k2 pml4 c own U hinv
        (hwf c (List.mem_cons_self _ _)) (hfresh c (List.mem_cons_self _ _)) hc
      have hpw2 := List.pairwise_cons.mp hpw
      refine ih k2 own1 _ k1 inv1 (fun c2 h2 => hwf c2 (List.mem_cons_of_mem _ h2)) hpw2.2 ?_ h
      intro c2 h2 x x1 x2 hx
      rcases hx with hx | hx
      · exact hfresh c2 (List.mem_cons_of_mem _ h2) x x1 x2 hx
      · have := hpw2.1 c2 h2
        unfold mmapCall.physDisjoint at this
        omega

/-! ## The dump of a page table that satisfies the invariant -/

theorem slotAt_disjoint (k : kernelState) (pml4 : Nat) (own : Nat → Option (List Nat))
    (U : Nat → Prop) (t0 : Nat) (q : List Nat) (i j : Nat) (x y : pageTableRange)
    (hinv : ptInv k pml4 own U) (hT : own t0 = some q) (hx : slotAt k own t0 q i x)
    (hy : slotAt k own t0 q j y) (hij : i ≠ j) : x.physDisjoint y := by
  obtain ⟨t, p, a, ⟨s1, s2, s3, s4, s5, s6⟩, hc⟩ := hx
  obtain ⟨t2, p2, b, ⟨r1, r2, r3, r4, r5, r6⟩, hc2⟩ := hy
  have hne : t ≠ t2 ∨ a ≠ b := by
    by_contra hcon
    have ht : t = t2 := by
      by_contra h
      exact hcon (Or.inl h)
    have hab : a = b := by
      by_contra h
      exact hcon (Or.inr h)
    have hp : p = p2 := by
      rw [ht, r1] at s1
      exact (Option.some.inj s1).symm
    subst ht
    subst hab
    subst hp
    have hself : ∀ n, t = t0 → ¬ List.IsSuffix (n :: q) p := by
      intro n c1 d1
      have e : p = q := by
        rw [c1, hT] at s1
        exact (Option.some.inj s1).symm
      rw [e] at d1
      have := d1.length_le
      rw [List.length_cons] at this
      omega
    rcases hc with ⟨c1, c2⟩ | c1
    · rcases hc2 with ⟨_, d2⟩ | d1
      · exact hij (c2.symm.trans d2)
      · exact hself j c1 d1
    · rcases hc2 with ⟨d1, _⟩ | d1
      · exact hself i d1 c1
      · have h1 := List.suffix_of_suffix_length_le c1 d1 (by simp)
        have h2 := h1.eq_of_length (by simp)
        exact hij (List.cons.inj h2).1
  unfold pageTableRange.physDisjoint
  rw [s5, s6, r5, r6]
  exact hinv.leafD t p a t2 p2 b s1 r1 s2 r2 s3 r3 s4 r4 hne

theorem slotAt_under (k : kernelState) (own : Nat → Option (List Nat)) (t0 : Nat)
    (q : List Nat) (i : Nat) (x : pageTableRange) (hT : own t0 = some q)
    (h : slotAt k own t0 q i x) : slotUnder k own q x := by
  obtain ⟨t, p, a, fs, hc⟩ := h
  refine ⟨t, p, a, fs, ?_⟩
  rcases hc with ⟨c1, _⟩ | c1
  · have e : p = q := by
      have s1 := fs.1
      rw [c1, hT] at s1
      exact (Option.some.inj s1).symm
    rw [e]
  · exact (List.suffix_cons i q).trans c1

theorem slotUnder_bounds (k : kernelState) (pml4 : Nat) (own : Nat → Option (List Nat))
    (U : Nat → Prop) (q : List Nat) (x : pageTableRange) (hinv : ptInv k pml4 own U)
    (h : slotUnder k own q x) : 0 < x.size ∧ x.paddr + x.size ≤ MAXPHYADDR := by
  obtain ⟨t, p, a, ⟨s1, s2, s3, s4, s5, s6⟩, _⟩ := h
  have hpos := leafSize_pos p.length
  have hU := hinv.leafU t p a s1 s2 s3 s4
    (leafPaddr p.length (k.ram t a) + leafSize p.length - 1) (by omega) (by omega)
  have := hinv.below _ hU
  rw [s5, s6]
  omega

/-- The loop over the words of one table: the parts of different words do not
meet when each part comes from its word. -/
theorem dump_level (k : kernelState) (pml4 : Nat) (own : Nat → Option (List Nat))
    (U : Nat → Prop) (t0 : Nat) (q : List Nat) (f : Nat → List pageTableRange)
    (hinv : ptInv k pml4 own U) (hT : own t0 = some q)
    (hf : ∀ i, i < pageTableSize → ∀ x ∈ f i, slotAt k own t0 q i x)
    (hpw : ∀ i, i < pageTableSize → (f i).Pairwise pageTableRange.physDisjoint) :
    ((List.range pageTableSize).flatMap f).Pairwise pageTableRange.physDisjoint ∧
      ∀ x ∈ (List.range pageTableSize).flatMap f, slotUnder k own q x := by
  constructor
  · rw [List.pairwise_flatMap]
    refine ⟨fun i hi => hpw i (List.mem_range.mp hi), ?_⟩
    refine List.Pairwise.imp_of_mem ?_ (List.pairwise_lt_range pageTableSize)
    intro a b ha hb hab x hx y hy
    exact slotAt_disjoint k pml4 own U t0 q a b x y hinv hT
      (hf a (List.mem_range.mp ha) x hx) (hf b (List.mem_range.mp hb) y hy) (Nat.ne_of_lt hab)
  · intro x hx
    obtain ⟨i, hi, hxi⟩ := List.mem_flatMap.mp hx
    exact slotAt_under k own t0 q i x hT (hf i (List.mem_range.mp hi) x hxi)

theorem dumpPT_slots (k : kernelState) (pml4 : Nat) (own : Nat → Option (List Nat))
    (U : Nat → Prop) (pt vaddr : Nat) (q : List Nat)
    (hinv : ptInv k pml4 own U) (hT : own pt = some q) (hq : q.length = 3) :
    (dumpPT k.ram pt vaddr).Pairwise pageTableRange.physDisjoint ∧
      ∀ x ∈ dumpPT k.ram pt vaddr, slotUnder k own q x := by
  unfold dumpPT
  apply dump_level k pml4 own U pt q _ hinv hT
  · intro i hi x hx
    simp only at hx
    by_cases hp : pageTableEntry.present (k.ram pt i) = true
    · simp only [hp, Bool.not_true, Bool.false_eq_true, if_false, List.mem_singleton] at hx
      refine ⟨pt, q, i, ⟨hT, by omega, hi, ?_, ?_, ?_⟩, Or.inl ⟨rfl, rfl⟩⟩
      · rw [hq]
        unfold isLeaf
        rw [hp]
        rfl
      · rw [hx, hq]
        rfl
      · rw [hx, hq]
        rfl
    · have hpf : pageTableEntry.present (k.ram pt i) = false := by simpa using hp
      simp [hpf] at hx
  · intro i _
    simp only
    split
    · exact List.Pairwise.nil
    · exact List.pairwise_singleton _ _

theorem dumpPD_slots (k : kernelState) (pml4 : Nat) (own : Nat → Option (List Nat))
    (U : Nat → Prop) (pd vaddr : Nat) (q : List Nat)
    (hinv : ptInv k pml4 own U) (hT : own pd = some q) (hq : q.length = 2) :
    (dumpPD k.ram pd vaddr).Pairwise pageTableRange.physDisjoint ∧
      ∀ x ∈ dumpPD k.ram pd vaddr, slotUnder k own q x := by
  unfold dumpPD
  apply dump_level k pml4 own U pd q _ hinv hT
  · intro i hi x hx
    simp only at hx
    by_cases hp : pageTableEntry.present (k.ram pd i) = true
    · by_cases hh : pageTableEntry.huge (k.ram pd i) = true
      · simp only [hp, hh, Bool.not_true, Bool.false_eq_true, if_false, if_true,
          List.mem_singleton] at hx
        refine ⟨pd, q, i, ⟨hT, by omega, hi, ?_, ?_, ?_⟩, Or.inl ⟨rfl, rfl⟩⟩
        · unfold isLeaf
          rw [hp, hh]
          simp
        · rw [hx, hq]
          rfl
        · rw [hx, hq]
          rfl
      · have hhf : pageTableEntry.huge (k.ram pd i) = false := by simpa using hh
        simp only [hp, hhf, Bool.not_true, Bool.false_eq_true, if_false] at hx
        have hc := hinv.child pd q i hT (by omega) hi hp hhf
        obtain ⟨t, p, a, fs, hs⟩ := (dumpPT_slots k pml4 own U _ _ (i :: q) hinv hc
          (by rw [List.length_cons, hq])).2 x hx
        exact ⟨t, p, a, fs, Or.inr hs⟩
    · have hpf : pageTableEntry.present (k.ram pd i) = false := by simpa using hp
      simp [hpf] at hx
  · intro i hi
    simp only
    by_cases hp : pageTableEntry.present (k.ram pd i) = true
    · by_cases hh : pageTableEntry.huge (k.ram pd i) = true
      · simp only [hp, hh, Bool.not_true, Bool.false_eq_true, if_false, if_true]
        exact List.pairwise_singleton _ _
      · have hhf : pageTableEntry.huge (k.ram pd i) = false := by simpa using hh
        simp only [hp, hhf, Bool.not_true, Bool.false_eq_true, if_false]
        exact (dumpPT_slots k pml4 own U _ _ (i :: q) hinv
          (hinv.child pd q i hT (by omega) hi hp hhf) (by rw [List.length_cons, hq])).1
    · have hpf : pageTableEntry.present (k.ram pd i) = false := by simpa using hp
      simp [hpf]

theorem dumpPDPT_slots (k : kernelState) (pml4 : Nat) (own : Nat → Option (List Nat))
    (U : Nat → Prop) (pdpt vaddr : Nat) (q : List Nat)
    (hinv : ptInv k pml4 own U) (hT : own pdpt = some q) (hq : q.length = 1) :
    (dumpPDPT k.ram pdpt vaddr).Pairwise pageTableRange.physDisjoint ∧
      ∀ x ∈ dumpPDPT k.ram pdpt vaddr, slotUnder k own q x := by
  unfold dumpPDPT
  apply dump_level k pml4 own U pdpt q _ hinv hT
  · intro i hi x hx
    simp only at hx
    by_cases hp : pageTableEntry.present (k.ram pdpt i) = true
    · by_cases hh : pageTableEntry.huge (k.ram pdpt i) = true
      · simp only [hp, hh, Bool.not_true, Bool.false_eq_true, if_false, if_true,
          List.mem_singleton] at hx
        refine ⟨pdpt, q, i, ⟨hT, by omega, hi, ?_, ?_, ?_⟩, Or.inl ⟨rfl, rfl⟩⟩
        · unfold isLeaf
          rw [hp, hh]
          simp
        · rw [hx, hq]
          rfl
        · rw [hx, hq]
          rfl
      · have hhf : pageTableEntry.huge (k.ram pdpt i) = false := by simpa using hh
        simp only [hp, hhf, Bool.not_true, Bool.false_eq_true, if_false] at hx
        have hc := hinv.child pdpt q i hT (by omega) hi hp hhf
        obtain ⟨t, p, a, fs, hs⟩ := (dumpPD_slots k pml4 own U _ _ (i :: q) hinv hc
          (by rw [List.length_cons, hq])).2 x hx
        exact ⟨t, p, a, fs, Or.inr hs⟩
    · have hpf : pageTableEntry.present (k.ram pdpt i) = false := by simpa using hp
      simp [hpf] at hx
  · intro i hi
    simp only
    by_cases hp : pageTableEntry.present (k.ram pdpt i) = true
    · by_cases hh : pageTableEntry.huge (k.ram pdpt i) = true
      · simp only [hp, hh, Bool.not_true, Bool.false_eq_true, if_false, if_true]
        exact List.pairwise_singleton _ _
      · have hhf : pageTableEntry.huge (k.ram pdpt i) = false := by simpa using hh
        simp only [hp, hhf, Bool.not_true, Bool.false_eq_true, if_false]
        exact (dumpPD_slots k pml4 own U _ _ (i :: q) hinv
          (hinv.child pdpt q i hT (by omega) hi hp hhf) (by rw [List.length_cons, hq])).1
    · have hpf : pageTableEntry.present (k.ram pdpt i) = false := by simpa using hp
      simp [hpf]

/-- The outer loop of `dumpPageTable` returns when no present word of the root
table has the page size flag. -/
theorem dumpPML4_eq (ram : Nat → Nat → Nat) (pml4 mv : Nat) (is : List Nat)
    (h : ∀ i ∈ is, pageTableEntry.present (ram pml4 i) = true →
      pageTableEntry.huge (ram pml4 i) = false) :
    dumpPML4 ram pml4 mv is = Result.ok (is.flatMap fun i =>
      if !pageTableEntry.present (ram pml4 i) then []
      else dumpPDPT ram (pageTableEntry.frame (ram pml4 i))
        (signExtend mv (i * pageSizeRoot))) := by
  induction is with
  | nil => rfl
  | cons i rest ih =>
    have ih2 := ih (fun j hj => h j (List.mem_cons_of_mem _ hj))
    rw [dumpPML4, List.flatMap_cons]
    simp only
    by_cases hp : pageTableEntry.present (ram pml4 i) = true
    · have hh := h i (List.mem_cons_self _ _) hp
      rw [getPageTable_eq, hh, ih2]
      simp [hp]
    · have hpf : pageTableEntry.present (ram pml4 i) = false := by simpa using hp
      rw [ih2]
      simp [hpf]

/-- The dump of a page table that satisfies the invariant: `dumpPageTable`
returns, and the physical ranges of its entries are pairwise disjoint,
not empty and below `MAXPHYADDR`. -/
theorem dump_disjoint (k : kernelState) (pml4 mv : Nat) (own : Nat → Option (List Nat))
    (U : Nat → Prop) (hinv : ptInv k pml4 own U) :
    ∃ entries, dumpPageTable k.ram pml4 mv = Result.ok entries ∧
      entries.Pairwise pageTableRange.physDisjoint ∧
      ∀ x ∈ entries, 0 < x.size ∧ x.paddr + x.size ≤ MAXPHYADDR := by
  have heq := dumpPML4_eq k.ram pml4 mv (List.range pageTableSize)
    (fun i hi hp => hinv.top pml4 i hinv.root (List.mem_range.mp hi) hp)
  have hlev := dump_level k pml4 own U pml4 [] (fun i =>
      if !pageTableEntry.present (k.ram pml4 i) then []
      else dumpPDPT k.ram (pageTableEntry.frame (k.ram pml4 i))
        (signExtend mv (i * pageSizeRoot))) hinv hinv.root
    (by
      intro i hi x hx
      simp only at hx
      by_cases hp : pageTableEntry.present (k.ram pml4 i) = true
      · simp only [hp, Bool.not_true, Bool.false_eq_true, if_false] at hx
        have hhf := hinv.top pml4 i hinv.root hi hp
        have hc := hinv.child pml4 [] i hinv.root (by decide) hi hp hhf
        obtain ⟨t, p, a, fs, hs⟩ := (dumpPDPT_slots k pml4 own U _ _ [i] hinv hc rfl).2 x hx
        exact ⟨t, p, a, fs, Or.inr hs⟩
      · have hpf : pageTableEntry.present (k.ram pml4 i) = false := by simpa using hp
        simp [hpf] at hx)
    (by
      intro i hi
      simp only
      by_cases hp : pageTableEntry.present (k.ram pml4 i) = true
      · simp only [hp, Bool.not_true, Bool.false_eq_true, if_false]
        have hhf := hinv.top pml4 i hinv.root hi hp
        exact (dumpPDPT_slots k pml4 own U _ _ [i] hinv
          (hinv.child pml4 [] i hinv.root (by decide) hi hp hhf) rfl).1
      · have hpf : pageTableEntry.present (k.ram pml4 i) = false := by simpa using hp
        simp [hpf])
  refine ⟨_, heq, hlev.1, fun x hx => ?_⟩
  exact slotUnder_bounds k pml4 own U [] x hinv (hlev.2 x hx)

/-! ## Verifying the dump -/

theorem insertRange_perm (r : addrRange) (l : List addrRange) :
    (insertRange r l).Perm (r :: l) := by
  induction l with
  | nil => exact List.Perm.refl _
  | cons r2 rest ih =>
    rw [insertRange]
    split
    · exact (List.Perm.cons r2 ih).trans (List.Perm.swap r r2 rest)
    · exact List.Perm.refl _

theorem sortRanges_perm (l : List addrRange) : (sortRanges l).Perm l := by
  induction l with
  | nil => exact List.Perm.refl _
  | cons r rest ih =>
    rw [sortRanges]
    exact (insertRange_perm r (sortRanges rest)).trans (List.Perm.cons r ih)

theorem rangeLess_true (a b : addrRange) (h : rangeLess a b = true) :
    a.start < b.start ∨ (a.start = b.start ∧ a.«end» < b.«end») := by
  unfold rangeLess at h
  simpa using h

theorem rangeLess_false (a b : addrRange) (h : ¬ rangeLess a b = true) :
    b.start ≤ a.start := by
  unfold rangeLess at h
  simp only [Bool.or_eq_true, Bool.and_eq_true, decide_eq_true_eq, not_or] at h
  omega

/-- Inserting a range that is apart from the ranges of a list in which every
range ends before the later ones start. -/
theorem insertRange_sorted (r : addrRange) (l : List addrRange)
    (hl : ∀ x ∈ l, r.apart x)
    (hs : l.Pairwise (fun a b => a.«end» ≤ b.start)) :
    (insertRange r l).Pairwise (fun a b => a.«end» ≤ b.start) := by
  induction l with
  | nil => exact List.pairwise_singleton _ _
  | cons r2 rest ih =>
    obtain ⟨h1, h2⟩ := List.pairwise_cons.mp hs
    obtain ⟨a1, a2, a3⟩ := hl r2 (List.mem_cons_self _ _)
    rw [insertRange]
    split
    · rename_i hless
      have hlt := rangeLess_true r2 r hless
      refine List.pairwise_cons.mpr ⟨?_, ih (fun x hx => hl x (List.mem_cons_of_mem _ hx)) h2⟩
      intro x hx
      rcases List.mem_cons.mp ((insertRange_perm r rest).mem_iff.mp hx) with e | e
      · rw [e]
        omega
      · exact h1 x e
    · rename_i hless
      have hle := rangeLess_false r2 r hless
      refine List.pairwise_cons.mpr ⟨?_, hs⟩
      intro x hx
      rcases List.mem_cons.mp hx with e | e
      · rw [e]
        omega
      · have := h1 x e
        omega

theorem sortRanges_sorted (l : List addrRange) (h : l.Pairwise addrRange.apart) :
    (sortRanges l).Pairwise (fun a b => a.«end» ≤ b.start) := by
  induction l with
  | nil => exact List.Pairwise.nil
  | cons r rest ih =>
    obtain ⟨h1, h2⟩ := List.pairwise_cons.mp h
    rw [sortRanges]
    exact insertRange_sorted r _
      (fun x hx => h1 x ((sortRanges_perm rest).mem_iff.mp hx)) (ih h2)

theorem adjacentOverlap_false (l : List addrRange)
    (h : l.Pairwise (fun a b => a.«end» ≤ b.start)) : adjacentOverlap l = false := by
  induction l with
  | nil => rfl
  | cons r1 t ih =>
    cases t with
    | nil => rfl
    | cons r2 rest =>
      obtain ⟨h1, h2⟩ := List.pairwise_cons.mp h
      have h3 := h1 r2 (List.mem_cons_self _ _)
      rw [adjacentOverlap, ih h2]
      simp only [Bool.or_false, decide_eq_false_iff_not]
      omega

theorem rangeSame_false (a b : addrRange) (h : a.apart b) : rangeSame a b = false := by
  obtain ⟨h1, h2, h3⟩ := h
  unfold rangeSame
  have : decide (a.start = b.start) = false := by
    simp only [decide_eq_false_iff_not]
    omega
  rw [this]
  simp

theorem anySame_false (l : List addrRange) (h : l.Pairwise addrRange.apart) :
    anySame l = false := by
  induction l with
  | nil => rfl
  | cons r rest ih =>
    obtain ⟨h1, h2⟩ := List.pairwise_cons.mp h
    rw [anySame, ih h2, Bool.or_false]
    apply List.any_eq_false.mpr
    intro x hx
    have a1 := h1 x hx
    have a2 : x.apart r := ⟨a1.2.1, a1.1, a1.2.2.symm⟩
    rw [rangeSame_false r x a1, rangeSame_false x r a2]
    simp

/-- Function `verifyPageTable` returns for entries whose physical ranges are
pairwise disjoint, not empty and below `MAXPHYADDR`. -/
theorem verifyPageTable_ok (entries : List pageTableRange) (physicalMapOffset : Nat)
    (hpw : entries.Pairwise pageTableRange.physDisjoint)
    (hb : ∀ x ∈ entries, 0 < x.size ∧ x.paddr + x.size ≤ MAXPHYADDR) :
    verifyPageTable entries physicalMapOffset = Result.ok () := by
  have hM : MAXPHYADDR < wordMod := by decide
  have h1 : entries.Pairwise (fun a b => (0 < a.size ∧ a.paddr + a.size ≤ MAXPHYADDR) ∧
      (0 < b.size ∧ b.paddr + b.size ≤ MAXPHYADDR) ∧ a.physDisjoint b) :=
    List.Pairwise.imp_of_mem (fun ha hb2 hab => ⟨hb _ ha, hb _ hb2, hab⟩) hpw
  have h2 : (physRanges entries physicalMapOffset).Pairwise addrRange.apart := by
    unfold physRanges
    refine List.Pairwise.map _ ?_ (List.Pairwise.filter _ h1)
    intro a b ⟨⟨a1, a2⟩, ⟨b1, b2⟩, hd⟩
    have ea : add64 a.paddr (a.size % wordMod) = a.paddr + a.size := by
      unfold add64
      rw [Nat.mod_eq_of_lt (show a.size < wordMod by omega)]
      exact Nat.mod_eq_of_lt (by omega)
    have eb : add64 b.paddr (b.size % wordMod) = b.paddr + b.size := by
      unfold add64
      rw [Nat.mod_eq_of_lt (show b.size < wordMod by omega)]
      exact Nat.mod_eq_of_lt (by omega)
    unfold pageTableRange.physDisjoint at hd
    unfold addrRange.apart
    simp only
    rw [ea, eb]
    omega
  unfold verifyPageTable
  simp only
  rw [anySame_false _ h2, adjacentOverlap_false _ (sortRanges_sorted _ h2)]
  rfl

/-! ## The dump after a sequence of `mmapAligned` calls -/

/-- C12. On a root table that is empty and lies in an allocated frame, with a
page bitmap that describes memory below `MAXPHYADDR`: after a sequence of
calls of `mmapAligned` that all succeed, each with page-aligned 64-bit `start`
and `end`, flags among the page flags and a physical range
`[paddr, paddr + (end - start))` below `MAXPHYADDR`, the physical ranges of the
calls being pairwise disjoint, `dumpPageTable` returns, the physical ranges of
all the entries it returns are pairwise disjoint (so are those of the entries
below `physicalMapOffset`), and `verifyPageTable` returns without the panic.
The virtual ranges of the calls need not be disjoint for this. -/
theorem mmapAligned_dump_disjoint (k : kernelState) (pml4 : Nat) (calls : List mmapCall)
    (maxVirtAddress physicalMapOffset : Nat)
    (hB : k.globalMem.bits.length * 64 * pageSize ≤ MAXPHYADDR)
    (hroot : k.globalMem.bit (pml4 / pageSize) = false)
    (hempty : ∀ i, i < pageTableSize → k.ram pml4 i = 0)
    (hwf : ∀ c ∈ calls, c.wf)
    (hphys : calls.Pairwise mmapCall.physDisjoint)
    (hrun : (mmapRun pml4 k calls).isSome = true) :
    ∃ k1 entries, mmapRun pml4 k calls = some k1 ∧
      dumpPageTable k1.ram pml4 maxVirtAddress = Result.ok entries ∧
      entries.Pairwise pageTableRange.physDisjoint ∧
      (entries.filter fun e => decide (e.vaddr < physicalMapOffset)).Pairwise
        pageTableRange.physDisjoint ∧
      verifyPageTable entries physicalMapOffset = Result.ok () := by
  cases hr : mmapRun pml4 k calls with
  | none =>
    rw [hr] at hrun
    exact Bool.noConfusion hrun
  | some k1 =>
    obtain ⟨own1, U1, inv1⟩ := ptInv_run pml4 calls k _ _ k1 (ptInv_init k pml4 hB hroot hempty)
      hwf hphys (fun _ _ _ _ _ hU => hU) hr
    obtain ⟨entries, d1, d2, d3⟩ := dump_disjoint k1 pml4 maxVirtAddress own1 U1 inv1
    exact ⟨k1, entries, rfl, d1, d2, List.Pairwise.filter _ d2,
      verifyPageTable_ok entries physicalMapOffset d2 d3⟩

set_option maxRecDepth 100000 in
/-- C12, witness: three calls on the empty root table of `freshState`, which
map a 4 KiB page, a 2 MiB page and two 4 KiB pages under another word of the
root table; the dump has these four entries. -/
theorem mmapAligned_dump_disjoint_witness :
    freshState.globalMem.bits.length * 64 * pageSize ≤ MAXPHYADDR ∧
      freshState.globalMem.bit (0 / pageSize) = false ∧
      (∀ i, i < pageTableSize → freshState.ram 0 i = 0) ∧
      (∀ c ∈ exampleCalls, c.wf) ∧
      exampleCalls.Pairwise mmapCall.physDisjoint ∧
      (mmapRun 0 freshState exampleCalls).isSome = true ∧
      dumpAfter freshState exampleCalls (1 <<< 48) = some
        [⟨0x1000, 0x100000, 0x1000⟩, ⟨0x200000, 0x200000, 0x200000⟩,
          ⟨0x8000000000, 0x110000, 0x1000⟩, ⟨0x8000001000, 0x111000, 0x1000⟩] ∧
      ∃ k1 entries, mmapRun 0 freshState exampleCalls = some k1 ∧
        dumpPageTable k1.ram 0 (1 <<< 48) = Result.ok entries ∧
        entries.Pairwise pageTableRange.physDisjoint ∧
        (entries.filter fun e => decide (e.vaddr < 1 <<< 47)).Pairwise
          pageTableRange.physDisjoint ∧
        verifyPageTable entries (1 <<< 47) = Result.ok () :=
  ⟨by decide, by decide, by decide, by decide, by decide, by decide, by decide,
    mmapAligned_dump_disjoint freshState 0 exampleCalls (1 <<< 48) (1 <<< 47)
      (by decide) (by decide) (by decide) (by decide) (by decide) (by decide)⟩

/-! ## Mapping physical memory from user space -/

/-- C26 (failing input). `Map(0xfff, 2)`: the address lies one byte before a
page boundary, so `off` is 0xfff and the two bytes span two pages. Line 120
computes `sizeAlign` from `size` alone, which drops the `off` that line 119
had added: the region that is reserved and mapped is one page, `off + size`
is 4097, and the slice expression that is to return the two bytes panics.
`Map(0x1800, 4096)` fails in the same way. -/
theorem Map_unaligned_short :
    mapRegion 0xfff 2 = (0, 0xfff, 4096) ∧ ¬ ((0xfff : Int) + 2 ≤ 4096) ∧
      Map 0xfff 2 = Result.fatal ∧
      mapRegion 0x1800 4096 = (0x1000, 0x800, 4096) ∧ Map 0x1800 4096 = Result.fatal := by
  decide

/-! ## The interrupt descriptor table -/

theorem gate_bits (pc level ist w0 : Nat) (j : Nat) (hj : j < 4) (hw0 : w0 < 2 ^ 32) :
    ((((pc &&& 0xffff0000) % 2 ^ 32) ||| (1 <<< 15) % 2 ^ 32 ||| (((level % 2 ^ 32) <<< 13) % 2 ^ 32) |||
    (0xe <<< 8) ||| ((ist % 256) % 2 ^ 32)) <<< 32 % 2 ^ 64 ||| w0).testBit (40 + j)
      = Nat.testBit 0xe j := by
  have hc : ∀ (c : Nat), c < 2 ^ 8 → ∀ n, 8 ≤ n → c.testBit n = false := fun c hc n hn =>
    Nat.testBit_lt_two_pow (lt_of_lt_of_le hc (Nat.pow_le_pow_right (by decide) hn))
  have h0 : w0.testBit (40 + j) = false :=
    Nat.testBit_lt_two_pow (lt_of_lt_of_le hw0 (Nat.pow_le_pow_right (by decide) (by omega)))
  have hi : (ist % 256).testBit (8 + j) = false :=
    hc _ (Nat.mod_lt ist (show 256 > 0 by decide)) _ (by omega)
  have e1 : 40 + j - 32 = 8 + j := by omega
  have d1 : decide (40 + j < 64) = true := by simp; omega
  have d2 : decide (40 + j ≥ 32) = true := by simp; omega
  have d3 : decide (8 + j < 32) = true := by simp; omega
  have d4 : decide (8 + j ≥ 13) = false := by simp; omega
  have hk : (Nat.testBit 0xffff0000 (8 + j) = false) ∧ (Nat.testBit (1 <<< 15) (8 + j) = false) ∧
      Nat.testBit (0xe <<< 8) (8 + j) = Nat.testBit 0xe j := by
    have h : j = 0 ∨ j = 1 ∨ j = 2 ∨ j = 3 := by omega
    rcases h with h | h | h | h <;> subst h <;> decide
  rw [Nat.testBit_or, h0, Bool.or_false, Nat.testBit_mod_two_pow, d1, Bool.true_and,
    Nat.testBit_shiftLeft, d2, Bool.true_and, e1]
  simp only [Nat.testBit_or, Nat.testBit_mod_two_pow, Nat.testBit_and, Nat.testBit_shiftLeft, d3,
    d4, hi, hk.1, hk.2.1, hk.2.2, Bool.and_false, Bool.false_and, Bool.or_false, Bool.false_or,
    Bool.true_and]

/-- Whatever the vector, the level, the stack index and the handler address
are, the descriptor that `install` writes has the gate type 0xE. -/
theorem install_type_always (t : List (Nat × Nat)) (v level ist pc : Nat) :
    (idt.install t v level (ist % 256) pc)[v]?.map gateType = t[v]?.map (fun _ => 0xe) := by
  by_cases hv : v < t.length
  · unfold idt.install
    simp only
    rw [List.getElem?_set_self hv, List.getElem?_eq_getElem hv]
    simp only [Option.map_some']
    congr 1
    unfold gateType
    apply Nat.eq_of_testBit_eq
    intro j
    rw [Nat.testBit_and, Nat.testBit_shiftRight]
    by_cases hj : j < 4
    · have hw0 : (((segmentCode0 <<< 3 ||| ring0) % 2 ^ 32) <<< 16) % 2 ^ 32 |||
          (pc &&& 0xffff) % 2 ^ 32 < 2 ^ 32 :=
        Nat.or_lt_two_pow (Nat.mod_lt _ (Nat.two_pow_pos 32)) (Nat.mod_lt _ (Nat.two_pow_pos 32))
      have hb := gate_bits pc level ist _ j hj hw0
      have hf : Nat.testBit 0xf j = true := by
        have h : j = 0 ∨ j = 1 ∨ j = 2 ∨ j = 3 := by omega
        rcases h with h | h | h | h <;> subst h <;> decide
      rw [hf, Bool.and_true]
      exact hb
    · have h1 : Nat.testBit 0xf j = false :=
        Nat.testBit_lt_two_pow (lt_of_lt_of_le (by decide : 0xf < 2 ^ 4)
          (Nat.pow_le_pow_right (by decide) (by omega)))
      have h2 : Nat.testBit 0xe j = false :=
        Nat.testBit_lt_two_pow (lt_of_lt_of_le (by decide : 0xe < 2 ^ 4)
          (Nat.pow_le_pow_right (by decide) (by omega)))
      rw [h1, h2, Bool.and_false]
  · have h1 : t[v]? = none := List.getElem?_eq_none (by omega)
    have h2 : (idt.install t v level (ist % 256) pc)[v]? = none := by
      apply List.getElem?_eq_none
      unfold idt.install
      simp only [List.length_set]
      omega
    rw [h1, h2]
    rfl

set_option maxRecDepth 100000 in
/-- C27 (failing input). `install(3, ring3, 1, pc)` with `pc = 0x123456789abc`
on an empty table: only descriptor 3 changes; it is present, has the ring-0
code selector 8, DPL 3, IST 1, and its offset fields reassemble to `pc`, but
its gate type is 0xE, the interrupt-gate type that clears IF on entry, not
the trap-gate type 0xF: the constant `trapGate` of line 162 is 0xe. The gate
type is 0xE for every input (`install_type_always`). -/
theorem install_gate_type :
    (idt.install emptyIDT 3 ring3 1 0x123456789abc)[3]?.map gateType = some 0xe ∧
      (idt.install emptyIDT 3 ring3 1 0x123456789abc)[3]?.map gateSelector
        = some (segmentCode0 <<< 3 ||| ring0) ∧
      (idt.install emptyIDT 3 ring3 1 0x123456789abc)[3]?.map gateDPL = some 3 ∧
      (idt.install emptyIDT 3 ring3 1 0x123456789abc)[3]?.map gateIST = some 1 ∧
      (idt.install emptyIDT 3 ring3 1 0x123456789abc)[3]?.map gatePresent = some true ∧
      (idt.install emptyIDT 3 ring3 1 0x123456789abc)[3]?.map gateOffset
        = some 0x123456789abc ∧
      (idt.install emptyIDT 3 ring3 1 0x123456789abc).eraseIdx 3 = emptyIDT.eraseIdx 3 := by
  decide

/-! ## Arming the timer -/

theorem armLoop_zero (reads : List Nat) : ∀ counter, armLoop 0 counter reads = none := by
  induction reads with
  | nil => intro counter; rfl
  | cons c rest ih =>
    intro counter
    rw [armLoop]
    simp only [Nat.not_lt_zero, if_false]
    exact ih _

/-- C30 (failing input). `setTimer(1)` with the HPET period 10^8 fs, the
largest that `initClock` accepts: `1 * 10^6 / 10^8` is 0, so `schedulePeriods`
is 0, the exit test `end - counter < 0` fails whatever the counter reads, and
the loop does not end. The same holds for 9 ns at the period 10^7 fs, and for
2^26 ns at the period 1 fs, where the quotient 2^32 * 15625 is cut to 32
bits. -/
theorem setTimer_never_armed :
    schedulePeriods 100000000 1 = 0 ∧ schedulePeriods 10000000 9 = 0 ∧
      schedulePeriods 1 (2 ^ 26) = 0 ∧
      (∀ counter reads, armLoop (schedulePeriods 100000000 1) counter reads = none) ∧
      (∀ h cl reads, h.period = 100000000 → setTimer h cl 1 reads = none) := by
  refine ⟨by decide, by decide, by decide, fun counter reads => armLoop_zero reads counter, ?_⟩
  intro h cl reads hp
  unfold setTimer
  rw [hp]
  have : schedulePeriods 100000000 1 = 0 := by decide
  rw [this, armLoop_zero]

/-! ## Bitmap bounds -/

/-- C29 (failing input). On a bitmap of one word, `setFree(true, 0, 64*4096)`
with `m.start = 0`, a range that ends exactly at the end of the bitmap: the
end bit index is 64, `endWord` is 1, and `m.bits[endWord]` is out of range.
The same happens on two words for a range that ends at page 128. On the
bitmap `[1]`, in which only the last page is free, `alloc(2*4096)` marks page
63 and then calls `mark(64)`, which reads `m.bits[1]`. -/
theorem bitmap_end_out_of_range :
    memory.setFree ⟨0, 0, [0]⟩ true 0 (64 * pageSize) = Result.fatal ∧
      memory.setFree ⟨0, 0, [0, 0]⟩ true (64 * pageSize) (128 * pageSize) = Result.fatal ∧
      memory.setFree ⟨0, 0, [0, 0]⟩ true 0 (64 * pageSize)
        = Result.ok ⟨0, 0, [0xFFFFFFFFFFFFFFFF, 0]⟩ ∧
      memory.mark ⟨0, 0, [0]⟩ 64 = none ∧
      memory.alloc ⟨0, 0, [1]⟩ (2 * pageSize) = Result.fatal ∧
      memory.alloc ⟨0, 0, [1]⟩ pageSize = Result.ok (63 * pageSize, pageSize, ⟨0, 0, [0]⟩) := by
  decide

/-! ## The scheduler -/

theorem runnable_not_ready (t : thread) (pend : List Bool) (T : Nat)
    (h : (t.runnable pend T).2.2.2 = false) :
    (t.runnable pend T).1 = t ∧ (t.runnable pend T).2.1 = pend := by
  unfold thread.runnable at h ⊢
  by_cases hc : t.block.conditions = 0
  · rw [if_pos hc] at h
    exact Bool.noConfusion h
  · rw [if_neg hc] at h ⊢
    simp only at h ⊢
    split
    · rename_i i hi
      rw [hi] at h
      exact Bool.noConfusion h
    · split
      · exact ⟨rfl, rfl⟩
      · exact ⟨rfl, rfl⟩

theorem cycFrom_eq (n : Nat) : ∀ m c, cycFrom n c m
    = (List.range m).map (fun i => (c + 1 + i) % n) := by
  intro m
  induction m with
  | zero => intro c; rfl
  | succ m ih =>
    intro c
    rw [cycFrom, ih, List.range_succ_eq_map, List.map_cons, List.map_map]
    congr 1
    apply List.map_congr_left
    intro i _
    simp only [Function.comp, Nat.succ_eq_add_one]
    rw [Nat.add_assoc ((c + 1) % n), Nat.mod_add_mod]
    congr 1
    omega

theorem cycFrom_perm (n c : Nat) (hn : 1 ≤ n) : (cycFrom n c n).Perm (List.range n) := by
  rw [cycFrom_eq]
  have hnd : ((List.range n).map (fun i => (c + 1 + i) % n)).Nodup := by
    apply List.Nodup.map_on _ (List.nodup_range n)
    intro i hi j hj hij
    have hi2 := List.mem_range.mp hi
    have hj2 := List.mem_range.mp hj
    have h1 : i % n = j % n := Nat.ModEq.add_left_cancel' (c + 1) hij
    rwa [Nat.mod_eq_of_lt hi2, Nat.mod_eq_of_lt hj2] at h1
  have hsub : ((List.range n).map (fun i => (c + 1 + i) % n)) ⊆ List.range n := by
    intro a ha
    obtain ⟨i, _, hi⟩ := List.mem_map.mp ha
    rw [← hi]
    exact List.mem_range.mpr (Nat.mod_lt _ (by omega))
  exact (List.subperm_of_subset hnd hsub).perm_of_length_le (by simp)

theorem set_getElem_same {α : Type} (l : List α) (i : Nat) (h : i < l.length) :
    l.set i l[i] = l := by
  apply List.ext_getElem?
  intro j
  rw [List.getElem?_set]
  by_cases hij : i = j
  · subst hij
    simp [h]
  · simp [hij]

/-- One scan of `schedule` over a table whose threads carry their index as
id: the threads that follow `c` in cyclic order are examined up to the first
one that is ready, which is resumed with its block conditions cleared; the
table is otherwise unchanged. -/
theorem scheduleScan_spec (T : Nat) (ts : List thread) (pend : List Bool)
    (hid : ∀ i (h : i < ts.length), ts[i].id = i) (hn : 1 ≤ ts.length) :
    ∀ m c maxDur ex,
      (scheduleScan T m ts pend c maxDur ex).examined
          = ex ++ (cycFrom ts.length c m).takeWhile (fun j => !readyAt ts pend T j) ++
            ((cycFrom ts.length c m).dropWhile (fun j => !readyAt ts pend T j)).head?.toList ∧
        (scheduleScan T m ts pend c maxDur ex).resumed
          = ((cycFrom ts.length c m).dropWhile (fun j => !readyAt ts pend T j)).head? ∧
        (scheduleScan T m ts pend c maxDur ex).list
          = (match ((cycFrom ts.length c m).dropWhile (fun j => !readyAt ts pend T j)).head? with
            | none => ts
            | some r => ts.set r ((ts.getD r default).runnable pend T).1.clearConditions) ∧
        (scheduleScan T m ts pend c maxDur ex).pendingInterrupts
          = (match ((cycFrom ts.length c m).dropWhile (fun j => !readyAt ts pend T j)).head? with
            | none => pend
            | some r => ((ts.getD r default).runnable pend T).2.1) := by
  intro m
  induction m with
  | zero =>
    intro c maxDur ex
    simp [scheduleScan, cycFrom]
  | succ m ih =>
    intro c maxDur ex
    have hlt : (c + 1) % ts.length < ts.length := Nat.mod_lt _ (by omega)
    rw [scheduleScan, cycFrom]
    simp only
    rcases hr : (ts.getD ((c + 1) % ts.length) default).runnable pend T with ⟨t1, pend1, dur, ok⟩
    have hready : readyAt ts pend T ((c + 1) % ts.length) = ok := by
      unfold readyAt
      rw [hr]
    cases ok with
    | false =>
      have hnr := runnable_not_ready (ts.getD ((c + 1) % ts.length) default) pend T
        (by rw [hr])
      rw [hr] at hnr
      simp only at hnr
      obtain ⟨e1, e2⟩ := hnr
      have hget : ts.getD ((c + 1) % ts.length) default = ts[(c + 1) % ts.length] := by
        rw [List.getD_eq_getElem?_getD, List.getElem?_eq_getElem hlt]
        rfl
      have hset : ts.set ((c + 1) % ts.length) t1 = ts := by
        rw [e1, hget]
        exact set_getElem_same ts _ hlt
      have hid1 : t1.id = (c + 1) % ts.length := by
        rw [e1, hget]
        exact hid _ hlt
      simp only [Bool.not_false, if_true]
      rw [hset, e2, hid1]
      have := ih ((c + 1) % ts.length)
        (if dur > 0 ∧ dur < maxDur then dur else maxDur) (ex ++ [(c + 1) % ts.length])
      simp only [List.takeWhile_cons, List.dropWhile_cons, hready, Bool.not_false, if_true]
      simpa [List.append_assoc] using this
    | true =>
      simp only [Bool.not_true, Bool.false_eq_true, if_false, List.takeWhile_cons,
        List.dropWhile_cons, hready, List.head?_cons, Option.toList, List.append_nil]
      rw [hr]
      simp

/-- C28. For a table of `n ≥ 1` threads that carry their index as id (as
`newThread` makes them) and a call `schedule(t)` with `t.id = c`: one scan
examines the threads in the cyclic order `(c+1) mod n, (c+2) mod n, …`, a
permutation of the indices, up to and including the first thread that
`runnable` reports ready; that thread is resumed with its block conditions
cleared, and every other thread of the table is left as it was. When no
thread is ready the scan examines all `n` threads, each once. -/
theorem schedule_round_robin (ts : threads) (pend : List Bool) (T c : Nat)
    (hn : 1 ≤ ts.list.length)
    (hid : ∀ i, i < ts.list.length → ts.list[i]?.map (fun t => t.id) = some i) :
    (cycOrder ts.list.length c).Perm (List.range ts.list.length) ∧
      (ts.scheduleScan pend T c).examined
        = (cycOrder ts.list.length c).takeWhile (fun j => !readyAt ts.list pend T j) ++
          ((cycOrder ts.list.length c).dropWhile
            (fun j => !readyAt ts.list pend T j)).head?.toList ∧
      (ts.scheduleScan pend T c).resumed
        = ((cycOrder ts.list.length c).dropWhile (fun j => !readyAt ts.list pend T j)).head? ∧
      (∀ j, (ts.scheduleScan pend T c).resumed = some j →
        readyAt ts.list pend T j = true ∧
        (ts.scheduleScan pend T c).list[j]?.map (fun t => t.block.conditions) = some 0) ∧
      (∀ j, (ts.scheduleScan pend T c).resumed ≠ some j →
        (ts.scheduleScan pend T c).list[j]? = ts.list[j]?) ∧
      ((ts.scheduleScan pend T c).resumed = none →
        (ts.scheduleScan pend T c).examined = cycOrder ts.list.length c) := by
  have hid2 : ∀ i (h : i < ts.list.length), ts.list[i].id = i := by
    intro i h
    have := hid i h
    rw [List.getElem?_eq_getElem h] at this
    exact Option.some.inj this
  have hord : cycOrder ts.list.length c = cycFrom ts.list.length c ts.list.length :=
    (cycFrom_eq ts.list.length ts.list.length c).symm
  obtain ⟨s1, s2, s3, _⟩ := scheduleScan_spec T ts.list pend hid2 hn ts.list.length c
    (24 * 3600 * 1000000000) []
  rw [← hord] at s1 s2 s3
  rw [List.nil_append] at s1
  have hmem : ∀ j, ((cycOrder ts.list.length c).dropWhile
      (fun j => !readyAt ts.list pend T j)).head? = some j →
      j < ts.list.length ∧ readyAt ts.list pend T j = true := by
    intro j hj
    have h1 := List.head?_dropWhile_not (fun j => !readyAt ts.list pend T j)
      (cycOrder ts.list.length c)
    rw [hj] at h1
    have h2 : j ∈ cycOrder ts.list.length c :=
      (List.dropWhile_sublist _).subset (List.mem_of_mem_head? hj)
    obtain ⟨i, _, hi⟩ := List.mem_map.mp h2
    refine ⟨by rw [← hi]; exact Nat.mod_lt _ (by omega), ?_⟩
    simpa using h1
  refine ⟨?_, s1, s2, ?_, ?_, ?_⟩
  · rw [hord]
    exact cycFrom_perm _ c hn
  · intro j hj
    have hj2 : ((cycOrder ts.list.length c).dropWhile
        (fun j => !readyAt ts.list pend T j)).head? = some j := by
      rw [← s2]
      exact hj
    obtain ⟨h1, h2⟩ := hmem j hj2
    refine ⟨h2, ?_⟩
    have e : (ts.scheduleScan pend T c).list
        = ts.list.set j ((ts.list.getD j default).runnable pend T).1.clearConditions := by
      unfold threads.scheduleScan
      rw [s3, hj2]
    rw [e, List.getElem?_set_self h1]
    rfl
  · intro j hj
    unfold threads.scheduleScan at hj ⊢
    rw [s3]
    rw [s2] at hj
    split
    · rfl
    · rename_i r hr
      have hne : r ≠ j := by
        intro hc
        rw [hr, hc] at hj
        exact hj rfl
      rw [List.getElem?_set_ne hne]
  · intro hnone
    unfold threads.scheduleScan at hnone ⊢
    rw [s1]
    rw [s2] at hnone
    rw [hnone]
    have hd : (cycOrder ts.list.length c).dropWhile (fun j => !readyAt ts.list pend T j)
        = [] := by
      cases hl : (cycOrder ts.list.length c).dropWhile (fun j => !readyAt ts.list pend T j) with
      | nil => rfl
      | cons a l =>
        rw [hl] at hnone
        exact Option.noConfusion hnone
    have := List.takeWhile_append_dropWhile (fun j => !readyAt ts.list pend T j)
      (cycOrder ts.list.length c)
    rw [hd, List.append_nil] at this
    simp [this]

set_option maxRecDepth 100000 in
/-- C28, witness: a table of three threads of which thread 1 waits on a futex;
after thread 0 the scan examines thread 1, which is not ready, and resumes
thread 2. -/
theorem schedule_round_robin_witness :
    1 ≤ scanTable.list.length ∧
      (∀ i, i < scanTable.list.length → scanTable.list[i]?.map (fun t => t.id) = some i) ∧
      cycOrder 3 0 = [1, 2, 0] ∧
      (scanTable.scheduleScan [] 0 0).examined = [1, 2] ∧
      (scanTable.scheduleScan [] 0 0).resumed = some 2 ∧
      (scanTable.scheduleScan [] 0 0).list = scanTable.list ∧
      (cycOrder scanTable.list.length 0).Perm (List.range scanTable.list.length) ∧
      (scanTable.scheduleScan [] 0 0).examined
        = (cycOrder scanTable.list.length 0).takeWhile
            (fun j => !readyAt scanTable.list [] 0 j) ++
          ((cycOrder scanTable.list.length 0).dropWhile
            (fun j => !readyAt scanTable.list [] 0 j)).head?.toList ∧
      (scanTable.scheduleScan [] 0 0).resumed
        = ((cycOrder scanTable.list.length 0).dropWhile
            (fun j => !readyAt scanTable.list [] 0 j)).head? ∧
      (∀ j, (scanTable.scheduleScan [] 0 0).resumed = some j →
        readyAt scanTable.list [] 0 j = true ∧
        (scanTable.scheduleScan [] 0 0).list[j]?.map (fun t => t.block.conditions) = some 0) ∧
      (∀ j, (scanTable.scheduleScan [] 0 0).resumed ≠ some j →
        (scanTable.scheduleScan [] 0 0).list[j]? = scanTable.list[j]?) ∧
      ((scanTable.scheduleScan [] 0 0).resumed = none →
        (scanTable.scheduleScan [] 0 0).examined = cycOrder scanTable.list.length 0) :=
  ⟨by decide, by decide, by decide, by decide, by decide, by decide,
    schedule_round_robin scanTable [] 0 0 (by decide) (by decide)⟩

/-! ## Slices of I/O memory -/

theorem add64_toUint64 (a : Nat) (x y : Int) (hx : 0 ≤ x) (hy : 0 ≤ y) (hxy : x + y < 2 ^ 63) :
    add64 (add64 a (toUint64 x)) (toUint64 y) = add64 a (toUint64 (x + y)) := by
  unfold add64 toUint64 wordMod
  omega

theorem blocksSize_nonneg (bs : List PhysPage) (h : ∀ p ∈ bs, 0 < p.Size) :
    0 ≤ blocksSize bs := by
  induction bs with
  | nil => exact le_refl 0
  | cons p rest ih =>
    have h1 := h p (List.mem_cons_self _ _)
    have h2 := ih (fun q hq => h q (List.mem_cons_of_mem _ hq))
    rw [blocksSize]
    omega

theorem physAddrAt_isSome (bs : List PhysPage) :
    ∀ i, 0 ≤ i → i < blocksSize bs → (physAddrAt bs i).isSome = true := by
  induction bs with
  | nil =>
    intro i h0 hi
    rw [blocksSize] at hi
    omega
  | cons p rest ih =>
    intro i h0 hi
    rw [blocksSize] at hi
    rw [physAddrAt]
    by_cases h : i < p.Size
    · rw [if_pos h]
      rfl
    · rw [if_neg h]
      exact ih _ (by omega) (by omega)

/-- The blocks that the loop of `Slice` makes from the blocks at the buffer
offset `physOff` on: their sizes are positive, they add up to the length of
the part of `[off, end)` that the blocks cover, and they put every byte of
that part at its physical address. -/
theorem sliceBlocks_spec (off «end» L : Int) (h0 : 0 ≤ off) (h1 : off ≤ «end»)
    (h2 : «end» ≤ L) (hL : L < 2 ^ 63) :
    ∀ (bs : List PhysPage) (physOff : Int), (∀ p ∈ bs, 0 < p.Size) → 0 ≤ physOff →
      physOff + blocksSize bs ≤ L →
      (∀ p ∈ sliceBlocks off «end» physOff bs, 0 < p.Size) ∧
        blocksSize (sliceBlocks off «end» physOff bs)
          = max 0 (min «end» (physOff + blocksSize bs) - max off physOff) ∧
        ∀ i, 0 ≤ i → i < min «end» (physOff + blocksSize bs) - max off physOff →
          physAddrAt (sliceBlocks off «end» physOff bs) i
            = physAddrAt bs (max off physOff - physOff + i) := by
  intro bs
  induction bs with
  | nil =>
    intro physOff _ hp hb
    refine ⟨fun p hp => absurd hp (List.not_mem_nil p), ?_, ?_⟩
    · simp only [sliceBlocks, blocksSize]
      omega
    · intro i hi1 hi2
      simp only [blocksSize] at hi2
      omega
  | cons p rest ih =>
    intro physOff hpos hp hb
    have hp1 := hpos p (List.mem_cons_self _ _)
    have hrest : ∀ q ∈ rest, 0 < q.Size := fun q hq => hpos q (List.mem_cons_of_mem _ hq)
    have hnn := blocksSize_nonneg rest hrest
    rw [blocksSize] at hb
    have e1 : toInt64 (physOff + p.Size) = physOff + p.Size :=
      toInt64_eq _ (by omega) (by omega)
    have e2 : toInt64 (off - physOff) = off - physOff := toInt64_eq _ (by omega) (by omega)
    have e3 : toInt64 (p.Size - (off - physOff)) = p.Size - (off - physOff) :=
      toInt64_eq _ (by omega) (by omega)
    have e4 : toInt64 (physOff + p.Size - «end») = physOff + p.Size - «end» :=
      toInt64_eq _ (by omega) (by omega)
    have e5 : toInt64 (p.Size - (off - physOff) - (physOff + p.Size - «end»))
        = p.Size - (off - physOff) - (physOff + p.Size - «end») :=
      toInt64_eq _ (by omega) (by omega)
    have e6 : toInt64 (p.Size - (physOff + p.Size - «end»))
        = p.Size - (physOff + p.Size - «end») := toInt64_eq _ (by omega) (by omega)
    obtain ⟨ih1, ih2, ih3⟩ := ih (physOff + p.Size) hrest (by omega) (by omega)
    have emit : ∀ (size2 : Int) (a1 : Nat),
        size2 = min «end» (physOff + p.Size) - max off physOff → 0 < size2 →
        (∀ i, 0 ≤ i → i < size2 →
          add64 a1 (toUint64 i) = add64 p.Addr (toUint64 (max off physOff - physOff + i))) →
        (∀ q ∈ PhysPage.mk a1 size2 :: sliceBlocks off «end» (physOff + p.Size) rest,
            0 < q.Size) ∧
          blocksSize (PhysPage.mk a1 size2 :: sliceBlocks off «end» (physOff + p.Size) rest)
            = max 0 (min «end» (physOff + (p.Size + blocksSize rest)) - max off physOff) ∧
          ∀ i, 0 ≤ i →
            i < min «end» (physOff + (p.Size + blocksSize rest)) - max off physOff →
            physAddrAt (PhysPage.mk a1 size2 ::
                sliceBlocks off «end» (physOff + p.Size) rest) i
              = physAddrAt (p :: rest) (max off physOff - physOff + i) := by
      intro size2 a1 hs hs0 haddr
      refine ⟨?_, ?_, ?_⟩
      · intro q hq
        rcases List.mem_cons.mp hq with e | e
        · rw [e]
          exact hs0
        · exact ih1 q e
      · rw [blocksSize, ih2]
        simp only
        omega
      · intro i hi1 hi2
        rw [physAddrAt, physAddrAt]
        simp only
        by_cases hlt : i < size2
        · rw [if_pos hlt, if_pos (by omega), haddr i hi1 hlt]
        · rw [if_neg hlt, if_neg (by omega), ih3 (i - size2) (by omega) (by omega)]
          congr 1
          omega
    rw [sliceBlocks]
    simp only [e1, e2]
    rw [blocksSize]
    by_cases ha : off - physOff > 0
    · simp only [ha, if_true, true_and, e3]
      by_cases hb1 : p.Size - (off - physOff) ≤ 0
      · rw [if_pos hb1]
        refine ⟨ih1, ?_, ?_⟩
        · rw [ih2]
          omega
        · intro i hi1 hi2
          rw [ih3 i hi1 (by omega), physAddrAt, if_neg (by omega)]
          congr 1
          omega
      · rw [if_neg hb1]
        simp only [e4]
        have haddr : ∀ i, 0 ≤ i → i < «end» - off →
            add64 (add64 p.Addr (toUint64 (off - physOff))) (toUint64 i)
              = add64 p.Addr (toUint64 (max off physOff - physOff + i)) := by
          intro i hi1 hi2
          rw [add64_toUint64 _ _ _ (by omega) hi1 (by omega)]
          congr 2
          omega
        by_cases hc : physOff + p.Size - «end» > 0
        · simp only [hc, if_true, true_and, e5]
          by_cases hd : p.Size - (off - physOff) - (physOff + p.Size - «end») ≤ 0
          · rw [if_pos hd]
            refine ⟨fun q hq => absurd hq (List.not_mem_nil q), ?_, ?_⟩
            · rw [blocksSize]
              omega
            · intro i hi1 hi2
              omega
          · rw [if_neg hd]
            exact emit _ _ (by omega) (by omega)
              (fun i hi1 hi2 => haddr i hi1 (by omega))
        · simp only [hc, if_false, false_and]
          exact emit _ _ (by omega) (by omega)
            (fun i hi1 hi2 => haddr i hi1 (by omega))
    · simp only [ha, if_false, false_and, e4]
      have haddr : ∀ i, 0 ≤ i →
          add64 p.Addr (toUint64 i)
            = add64 p.Addr (toUint64 (max off physOff - physOff + i)) := by
        intro i _
        congr 2
        omega
      by_cases hc : physOff + p.Size - «end» > 0
      · simp only [hc, if_true, true_and, e6]
        by_cases hd : p.Size - (physOff + p.Size - «end») ≤ 0
        · rw [if_pos hd]
          refine ⟨fun q hq => absurd hq (List.not_mem_nil q), ?_, ?_⟩
          · rw [blocksSize]
            omega
          · intro i hi1 hi2
            omega
        · rw [if_neg hd]
          exact emit _ _ (by omega) (by omega) (fun i hi1 _ => haddr i hi1)
      · simp only [hc, if_false, false_and]
        exact emit _ _ (by omega) (by omega) (fun i hi1 _ => haddr i hi1)

/-- C24. For a buffer whose block sizes are positive and add up to
`len(m.Mem)` (a Go slice length, below 2^63) and `0 ≤ off ≤ end ≤ len(m.Mem)`:
`m.Slice(off, end)` returns; the slice has `end - off` bytes, byte `i` of it
being byte `off + i` of `m`; its block sizes are positive and add up to
`end - off`; and byte `i` of the slice lies at the physical address at which
byte `off + i` of `m` lies. -/
theorem Slice_spec (m : IOMem) (off «end» : Int)
    (hpos : ∀ p ∈ m.Blocks, 0 < p.Size) (hsum : blocksSize m.Blocks = m.Mem.length)
    (hlen : (m.Mem.length : Int) < 2 ^ 63)
    (h0 : 0 ≤ off) (h1 : off ≤ «end») (h2 : «end» ≤ m.Mem.length) :
    ∃ s, m.Slice off «end» = Result.ok s ∧ (s.Mem.length : Int) = «end» - off ∧
      (∀ i : Nat, (i : Int) < «end» - off → s.Mem[i]? = m.Mem[off.toNat + i]?) ∧
      (∀ p ∈ s.Blocks, 0 < p.Size) ∧ blocksSize s.Blocks = «end» - off ∧
      ∀ i : Int, 0 ≤ i → i < «end» - off →
        (physAddrAt s.Blocks i).isSome = true ∧
        physAddrAt s.Blocks i = physAddrAt m.Blocks (off + i) := by
  obtain ⟨s1, s2, s3⟩ := sliceBlocks_spec off «end» m.Mem.length h0 h1 h2 hlen m.Blocks 0 hpos
    (le_refl 0) (by omega)
  refine ⟨⟨(m.Mem.drop off.toNat).take («end» - off).toNat, sliceBlocks off «end» 0 m.Blocks⟩,
    ?_, ?_, ?_, s1, ?_, ?_⟩
  · unfold IOMem.Slice
    rw [if_neg (by omega), if_neg (by omega)]
  · simp only [List.length_take, List.length_drop]
    omega
  · intro i hi
    simp only
    rw [List.getElem?_take_of_lt (by omega), List.getElem?_drop]
  · simp only
    rw [s2]
    omega
  · intro i hi1 hi2
    simp only
    have e := s3 i hi1 (by omega)
    have e2 : max off 0 - 0 + i = off + i := by omega
    rw [e2] at e
    refine ⟨?_, e⟩
    rw [e]
    exact physAddrAt_isSome m.Blocks (off + i) (by omega) (by omega)

/-- C24, witness: the slice `[2, 10)` of a buffer of 12 bytes in blocks of 4,
5 and 3 bytes has the blocks of 2, 5 and 1 bytes at 0x1002, 0x3000 and
0x8000. -/
theorem Slice_spec_witness :
    (∀ p ∈ exampleMem.Blocks, 0 < p.Size) ∧
      blocksSize exampleMem.Blocks = exampleMem.Mem.length ∧
      exampleMem.Slice 2 10 = Result.ok
        ⟨[2, 3, 4, 5, 6, 7, 8, 9], [⟨0x1002, 2⟩, ⟨0x3000, 5⟩, ⟨0x8000, 1⟩]⟩ ∧
      exampleMem.Slice 4 4 = Result.ok ⟨[], []⟩ ∧
      ∃ s, exampleMem.Slice 2 10 = Result.ok s ∧ (s.Mem.length : Int) = 10 - 2 ∧
        (∀ i : Nat, (i : Int) < 10 - 2 → s.Mem[i]? = exampleMem.Mem[(2 : Int).toNat + i]?) ∧
        (∀ p ∈ s.Blocks, 0 < p.Size) ∧ blocksSize s.Blocks = 10 - 2 ∧
        ∀ i : Int, 0 ≤ i → i < 10 - 2 →
          (physAddrAt s.Blocks i).isSome = true ∧
          physAddrAt s.Blocks i = physAddrAt exampleMem.Blocks (2 + i) :=
  ⟨by decide, by decide, by decide, by decide,
    Slice_spec exampleMem 2 10 (by decide) (by decide) (by decide) (by decide) (by decide)
      (by decide)⟩

/-! ## Input events -/

theorem decodeEvent_take (b : List Nat) (l : Nat) (hl : 8 ≤ l) :
    input.decodeEvent (b.take l) = input.decodeEvent b := by
  have h : ∀ j, j < 8 → (b.take l).getD j 0 = b.getD j 0 := by
    intro j hj
    rw [List.getD_eq_getElem?_getD, List.getD_eq_getElem?_getD,
      List.getElem?_take_of_lt (by omega)]
  unfold input.decodeEvent
  rw [h 0 (by omega), h 1 (by omega), h 2 (by omega), h 3 (by omega), h 4 (by omega),
    h 5 (by omega), h 6 (by omega), h 7 (by omega)]

theorem records_take (n : Nat) : ∀ (b : List Nat) (l : Nat), 8 * n ≤ l →
    input.records n (b.take l) = input.records n b := by
  induction n with
  | zero => intro b l _; rfl
  | succ n ih =>
    intro b l hl
    rw [input.records, input.records, decodeEvent_take b l (by omega), List.drop_take,
      ih _ _ (by omega)]

theorem records_add (a c : Nat) : ∀ (b : List Nat),
    input.records (a + c) b = input.records a b ++ input.records c (b.drop (8 * a)) := by
  induction a with
  | zero =>
    intro b
    simp [input.records]
  | succ a ih =>
    intro b
    have e : a + 1 + c = (a + c) + 1 := by omega
    have e2 : (b.drop 8).drop (8 * a) = b.drop (8 * (a + 1)) := by
      rw [List.drop_drop]
      congr 1
      omega
    rw [e, input.records, input.records, ih, e2]
    rfl

theorem records_length (n : Nat) : ∀ b, (input.records n b).length = n := by
  induction n with
  | zero => intro b; rfl
  | succ n ih =>
    intro b
    rw [input.records, List.length_cons, ih]

/-- The loop of `Read` stores the first records of `buf`, as many as there
are complete ones and as `events` has room for, and leaves the bytes after
them. -/
theorem parseEvents_spec (n : Nat) : ∀ (b : List Nat),
    (input.parseEvents n b).1 = input.records (input.parseEvents n b).1.length b ∧
      (input.parseEvents n b).2 = b.drop (8 * (input.parseEvents n b).1.length) ∧
      (input.parseEvents n b).1.length = min n (b.length / 8) := by
  induction n with
  | zero =>
    intro b
    simp [input.parseEvents, input.records]
  | succ n ih =>
    intro b
    rw [input.parseEvents]
    by_cases h : b.length ≥ input.eventSize
    · rw [if_pos h]
      obtain ⟨i1, i2, i3⟩ := ih (b.drop input.eventSize)
      have h8 : input.eventSize = 8 := rfl
      rw [h8] at h i1 i2 i3 ⊢
      rcases hp : input.parseEvents n (b.drop 8) with ⟨es, rest⟩
      rw [hp] at i1 i2 i3
      simp only at i1 i2 i3 ⊢
      refine ⟨?_, ?_, ?_⟩
      · rw [List.length_cons, input.records, ← i1]
      · rw [List.length_cons, i2, List.drop_drop]
        congr 1
        omega
      · rw [List.length_cons, i3, List.length_drop]
        omega
    · rw [if_neg h]
      have h8 : input.eventSize = 8 := rfl
      rw [h8] at h
      simp only [List.length_nil, Nat.mul_zero, List.drop_zero, input.records, true_and]
      omega

theorem take_min_length {α : Type} (l : List α) (m : Nat) :
    l.take (min m l.length) = l.take m := by
  by_cases h : m ≤ l.length
  · rw [Nat.min_eq_left h]
  · rw [Nat.min_eq_right (by omega), List.take_length, List.take_of_length_le (by omega)]

theorem drop_min_length {α : Type} (l : List α) (m : Nat) :
    l.drop (min m l.length) = l.drop m := by
  by_cases h : m ≤ l.length
  · rw [Nat.min_eq_left h]
  · rw [Nat.min_eq_right (by omega), List.drop_length, List.drop_of_length_le (by omega)]

/-- Storing the bytes `data` that the reader hands out behind the first `off`
bytes of the buffer. -/
theorem read_into (s0 buf s data : List Nat) (n off m : Nat)
    (h1 : off ≤ buf.length) (h2 : 8 * n + off ≤ s0.length)
    (h3 : buf.take off = (s0.drop (8 * n)).take off) (h4 : s = s0.drop (8 * n + off))
    (hd : data = s.take m) :
    off + data.length ≤ (buf.take off ++ data ++ buf.drop (off + data.length)).length ∧
      8 * n + (off + data.length) ≤ s0.length ∧
      (buf.take off ++ data ++ buf.drop (off + data.length)).take (off + data.length)
        = (s0.drop (8 * n)).take (off + data.length) ∧
      s.drop m = s0.drop (8 * n + (off + data.length)) := by
  have hl : (buf.take off).length = off := by
    rw [List.length_take]
    omega
  have hs : s.length = s0.length - (8 * n + off) := by
    rw [h4, List.length_drop]
  have hdl : data.length = min m s.length := by
    rw [hd, List.length_take]
  have hdata : data = s.take data.length := by
    rw [hdl, take_min_length]
    exact hd
  refine ⟨?_, ?_, ?_, ?_⟩
  · simp only [List.length_append, List.length_drop, hl]
    omega
  · omega
  · rw [List.take_left' (by rw [List.length_append, hl]), List.take_add, ← h3]
    congr 1
    rw [List.drop_drop, ← h4]
    exact hdata
  · rw [← drop_min_length s m, ← hdl, h4, List.drop_drop]
    congr 1
    omega

/-- One call of `Device.Read` keeps the invariant and returns the records
that follow the ones returned before. -/
theorem Read_step (s0 : List Nat) (n : Nat) (d : input.Device) (s : List Nat)
    (nevents k : Nat) (hinv : input.inv s0 n d s) :
    (d.Read nevents s k).1
        = input.records (d.Read nevents s k).1.length (s0.drop (8 * n)) ∧
      input.inv s0 (n + (d.Read nevents s k).1.length) (d.Read nevents s k).2.1
        (d.Read nevents s k).2.2 := by
  obtain ⟨h1, h2, h3, h4⟩ := hinv
  have hread : ∃ buf1 off1 s1,
      (if d.off < input.eventSize then
          (d.buf.take d.off ++ (input.readerRead s k (d.buf.length - d.off)).1 ++
              d.buf.drop (d.off + (input.readerRead s k (d.buf.length - d.off)).1.length),
            d.off + (input.readerRead s k (d.buf.length - d.off)).1.length,
            (input.readerRead s k (d.buf.length - d.off)).2)
        else (d.buf, d.off, s)) = (buf1, off1, s1) ∧
      off1 ≤ buf1.length ∧ 8 * n + off1 ≤ s0.length ∧
      buf1.take off1 = (s0.drop (8 * n)).take off1 ∧ s1 = s0.drop (8 * n + off1) := by
    by_cases hlt : d.off < input.eventSize
    · rw [if_pos hlt]
      obtain ⟨a1, a2, a3, a4⟩ := read_into s0 d.buf s
        (input.readerRead s k (d.buf.length - d.off)).1 n d.off
        (min k (d.buf.length - d.off)) h1 h2 h3 h4 rfl
      exact ⟨_, _, _, rfl, a1, a2, a3, a4⟩
    · rw [if_neg hlt]
      exact ⟨_, _, _, rfl, h1, h2, h3, h4⟩
  obtain ⟨buf1, off1, s1, e, r1, r2, r3, r4⟩ := hread
  unfold input.Device.Read
  simp only
  rw [e]
  simp only
  obtain ⟨q1, q2, q3⟩ := parseEvents_spec nevents (buf1.take off1)
  rcases hp : input.parseEvents nevents (buf1.take off1) with ⟨es, rest⟩
  rw [hp] at q1 q2 q3
  simp only at q1 q2 q3 ⊢
  have hlen : (buf1.take off1).length = off1 := by
    rw [List.length_take]
    omega
  rw [hlen] at q3
  have h8 : 8 * es.length ≤ off1 := by omega
  have hrest : rest.length = off1 - 8 * es.length := by
    rw [q2, List.length_drop, hlen]
  refine ⟨?_, ?_, ?_, ?_, ?_⟩
  · rw [q1, r3, records_take _ _ _ h8, records_length]
  · simp only [List.length_append, List.length_drop]
    omega
  · simp only
    omega
  · simp only
    rw [List.take_left' rfl, hrest, q2, r3, List.drop_take, List.drop_drop]
    congr 2
    omega
  · simp only
    rw [r4, hrest]
    congr 1
    omega

theorem readAll_spec (s0 : List Nat) : ∀ (calls : List (Nat × Nat)) (d : input.Device)
    (s : List Nat) (n : Nat), input.inv s0 n d s →
    (input.readAll d s calls).1
        = input.records (input.readAll d s calls).1.length (s0.drop (8 * n)) ∧
      input.inv s0 (n + (input.readAll d s calls).1.length) (input.readAll d s calls).2.1
        (input.readAll d s calls).2.2 := by
  intro calls
  induction calls with
  | nil =>
    intro d s n hinv
    exact ⟨rfl, hinv⟩
  | cons c calls ih =>
    intro d s n hinv
    obtain ⟨nevents, k⟩ := c
    obtain ⟨a1, a2⟩ := Read_step s0 n d s nevents k hinv
    rw [input.readAll]
    rcases hr : d.Read nevents s k with ⟨es, d1, s1⟩
    rw [hr] at a1 a2
    simp only at a1 a2 ⊢
    obtain ⟨b1, b2⟩ := ih d1 s1 (n + es.length) a2
    rcases hr2 : input.readAll d1 s1 calls with ⟨es2, d2, s2⟩
    rw [hr2] at b1 b2
    simp only at b1 b2 ⊢
    refine ⟨?_, ?_⟩
    · rw [List.length_append, records_add, List.drop_drop, ← a1]
      congr 1
      rw [b1]
      congr 2
      omega
    · rw [List.length_append, ← Nat.add_assoc]
      exact b2

/-- One call of `Device.Read` returns as many events as `events` has room for
and complete records are buffered, and keeps the bytes after them. -/
theorem Read_count (d : input.Device) (s : List Nat) (nevents k : Nat)
    (h : d.off ≤ d.buf.length) :
    (d.Read nevents s k).1.length = min nevents (input.buffered d s k / 8) ∧
      (d.Read nevents s k).2.1.off
        = input.buffered d s k - 8 * min nevents (input.buffered d s k / 8) := by
  have hread : ∃ buf1 s1,
      (if d.off < input.eventSize then
          (d.buf.take d.off ++ (input.readerRead s k (d.buf.length - d.off)).1 ++
              d.buf.drop (d.off + (input.readerRead s k (d.buf.length - d.off)).1.length),
            d.off + (input.readerRead s k (d.buf.length - d.off)).1.length,
            (input.readerRead s k (d.buf.length - d.off)).2)
        else (d.buf, d.off, s)) = (buf1, input.buffered d s k, s1) ∧
      input.buffered d s k ≤ buf1.length := by
    unfold input.buffered
    by_cases hlt : d.off < input.eventSize
    · rw [if_pos hlt, if_pos hlt]
      refine ⟨_, _, rfl, ?_⟩
      simp only [List.length_append, List.length_take, List.length_drop]
      omega
    · rw [if_neg hlt, if_neg hlt]
      exact ⟨_, _, rfl, h⟩
  obtain ⟨buf1, s1, e, r1⟩ := hread
  unfold input.Device.Read
  simp only
  rw [e]
  simp only
  obtain ⟨-, q2, q3⟩ := parseEvents_spec nevents (buf1.take (input.buffered d s k))
  rcases hp : input.parseEvents nevents (buf1.take (input.buffered d s k)) with ⟨es, rest⟩
  rw [hp] at q2 q3
  simp only at q2 q3 ⊢
  have hlen : (buf1.take (input.buffered d s k)).length = input.buffered d s k := by
    rw [List.length_take]
    omega
  rw [hlen] at q3
  refine ⟨q3, ?_⟩
  rw [q2, List.length_drop, hlen, q3]

/-- C23. For a device that starts with an empty buffer, a byte stream that
the reader hands out in chunks of any sizes, and calls of `Device.Read` with
event slices of any lengths: the events returned by the calls, in order, are
the first records of 8 bytes of the stream (type in bytes 0-1, code in bytes
2-3, value in bytes 4-7, little-endian); the bytes of the stream that follow
them and were read already are kept at the start of `d.buf`, `d.off` in
number; and the reader is left with the rest of the stream after these. A
further call with room for `nevents` events then returns exactly the next
records of the stream, as many as are complete among the bytes buffered (the
bytes kept and, when fewer than 8 are kept, the bytes the reader hands out in
this call) and as the slice has room for, and keeps the bytes buffered after
them: no complete record is held back while there is room, and the bytes of a
partial record stay for the next call. -/
theorem Device_Read_records (d : input.Device) (stream : List Nat) (calls : List (Nat × Nat))
    (hoff : d.off = 0) :
    (input.readAll d stream calls).1
        = input.records (input.readAll d stream calls).1.length stream ∧
      8 * (input.readAll d stream calls).1.length + (input.readAll d stream calls).2.1.off
        ≤ stream.length ∧
      (input.readAll d stream calls).2.1.buf.take (input.readAll d stream calls).2.1.off
        = (stream.drop (8 * (input.readAll d stream calls).1.length)).take
            (input.readAll d stream calls).2.1.off ∧
      (input.readAll d stream calls).2.2
        = stream.drop (8 * (input.readAll d stream calls).1.length +
            (input.readAll d stream calls).2.1.off) ∧
      ∀ nevents k : Nat,
        ((input.readAll d stream calls).2.1.Read nevents (input.readAll d stream calls).2.2 k).1
          = input.records
              (min nevents (input.buffered (input.readAll d stream calls).2.1
                (input.readAll d stream calls).2.2 k / 8))
              (stream.drop (8 * (input.readAll d stream calls).1.length)) ∧
        ((input.readAll d stream calls).2.1.Read nevents
            (input.readAll d stream calls).2.2 k).2.1.off
          = input.buffered (input.readAll d stream calls).2.1
              (input.readAll d stream calls).2.2 k
            - 8 * min nevents (input.buffered (input.readAll d stream calls).2.1
                (input.readAll d stream calls).2.2 k / 8) := by
  have h0 : input.inv stream 0 d stream := by
    refine ⟨by rw [hoff]; exact Nat.zero_le _, by rw [hoff]; exact Nat.zero_le _, ?_, ?_⟩
    · rw [hoff]
      rfl
    · rw [hoff]
      rfl
  obtain ⟨a1, hinv⟩ := readAll_spec stream calls d stream 0 h0
  have hinv2 := hinv
  obtain ⟨a2, a3, a4, a5⟩ := hinv
  rw [Nat.zero_add] at a3 a4 a5 hinv2
  rw [Nat.mul_zero, List.drop_zero] at a1
  refine ⟨a1, a3, a4, a5, fun nevents k => ?_⟩
  obtain ⟨c1, c2⟩ := Read_count (input.readAll d stream calls).2.1
    (input.readAll d stream calls).2.2 nevents k a2
  obtain ⟨b1, -⟩ := Read_step stream (input.readAll d stream calls).1.length
    (input.readAll d stream calls).2.1 (input.readAll d stream calls).2.2 nevents k hinv2
  rw [c1] at b1
  exact ⟨b1, c2⟩

/-- C23, witness: the stream of the events `(EV_ABS, ABS_X, 100)`,
`(EV_ABS, ABS_Y, 200)`, `(EV_SYN, 0, 0)` and 3 bytes of a fourth record. The
reader hands out 5 bytes to a first call with room for 1 event, which returns
no event and keeps the 5 bytes; a further call, to which the reader hands out
up to 100 bytes, returns the first two events when it has room for 2. -/
theorem Device_Read_records_witness :
    input.exampleDevice.off = 0 ∧
      (input.readAll input.exampleDevice input.exampleStream [(1, 5)]).1 = [] ∧
      (input.readAll input.exampleDevice input.exampleStream [(1, 5)]).2.1.off = 5 ∧
      input.buffered (input.readAll input.exampleDevice input.exampleStream [(1, 5)]).2.1
        (input.readAll input.exampleDevice input.exampleStream [(1, 5)]).2.2 100 = 16 ∧
      ((input.readAll input.exampleDevice input.exampleStream [(1, 5)]).2.1.Read 2
        (input.readAll input.exampleDevice input.exampleStream [(1, 5)]).2.2 100).1
        = [⟨3, 0, 100⟩, ⟨3, 1, 200⟩] ∧
      (input.readAll input.exampleDevice input.exampleStream
          [(1, 5), (2, 100), (4, 3), (4, 100)]).1 = [⟨3, 0, 100⟩, ⟨3, 1, 200⟩, ⟨0, 0, 0⟩] ∧
      (input.readAll input.exampleDevice input.exampleStream
          [(1, 5), (2, 100), (4, 3), (4, 100)]).2.1.off = 3 ∧
      ((input.readAll input.exampleDevice input.exampleStream [(1, 5)]).1
          = input.records
              (input.readAll input.exampleDevice input.exampleStream [(1, 5)]).1.length
              input.exampleStream ∧
        8 * (input.readAll input.exampleDevice input.exampleStream [(1, 5)]).1.length +
            (input.readAll input.exampleDevice input.exampleStream [(1, 5)]).2.1.off
          ≤ input.exampleStream.length ∧
        (input.readAll input.exampleDevice input.exampleStream [(1, 5)]).2.1.buf.take
            (input.readAll input.exampleDevice input.exampleStream [(1, 5)]).2.1.off
          = (input.exampleStream.drop (8 * (input.readAll input.exampleDevice
              input.exampleStream [(1, 5)]).1.length)).take
              (input.readAll input.exampleDevice input.exampleStream [(1, 5)]).2.1.off ∧
        (input.readAll input.exampleDevice input.exampleStream [(1, 5)]).2.2
          = input.exampleStream.drop (8 * (input.readAll input.exampleDevice
              input.exampleStream [(1, 5)]).1.length +
              (input.readAll input.exampleDevice input.exampleStream [(1, 5)]).2.1.off) ∧
        ∀ nevents k : Nat,
          ((input.readAll input.exampleDevice input.exampleStream [(1, 5)]).2.1.Read nevents
              (input.readAll input.exampleDevice input.exampleStream [(1, 5)]).2.2 k).1
            = input.records
                (min nevents (input.buffered
                  (input.readAll input.exampleDevice input.exampleStream [(1, 5)]).2.1
                  (input.readAll input.exampleDevice input.exampleStream [(1, 5)]).2.2 k / 8))
                (input.exampleStream.drop (8 * (input.readAll input.exampleDevice
                  input.exampleStream [(1, 5)]).1.length)) ∧
          ((input.readAll input.exampleDevice input.exampleStream [(1, 5)]).2.1.Read nevents
              (input.readAll input.exampleDevice input.exampleStream [(1, 5)]).2.2 k).2.1.off
            = input.buffered
                (input.readAll input.exampleDevice input.exampleStream [(1, 5)]).2.1
                (input.readAll input.exampleDevice input.exampleStream [(1, 5)]).2.2 k
              - 8 * min nevents (input.buffered
                  (input.readAll input.exampleDevice input.exampleStream [(1, 5)]).2.1
                  (input.readAll input.exampleDevice input.exampleStream [(1, 5)]).2.2 k / 8)) :=
  ⟨by decide, by decide, by decide, by decide, by decide, by decide, by decide,
    Device_Read_records input.exampleDevice input.exampleStream [(1, 5)] (by decide)⟩

/-! ## Batching 3D commands -/

theorem writeAt_length (mem b : List Nat) (off : Nat) (h : off + b.length ≤ mem.length) :
    (writeAt mem off b).length = mem.length := by
  unfold writeAt
  simp only [List.length_append, List.length_take, List.length_drop]
  omega

theorem writeAt_getElem? (mem b : List Nat) (off i : Nat) (h : off + b.length ≤ mem.length) :
    (writeAt mem off b)[i]? = if off ≤ i ∧ i < off + b.length then b[i - off]? else mem[i]? := by
  unfold writeAt
  by_cases h1 : i < off
  · rw [if_neg (by omega), List.append_assoc, List.getElem?_append_left (by simp; omega),
      List.getElem?_take_of_lt h1]
  · by_cases h2 : i < off + b.length
    · rw [if_pos ⟨by omega, h2⟩, List.append_assoc, List.getElem?_append_right (by simp; omega),
        List.getElem?_append_left (by simp; omega)]
      congr 1
      simp
      omega
    · rw [if_neg (by omega), List.getElem?_append_right (by simp; omega), List.getElem?_drop]
      congr 1
      simp
      omega

/-- A store inside the region `[a, a + n)` of a buffer is a store into the
region. -/
theorem region_write (mem b : List Nat) (a off n : Nat) (h1 : a ≤ off)
    (h2 : off + b.length ≤ a + n) (h3 : a + n ≤ mem.length) :
    ((writeAt mem off b).drop a).take n = writeAt ((mem.drop a).take n) (off - a) b := by
  apply List.ext_getElem?
  intro i
  by_cases hi : i < n
  · rw [List.getElem?_take_of_lt hi, List.getElem?_drop,
      writeAt_getElem? _ _ _ _ (by omega),
      writeAt_getElem? _ _ _ _ (by simp; omega), List.getElem?_take_of_lt hi, List.getElem?_drop]
    by_cases hc : off ≤ a + i ∧ a + i < off + b.length
    · rw [if_pos hc, if_pos (by omega)]
      congr 1
      omega
    · rw [if_neg hc, if_neg (by omega)]
  · rw [List.getElem?_eq_none (by simp; omega), List.getElem?_eq_none]
    rw [writeAt_length _ _ _ (by simp; omega)]
    simp
    omega

theorem writeAt_end (r b : List Nat) (n : Nat) (h : r.length = n + b.length) :
    writeAt r n b = r.take n ++ b := by
  unfold writeAt
  rw [List.drop_of_length_le (by omega), List.append_nil]

theorem writeAt_mid (x y z b : List Nat) (h : b.length = y.length) :
    writeAt (x ++ y ++ z) x.length b = x ++ b ++ z := by
  unfold writeAt
  rw [List.append_assoc x y z, List.take_left' rfl, ← List.append_assoc x y z,
    List.drop_left' (by rw [List.length_append, h])]

/-- The second part of `submit3d`: the command is stored behind the pending
request. -/
theorem submit_append (d : gpu.Device) (start cap ctx : Nat) (sent : List (List Nat))
    (content cmd : List Nat) (hp : gpu.pending d start cap ctx sent content)
    (hroom : d.bufOff + cmd.length ≤ cap) :
    ∃ buf d2, d.alloc cmd.length = Result.ok (buf, d2) ∧
      gpu.pending { d2 with size := d2.size + cmd.length, mem := writeAt d2.mem buf cmd }
        start cap ctx sent (content ++ cmd) := by
  obtain ⟨p1, p2, p3, p4, p5, p6, p7, p8, p9, p10⟩ := hp
  have hal : d.alloc cmd.length = Result.ok (d.bufOff,
      { d with len := max d.len (d.bufOff + cmd.length), bufOff := d.bufOff + cmd.length }) := by
    unfold gpu.Device.alloc gpu.Device.ensure
    rw [if_neg (by omega)]
    simp only
    rw [if_neg (by omega), if_neg (by rw [p8]; simp)]
  refine ⟨_, _, hal, ⟨p1, p2, ?_, ?_, ?_, ?_, p7, p8, p9, ?_⟩⟩
  · simp only [List.length_append]
    omega
  · simp only [List.length_append]
    omega
  · simp only
    omega
  · simp only
    rw [writeAt_length _ _ _ (by omega)]
    exact p6
  · simp only [List.length_append]
    have e : 32 + (content.length + cmd.length) = (32 + content.length) + cmd.length := by omega
    have eo : d.bufOff - start = 32 + content.length := by omega
    rw [e, region_write _ _ _ _ _ (by omega) (by omega) (by omega), eo,
      writeAt_end _ _ (32 + content.length)
        (by rw [List.length_take, List.length_drop]; omega),
      List.take_take, Nat.min_eq_left (by omega), p10, List.append_assoc]

/-- The first part of `submit3d` when no request is begun: the header of a
new request is stored at `d.bufOff`. -/
theorem begin3d_fresh (d : gpu.Device) (cmd : List Nat) (hb : d.begun = false)
    (ha : d.allocFails = false) (hroom : d.bufOff + (cmd.length + 24 + 32) ≤ d.mem.length) :
    ∃ d1, d.begin3d cmd = Result.ok d1 ∧
      gpu.pending d1 d.bufOff d.mem.length d.ctxID d.sent [] := by
  have hal : (⟨d.mem, d.len, d.bufOff, false, d.bufOff, 0, d.ctxID, d.allocFails,
        d.sent⟩ : gpu.Device).alloc 32
      = Result.ok (d.bufOff, (⟨d.mem, max d.len (d.bufOff + 32), d.bufOff + 32, false,
          d.bufOff, 0, d.ctxID, d.allocFails, d.sent⟩ : gpu.Device)) := by
    unfold gpu.Device.alloc gpu.Device.ensure
    simp only
    rw [if_neg (by omega)]
    simp only
    rw [if_neg (by omega), if_neg (by rw [ha]; simp)]
  have hbeg : d.begin3d cmd = Result.ok (⟨writeAt d.mem d.bufOff
        (gpu.cmdSubmitReq gpu._VIRTIO_GPU_CMD_SUBMIT_3D d.ctxID 0),
        max d.len (d.bufOff + 32), d.bufOff + 32, true, d.bufOff, 0, d.ctxID, d.allocFails,
        d.sent⟩ : gpu.Device) := by
    unfold gpu.Device.begin3d gpu.Device.ensure
    simp only [hb, Bool.not_false, if_true]
    rw [if_neg (by omega)]
    simp only [hb, Bool.not_false, if_true]
    rw [hal]
  have hlen : (gpu.cmdSubmitReq gpu._VIRTIO_GPU_CMD_SUBMIT_3D d.ctxID 0).length = 32 := rfl
  refine ⟨_, hbeg, ⟨rfl, rfl, ?_, rfl, ?_, ?_, rfl, ha, rfl, ?_⟩⟩
  · simp only [List.length_nil]
  · simp only
    omega
  · simp only
    rw [writeAt_length _ _ _ (by have := hlen; omega)]
  · simp only [List.length_nil, Nat.add_zero, List.append_nil]
    rw [region_write _ _ _ _ _ (Nat.le_refl _) (by have := hlen; omega) (by omega),
      Nat.sub_self, writeAt_end _ _ 0
        (by rw [List.length_take, List.length_drop, hlen]; omega)]
    rfl

/-- One call of `submit3d` on a pending request with room left appends the
command. -/
theorem submit3d_pending (d : gpu.Device) (start cap ctx : Nat) (sent : List (List Nat))
    (content cmd : List Nat) (hp : gpu.pending d start cap ctx sent content)
    (hroom : d.bufOff + cmd.length + 24 ≤ cap) :
    ∃ d1, d.submit3d cmd = Result.ok d1 ∧
      gpu.pending d1 start cap ctx sent (content ++ cmd) := by
  have hbeg : d.begin3d cmd = Result.ok d := by
    unfold gpu.Device.begin3d gpu.Device.ensure
    simp only [hp.begun_eq, Bool.not_true, Bool.false_eq_true, if_false]
    rw [hp.cap_eq, if_neg (by omega)]
    simp only [hp.begun_eq, Bool.not_true, Bool.false_eq_true, if_false]
  obtain ⟨buf, d2, h1, h2⟩ := submit_append d start cap ctx sent content cmd hp (by omega)
  refine ⟨_, ?_, h2⟩
  unfold gpu.Device.submit3d
  rw [hbeg]
  simp only
  rw [h1]

/-- The first call of `submit3d` after a flush begins a request that holds
the command. -/
theorem submit3d_fresh (d : gpu.Device) (cmd : List Nat) (hb : d.begun = false)
    (ha : d.allocFails = false) (hroom : d.bufOff + 32 + cmd.length + 24 ≤ d.mem.length) :
    ∃ d1, d.submit3d cmd = Result.ok d1 ∧
      gpu.pending d1 d.bufOff d.mem.length d.ctxID d.sent cmd := by
  obtain ⟨d0, h0, hp⟩ := begin3d_fresh d cmd hb ha (by omega)
  obtain ⟨buf, d2, h1, h2⟩ := submit_append d0 d.bufOff d.mem.length d.ctxID d.sent [] cmd hp
    (by rw [hp.bufOff_eq]; simp only [List.length_nil]; omega)
  rw [List.nil_append] at h2
  refine ⟨_, ?_, h2⟩
  unfold gpu.Device.submit3d
  rw [h0]
  simp only
  rw [h1]

theorem submitAll_pending (start cap ctx : Nat) (sent : List (List Nat)) :
    ∀ (cmds : List (List Nat)) (d : gpu.Device) (content : List Nat),
      gpu.pending d start cap ctx sent content →
      d.bufOff + cmds.flatten.length + 24 ≤ cap →
      ∃ d1, d.submitAll cmds = Result.ok d1 ∧
        gpu.pending d1 start cap ctx sent (content ++ cmds.flatten) := by
  intro cmds
  induction cmds with
  | nil =>
    intro d content hp _
    exact ⟨d, rfl, by rw [List.flatten_nil, List.append_nil]; exact hp⟩
  | cons c rest ih =>
    intro d content hp hroom
    rw [List.flatten_cons, List.length_append] at hroom
    obtain ⟨d1, h1, hp1⟩ := submit3d_pending d start cap ctx sent content c hp (by omega)
    obtain ⟨d2, h2, hp2⟩ := ih d1 (content ++ c) hp1
      (by rw [hp1.bufOff_eq, List.length_append]; rw [hp.bufOff_eq] at hroom; omega)
    refine ⟨d2, ?_, ?_⟩
    · rw [gpu.Device.submitAll, h1]
      exact h2
    · rw [List.flatten_cons, ← List.append_assoc]
      exact hp2

/-- Method `flush3D` on a pending request with room for the response: the
request handed to the queue is the header, the size of the commands, the
padding and the commands. -/
theorem flush3D_pending (d : gpu.Device) (start cap ctx : Nat) (sent : List (List Nat))
    (content : List Nat) (hp : gpu.pending d start cap ctx sent content)
    (hroom : d.bufOff + 24 ≤ cap) :
    ∃ d1, d.flush3D = Result.ok d1 ∧ d1.begun = false ∧
      d1.sent = sent ++ [gpu.ctrlHdr gpu._VIRTIO_GPU_CMD_SUBMIT_3D ctx ++
        putUint32 (content.length % 2 ^ 32) ++ putUint32 0 ++ content] := by
  obtain ⟨p1, p2, p3, p4, p5, p6, p7, p8, p9, p10⟩ := hp
  have hreq : ((writeAt d.mem (d.offset + 24) (putUint32 (d.size % 2 ^ 32))).drop
        d.offset).take (d.bufOff - d.offset)
      = gpu.ctrlHdr gpu._VIRTIO_GPU_CMD_SUBMIT_3D ctx ++
        putUint32 (content.length % 2 ^ 32) ++ putUint32 0 ++ content := by
    have e1 : d.bufOff - d.offset = 32 + content.length := by omega
    have e2 : d.offset + 24 - d.offset = 24 := by omega
    have hl : (putUint32 (d.size % 2 ^ 32)).length = 4 := rfl
    rw [e1, region_write _ _ _ _ _ (by omega) (by rw [hl]; omega) (by omega), e2, p2, p10, p4]
    have e3 : gpu.cmdSubmitReq gpu._VIRTIO_GPU_CMD_SUBMIT_3D ctx 0 ++ content
        = gpu.ctrlHdr gpu._VIRTIO_GPU_CMD_SUBMIT_3D ctx ++ putUint32 0 ++
          (putUint32 0 ++ content) := by
      unfold gpu.cmdSubmitReq
      simp only [List.append_assoc]
    have e4 : (24 : Nat) = (gpu.ctrlHdr gpu._VIRTIO_GPU_CMD_SUBMIT_3D ctx).length := rfl
    rw [e3, e4, writeAt_mid (gpu.ctrlHdr gpu._VIRTIO_GPU_CMD_SUBMIT_3D ctx) (putUint32 0)
      (putUint32 0 ++ content) (putUint32 (content.length % 2 ^ 32)) rfl]
    simp only [List.append_assoc]
  refine ⟨⟨writeAt d.mem (d.offset + 24) (putUint32 (d.size % 2 ^ 32)),
    max d.len (d.bufOff + 24), d.bufOff + 24, false, d.offset, d.size, d.ctxID, d.allocFails,
    d.sent ++ [((writeAt d.mem (d.offset + 24) (putUint32 (d.size % 2 ^ 32))).drop
      d.offset).take (d.bufOff - d.offset)]⟩, ?_, rfl, ?_⟩
  · unfold gpu.Device.flush3D
    simp only [p1, Bool.not_true, Bool.false_eq_true, if_false]
    rw [if_neg (by omega), if_neg (by omega), if_neg (by omega),
      if_neg (by rw [p8]; simp)]
  · simp only
    rw [hreq, p9]

/-- C25. After a flush (`begun` is false), for VirGL records `c1 … ck`
(`k ≥ 1`) that are passed to `submit3d` one after the other and fit into the
staging buffer together with the header of 32 bytes and the response of 24
bytes (so that `ensure` does not flush in between), memory for the buffer
being available: `flush3D` hands one request to the control queue, which is
the 24 bytes of `ctrlHdr{_type: SUBMIT_3D, ctx_id: d.ctxID}`, the 32-bit
little-endian value of `|c1| + … + |ck|`, four zero bytes of padding, and
`c1 … ck` in the order of submission; `begun` is false again. -/
theorem submit3d_batch (d : gpu.Device) (cmds : List (List Nat)) (hb : d.begun = false)
    (ha : d.allocFails = false) (hne : cmds ≠ [])
    (hroom : d.bufOff + 32 + cmds.flatten.length + 24 ≤ d.mem.length) :
    ∃ d1, d.submitFlush cmds = Result.ok d1 ∧ d1.begun = false ∧
      d1.sent = d.sent ++ [gpu.ctrlHdr gpu._VIRTIO_GPU_CMD_SUBMIT_3D d.ctxID ++
        putUint32 (cmds.flatten.length % 2 ^ 32) ++ putUint32 0 ++ cmds.flatten] := by
  cases cmds with
  | nil => exact absurd rfl hne
  | cons c rest =>
    rw [List.flatten_cons, List.length_append] at hroom
    obtain ⟨d1, h1, hp1⟩ := submit3d_fresh d c hb ha (by omega)
    obtain ⟨d2, h2, hp2⟩ := submitAll_pending d.bufOff d.mem.length d.ctxID d.sent rest d1 c hp1
      (by rw [hp1.bufOff_eq]; omega)
    obtain ⟨d3, h3, h4, h5⟩ := flush3D_pending d2 d.bufOff d.mem.length d.ctxID d.sent
      (c ++ rest.flatten) hp2 (by rw [hp2.bufOff_eq, List.length_append]; omega)
    refine ⟨d3, ?_, h4, ?_⟩
    · unfold gpu.Device.submitFlush
      rw [gpu.Device.submitAll, h1]
      simp only
      rw [h2]
      exact h3
    · rw [List.flatten_cons]
      exact h5

set_option maxRecDepth 100000 in
/-- C25, witness: two records of 4 and 8 bytes on a device with the context
id 5 whose staging buffer is in use up to offset 8 and holds old bytes. -/
theorem submit3d_batch_witness :
    gpu.exampleDevice.begun = false ∧ gpu.exampleDevice.allocFails = false ∧
      gpu.exampleDevice.bufOff + 32 +
        [[1, 2, 3, 4], [9, 9, 9, 9, 9, 9, 9, 9]].flatten.length + 24
        ≤ gpu.exampleDevice.mem.length ∧
      gpu.ctrlHdr gpu._VIRTIO_GPU_CMD_SUBMIT_3D gpu.exampleDevice.ctxID ++
          putUint32 ([[1, 2, 3, 4], [9, 9, 9, 9, 9, 9, 9, 9]].flatten.length % 2 ^ 32) ++
          putUint32 0 ++ [[1, 2, 3, 4], [9, 9, 9, 9, 9, 9, 9, 9]].flatten
        = [7, 2, 0, 0, 0, 0, 0, 0, 0, 0, 0, 0, 0, 0, 0, 0, 5, 0, 0, 0, 0, 0, 0, 0,
          12, 0, 0, 0, 0, 0, 0, 0, 1, 2, 3, 4, 9, 9, 9, 9, 9, 9, 9, 9] ∧
      ∃ d1, gpu.exampleDevice.submitFlush [[1, 2, 3, 4], [9, 9, 9, 9, 9, 9, 9, 9]]
          = Result.ok d1 ∧ d1.begun = false ∧
        d1.sent = gpu.exampleDevice.sent ++
          [gpu.ctrlHdr gpu._VIRTIO_GPU_CMD_SUBMIT_3D gpu.exampleDevice.ctxID ++
            putUint32 ([[1, 2, 3, 4], [9, 9, 9, 9, 9, 9, 9, 9]].flatten.length % 2 ^ 32) ++
            putUint32 0 ++ [[1, 2, 3, 4], [9, 9, 9, 9, 9, 9, 9, 9]].flatten] :=
  ⟨by decide, by decide, by decide, by decide,
    submit3d_batch gpu.exampleDevice [[1, 2, 3, 4], [9, 9, 9, 9, 9, 9, 9, 9]] (by decide)
      (by decide) (by decide) (by decide)⟩

/-! ## The reader of a device queue -/

theorem queueSize_cases (s : Nat) (h1 : 1 ≤ s) (h2 : s ≤ maxQueueSize) (h3 : s ∣ 2 ^ 16) :
    s = 1 ∨ s = 2 ∨ s = 4 ∨ s = 8 ∨ s = 16 ∨ s = 32 ∨ s = 64 ∨ s = 128 := by
  have h4 : s ≤ 128 := h2
  obtain ⟨k, hk⟩ := (Nat.dvd_prime_pow Nat.prime_two).mp h3
  obtain ⟨hk1, rfl⟩ := hk
  have h5 : k < 8 := by
    by_contra hc
    have : 2 ^ 8 ≤ 2 ^ k := Nat.pow_le_pow_right (by decide) (by omega)
    omega
  interval_cases k <;> simp

theorem pred_mod (x s j : Nat) (h : x % s = j + 1) : (x - 1) % s = j := by
  rcases Nat.eq_zero_or_pos s with h0 | hs
  · subst h0
    rw [Nat.mod_zero] at h
    rw [Nat.mod_zero]
    omega
  have hj : j + 1 < s := by
    rw [← h]
    exact Nat.mod_lt _ hs
  have e : x - 1 = j + s * (x / s) := by
    have := Nat.mod_add_div x s
    omega
  rw [e, Nat.add_mul_mod_self_left, Nat.mod_eq_of_lt (by omega)]

/-- The loop of `fill` makes `j` rounds, `j` being the distance from `avail`
to `used - 1` modulo the size: it puts the `j` descriptors that follow `avail`
into the slots of their indices and leaves the other slots as they are, or
holding their own index. -/
theorem fillLoop_spec (used size : Nat) (hs : 0 < size) (hu : used < 2 ^ 16) :
    ∀ (j fuel avail : Nat) (ring : List Nat), avail < 2 ^ 16 → size ≤ ring.length → j < fuel →
      ((used + 2 ^ 16 - 1) % 2 ^ 16 + 2 ^ 16 - avail) % 2 ^ 16 % size = j →
      ∃ ring1, fillLoop used size fuel avail ring = some ((avail + j) % 2 ^ 16, ring1) ∧
        ring1.length = ring.length ∧
        (∀ p : Nat, ring1[p]? = ring[p]? ∨ ring1[p]? = some p) ∧
        ∀ i, i < j → ring1[(avail + i) % 2 ^ 16 % size]? = some ((avail + i) % 2 ^ 16 % size) := by
  intro j
  induction j with
  | zero =>
    intro fuel avail ring ha hr hf hj
    obtain ⟨f, rfl⟩ : ∃ f, fuel = f + 1 := ⟨fuel - 1, by omega⟩
    refine ⟨ring, ?_, rfl, fun p => Or.inl rfl, fun i hi => absurd hi (Nat.not_lt_zero i)⟩
    rw [fillLoop]
    simp only
    rw [if_neg (by omega), if_pos hj, Nat.add_zero, Nat.mod_eq_of_lt ha]
  | succ j ih =>
    intro fuel avail ring ha hr hf hj
    obtain ⟨f, rfl⟩ : ∃ f, fuel = f + 1 := ⟨fuel - 1, by omega⟩
    have hidx : avail % size < ring.length := Nat.lt_of_lt_of_le (Nat.mod_lt _ hs) hr
    have hD : ((used + 2 ^ 16 - 1) % 2 ^ 16 + 2 ^ 16 - avail) % 2 ^ 16 ≠ 0 := by
      intro h0
      rw [h0, Nat.zero_mod] at hj
      omega
    have hD1 : ((used + 2 ^ 16 - 1) % 2 ^ 16 + 2 ^ 16 - (avail + 1) % 2 ^ 16) % 2 ^ 16
        = ((used + 2 ^ 16 - 1) % 2 ^ 16 + 2 ^ 16 - avail) % 2 ^ 16 - 1 := by
      omega
    obtain ⟨ring1, e1, e2, e3, e4⟩ := ih f ((avail + 1) % 2 ^ 16) (ring.set (avail % size) (avail % size))
      (Nat.mod_lt _ (by decide)) (by rw [List.length_set]; exact hr) (by omega)
      (by rw [hD1]; exact pred_mod _ _ _ hj)
    refine ⟨ring1, ?_, ?_, ?_, ?_⟩
    · rw [fillLoop]
      simp only
      rw [if_neg (by omega), if_neg (by rw [hj]; omega), if_neg (by omega), e1]
      congr 2
      omega
    · rw [e2, List.length_set]
    · intro p
      rcases e3 p with h | h
      · by_cases hp : avail % size = p
        · right
          rw [h, hp, List.getElem?_set_self (by rw [← hp]; exact hidx)]
        · left
          rw [h, List.getElem?_set_ne hp]
      · exact Or.inr h
    · intro i hi
      rcases Nat.eq_zero_or_pos i with h0 | h0
      · subst h0
        rw [Nat.add_zero, Nat.mod_eq_of_lt ha]
        rcases e3 (avail % size) with h | h
        · rw [h, List.getElem?_set_self hidx]
        · exact h
      · have e5 := e4 (i - 1) (by omega)
        have e6 : ((avail + 1) % 2 ^ 16 + (i - 1)) % 2 ^ 16 = (avail + i) % 2 ^ 16 := by omega
        rw [e6] at e5
        exact e5

theorem fill_rounds (s used avail : Nat) (h1 : 1 ≤ s) (h2 : s ≤ maxQueueSize) (h3 : s ∣ 2 ^ 16)
    (hu : used < 2 ^ 16) (ha : avail < 2 ^ 16) (hk : (avail + 2 ^ 16 - used) % 2 ^ 16 ≤ s - 1) :
    ((used + 2 ^ 16 - 1) % 2 ^ 16 + 2 ^ 16 - avail) % 2 ^ 16 % s
      = s - 1 - (avail + 2 ^ 16 - used) % 2 ^ 16 := by
  rcases queueSize_cases s h1 h2 h3 with h | h | h | h | h | h | h | h <;> subst h <;> omega

theorem fill_slot (s used avail t : Nat) (h1 : 1 ≤ s) (h2 : s ≤ maxQueueSize) (h3 : s ∣ 2 ^ 16)
    (hu : used < 2 ^ 16) (ha : avail < 2 ^ 16) (hk : (avail + 2 ^ 16 - used) % 2 ^ 16 ≤ t)
    (ht : t < s) :
    (avail + (t - (avail + 2 ^ 16 - used) % 2 ^ 16)) % 2 ^ 16 % s = (used + t) % s := by
  rcases queueSize_cases s h1 h2 h3 with h | h | h | h | h | h | h | h <;> subst h <;> omega

/-- Method `fill` on a queue of which at most `size - 1` descriptors are with
the device or not read yet: it returns, and all but one of the descriptors
are then with the device or not read yet. -/
theorem Reader_fill_spec (r : Reader) (h1 : 1 ≤ r.q.size) (h2 : r.q.size ≤ maxQueueSize)
    (h3 : r.q.size ∣ 2 ^ 16) (hring : r.q.queue.available.ring.length = maxQueueSize)
    (hu : r.used < 2 ^ 16) (ha : r.q.queue.available.idx < 2 ^ 16)
    (hk : (r.q.queue.available.idx + 2 ^ 16 - r.used) % 2 ^ 16 ≤ r.q.size - 1) :
    ∃ r1, r.fill = some r1 ∧
      r1.q.queue.available.idx = (r.used + (r.q.size - 1)) % 2 ^ 16 ∧
      (∀ t, (r.q.queue.available.idx + 2 ^ 16 - r.used) % 2 ^ 16 ≤ t → t < r.q.size - 1 →
        r1.q.queue.available.ring[(r.used + t) % r.q.size]? = some ((r.used + t) % r.q.size)) ∧
      (∀ p : Nat, r1.q.queue.available.ring[p]? = r.q.queue.available.ring[p]? ∨
        r1.q.queue.available.ring[p]? = some p) ∧
      r1.q.queue.available.ring.length = maxQueueSize ∧
      r1.q.notified = r.q.queueIndex :: r.q.notified ∧
      r1.q.size = r.q.size ∧ r1.q.queue.descriptors = r.q.queue.descriptors ∧
      r1.q.queue.used = r.q.queue.used ∧ r1.used = r.used ∧ r1.read = r.read ∧
      r1.buffer = r.buffer ∧ r1.offsets = r.offsets := by
  have hj := fill_rounds r.q.size r.used r.q.queue.available.idx h1 h2 h3 hu ha hk
  obtain ⟨ring1, e1, e2, e3, e4⟩ := fillLoop_spec r.used r.q.size (by omega) hu
    (r.q.size - 1 - (r.q.queue.available.idx + 2 ^ 16 - r.used) % 2 ^ 16) (2 ^ 16)
    r.q.queue.available.idx r.q.queue.available.ring ha (by rw [hring]; exact h2)
    (by have : maxQueueSize = 128 := rfl
        omega) hj
  refine ⟨⟨(r.q.setAvailable ⟨r.q.queue.available.flags, r.q.queue.available.idx, ring1,
    r.q.queue.available.used_event⟩).notifyDevice ((r.q.queue.available.idx +
      (r.q.size - 1 - (r.q.queue.available.idx + 2 ^ 16 - r.used) % 2 ^ 16)) % 2 ^ 16),
    r.used, r.read, r.buffer, r.offsets⟩, ?_, ?_, ?_, e3, ?_, rfl, rfl, rfl, rfl, rfl, rfl, rfl,
    rfl⟩
  · unfold Reader.fill
    rw [e1]
  · show (r.q.queue.available.idx +
      (r.q.size - 1 - (r.q.queue.available.idx + 2 ^ 16 - r.used) % 2 ^ 16)) % 2 ^ 16 = _
    omega
  · intro t ht1 ht2
    have e5 := e4 (t - (r.q.queue.available.idx + 2 ^ 16 - r.used) % 2 ^ 16) (by omega)
    rw [fill_slot r.q.size r.used r.q.queue.available.idx t h1 h2 h3 hu ha ht1 (by omega)] at e5
    exact e5
  · show ring1.length = maxQueueSize
    rw [e2, hring]

/-- The end of `NewReader`: the reader it returns is what `fill` makes of the
reader with the new descriptor table, and `fill` starts at the available index
of the queue. -/
theorem NewReader_fill (q : Queue) (buffer : IOMem) (descSize : Int) (r : Reader)
    (h : NewReader q buffer descSize = Outcome.returned (Result.ok r)) :
    ∃ offsets ds, newReaderLoop descSize q.size (buffer.Blocks.length + q.size + 1)
        buffer.Blocks 0 0 0 (List.replicate q.size 0) q.queue.descriptors
        = some (q.size, offsets, ds) ∧
      (Reader.mk (q.setDescriptors ds) 0 0 buffer.Mem offsets).fill = some r := by
  unfold NewReader at h
  split at h
  · exact Outcome.noConfusion h
  · rename_i desc offsets ds hl
    by_cases hd : desc = q.size
    · rw [if_neg (by rw [hd]; exact fun hc => hc rfl)] at h
      split at h
      · exact Outcome.noConfusion h
      · rename_i r1 hf
        injection h with h
        injection h with h
        subst h
        exact ⟨offsets, ds, by rw [hl, hd], hf⟩
    · rw [if_pos hd] at h
      injection h with h
      exact Result.noConfusion h

theorem NewReader_available (q : Queue) (buffer : IOMem) (descSize : Int) (r : Reader)
    (hq : q.ready) (h : NewReader q buffer descSize = Outcome.returned (Result.ok r)) :
    r.q.queue.available.idx = q.size - 1 ∧
      (∀ t, t < q.size - 1 → r.q.queue.available.ring[t]? = some t) ∧
      r.q.size = q.size ∧ r.used = 0 ∧ r.q.queue.used.idx = 0 := by
  obtain ⟨offsets, ds, -, hf⟩ := NewReader_fill q buffer descSize r h
  have hm : maxQueueSize = 128 := rfl
  have hs := hq.size_le
  obtain ⟨r1, f1, f2, f3, -, -, -, f7, -, f9, f10, -⟩ :=
    Reader_fill_spec (Reader.mk (q.setDescriptors ds) 0 0 buffer.Mem offsets) hq.size_pos hq.size_le
      hq.size_dvd hq.avail_len (show 0 < 2 ^ 16 by decide)
      (by show q.queue.available.idx < 2 ^ 16
          rw [hq.avail_idx]
          decide)
      (by show (q.queue.available.idx + 2 ^ 16 - 0) % 2 ^ 16 ≤ q.size - 1
          rw [hq.avail_idx]
          exact Nat.zero_le _)
  rw [hf] at f1
  injection f1 with f1
  subst f1
  have e0 : (Reader.mk (q.setDescriptors ds) 0 0 buffer.Mem offsets).q.queue.available.idx = 0 :=
    hq.avail_idx
  refine ⟨?_, fun t ht => ?_, f7, f10, ?_⟩
  · rw [f2]
    show (0 + (q.size - 1)) % 2 ^ 16 = q.size - 1
    omega
  · have e := f3 t
      (by rw [e0]
          show (0 + 2 ^ 16 - 0) % 2 ^ 16 ≤ t
          omega) ht
    have e1 : (0 + t) % q.size = t := by
      rw [Nat.zero_add]
      exact Nat.mod_eq_of_lt (by omega)
    have e2 : ((Reader.mk (q.setDescriptors ds) 0 0 buffer.Mem offsets).used + t) %
        (Reader.mk (q.setDescriptors ds) 0 0 buffer.Mem offsets).q.size = t := e1
    rw [e2] at e
    exact e
  · rw [f9]
    exact hq.used_idx

set_option maxRecDepth 100000 in
/-- C22 (counterexample). `NewReader` on a fresh queue of 4 descriptors, with
a buffer of 8 bytes and descriptors of 2 bytes, succeeds and makes 3
descriptors available: `available.idx` is 3 and not 4. Descriptor 3 holds no
unread data, as nothing is completed, and is not in the available ring, whose
slot 3 has not been written. -/
theorem NewReader_offers_three :
    NewReader (freshQueue 4) readerMem 2 = Outcome.returned (Result.ok exampleReader) ∧
      exampleReader.q.size = 4 ∧ exampleReader.q.queue.available.idx = 3 ∧
      exampleReader.q.queue.available.idx ≠ exampleReader.q.size ∧
      exampleReader.q.queue.available.ring.take 4 = [0, 1, 2, 0] ∧
      exampleReader.q.queue.used.idx = 0 ∧ exampleReader.used = 0 := by
  decide

/-- C22 (amended). Take a reader on a queue whose size is a power of two up
to `maxQueueSize`, with at most `size - 1` descriptors between `r.used` and
the available index, that is with the device or not read to the end, as it is
whenever `NewReader` or `Read` call `fill`. Then `fill` returns, and all but
one of the descriptors are between `r.used` and the available index: the
available index is `r.used + size - 1`, the descriptors `fill` has made
available are in the slots of their indices, every other slot of the ring is
as before or holds its own index, the device is notified, and nothing else
changes; one descriptor that holds no unread data stays with the driver. In
particular, right after `NewReader` succeeds on a queue as `ConfigureQueue`
hands it over, `q.size - 1` descriptors have been made available:
`available.idx = q.size - 1`, and slot `t` holds descriptor `t` for each
`t < q.size - 1`. -/
theorem fill_all_but_one :
    (∀ r : Reader, 1 ≤ r.q.size → r.q.size ≤ maxQueueSize → r.q.size ∣ 2 ^ 16 →
      r.q.queue.available.ring.length = maxQueueSize → r.used < 2 ^ 16 →
      r.q.queue.available.idx < 2 ^ 16 →
      (r.q.queue.available.idx + 2 ^ 16 - r.used) % 2 ^ 16 ≤ r.q.size - 1 →
      ∃ r1, r.fill = some r1 ∧
        r1.q.queue.available.idx = (r.used + (r.q.size - 1)) % 2 ^ 16 ∧
        (∀ t, (r.q.queue.available.idx + 2 ^ 16 - r.used) % 2 ^ 16 ≤ t → t < r.q.size - 1 →
          r1.q.queue.available.ring[(r.used + t) % r.q.size]?
            = some ((r.used + t) % r.q.size)) ∧
        (∀ p : Nat, r1.q.queue.available.ring[p]? = r.q.queue.available.ring[p]? ∨
          r1.q.queue.available.ring[p]? = some p) ∧
        r1.q.queue.available.ring.length = maxQueueSize ∧
        r1.q.notified = r.q.queueIndex :: r.q.notified ∧
        r1.q.size = r.q.size ∧ r1.q.queue.descriptors = r.q.queue.descriptors ∧
        r1.q.queue.used = r.q.queue.used ∧ r1.used = r.used ∧ r1.read = r.read ∧
        r1.buffer = r.buffer ∧ r1.offsets = r.offsets) ∧
    ∀ (q : Queue) (buffer : IOMem) (descSize : Int) (r : Reader), q.ready →
      NewReader q buffer descSize = Outcome.returned (Result.ok r) →
      r.q.queue.available.idx = q.size - 1 ∧
        (∀ t, t < q.size - 1 → r.q.queue.available.ring[t]? = some t) ∧
        r.q.size = q.size ∧ r.used = 0 ∧ r.q.queue.used.idx = 0 :=
  ⟨fun r h1 h2 h3 h4 h5 h6 h7 => Reader_fill_spec r h1 h2 h3 h4 h5 h6 h7,
    fun q buffer descSize r hq h => NewReader_available q buffer descSize r hq h⟩

set_option maxRecDepth 100000 in
/-- C22 (amended), witness: `fill` on the example reader after `Read` has left
two descriptors makes two more available, and `NewReader` on the fresh queue
of 4 descriptors makes 3 available. -/
theorem fill_all_but_one_witness :
    fillExample.q.size = 4 ∧ fillExample.used = 2 ∧ fillExample.q.queue.available.idx = 3 ∧
      (fillExample.q.queue.available.idx + 2 ^ 16 - fillExample.used) % 2 ^ 16
        ≤ fillExample.q.size - 1 ∧
      (∃ r1, fillExample.fill = some r1 ∧
        r1.q.queue.available.idx = (fillExample.used + (fillExample.q.size - 1)) % 2 ^ 16 ∧
        (∀ t, (fillExample.q.queue.available.idx + 2 ^ 16 - fillExample.used) % 2 ^ 16 ≤ t →
          t < fillExample.q.size - 1 →
          r1.q.queue.available.ring[(fillExample.used + t) % fillExample.q.size]?
            = some ((fillExample.used + t) % fillExample.q.size)) ∧
        (∀ p : Nat, r1.q.queue.available.ring[p]? = fillExample.q.queue.available.ring[p]? ∨
          r1.q.queue.available.ring[p]? = some p) ∧
        r1.q.queue.available.ring.length = maxQueueSize ∧
        r1.q.notified = fillExample.q.queueIndex :: fillExample.q.notified ∧
        r1.q.size = fillExample.q.size ∧
        r1.q.queue.descriptors = fillExample.q.queue.descriptors ∧
        r1.q.queue.used = fillExample.q.queue.used ∧ r1.used = fillExample.used ∧
        r1.read = fillExample.read ∧ r1.buffer = fillExample.buffer ∧
        r1.offsets = fillExample.offsets) ∧
      exampleReader.q.queue.available.idx = (freshQueue 4).size - 1 ∧
      (∀ t, t < (freshQueue 4).size - 1 → exampleReader.q.queue.available.ring[t]? = some t) ∧
      exampleReader.q.size = (freshQueue 4).size ∧ exampleReader.used = 0 ∧
      exampleReader.q.queue.used.idx = 0 :=
  ⟨by decide, by decide, by decide, by decide,
    fill_all_but_one.1 fillExample (by decide) (by decide) (by decide) (by decide) (by decide)
      (by decide) (by decide),
    fill_all_but_one.2 (freshQueue 4) readerMem 2 exampleReader
      ⟨by decide, by decide, by decide, by decide, by decide, by decide, by decide, by decide⟩
      (by decide)⟩

theorem slot_succ (s used t : Nat) (h1 : 1 ≤ s) (h2 : s ≤ maxQueueSize) (h3 : s ∣ 2 ^ 16) :
    ((used + 1) % 2 ^ 16 + t) % s = (used + (t + 1)) % s := by
  rcases queueSize_cases s h1 h2 h3 with h | h | h | h | h | h | h | h <;> subst h <;> omega

theorem drop_flatten_cons (p : List Nat) (rest : List (List Nat)) (n : Nat) (h : n ≤ p.length) :
    (p :: rest).flatten.drop n = p.drop n ++ rest.flatten := by
  rw [List.flatten_cons, List.drop_append_eq_append_drop, Nat.sub_eq_zero_of_le h, List.drop_zero]

/-- The second loop of `Read` on a used ring that holds the payloads `done`
from `r.used` on: it stores the first `room` bytes of `done` that are not
read yet, and stays at the descriptor of the next byte. -/
theorem readerLoop_spec (size : Nat) (h1 : 1 ≤ size) (h2 : size ≤ maxQueueSize)
    (h3 : size ∣ 2 ^ 16) :
    ∀ (done : List (List Nat)) (r : Reader) (room : Nat) (out : List Nat) (fuel : Nat),
      r.q.size = size → r.used < 2 ^ 16 → done.length < fuel → done.length < 2 ^ 16 →
      usedWindow size r done → r.read ≤ (done.headD []).length →
      ∃ r1 done1, readerLoop ((r.used + done.length) % 2 ^ 16) fuel r room out
          = some (Result.ok (out ++ (done.flatten.drop r.read).take room), r1) ∧
        r1.q = r.q ∧ r1.buffer = r.buffer ∧ r1.offsets = r.offsets ∧
        done1.length ≤ done.length ∧
        r1.used = (r.used + (done.length - done1.length)) % 2 ^ 16 ∧
        usedWindow size r1 done1 ∧ r1.read ≤ (done1.headD []).length ∧
        done1.flatten.drop r1.read = (done.flatten.drop r.read).drop room := by
  intro done
  induction done with
  | nil =>
    intro r room out fuel hs hu hf _ _ hr
    obtain ⟨f, rfl⟩ : ∃ f, fuel = f + 1 := ⟨fuel - 1, by simp at hf; omega⟩
    refine ⟨r, [], ?_, rfl, rfl, rfl, Nat.le_refl _, ?_, ?_, hr, ?_⟩
    · rw [readerLoop, if_pos (by simp; omega)]
      simp
    · simp
      omega
    · intro t p ht
      simp at ht
    · simp
  | cons p rest ih =>
    intro r room out fuel hs hu hf hl hw hr
    obtain ⟨f, rfl⟩ : ∃ f, fuel = f + 1 := ⟨fuel - 1, by omega⟩
    rw [List.length_cons] at hf hl
    rw [List.headD_cons] at hr
    obtain ⟨u, o, w1, w2, w3, w4, w5, w6, -⟩ := hw 0 p (List.getElem?_cons_zero)
    rw [Nat.add_zero] at w1 w2 w4
    have hq : (r.used + (p :: rest).length) % 2 ^ 16 ≠ r.used := by
      rw [List.length_cons]
      omega
    have hsrc : (r.buffer.drop o).length = r.buffer.length - o := List.length_drop _ _
    have hchunk : ((r.buffer.drop o).drop r.read).take (p.length - r.read) = p.drop r.read := by
      rw [← List.drop_take, w6]
    have hstep : ∀ res, (if room - min room (p.length - r.read) = 0
          then some (Result.ok (out ++ (p.drop r.read).take (min room (p.length - r.read))),
            (⟨r.q, r.used, r.read + min room (p.length - r.read), r.buffer, r.offsets⟩ : Reader))
          else readerLoop ((r.used + (p :: rest).length) % 2 ^ 16) f
            ⟨r.q, (r.used + 1) % 2 ^ 16, 0, r.buffer, r.offsets⟩
            (room - min room (p.length - r.read))
            (out ++ (p.drop r.read).take (min room (p.length - r.read)))) = res →
        readerLoop ((r.used + (p :: rest).length) % 2 ^ 16) (f + 1) r room out = res := by
      intro res hres
      rw [readerLoop, if_neg hq, if_neg (by rw [hs]; omega)]
      simp only [hs, w1]
      rw [if_neg (by rw [w2]; exact fun hc => hc rfl)]
      simp only [w4]
      rw [if_neg (by omega)]
      simp only [Int.toNat_ofNat]
      rw [if_neg (by rw [hsrc, w3]; omega)]
      simp only [w3, hchunk, List.length_drop]
      exact hres
    by_cases hroom : room ≤ p.length - r.read
    · refine ⟨⟨r.q, r.used, r.read + room, r.buffer, r.offsets⟩, p :: rest, ?_, rfl, rfl, rfl,
        Nat.le_refl _, ?_, ?_, ?_, ?_⟩
      · apply hstep
        rw [Nat.min_eq_left hroom, if_pos (Nat.sub_self _), drop_flatten_cons p rest _ hr,
          List.take_append_of_le_length (by rw [List.length_drop]; exact hroom)]
      · show r.used = _
        omega
      · exact hw
      · show r.read + room ≤ p.length
        omega
      · show (p :: rest).flatten.drop (r.read + room) = _
        rw [List.drop_drop, Nat.add_comm]
    · have hmin : min room (p.length - r.read) = p.length - r.read := Nat.min_eq_right (by omega)
      have hw1 : usedWindow size ⟨r.q, (r.used + 1) % 2 ^ 16, 0, r.buffer, r.offsets⟩ rest := by
        intro t p1 ht
        obtain ⟨u1, o1, v1, v2, v3, v4, v5, v6, d1, v7, v8⟩ := hw (t + 1) p1 (by simpa using ht)
        refine ⟨u1, o1, ?_, ?_, v3, ?_, v5, v6, d1, ?_, v8⟩
        · show r.q.queue.used.ring[((r.used + 1) % 2 ^ 16 + t) % size]? = some u1
          rw [slot_succ size r.used t h1 h2 h3]
          exact v1
        · show u1.id % 2 ^ 16 = ((r.used + 1) % 2 ^ 16 + t) % size
          rw [slot_succ size r.used t h1 h2 h3]
          exact v2
        · show r.offsets[((r.used + 1) % 2 ^ 16 + t) % size]? = some (o1 : Int)
          rw [slot_succ size r.used t h1 h2 h3]
          exact v4
        · show r.q.queue.descriptors[((r.used + 1) % 2 ^ 16 + t) % size]? = some d1
          rw [slot_succ size r.used t h1 h2 h3]
          exact v7
      obtain ⟨r1, done1, e1, e2, e3, e4, e5, e6, e7, e8, e9⟩ :=
        ih ⟨r.q, (r.used + 1) % 2 ^ 16, 0, r.buffer, r.offsets⟩ (room - (p.length - r.read))
          (out ++ p.drop r.read) f hs (Nat.mod_lt _ (by decide)) (by omega) (by omega) hw1
          (Nat.zero_le _)
      have eq : ((r.used + 1) % 2 ^ 16 + rest.length) % 2 ^ 16
          = (r.used + (p :: rest).length) % 2 ^ 16 := by
        rw [List.length_cons]
        omega
      dsimp only at e1 e6 e9
      rw [List.drop_zero] at e1 e9
      have hout : ((p :: rest).flatten.drop r.read).take room
          = p.drop r.read ++ rest.flatten.take (room - (p.length - r.read)) := by
        rw [drop_flatten_cons p rest _ hr, List.take_append_eq_append_take,
          List.take_of_length_le (by rw [List.length_drop]; omega), List.length_drop]
      have hrest : ((p :: rest).flatten.drop r.read).drop room
          = rest.flatten.drop (room - (p.length - r.read)) := by
        rw [drop_flatten_cons p rest _ hr, List.drop_append_eq_append_drop,
          List.drop_of_length_le (by rw [List.length_drop]; omega), List.length_drop,
          List.nil_append]
      refine ⟨r1, done1, ?_, e2, e3, e4, ?_, ?_, e7, e8, ?_⟩
      · apply hstep
        rw [hmin, if_neg (by omega), List.take_of_length_le (by rw [List.length_drop]), ← eq,
          e1, hout, List.append_assoc]
      · rw [List.length_cons]
        omega
      · rw [e6, List.length_cons]
        omega
      · rw [e9, hrest]

theorem slot_shift (s used c t : Nat) (h1 : 1 ≤ s) (h2 : s ≤ maxQueueSize) (h3 : s ∣ 2 ^ 16) :
    ((used + c) % 2 ^ 16 + t) % s = (used + (t + c)) % s := by
  rcases queueSize_cases s h1 h2 h3 with h | h | h | h | h | h | h | h <;> subst h <;> omega

/-- A call of `Read` when the used index is not `r.used`: it returns the first
`room` bytes that the device has stored and `Read` has not returned yet, and
the invariant holds again. -/
theorem Reader_Read_step (blocks : List PhysPage) (size : Nat) (tr : readerTrace)
    (done : List (List Nat)) (room : Nat) (h : readerInv blocks size tr done)
    (hne : tr.r.q.queue.used.idx ≠ tr.r.used) :
    ∃ r2 done1, tr.r.Read room
        = Outcome.returned (Result.ok ((done.flatten.drop tr.r.read).take room), r2) ∧
      readerInv blocks size
        ⟨r2, tr.payloads, tr.returned ++ (done.flatten.drop tr.r.read).take room⟩ done1 := by
  have hm : maxQueueSize = 128 := rfl
  have hsz := h.size_le
  have hdl := h.done_lt
  obtain ⟨r1, done1, e1, e2, e3, e4, e5, e6, e7, e8, e9⟩ :=
    readerLoop_spec size h.size_pos h.size_le h.size_dvd done tr.r room [] (2 ^ 16) h.size_eq
      h.used_lt (by omega) (by omega) h.used_win h.read_le
  rw [List.nil_append] at e1
  have hs1 : r1.q.size = size := by rw [e2]; exact h.size_eq
  have hu1 : r1.used < 2 ^ 16 := by rw [e6]; exact Nat.mod_lt _ (by decide)
  have ha1 : r1.q.queue.available.idx = (tr.r.used + (size - 1)) % 2 ^ 16 := by
    rw [e2]; exact h.avail_idx
  have hk : (r1.q.queue.available.idx + 2 ^ 16 - r1.used) % 2 ^ 16
      = size - 1 - (done.length - done1.length) := by
    rw [ha1, e6]
    have := h.used_lt
    omega
  obtain ⟨r2, f1, f2, f3, f4, f5, -, f7, f8, f9, f10, f11, f12, f13⟩ :=
    Reader_fill_spec r1 (by rw [hs1]; exact h.size_pos) (by rw [hs1]; exact h.size_le)
      (by rw [hs1]; exact h.size_dvd) (by rw [e2]; exact h.avail_len) hu1
      (by rw [ha1]; exact Nat.mod_lt _ (by decide)) (by rw [hk, hs1]; omega)
  rw [hs1] at f2 f3 f7
  rw [hk] at f3
  refine ⟨r2, done1, ?_, ⟨?_, h.size_pos, h.size_le, h.size_dvd, f5, ?_, ?_, ?_, ?_, ?_, ?_, ?_, ?_,
    ?_, ?_⟩⟩
  · unfold Reader.Read
    rw [if_neg hne, h.used_idx, e1]
    simp only
    rw [f1]
  · exact f7
  · show r2.q.queue.used.ring.length = maxQueueSize
    rw [f9, e2]
    exact h.used_len
  · show readerLayout blocks size r2.q.queue.descriptors r2.offsets r2.buffer.length
    rw [f8, f13, f12, e2, e3, e4]
    exact h.lay
  · show r2.used < 2 ^ 16
    rw [f10]
    exact hu1
  · exact Nat.lt_of_le_of_lt e5 h.done_lt
  · show r2.q.queue.used.idx = (r2.used + done1.length) % 2 ^ 16
    rw [f9, f10, e2, h.used_idx, e6]
    omega
  · show r2.q.queue.available.idx = (r2.used + (size - 1)) % 2 ^ 16
    rw [f2, f10]
  · intro t ht1 ht2
    show r2.q.queue.available.ring[(r2.used + t) % size]? = some ((r2.used + t) % size)
    rw [f10]
    by_cases hc : size - 1 - (done.length - done1.length) ≤ t
    · exact f3 t hc ht2
    · have e10 : (r1.used + t) % size = (tr.r.used + (t + (done.length - done1.length))) % size := by
        rw [e6]
        exact slot_shift size tr.r.used _ t h.size_pos h.size_le h.size_dvd
      rcases f4 ((r1.used + t) % size) with hh | hh
      · rw [hh, e2, e10]
        exact h.avail_win _ (by omega) (by omega)
      · exact hh
  · intro t p ht
    obtain ⟨u, o, v1, v2, v3, v4, v5, v6, d, v7, v8⟩ := e7 t p ht
    refine ⟨u, o, ?_, ?_, v3, ?_, ?_, ?_, d, ?_, v8⟩
    · show r2.q.queue.used.ring[(r2.used + t) % size]? = some u
      rw [f9, f10]
      exact v1
    · show u.id % 2 ^ 16 = (r2.used + t) % size
      rw [f10]
      exact v2
    · show r2.offsets[(r2.used + t) % size]? = some (o : Int)
      rw [f13, f10]
      exact v4
    · show o + p.length ≤ r2.buffer.length
      rw [f12]
      exact v5
    · show (r2.buffer.drop o).take p.length = p
      rw [f12]
      exact v6
    · show r2.q.queue.descriptors[(r2.used + t) % size]? = some d
      rw [f8, f10]
      exact v7
  · show r2.read ≤ (done1.headD []).length
    rw [f11]
    exact e8
  · show (tr.returned ++ (done.flatten.drop tr.r.read).take room) ++ done1.flatten.drop r2.read
      = tr.payloads.flatten
    rw [f11, e9, List.append_assoc, List.take_append_drop]
    exact h.stream

/-- With the used index equal to `r.used`, `Read` waits, and every byte of the
payloads has been returned. -/
theorem Read_waits (blocks : List PhysPage) (size : Nat) (tr : readerTrace)
    (done : List (List Nat)) (room : Nat) (h : readerInv blocks size tr done)
    (he : tr.r.q.queue.used.idx = tr.r.used) :
    tr.r.Read room = Outcome.waiting ∧ tr.returned = tr.payloads.flatten := by
  have hm : maxQueueSize = 128 := rfl
  have hsz := h.size_le
  have hdl := h.done_lt
  have hd : done = [] := by
    have e := h.used_idx
    rw [he] at e
    have hu := h.used_lt
    have : done.length = 0 := by omega
    exact List.length_eq_zero.mp this
  refine ⟨?_, ?_⟩
  · unfold Reader.Read
    rw [if_pos he]
  · have e := h.stream
    rw [hd] at e
    simpa using e

theorem physAddrAt_lt (bs : List PhysPage) : ∀ (i : Int) (p : Nat),
    physAddrAt bs i = some p → p < 2 ^ 64 := by
  induction bs with
  | nil =>
    intro i p h
    rw [physAddrAt] at h
    exact Option.noConfusion h
  | cons b rest ih =>
    intro i p h
    rw [physAddrAt] at h
    by_cases hc : i < b.Size
    · rw [if_pos hc] at h
      injection h with h
      rw [← h]
      unfold add64 wordMod
      exact Nat.mod_lt _ (by decide)
    · rw [if_neg hc] at h
      exact ih _ p h

theorem getD_of_lt (l : List Nat) (i : Nat) (h : i < l.length) : some (l.getD i 0) = l[i]? := by
  rw [List.getD_eq_getElem?_getD, List.getElem?_eq_getElem h]
  rfl

/-- The device storing a payload at the address of a descriptor stores it at
the offset of the descriptor in the buffer. -/
theorem deviceStore_eq (blocks : List PhysPage) (buffer payload : List Nat) (addr o len : Nat)
    (hlen : payload.length ≤ len) (hfit : o + len ≤ buffer.length)
    (hbig : buffer.length < 2 ^ 63)
    (hmap : ∀ k : Nat, k < len → physAddrAt blocks ((o + k : Nat) : Int) = some (add64 addr k))
    (hinj : ∀ i j : Nat, i < buffer.length → j < buffer.length →
      physAddrAt blocks (i : Int) = physAddrAt blocks (j : Int) → i = j) :
    deviceStore blocks buffer addr payload = writeAt buffer o payload := by
  apply List.ext_getElem?
  intro i
  rw [writeAt_getElem? _ _ _ _ (by omega)]
  unfold deviceStore
  rw [List.getElem?_map]
  by_cases hi : i < buffer.length
  · rw [List.getElem?_range hi]
    simp only [Option.map_some']
    by_cases hr : o ≤ i ∧ i < o + payload.length
    · rw [if_pos hr]
      have e := hmap (i - o) (by omega)
      have e1 : o + (i - o) = i := by omega
      rw [e1] at e
      rw [e]
      have e2 : sub64 (add64 addr (i - o)) addr = i - o := by
        unfold sub64 add64 wordMod
        omega
      simp only [e2]
      rw [if_pos (by omega)]
      exact getD_of_lt _ _ (by omega)
    · rw [if_neg hr]
      cases hp : physAddrAt blocks (i : Int) with
      | none => exact getD_of_lt _ _ hi
      | some p =>
        simp only
        by_cases hk : sub64 p addr < payload.length
        · exfalso
          have hp1 := physAddrAt_lt blocks _ p hp
          have e := hmap (sub64 p addr) (by omega)
          have e2 : add64 addr (sub64 p addr) = p := by
            unfold sub64 add64 wordMod
            unfold sub64 wordMod at hk
            omega
          rw [e2, ← hp] at e
          have := hinj _ _ (by omega) hi e
          omega
        · rw [if_neg hk]
          exact getD_of_lt _ _ hi
  · rw [List.getElem?_eq_none (by rw [List.length_range]; omega)]
    rw [if_neg (by omega), List.getElem?_eq_none (by omega)]
    rfl

theorem slot_mod (s x : Nat) (h3 : s ∣ 2 ^ 16) : x % 2 ^ 16 % s = x % s :=
  Nat.mod_mod_of_dvd x h3

theorem ring_slot_ne (s used t1 t2 : Nat) (h1 : 1 ≤ s) (h2 : s ≤ maxQueueSize) (h3 : s ∣ 2 ^ 16)
    (ht1 : t1 < s) (ht2 : t2 < s) (hne : t1 ≠ t2) : (used + t1) % s ≠ (used + t2) % s := by
  rcases queueSize_cases s h1 h2 h3 with h | h | h | h | h | h | h | h <;> subst h <;> omega

theorem writeAt_outside (mem b : List Nat) (off a n : Nat) (h : off + b.length ≤ mem.length)
    (hd : a + n ≤ off ∨ off + b.length ≤ a) :
    ((writeAt mem off b).drop a).take n = (mem.drop a).take n := by
  apply List.ext_getElem?
  intro i
  by_cases hi : i < n
  · rw [List.getElem?_take_of_lt hi, List.getElem?_take_of_lt hi, List.getElem?_drop,
      List.getElem?_drop, writeAt_getElem? _ _ _ _ h, if_neg (by omega)]
  · rw [List.getElem?_eq_none (by rw [List.length_take]; omega),
      List.getElem?_eq_none (by rw [List.length_take]; omega)]

theorem writeAt_read (mem b : List Nat) (off : Nat) (h : off + b.length ≤ mem.length) :
    ((writeAt mem off b).drop off).take b.length = b := by
  rw [region_write _ _ _ _ _ (Nat.le_refl _) (Nat.le_refl _) h, Nat.sub_self,
    writeAt_end _ _ 0 (by rw [List.length_take, List.length_drop]; omega), List.take_zero,
    List.nil_append]

theorem read_le_flatten (done : List (List Nat)) (n : Nat) (h : n ≤ (done.headD []).length) :
    n ≤ done.flatten.length := by
  cases done with
  | nil => exact h
  | cons p rest =>
    rw [List.headD_cons] at h
    rw [List.flatten_cons, List.length_append]
    omega

theorem headD_append (done : List (List Nat)) (p : List Nat) (n : Nat)
    (h : n ≤ (done.headD []).length) : n ≤ ((done ++ [p]).headD []).length := by
  cases done with
  | nil =>
    have : n = 0 := Nat.le_zero.mp h
    rw [this]
    exact Nat.zero_le _
  | cons q rest => exact h

/-- A completion of the device keeps the invariant, with the payload added
to the payloads that are not read yet. -/
theorem Device_step (blocks : List PhysPage) (size : Nat) (tr : readerTrace)
    (done : List (List Nat)) (payload : List Nat) (r1 : Reader)
    (h : readerInv blocks size tr done) (hd : readerDevice blocks tr.r payload = some r1) :
    readerInv blocks size ⟨r1, tr.payloads ++ [payload], tr.returned⟩ (done ++ [payload]) := by
  have hm : maxQueueSize = 128 := rfl
  have hsz := h.size_le
  have hdl := h.done_lt
  have hul := h.used_lt
  unfold readerDevice at hd
  by_cases hc : tr.r.q.queue.used.idx = tr.r.q.queue.available.idx ∨ tr.r.q.size = 0
  · rw [if_pos hc] at hd
    exact Option.noConfusion hd
  rw [if_neg hc] at hd
  have hlt : done.length < size - 1 := by
    have e1 := h.used_idx
    have e2 := h.avail_idx
    have : tr.r.q.queue.used.idx ≠ tr.r.q.queue.available.idx := fun e => hc (Or.inl e)
    rw [e1, e2] at this
    by_contra hcc
    have : done.length = size - 1 := by omega
    rw [this] at *
    omega
  have hslot : tr.r.q.queue.used.idx % tr.r.q.size = (tr.r.used + done.length) % size := by
    rw [h.used_idx, h.size_eq]
    exact slot_mod size _ h.size_dvd
  have hs0 : (tr.r.used + done.length) % size < size := Nat.mod_lt _ h.size_pos
  obtain ⟨d, o, l1, l2, l3, l4, l5⟩ := h.lay.entry _ hs0
  rw [hslot, h.avail_win done.length (Nat.le_refl _) hlt] at hd
  simp only [l1] at hd
  by_cases hp : d.flags &&& _VIRTQ_DESC_F_WRITE = 0 ∨ payload.length > d.len
  · rw [if_pos hp] at hd
    exact Option.noConfusion hd
  rw [if_neg hp] at hd
  injection hd with hd
  have hpl : payload.length ≤ d.len := by omega
  have hbuf : deviceStore blocks tr.r.buffer d.addr payload = writeAt tr.r.buffer o payload :=
    deviceStore_eq blocks tr.r.buffer payload d.addr o d.len hpl l3 h.lay.len_lt l5 h.lay.inj
  rw [hbuf] at hd
  have hwl : (writeAt tr.r.buffer o payload).length = tr.r.buffer.length :=
    writeAt_length _ _ _ (by omega)
  subst hd
  have hring : (deviceComplete tr.r.q ((tr.r.used + done.length) % size)
        payload.length).queue.used.ring
      = tr.r.q.queue.used.ring.set ((tr.r.used + done.length) % size)
        ⟨(tr.r.used + done.length) % size, payload.length⟩ := by
    show tr.r.q.queue.used.ring.set (tr.r.q.queue.used.idx % tr.r.q.size) _ = _
    rw [hslot]
  refine ⟨h.size_eq, h.size_pos, h.size_le, h.size_dvd, h.avail_len, ?_, ?_, h.used_lt, ?_, ?_,
    h.avail_idx, ?_, ?_, ?_, ?_⟩
  · show (deviceComplete tr.r.q _ _).queue.used.ring.length = maxQueueSize
    rw [hring, List.length_set]
    exact h.used_len
  · show readerLayout blocks size tr.r.q.queue.descriptors tr.r.offsets
      (writeAt tr.r.buffer o payload).length
    rw [hwl]
    exact h.lay
  · rw [List.length_append, List.length_singleton]
    omega
  · show (tr.r.q.queue.used.idx + 1) % 2 ^ 16 = (tr.r.used + (done ++ [payload]).length) % 2 ^ 16
    rw [h.used_idx, List.length_append, List.length_singleton]
    omega
  · intro t ht1 ht2
    rw [List.length_append, List.length_singleton] at ht1
    exact h.avail_win t (by omega) ht2
  · intro t p ht
    by_cases hlt2 : t < done.length
    · rw [List.getElem?_append_left hlt2] at ht
      obtain ⟨u, o1, v1, v2, v3, v4, v5, v6, d1, v7, v8⟩ := h.used_win t p ht
      have hne := ring_slot_ne size tr.r.used t done.length h.size_pos h.size_le h.size_dvd
        (by omega) (by omega) (by omega)
      refine ⟨u, o1, ?_, v2, v3, v4, ?_, ?_, d1, v7, v8⟩
      · show (deviceComplete tr.r.q _ _).queue.used.ring[(tr.r.used + t) % size]? = some u
        rw [hring, List.getElem?_set_ne (fun e => hne e.symm)]
        exact v1
      · show o1 + p.length ≤ (writeAt tr.r.buffer o payload).length
        rw [hwl]
        exact v5
      · show ((writeAt tr.r.buffer o payload).drop o1).take p.length = p
        rw [writeAt_outside _ _ _ _ _ (by omega) ?_]
        · exact v6
        · rcases Nat.lt_or_gt_of_ne hne with hh | hh
          · left
            have := h.lay.apart _ _ d1 d o1 o hh hs0 v7 l1 v4 l2
            omega
          · right
            have := h.lay.apart _ _ d d1 o o1 hh (Nat.mod_lt _ h.size_pos) l1 v7 l2 v4
            omega
    · have ht3 : t = done.length := by
        by_contra hcc
        rw [List.getElem?_eq_none (by rw [List.length_append, List.length_singleton]; omega)] at ht
        exact Option.noConfusion ht
      subst ht3
      rw [List.getElem?_append_right (Nat.le_refl _), Nat.sub_self, List.getElem?_cons_zero] at ht
      injection ht with ht
      subst ht
      refine ⟨⟨(tr.r.used + done.length) % size, payload.length⟩, o, ?_, ?_, rfl, l2, ?_, ?_, d,
        l1, hpl⟩
      · show (deviceComplete tr.r.q _ _).queue.used.ring[(tr.r.used + done.length) % size]? = _
        rw [hring, List.getElem?_set_self (by rw [h.used_len]; omega)]
      · show (tr.r.used + done.length) % size % 2 ^ 16 = _
        exact Nat.mod_eq_of_lt (by omega)
      · show o + payload.length ≤ (writeAt tr.r.buffer o payload).length
        rw [hwl]
        omega
      · exact writeAt_read _ _ _ (by omega)
  · exact headD_append done payload _ h.read_le
  · show tr.returned ++ (done ++ [payload]).flatten.drop tr.r.read
      = (tr.payloads ++ [payload]).flatten
    have hr := read_le_flatten done _ h.read_le
    rw [List.flatten_append, List.flatten_append, List.drop_append_eq_append_drop,
      Nat.sub_eq_zero_of_le hr, List.drop_zero, ← List.append_assoc, h.stream]

theorem blocksSize_append (a b : List PhysPage) :
    blocksSize (a ++ b) = blocksSize a + blocksSize b := by
  induction a with
  | nil =>
    rw [List.nil_append, blocksSize]
    omega
  | cons p rest ih =>
    rw [List.cons_append, blocksSize, blocksSize, ih]
    omega

theorem physAddrAt_append (bs : List PhysPage) : ∀ (pre : List PhysPage) (x : Int),
    (∀ p ∈ pre, 0 < p.Size) → 0 ≤ x →
    physAddrAt (pre ++ bs) (blocksSize pre + x) = physAddrAt bs x := by
  intro pre
  induction pre with
  | nil =>
    intro x _ _
    rw [List.nil_append, blocksSize, Int.zero_add]
  | cons p rest ih =>
    intro x hpos hx
    have h1 := hpos p (List.mem_cons_self _ _)
    have h2 := blocksSize_nonneg rest (fun q hq => hpos q (List.mem_cons_of_mem _ hq))
    rw [List.cons_append, physAddrAt, blocksSize, if_neg (by omega)]
    have e : p.Size + blocksSize rest + x - p.Size = blocksSize rest + x := by omega
    rw [e]
    exact ih x (fun q hq => hpos q (List.mem_cons_of_mem _ hq)) hx

theorem physAddrAt_head (b : PhysPage) (rest : List PhysPage) (x : Int) (h0 : 0 ≤ x)
    (h1 : x < b.Size) (hfit : (b.Addr : Int) + b.Size ≤ 2 ^ 64) :
    ∃ p : Nat, physAddrAt (b :: rest) x = some p ∧ (p : Int) = b.Addr + x := by
  refine ⟨add64 b.Addr (toUint64 x), ?_, ?_⟩
  · rw [physAddrAt, if_pos h1]
  · unfold add64 toUint64 wordMod
    omega

/-- A physical address of a byte of the buffer lies in one of the blocks. -/
theorem physAddrAt_mem (bs : List PhysPage) : ∀ (i : Int) (p : Nat),
    (∀ b ∈ bs, (b.Addr : Int) + b.Size ≤ 2 ^ 64) → 0 ≤ i → physAddrAt bs i = some p →
    ∃ b ∈ bs, (b.Addr : Int) ≤ p ∧ (p : Int) < b.Addr + b.Size := by
  induction bs with
  | nil =>
    intro i p _ _ h
    rw [physAddrAt] at h
    exact Option.noConfusion h
  | cons b rest ih =>
    intro i p hfit h0 h
    by_cases hc : i < b.Size
    · obtain ⟨p1, e1, e2⟩ := physAddrAt_head b rest i h0 hc (hfit b (List.mem_cons_self _ _))
      rw [e1] at h
      injection h with h
      subst h
      exact ⟨b, List.mem_cons_self _ _, by omega, by omega⟩
    · rw [physAddrAt, if_neg hc] at h
      obtain ⟨b1, m1, m2, m3⟩ := ih _ p (fun q hq => hfit q (List.mem_cons_of_mem _ hq))
        (by omega) h
      exact ⟨b1, List.mem_cons_of_mem _ m1, m2, m3⟩

/-- No two bytes of a buffer whose blocks do not overlap share a physical
address. -/
theorem physAddrAt_inj (bs : List PhysPage) :
    (∀ b ∈ bs, 0 < b.Size) → (∀ b ∈ bs, (b.Addr : Int) + b.Size ≤ 2 ^ 64) →
    bs.Pairwise (fun a b =>
      (a.Addr : Int) + a.Size ≤ b.Addr ∨ (b.Addr : Int) + b.Size ≤ a.Addr) →
    ∀ i j : Int, 0 ≤ i → i < blocksSize bs → 0 ≤ j → j < blocksSize bs →
      physAddrAt bs i = physAddrAt bs j → i = j := by
  induction bs with
  | nil =>
    intro _ _ _ i j h0 h1 _ _ _
    rw [blocksSize] at h1
    omega
  | cons b rest ih =>
    intro hpos hfit hdis i j hi0 hi1 hj0 hj1 he
    rw [blocksSize] at hi1 hj1
    have hfb := hfit b (List.mem_cons_self _ _)
    have hfr : ∀ q ∈ rest, (q.Addr : Int) + q.Size ≤ 2 ^ 64 :=
      fun q hq => hfit q (List.mem_cons_of_mem _ hq)
    have hpr : ∀ q ∈ rest, 0 < q.Size := fun q hq => hpos q (List.mem_cons_of_mem _ hq)
    rw [List.pairwise_cons] at hdis
    by_cases hci : i < b.Size
    · obtain ⟨p1, e1, e2⟩ := physAddrAt_head b rest i hi0 hci hfb
      by_cases hcj : j < b.Size
      · obtain ⟨p2, e3, e4⟩ := physAddrAt_head b rest j hj0 hcj hfb
        rw [e1, e3] at he
        injection he with he
        omega
      · rw [e1] at he
        rw [physAddrAt, if_neg hcj] at he
        obtain ⟨b1, m1, m2, m3⟩ := physAddrAt_mem rest _ p1 hfr (by omega) he.symm
        have := hdis.1 b1 m1
        omega
    · by_cases hcj : j < b.Size
      · obtain ⟨p2, e3, e4⟩ := physAddrAt_head b rest j hj0 hcj hfb
        rw [e3] at he
        rw [physAddrAt, if_neg hci] at he
        obtain ⟨b1, m1, m2, m3⟩ := physAddrAt_mem rest _ p2 hfr (by omega) he
        have := hdis.1 b1 m1
        omega
      · rw [physAddrAt, if_neg hci, physAddrAt, if_neg hcj] at he
        have := ih hpr hfr hdis.2 (i - b.Size) (j - b.Size) (by omega) (by omega) (by omega)
          (by omega) he
        omega

theorem newReaderInv_mono (blocks : List PhysPage) (size : Nat) (b1 b2 : Int) (desc : Nat)
    (offsets : List Int) (ds : List queueDescriptor) (h : newReaderInv blocks size b1 desc offsets ds)
    (hb : b1 ≤ b2) : newReaderInv blocks size b2 desc offsets ds := by
  refine ⟨h.offs_len, fun i hi => ?_, h.apart⟩
  obtain ⟨d, o, e1, e2, e3, e4, e5⟩ := h.entry i hi
  exact ⟨d, o, e1, e2, by omega, e4, e5⟩

/-- One round of the inner loop of `NewReader` that sets up descriptor
`desc`, with `sz` bytes of the block `b` from `blockOff` on. -/
theorem newReaderInv_set (pre bs : List PhysPage) (b : PhysPage) (size : Nat)
    (blockOff sz : Int) (desc : Nat) (offsets : List Int) (ds : List queueDescriptor)
    (hpos : ∀ p ∈ pre, 0 < p.Size)
    (h : newReaderInv (pre ++ b :: bs) size (blocksSize pre + blockOff) desc offsets ds)
    (h0 : 0 ≤ blockOff) (hsz : 0 < sz) (hle : blockOff + sz ≤ b.Size) (hb : b.Size < 2 ^ 63)
    (hd1 : desc < size) (hd2 : desc < ds.length) :
    newReaderInv (pre ++ b :: bs) size (blocksSize pre + blockOff + sz) (desc + 1)
      (offsets.set desc (blocksSize pre + blockOff))
      (ds.set desc
        ⟨add64 b.Addr (toUint64 blockOff), (sz % 2 ^ 32).toNat, _VIRTQ_DESC_F_WRITE, 0⟩) := by
  have hpre := blocksSize_nonneg pre hpos
  have ho : (((blocksSize pre + blockOff).toNat : Nat) : Int) = blocksSize pre + blockOff := by
    omega
  refine ⟨?_, fun i hi => ?_, ?_⟩
  · rw [List.length_set]
    exact h.offs_len
  · by_cases hc : i = desc
    · subst hc
      refine ⟨_, (blocksSize pre + blockOff).toNat, List.getElem?_set_self hd2, ?_, ?_, ?_, ?_⟩
      · rw [List.getElem?_set_self (by rw [h.offs_len]; exact hd1), ho]
      · show (((blocksSize pre + blockOff).toNat : Nat) : Int) + ((sz % 2 ^ 32).toNat : Nat) ≤ _
        omega
      · show _VIRTQ_DESC_F_WRITE &&& _VIRTQ_DESC_F_WRITE ≠ 0
        decide
      · intro k hk
        have hk1 : (k : Int) < sz := by
          have : k < (sz % 2 ^ 32).toNat := hk
          omega
        have e1 : ((((blocksSize pre + blockOff).toNat + k : Nat)) : Int)
            = blocksSize pre + (blockOff + k) := by omega
        rw [e1, physAddrAt_append _ _ _ hpos (by omega), physAddrAt, if_pos (by omega)]
        congr 1
        show add64 b.Addr (toUint64 (blockOff + k)) = add64 (add64 b.Addr (toUint64 blockOff)) k
        unfold add64 toUint64 wordMod
        omega
    · obtain ⟨d, o, e1, e2, e3, e4, e5⟩ := h.entry i (by omega)
      refine ⟨d, o, ?_, ?_, by omega, e4, e5⟩
      · rw [List.getElem?_set_ne (fun e => hc e.symm)]
        exact e1
      · rw [List.getElem?_set_ne (fun e => hc e.symm)]
        exact e2
  · intro i j di dj oi oj hij hj a1 a2 a3 a4
    rw [List.getElem?_set_ne (by omega)] at a1 a3
    by_cases hc : j = desc
    · subst hc
      rw [List.getElem?_set_self (by rw [h.offs_len]; exact hd1)] at a4
      injection a4 with a4
      obtain ⟨d, o, e1, e2, e3, e4, e5⟩ := h.entry i hij
      rw [e1] at a1
      rw [e2] at a3
      injection a1 with a1
      injection a3 with a3
      subst a1
      omega
    · rw [List.getElem?_set_ne (fun e => hc e.symm)] at a2 a4
      exact h.apart i j di dj oi oj hij (by omega) a1 a2 a3 a4

/-- The loops of `NewReader` keep the invariant. -/
theorem newReaderLoop_spec (descSize : Int) (size : Nat) (blocks : List PhysPage)
    (hpos : ∀ p ∈ blocks, 0 < p.Size)
    (htot : blocksSize blocks < 2 ^ 63) (hd : 0 < descSize) :
    ∀ (fuel : Nat) (bs pre : List PhysPage) (blockOff : Int) (desc : Nat) (offsets : List Int)
      (ds : List queueDescriptor) (res : Nat × List Int × List queueDescriptor),
      blocks = pre ++ bs → 0 ≤ blockOff → (∀ b rest, bs = b :: rest → blockOff ≤ b.Size) →
      (bs = [] → blockOff = 0) →
      newReaderInv blocks size (blocksSize pre + blockOff) desc offsets ds →
      newReaderLoop descSize size fuel bs blockOff (blocksSize pre + blockOff) desc offsets ds
        = some res →
      ∃ bufOffset, bufOffset ≤ blocksSize blocks ∧
        newReaderInv blocks size bufOffset res.1 res.2.1 res.2.2 ∧ res.2.2.length = ds.length := by
  intro fuel
  induction fuel with
  | zero =>
    intro bs pre blockOff desc offsets ds res _ _ _ _ _ h
    rw [newReaderLoop] at h
    exact Option.noConfusion h
  | succ fuel ih =>
    intro bs pre blockOff desc offsets ds res hb h0 hle hnil hinv h
    cases bs with
    | nil =>
      rw [newReaderLoop] at h
      injection h with h
      subst h
      rw [List.append_nil] at hb
      subst hb
      exact ⟨_, by rw [hnil rfl]; omega, hinv, rfl⟩
    | cons b rest =>
      have hmem : b ∈ blocks := by rw [hb]; exact List.mem_append_right _ (List.mem_cons_self _ _)
      have hpre : ∀ p ∈ pre, 0 < p.Size :=
        fun p hp => hpos p (by rw [hb]; exact List.mem_append_left _ hp)
      have hrest : ∀ p ∈ rest, 0 < p.Size :=
        fun p hp => hpos p (by rw [hb]; exact List.mem_append_right _ (List.mem_cons_of_mem _ hp))
      have hbpos := hpos b hmem
      have hble := hle b rest rfl
      have hsum : blocksSize blocks = blocksSize pre + (b.Size + blocksSize rest) := by
        rw [hb, blocksSize_append, blocksSize]
      have hn1 := blocksSize_nonneg pre hpre
      have hn2 := blocksSize_nonneg rest hrest
      rw [newReaderLoop] at h
      by_cases hc : desc ≥ size
      · rw [if_pos hc] at h
        injection h with h
        subst h
        exact ⟨_, by omega, hinv, rfl⟩
      · rw [if_neg hc] at h
        have hmax : toInt64 (b.Size - blockOff) = b.Size - blockOff :=
          toInt64_eq _ (by omega) (by omega)
        simp only [hmax] at h
        by_cases hz : (if descSize > b.Size - blockOff then b.Size - blockOff else descSize) = 0
        · rw [if_pos hz] at h
          have hfull : blockOff = b.Size := by
            by_cases hg : descSize > b.Size - blockOff
            · rw [if_pos hg] at hz
              omega
            · rw [if_neg hg] at hz
              omega
          have e1 : blocksSize pre + blockOff = blocksSize (pre ++ [b]) + 0 := by
            rw [blocksSize_append, blocksSize, blocksSize]
            omega
          rw [e1] at h hinv
          obtain ⟨bo, r1, r2, r3⟩ := ih rest (pre ++ [b]) 0 desc offsets ds res
            (by rw [hb, List.append_assoc]; rfl) (le_refl 0)
            (fun b2 rest2 e2 => by
              have := hrest b2 (by rw [e2]; exact List.mem_cons_self _ _)
              omega)
            (fun _ => rfl) hinv h
          exact ⟨bo, r1, r2, r3⟩
        · rw [if_neg hz] at h
          by_cases hl : desc ≥ ds.length
          · rw [if_pos hl] at h
            exact Option.noConfusion h
          · rw [if_neg hl] at h
            generalize hsz : (if descSize > b.Size - blockOff then b.Size - blockOff
              else descSize) = sz at h hz
            have hsz1 : 0 < sz ∧ blockOff + sz ≤ b.Size := by
              by_cases hg : descSize > b.Size - blockOff
              · rw [if_pos hg] at hsz
                omega
              · rw [if_neg hg] at hsz
                omega
            have e1 : toInt64 (blockOff + sz) = blockOff + sz := toInt64_eq _ (by omega) (by omega)
            have e2 : toInt64 (blocksSize pre + blockOff + sz) = blocksSize pre + (blockOff + sz) := by
              rw [toInt64_eq _ (by omega) (by omega)]
              omega
            rw [e1, e2] at h
            have hinv1 := newReaderInv_set pre rest b size blockOff sz desc offsets ds hpre
              (by rw [← hb]; exact hinv) h0 hsz1.1 hsz1.2 (by omega) (by omega)
              (by omega)
            rw [← hb] at hinv1
            have e3 : blocksSize pre + blockOff + sz = blocksSize pre + (blockOff + sz) := by omega
            rw [e3] at hinv1
            obtain ⟨bo, r1, r2, r3⟩ := ih (b :: rest) pre (blockOff + sz) (desc + 1) _ _ res hb
              (by omega)
              (fun b2 rest2 e4 => by
                injection e4 with e4 e5
                subst e4
                exact hsz1.2)
              (fun e4 => List.noConfusion e4) hinv1 h
            rw [List.length_set] at r3
            exact ⟨bo, r1, r2, r3⟩

/-- The reader that `NewReader` returns satisfies the invariant, with nothing
completed and nothing returned. -/
theorem NewReader_inv (q : Queue) (buffer : IOMem) (descSize : Int) (r0 : Reader)
    (hq : q.ready) (hbuf : buffer.wf) (hd : 0 < descSize)
    (hnew : NewReader q buffer descSize = Outcome.returned (Result.ok r0)) :
    readerInv buffer.Blocks q.size ⟨r0, [], []⟩ [] := by
  have hm : maxQueueSize = 128 := rfl
  have hsz := hq.size_le
  have hsp := hq.size_pos
  obtain ⟨offsets, ds, hl, hf⟩ := NewReader_fill q buffer descSize r0 hnew
  have hz : blocksSize ([] : List PhysPage) + 0 = 0 := by
    rw [blocksSize]
    omega
  have hlen := hbuf.len_lt
  obtain ⟨bo, r1, r2, r3⟩ := newReaderLoop_spec descSize q.size buffer.Blocks hbuf.pos
    (by rw [hbuf.sum]; exact hbuf.len_lt) hd (buffer.Blocks.length + q.size + 1) buffer.Blocks []
    0 0 (List.replicate q.size 0) q.queue.descriptors (q.size, offsets, ds) rfl (le_refl 0)
    (fun b rest e => by
      have := hbuf.pos b (by rw [e]; exact List.mem_cons_self _ _)
      omega)
    (fun _ => rfl)
    (by rw [hz]
        exact ⟨List.length_replicate _ _, fun i hi => absurd hi (Nat.not_lt_zero i),
          fun i j _ _ _ _ _ hj => absurd hj (Nat.not_lt_zero j)⟩)
    (by rw [hz]; exact hl)
  rw [hbuf.sum] at r1
  have hlay : readerLayout buffer.Blocks q.size ds offsets buffer.Mem.length := by
    refine ⟨fun i hi => ?_, r2.apart, fun i j hi hj he => ?_, by omega⟩
    · obtain ⟨d, o, e1, e2, e3, e4, e5⟩ := r2.entry i hi
      exact ⟨d, o, e1, e2, by omega, e4, e5⟩
    · have := physAddrAt_inj buffer.Blocks hbuf.pos hbuf.fits hbuf.disjoint i j (by omega)
        (by rw [hbuf.sum]; omega) (by omega) (by rw [hbuf.sum]; omega) he
      omega
  obtain ⟨r1', f1, f2, f3, f4, f5, -, f7, f8, f9, f10, f11, f12, f13⟩ :=
    Reader_fill_spec (Reader.mk (q.setDescriptors ds) 0 0 buffer.Mem offsets) hq.size_pos hq.size_le
      hq.size_dvd hq.avail_len (show 0 < 2 ^ 16 by decide)
      (by show q.queue.available.idx < 2 ^ 16
          rw [hq.avail_idx]
          decide)
      (by show (q.queue.available.idx + 2 ^ 16 - 0) % 2 ^ 16 ≤ q.size - 1
          rw [hq.avail_idx]
          exact Nat.zero_le _)
  rw [hf] at f1
  injection f1 with f1
  subst f1
  have e0 : (Reader.mk (q.setDescriptors ds) 0 0 buffer.Mem offsets).q.queue.available.idx = 0 :=
    hq.avail_idx
  rw [e0] at f3
  refine ⟨f7, hq.size_pos, hq.size_le, hq.size_dvd, f5, ?_, ?_, ?_, ?_, ?_, ?_, ?_, ?_, ?_,
    by simp⟩
  · show r0.q.queue.used.ring.length = maxQueueSize
    rw [f9]
    exact hq.used_len
  · show readerLayout buffer.Blocks q.size r0.q.queue.descriptors r0.offsets r0.buffer.length
    rw [f8, f12, f13]
    exact hlay
  · show r0.used < 2 ^ 16
    rw [f10]
    exact (show 0 < 2 ^ 16 by decide)
  · exact hq.size_pos
  · show r0.q.queue.used.idx = (r0.used + 0) % 2 ^ 16
    rw [f9, f10]
    exact hq.used_idx
  · show r0.q.queue.available.idx = (r0.used + (q.size - 1)) % 2 ^ 16
    rw [f2, f10]
    rfl
  · intro t _ ht
    show r0.q.queue.available.ring[(r0.used + t) % q.size]? = some ((r0.used + t) % q.size)
    rw [f10]
    exact f3 t (by show (0 + 2 ^ 16 - 0) % 2 ^ 16 ≤ t; omega) ht
  · intro t p ht
    rw [List.getElem?_nil] at ht
    exact Option.noConfusion ht
  · show r0.read ≤ 0
    rw [f11]

/-- Every run keeps the invariant. -/
theorem readerInv_run (blocks : List PhysPage) (size : Nat) :
    ∀ (events : List readerEvent) (tr tr1 : readerTrace) (done : List (List Nat)),
      readerInv blocks size tr done → readerRun blocks tr events = some tr1 →
      ∃ done1, readerInv blocks size tr1 done1 := by
  intro events
  induction events with
  | nil =>
    intro tr tr1 done h hr
    rw [readerRun] at hr
    injection hr with hr
    subst hr
    exact ⟨done, h⟩
  | cons e es ih =>
    intro tr tr1 done h hr
    rw [readerRun] at hr
    cases e with
    | complete payload =>
      rw [readerStep] at hr
      cases hd : readerDevice blocks tr.r payload with
      | none =>
        rw [hd] at hr
        exact Option.noConfusion hr
      | some r1 =>
        rw [hd] at hr
        exact ih _ tr1 _ (Device_step blocks size tr done payload r1 h hd) hr
    | read room =>
      rw [readerStep] at hr
      by_cases hu : tr.r.q.queue.used.idx = tr.r.used
      · rw [(Read_waits blocks size tr done room h hu).1] at hr
        exact Option.noConfusion hr
      · obtain ⟨r2, done1, e1, e2⟩ := Reader_Read_step blocks size tr done room h hu
        rw [e1] at hr
        exact ih _ tr1 done1 e2 hr

/-- C21. Take a queue as `ConfigureQueue` hands it over (a size that is a
power of two up to `maxQueueSize`, both ring indices zero), a buffer whose
blocks do not overlap in physical memory, a positive `descSize`, and the
reader that `NewReader` returns for them; and a device that completes the
available descriptors in ring order, storing into the memory of each a
payload that is not longer than the descriptor. After every interleaving of
such completions and of calls of `Read` that return, with buffers of any
lengths, the bytes returned so far are a prefix of the concatenation of the
payloads in the order of completion. More precisely, a further call of `Read`
with a buffer of `room` bytes returns exactly the next `room` bytes of the
payloads that have not been returned yet (all of them when there are fewer),
without error or panic; and it waits only when the used index equals
`r.used`, in which case every byte of the payloads has been returned. -/
theorem Read_stream (q : Queue) (buffer : IOMem) (descSize : Int) (r0 : Reader)
    (events : List readerEvent) (tr : readerTrace) (hq : q.ready) (hbuf : buffer.wf)
    (hd : 0 < descSize)
    (hnew : NewReader q buffer descSize = Outcome.returned (Result.ok r0))
    (hrun : readerRun buffer.Blocks ⟨r0, [], []⟩ events = some tr) :
    tr.returned <+: tr.payloads.flatten ∧
      ∀ room : Nat,
        (tr.r.q.queue.used.idx = tr.r.used →
          tr.r.Read room = Outcome.waiting ∧ tr.returned = tr.payloads.flatten) ∧
        (tr.r.q.queue.used.idx ≠ tr.r.used →
          ∃ r1, tr.r.Read room = Outcome.returned
            (Result.ok ((tr.payloads.flatten.drop tr.returned.length).take room), r1)) := by
  obtain ⟨done, h⟩ := readerInv_run buffer.Blocks q.size events _ tr []
    (NewReader_inv q buffer descSize r0 hq hbuf hd hnew) hrun
  have hun : tr.payloads.flatten.drop tr.returned.length = done.flatten.drop tr.r.read := by
    rw [← h.stream, List.drop_left]
  refine ⟨⟨_, h.stream⟩, fun room => ⟨fun he => Read_waits buffer.Blocks q.size tr done room h he,
    fun hne => ?_⟩⟩
  obtain ⟨r2, done1, e1, -⟩ := Reader_Read_step buffer.Blocks q.size tr done room h hne
  exact ⟨r2, by rw [hun]; exact e1⟩

set_option maxRecDepth 100000 in
/-- C21, witness: the reader for a fresh queue of 4 descriptors and a buffer
of 8 bytes in two blocks, with descriptors of 2 bytes. The device completes
descriptors with the payloads 11 12, 13 and 14, `Read` with room for 3 and
then for 5 bytes returns 11 12 13 and 14, the device completes a descriptor
with 15 16, and `Read` with room for one byte returns 15. -/
theorem Read_stream_witness :
    (0 : Int) < 2 ∧
      NewReader (freshQueue 4) readerMem 2 = Outcome.returned (Result.ok exampleReader) ∧
      readerRun readerMem.Blocks ⟨exampleReader, [], []⟩ readerEvents = some readerExample ∧
      readerExample.payloads = [[11, 12], [13], [14], [15, 16]] ∧
      readerExample.returned = [11, 12, 13, 14, 15] ∧
      readerExample.r.q.queue.used.idx ≠ readerExample.r.used ∧
      (readerExample.returned <+: readerExample.payloads.flatten ∧
        ∀ room : Nat,
          (readerExample.r.q.queue.used.idx = readerExample.r.used →
            readerExample.r.Read room = Outcome.waiting ∧
              readerExample.returned = readerExample.payloads.flatten) ∧
          (readerExample.r.q.queue.used.idx ≠ readerExample.r.used →
            ∃ r1, readerExample.r.Read room = Outcome.returned
              (Result.ok ((readerExample.payloads.flatten.drop
                readerExample.returned.length).take room), r1))) :=
  ⟨by decide, by decide, by decide, by decide, by decide, by decide,
    Read_stream (freshQueue 4) readerMem 2 exampleReader readerEvents readerExample
      ⟨by decide, by decide, by decide, by decide, by decide, by decide, by decide, by decide⟩
      ⟨by decide, by decide, by decide, by decide, by decide⟩ (by decide) (by decide)
      (by decide)⟩

end Unik
